import Mathlib

/-! # KekTree: an AVL-balanced ordered set with parent pointers

A shallow embedding of `src/kek_tree.cpp`.  Nodes live in an arena (`Heap`)
addressed by natural numbers; a pointer is an `Option Nat` (`none` is
`nullptr`).  Every member function is translated statement by statement into
a function on the arena in the `Except Fault` monad: following a null or
dangling pointer is `Fault.null_deref`, the `std::domain_error` thrown by
dereference is `Fault.domain_error`, and every `while` loop takes a fuel
argument and reports `Fault.out_of_fuel` when it is exhausted.

`ValueType` with its `operator<` is modelled by a type with a linear order,
so two values neither of which is less than the other are equal.

`balance` is an `int8_t` and `_size` a `size_t` in the source; they are
modelled by `Int` and `Nat`.  On the states studied here a balance stays in
`[-2, 2]` and `_size` is decremented only when a node has been found.
-/

set_option autoImplicit false

namespace KekTree

/-- Abnormal outcomes of a run of the code. -/
inductive Fault where
  | domain_error
  | null_deref
  | out_of_fuel
  deriving DecidableEq, Repr

/-- A `Node*`: `none` is `nullptr`. -/
abbrev Ptr := Option Nat

/-- `struct Node`. -/
structure Node (α : Type) where
  value : α
  left : Ptr
  right : Ptr
  parent : Ptr
  balance : Int
  deriving DecidableEq, Repr

/-- The arena of nodes: the live cells and the next address `new` hands out. -/
structure Heap (α : Type) where
  cells : Nat → Option (Node α)
  next : Nat

/-- `class Set`. -/
structure Set (α : Type) where
  heap : Heap α
  _root : Ptr
  _begin_node : Ptr
  _last_node : Ptr
  _size : Nat

/-- `class Set::iterator`. -/
structure iterator where
  _node : Ptr
  _is_end : Bool
  deriving DecidableEq, Repr

section Code

variable {α : Type}

/-- Read through a pointer (`p->...`). -/
def Heap.get (h : Heap α) (p : Ptr) : Except Fault (Node α) :=
  match p with
  | none => .error .null_deref
  | some a =>
    match h.cells a with
    | none => .error .null_deref
    | some n => .ok n

/-- Overwrite the cell at a live address. -/
def Heap.set (h : Heap α) (a : Nat) (n : Node α) : Heap α :=
  { h with cells := fun x => if x = a then some n else h.cells x }

/-- Assign fields through a pointer (`p->field = ...`). -/
def Heap.upd (h : Heap α) (p : Ptr) (f : Node α → Node α) : Except Fault (Heap α) :=
  match p with
  | none => .error .null_deref
  | some a =>
    match h.cells a with
    | none => .error .null_deref
    | some n => .ok (h.set a (f n))

/-- `Node::Node(const ValueType& value)` under `new`. -/
def Heap.alloc (h : Heap α) (value : α) : Nat × Heap α :=
  (h.next,
   { cells := fun x =>
       if x = h.next then
         some { value := value, left := none, right := none, parent := none, balance := 0 }
       else h.cells x,
     next := h.next + 1 })

/-- `delete p`. -/
def Heap.free (h : Heap α) (p : Ptr) : Except Fault (Heap α) :=
  match p with
  | none => .error .null_deref
  | some a =>
    match h.cells a with
    | none => .error .null_deref
    | some _ => .ok { h with cells := fun x => if x = a then none else h.cells x }

/-- The heap with no node. -/
def Heap.empty : Heap α := { cells := fun _ => none, next := 0 }

/-- `Set() = default`. -/
def Set.empty_set : Set α :=
  { heap := Heap.empty, _root := none, _begin_node := none, _last_node := none, _size := 0 }

/-! ## Rotations (`Set::Node`) -/

/-- `Node::rotate_left`. -/
def rotate_left (h : Heap α) (this : Nat) : Except Fault (Nat × Heap α) := do
  let n ← h.get (some this)
  let r ← h.get n.right
  let h ← if r.balance = 0 then do
      let h ← h.upd (some this) (fun m => { m with balance := -1 })
      h.upd n.right (fun m => { m with balance := 1 })
    else do
      let h ← h.upd n.right (fun m => { m with balance := 0 })
      h.upd (some this) (fun m => { m with balance := 0 })
  let new_root := n.right
  let h ← if n.parent ≠ none then do
      let p ← h.get n.parent
      if p.left = some this then h.upd n.parent (fun m => { m with left := new_root })
      else h.upd n.parent (fun m => { m with right := new_root })
    else pure h
  let nr ← h.get new_root
  let h ← h.upd (some this) (fun m => { m with right := nr.left })
  let h ← h.upd new_root (fun m => { m with left := some this })
  let t ← h.get (some this)
  let h ← h.upd new_root (fun m => { m with parent := t.parent })
  let h ← h.upd (some this) (fun m => { m with parent := new_root })
  let t ← h.get (some this)
  let h ← if t.right ≠ none then h.upd t.right (fun m => { m with parent := some this })
    else pure h
  match new_root with
  | none => .error .null_deref
  | some a => pure (a, h)

/-- `Node::rotate_right`. -/
def rotate_right (h : Heap α) (this : Nat) : Except Fault (Nat × Heap α) := do
  let n ← h.get (some this)
  let l ← h.get n.left
  let h ← if l.balance = 0 then do
      let h ← h.upd (some this) (fun m => { m with balance := 1 })
      h.upd n.left (fun m => { m with balance := -1 })
    else do
      let h ← h.upd n.left (fun m => { m with balance := 0 })
      h.upd (some this) (fun m => { m with balance := 0 })
  let new_root := n.left
  let h ← if n.parent ≠ none then do
      let p ← h.get n.parent
      if p.left = some this then h.upd n.parent (fun m => { m with left := new_root })
      else h.upd n.parent (fun m => { m with right := new_root })
    else pure h
  let nr ← h.get new_root
  let h ← h.upd (some this) (fun m => { m with left := nr.right })
  let h ← h.upd new_root (fun m => { m with right := some this })
  let t ← h.get (some this)
  let h ← h.upd new_root (fun m => { m with parent := t.parent })
  let h ← h.upd (some this) (fun m => { m with parent := new_root })
  let t ← h.get (some this)
  let h ← if t.left ≠ none then h.upd t.left (fun m => { m with parent := some this })
    else pure h
  match new_root with
  | none => .error .null_deref
  | some a => pure (a, h)

/-- `Node::big_rotate_left`. -/
def big_rotate_left (h : Heap α) (this : Nat) : Except Fault (Nat × Heap α) := do
  let n ← h.get (some this)
  let r ← h.get n.right
  let rl ← h.get r.left
  let was_new_root_balance := rl.balance
  let ra ← match n.right with
    | none => .error .null_deref
    | some a => pure a
  let (x, h) ← rotate_right h ra
  let h ← h.upd (some this) (fun m => { m with right := some x })
  let (new_root, h) ← rotate_left h this
  let h ← h.upd (some new_root) (fun m => { m with balance := 0 })
  let nr ← h.get (some new_root)
  if was_new_root_balance = 1 then do
    let h ← h.upd nr.left (fun m => { m with balance := 0 })
    let h ← h.upd nr.right (fun m => { m with balance := -1 })
    pure (new_root, h)
  else if was_new_root_balance = -1 then do
    let h ← h.upd nr.left (fun m => { m with balance := 1 })
    let h ← h.upd nr.right (fun m => { m with balance := 0 })
    pure (new_root, h)
  else do
    let h ← h.upd nr.left (fun m => { m with balance := 0 })
    let h ← h.upd nr.right (fun m => { m with balance := 0 })
    pure (new_root, h)

/-- `Node::big_rotate_right`. -/
def big_rotate_right (h : Heap α) (this : Nat) : Except Fault (Nat × Heap α) := do
  let n ← h.get (some this)
  let l ← h.get n.left
  let lr ← h.get l.right
  let was_new_root_balance := lr.balance
  let la ← match n.left with
    | none => .error .null_deref
    | some a => pure a
  let (x, h) ← rotate_left h la
  let h ← h.upd (some this) (fun m => { m with left := some x })
  let (new_root, h) ← rotate_right h this
  let h ← h.upd (some new_root) (fun m => { m with balance := 0 })
  let nr ← h.get (some new_root)
  if was_new_root_balance = 1 then do
    let h ← h.upd nr.right (fun m => { m with balance := -1 })
    let h ← h.upd nr.left (fun m => { m with balance := 0 })
    pure (new_root, h)
  else if was_new_root_balance = -1 then do
    let h ← h.upd nr.right (fun m => { m with balance := 0 })
    let h ← h.upd nr.left (fun m => { m with balance := 1 })
    pure (new_root, h)
  else do
    let h ← h.upd nr.right (fun m => { m with balance := 0 })
    let h ← h.upd nr.left (fun m => { m with balance := 0 })
    pure (new_root, h)

/-- `Node::apply_rotation`. -/
def apply_rotation (h : Heap α) (this : Nat) : Except Fault (Nat × Heap α) := do
  let n ← h.get (some this)
  if n.balance = -2 then do
    let r ← h.get n.right
    if r.balance ≤ 0 then rotate_left h this
    else big_rotate_left h this
  else if n.balance = 2 then do
    let l ← h.get n.left
    if l.balance ≥ 0 then rotate_right h this
    else big_rotate_right h this
  else pure (this, h)

/-! ## Queries (`Set`) -/

/-- `Set::end`. -/
def Set.end_ (s : Set α) : iterator := { _node := s._last_node, _is_end := true }

/-- `Set::begin`. -/
def Set.begin (s : Set α) : iterator :=
  { _node := s._begin_node, _is_end := decide (s._begin_node = none) }

/-- `Set::size`. -/
def Set.size (s : Set α) : Nat := s._size

/-- `Set::empty`. -/
def Set.empty (s : Set α) : Bool := decide (s._size = 0)

variable [LinearOrder α]

/-- The `while` loop of `Set::find`; the result is the node found, or
    `none` when the loop ran off the tree. -/
def find_loop (h : Heap α) (value : α) : Nat → Ptr → Except Fault Ptr
  | 0, _ => .error .out_of_fuel
  | _ + 1, none => pure none
  | fuel + 1, some c => do
    let n ← h.get (some c)
    if n.value < value then find_loop h value fuel n.right
    else if value < n.value then find_loop h value fuel n.left
    else pure (some c)

/-- `Set::find`. -/
def Set.find (fuel : Nat) (s : Set α) (value : α) : Except Fault iterator := do
  let current ← find_loop s.heap value fuel s._root
  match current with
  | some c => pure { _node := some c, _is_end := false }
  | none => pure s.end_

/-- The `while` loop of `Set::lower_bound`; the result is `(current,
    last_greater)` at the `return` inside the loop (`current` not null) or at
    the loop exit (`current` null). -/
def lower_bound_loop (h : Heap α) (value : α) : Nat → Ptr → Ptr → Except Fault (Ptr × Ptr)
  | 0, _, _ => .error .out_of_fuel
  | _ + 1, none, last_greater => pure (none, last_greater)
  | fuel + 1, some c, last_greater => do
    let n ← h.get (some c)
    if n.value < value then lower_bound_loop h value fuel n.right last_greater
    else if value < n.value then lower_bound_loop h value fuel n.left (some c)
    else pure (some c, last_greater)

/-- `Set::lower_bound`. -/
def Set.lower_bound (fuel : Nat) (s : Set α) (value : α) : Except Fault iterator := do
  let (current, last_greater) ← lower_bound_loop s.heap value fuel s._root none
  match current with
  | some c => pure { _node := some c, _is_end := false }
  | none =>
    if last_greater = none then pure s.end_
    else pure { _node := last_greater, _is_end := false }

/-! ## Mutation (`Set`) -/

/-- The first loop of `Set::update_edge_nodes`: follow `left` links. -/
def leftmost_loop (h : Heap α) : Nat → Ptr → Except Fault Ptr
  | 0, _ => .error .out_of_fuel
  | fuel + 1, p => do
    let n ← h.get p
    if n.left ≠ none then leftmost_loop h fuel n.left
    else pure p

/-- The second loop of `Set::update_edge_nodes`: follow `right` links. -/
def rightmost_loop (h : Heap α) : Nat → Ptr → Except Fault Ptr
  | 0, _ => .error .out_of_fuel
  | fuel + 1, p => do
    let n ← h.get p
    if n.right ≠ none then rightmost_loop h fuel n.right
    else pure p

/-- `Set::update_edge_nodes`. -/
def Set.update_edge_nodes (fuel : Nat) (s : Set α) : Except Fault (Set α) := do
  let s := { s with _begin_node := s._root, _last_node := s._root }
  if s._root = none then pure s
  else do
    let b ← leftmost_loop s.heap fuel s._begin_node
    let s := { s with _begin_node := b }
    let l ← rightmost_loop s.heap fuel s._last_node
    pure { s with _last_node := l }

/-- The first `while` loop of `Set::insert`.  The result is `none` at the
    `return` taken when the value is already stored, and otherwise the heap
    and `current` at the loop exit. -/
def insert_descend (value : α) : Nat → Heap α → Ptr → Except Fault (Option (Heap α × Ptr))
  | 0, _, _ => .error .out_of_fuel
  | _ + 1, h, none => pure (some (h, none))
  | fuel + 1, h, some c => do
    let n ← h.get (some c)
    if n.value < value then
      if n.right = none then do
        let (a, h) := h.alloc value
        let h ← h.upd (some c) (fun m => { m with right := some a })
        let m ← h.get (some c)
        let h ← h.upd m.right (fun k => { k with parent := some c })
        let h ← h.upd (some c) (fun m => { m with balance := m.balance - 1 })
        pure (some (h, some c))
      else insert_descend value fuel h n.right
    else if value < n.value then
      if n.left = none then do
        let (a, h) := h.alloc value
        let h ← h.upd (some c) (fun m => { m with left := some a })
        let m ← h.get (some c)
        let h ← h.upd m.left (fun k => { k with parent := some c })
        let h ← h.upd (some c) (fun m => { m with balance := m.balance + 1 })
        pure (some (h, some c))
      else insert_descend value fuel h n.left
    else pure none

/-- The second `while` loop of `Set::insert` (the rebalance walk); the state
    is the heap, `_root` and `current`. -/
def insert_walk : Nat → Heap α → Ptr → Ptr → Except Fault (Heap α × Ptr)
  | 0, _, _, _ => .error .out_of_fuel
  | _ + 1, h, root, none => pure (h, root)
  | fuel + 1, h, root, some c => do
    let (c, h) ← apply_rotation h c
    let n ← h.get (some c)
    let root := if n.parent = none then some c else root
    if n.balance = 0 then pure (h, root)
    else do
      let h ← if n.parent ≠ none then do
          let p ← h.get n.parent
          if some c = p.left then h.upd n.parent (fun m => { m with balance := m.balance + 1 })
          else h.upd n.parent (fun m => { m with balance := m.balance - 1 })
        else pure h
      insert_walk fuel h root n.parent

/-- The calls of `apply_rotation` that the rebalance walk of `Set::insert`
    makes: the heap and the node (`current`) at each call, in order.  The
    loop is that of `insert_walk`. -/
def insert_walk_calls : Nat → Heap α → Ptr → List (Heap α × Nat)
  | 0, _, _ => []
  | _ + 1, _, none => []
  | fuel + 1, h, some c =>
    (h, c) ::
      match apply_rotation h c with
      | .error _ => []
      | .ok (c, h) =>
        match h.get (some c) with
        | .error _ => []
        | .ok n =>
          if n.balance = 0 then []
          else
            match (if n.parent ≠ none then do
                let p ← h.get n.parent
                if some c = p.left then
                  h.upd n.parent (fun m => { m with balance := m.balance + 1 })
                else h.upd n.parent (fun m => { m with balance := m.balance - 1 })
              else pure h) with
            | .error _ => []
            | .ok h => insert_walk_calls fuel h n.parent

/-- `Set::insert`. -/
def Set.insert (fuel : Nat) (s : Set α) (value : α) : Except Fault (Set α) :=
  if s._root = none then
    let (a, h) := s.heap.alloc value
    pure { heap := h, _root := some a, _begin_node := some a, _last_node := some a,
           _size := s._size + 1 }
  else do
    match ← insert_descend value fuel s.heap s._root with
    | none => pure s
    | some (h, current) =>
      let (h, root) ← insert_walk fuel h s._root current
      let s := { s with heap := h, _root := root, _size := s._size + 1 }
      s.update_edge_nodes fuel

/-- The calls of `apply_rotation` made by `Set::insert`. -/
def Set.insert_calls (fuel : Nat) (s : Set α) (value : α) : List (Heap α × Nat) :=
  if s._root = none then []
  else
    match insert_descend value fuel s.heap s._root with
    | .ok (some (h, current)) => insert_walk_calls fuel h current
    | _ => []

/-- The first `while` loop of `Set::erase`: the search for the node. -/
def erase_search (h : Heap α) (value : α) : Nat → Ptr → Except Fault Ptr
  | 0, _ => .error .out_of_fuel
  | _ + 1, none => pure none
  | fuel + 1, some c => do
    let n ← h.get (some c)
    if n.value < value then erase_search h value fuel n.right
    else if value < n.value then erase_search h value fuel n.left
    else pure (some c)

/-- `std::swap(a->value, b->value)`. -/
def swap_values (h : Heap α) (a b : Ptr) : Except Fault (Heap α) := do
  let x ← h.get a
  let y ← h.get b
  let h ← h.upd a (fun m => { m with value := y.value })
  h.upd b (fun m => { m with value := x.value })

/-- The `while(true)` loop of `Set::erase`: swap the value down to a leaf
    and detach the leaf; the state is the heap, `_root` and `current`. -/
def erase_detach : Nat → Heap α → Ptr → Ptr → Except Fault (Heap α × Ptr × Ptr)
  | 0, _, _, _ => .error .out_of_fuel
  | fuel + 1, h, root, current => do
    let n ← h.get current
    if n.left = none ∧ n.right = none then
      if n.parent = none then do
        let h ← h.free root
        pure (h, none, none)
      else do
        let p ← h.get n.parent
        if p.right = current then do
          let current := n.parent
          let c ← h.get current
          let h ← h.free c.right
          let h ← h.upd current (fun m => { m with right := none })
          let h ← h.upd current (fun m => { m with balance := m.balance + 1 })
          pure (h, root, current)
        else do
          let current := n.parent
          let c ← h.get current
          let h ← h.free c.left
          let h ← h.upd current (fun m => { m with left := none })
          let h ← h.upd current (fun m => { m with balance := m.balance - 1 })
          pure (h, root, current)
    else if n.left ≠ none then do
      let nearest ← rightmost_loop h fuel n.left
      let h ← swap_values h current nearest
      erase_detach fuel h root nearest
    else if n.right ≠ none then do
      let nearest ← leftmost_loop h fuel n.right
      let h ← swap_values h current nearest
      erase_detach fuel h root nearest
    else erase_detach fuel h root current

/-- The last `while` loop of `Set::erase` (the rebalance walk). -/
def erase_walk : Nat → Heap α → Ptr → Ptr → Except Fault (Heap α × Ptr)
  | 0, _, _, _ => .error .out_of_fuel
  | _ + 1, h, root, none => pure (h, root)
  | fuel + 1, h, root, some c => do
    let (c, h) ← apply_rotation h c
    let n ← h.get (some c)
    let root := if n.parent = none then some c else root
    if n.balance.natAbs = 1 then pure (h, root)
    else do
      let h ← if n.parent ≠ none then do
          let p ← h.get n.parent
          if some c = p.left then h.upd n.parent (fun m => { m with balance := m.balance - 1 })
          else h.upd n.parent (fun m => { m with balance := m.balance + 1 })
        else pure h
      erase_walk fuel h root n.parent

/-- The calls of `apply_rotation` that the rebalance walk of `Set::erase`
    makes: the heap and the node (`current`) at each call, in order.  The
    loop is that of `erase_walk`. -/
def erase_walk_calls : Nat → Heap α → Ptr → List (Heap α × Nat)
  | 0, _, _ => []
  | _ + 1, _, none => []
  | fuel + 1, h, some c =>
    (h, c) ::
      match apply_rotation h c with
      | .error _ => []
      | .ok (c, h) =>
        match h.get (some c) with
        | .error _ => []
        | .ok n =>
          if n.balance.natAbs = 1 then []
          else
            match (if n.parent ≠ none then do
                let p ← h.get n.parent
                if some c = p.left then
                  h.upd n.parent (fun m => { m with balance := m.balance - 1 })
                else h.upd n.parent (fun m => { m with balance := m.balance + 1 })
              else pure h) with
            | .error _ => []
            | .ok h => erase_walk_calls fuel h n.parent

/-- The calls of `apply_rotation` made by `Set::erase`. -/
def Set.erase_calls (fuel : Nat) (s : Set α) (value : α) : List (Heap α × Nat) :=
  match erase_search s.heap value fuel s._root with
  | .ok (some c) =>
    match erase_detach fuel s.heap s._root (some c) with
    | .ok (h, _, current) => erase_walk_calls fuel h current
    | .error _ => []
  | _ => []

/-- `Set::erase`. -/
def Set.erase (fuel : Nat) (s : Set α) (value : α) : Except Fault (Set α) := do
  let current ← erase_search s.heap value fuel s._root
  if current = none then pure s
  else do
    let s := { s with _size := s._size - 1 }
    let (h, root, current) ← erase_detach fuel s.heap s._root current
    let (h, root) ← erase_walk fuel h root current
    let s := { s with heap := h, _root := root }
    s.update_edge_nodes fuel

/-- The `while` loop of `Set::clear`. -/
def clear_loop : Nat → Heap α → Ptr → Except Fault (Heap α)
  | 0, _, _ => .error .out_of_fuel
  | _ + 1, h, none => pure h
  | fuel + 1, h, some c => do
    let n ← h.get (some c)
    if n.left ≠ none then clear_loop fuel h n.left
    else if n.right ≠ none then clear_loop fuel h n.right
    else do
      let parent := n.parent
      if parent = none then h.free (some c)
      else do
        let p ← h.get parent
        let h ← if p.right = some c then h.upd parent (fun m => { m with right := none })
          else h.upd parent (fun m => { m with left := none })
        let h ← h.free (some c)
        clear_loop fuel h parent

/-- `Set::clear`. -/
def Set.clear (fuel : Nat) (s : Set α) : Except Fault (Set α) := do
  let h ← clear_loop fuel s.heap s._root
  pure { heap := h, _root := none, _begin_node := none, _last_node := none, _size := 0 }

/-! ## Iterators (`Set::iterator`) -/

/-- The parent-climbing loop of `operator++`; the state is `_node`, the
    result the new `(_node, _is_end)`. -/
def increment_climb (h : Heap α) (node_copy : Ptr) : Nat → Ptr → Except Fault iterator
  | 0, _ => .error .out_of_fuel
  | fuel + 1, node => do
    let n ← h.get node
    if n.parent = none then pure { _node := node_copy, _is_end := true }
    else do
      let p ← h.get n.parent
      if p.right = node then increment_climb h node_copy fuel n.parent
      else pure { _node := n.parent, _is_end := false }

/-- `iterator::operator++()` (pre-increment): the new state of the iterator,
    which is also the value returned. -/
def iterator.increment (fuel : Nat) (h : Heap α) (it : iterator) : Except Fault iterator :=
  if it._node = none ∨ it._is_end = true then pure it
  else do
    let n ← h.get it._node
    if n.right = none then increment_climb h it._node fuel it._node
    else do
      let m ← leftmost_loop h fuel n.right
      pure { it with _node := m }

/-- The parent-climbing loop of `operator--`. -/
def decrement_climb (h : Heap α) : Nat → Ptr → Except Fault Ptr
  | 0, _ => .error .out_of_fuel
  | fuel + 1, node => do
    let n ← h.get node
    if n.parent = none then pure none
    else do
      let p ← h.get n.parent
      if p.left = node then decrement_climb h fuel n.parent
      else pure n.parent

/-- `iterator::operator--()` (pre-decrement). -/
def iterator.decrement (fuel : Nat) (h : Heap α) (it : iterator) : Except Fault iterator :=
  if it._node = none then pure it
  else if it._is_end = true then pure { it with _is_end := false }
  else do
    let n ← h.get it._node
    if n.left = none then do
      let m ← decrement_climb h fuel it._node
      pure { it with _node := m }
    else do
      let m ← rightmost_loop h fuel n.left
      pure { it with _node := m }

/-- `iterator::operator++(int)` (post-increment): the new state of the
    iterator, and the value returned, which is `iterator(node_copy)`. -/
def iterator.post_increment (fuel : Nat) (h : Heap α) (it : iterator) :
    Except Fault (iterator × iterator) := do
  let node_copy := it._node
  let it ← it.increment fuel h
  pure (it, { _node := node_copy, _is_end := false })

/-- `iterator::operator--(int)` (post-decrement): the new state of the
    iterator, and the value returned, which is `iterator(node_copy)`. -/
def iterator.post_decrement (fuel : Nat) (h : Heap α) (it : iterator) :
    Except Fault (iterator × iterator) := do
  let node_copy := it._node
  let it ← it.decrement fuel h
  pure (it, { _node := node_copy, _is_end := false })

/-- `iterator::operator*`. -/
def iterator.deref (h : Heap α) (it : iterator) : Except Fault α :=
  if it._is_end = true then .error .domain_error
  else do
    let n ← h.get it._node
    pure n.value

/-- `iterator::operator->`: the address of the `value` field, which is the
    address of its node. -/
def iterator.arrow (h : Heap α) (it : iterator) : Except Fault Nat :=
  if it._is_end = true then .error .domain_error
  else do
    let _ ← h.get it._node
    match it._node with
    | some a => pure a
    | none => .error .null_deref

/-- `iterator::operator==`. -/
def iterator.eq (a b : iterator) : Bool :=
  decide (a._node = b._node) && decide (a._is_end = b._is_end)

/-- `iterator::operator!=`. -/
def iterator.ne (a b : iterator) : Bool :=
  decide (a._node ≠ b._node) || decide (a._is_end ≠ b._is_end)

/-- The pre-increment `++it` applied `k` times. -/
def iterator.advance (fuel : Nat) (h : Heap α) : Nat → iterator → Except Fault iterator
  | 0, it => pure it
  | k + 1, it => do
    let it ← it.increment fuel h
    iterator.advance fuel h k it

/-- The loop `for (it = first; it != end(); ++it) out.push_back(*it)`, which
    is what the range-`for` over a set in the copy constructor and in
    `operator=` runs; `steps` bounds the number of iterations. -/
def Set.traverse (fuel : Nat) (s : Set α) : Nat → iterator → Except Fault (List α)
  | 0, _ => .error .out_of_fuel
  | steps + 1, it =>
    if it.ne s.end_ then do
      let value ← it.deref s.heap
      let it ← it.increment fuel s.heap
      let rest ← Set.traverse fuel s steps it
      pure (value :: rest)
    else pure []

/-- `Set::Set(std::initializer_list<ValueType> init)` and the iterator-range
    constructor: insert the elements one after the other into an empty set. -/
def Set.of_list (fuel : Nat) (init : List α) : Except Fault (Set α) :=
  init.foldlM (fun s value => Set.insert fuel s value) Set.empty_set

/-- The loop `for (const auto& value : other) insert(value)` of the copy
    constructor and of `operator=`: `it` runs over `other` from `begin()`
    until it equals `end()`, and each value is inserted into `this`; `steps`
    bounds the number of iterations. -/
def copy_loop (fuel : Nat) (other : Set α) : Nat → iterator → Set α → Except Fault (Set α)
  | 0, _, _ => .error .out_of_fuel
  | steps + 1, it, this =>
    if it.ne other.end_ then do
      let value ← it.deref other.heap
      let this ← this.insert fuel value
      let it ← it.increment fuel other.heap
      copy_loop fuel other steps it this
    else pure this

/-- `Set::Set(const Set& other)`. -/
def Set.copy (fuel : Nat) (other : Set α) : Except Fault (Set α) :=
  copy_loop fuel other fuel other.begin Set.empty_set

/-- `Set::operator=(const Set& other)` for `this` different from `other`. -/
def Set.assign (fuel : Nat) (this other : Set α) : Except Fault (Set α) := do
  let this ← this.clear fuel
  copy_loop fuel other fuel other.begin this

end Code

/-! ## Specification vocabulary

The heap of a set is described by a `Tree`: the shape of the node graph
with, at every node, its address, its value and its stored balance.  `Rep`
says that the cells of a heap are exactly the nodes of a tree, parent links
included.  A `Frame` list is a path from a node up to the root, used to
follow the loops that climb through `parent`. -/

/-- The node graph below a pointer: shape, addresses, values and stored
    balances. -/
inductive Tree (α : Type) where
  | nil : Tree α
  | node (l : Tree α) (a : Nat) (v : α) (b : Int) (r : Tree α) : Tree α
  deriving DecidableEq, Repr

/-- Which child of its parent a node is. -/
inductive Dir where
  | L
  | R
  deriving DecidableEq, Repr

/-- One step of a path to the root: a node seen from one of its children,
    with the subtree of the other child. -/
structure Frame (α : Type) where
  dir : Dir
  a : Nat
  v : α
  b : Int
  sib : Tree α

section Spec

variable {α : Type}

namespace Tree

/-- The pointer to the root of a tree. -/
def ptr : Tree α → Ptr
  | nil => none
  | node _ a _ _ _ => some a

/-- The addresses of the nodes, in in-order. -/
def addrs : Tree α → List Nat
  | nil => []
  | node l a _ _ r => addrs l ++ a :: addrs r

/-- The in-order sequence of the values. -/
def inorder : Tree α → List α
  | nil => []
  | node l _ v _ r => inorder l ++ v :: inorder r

/-- The in-order sequence of the nodes, each with its address. -/
def entries : Tree α → List (Nat × α)
  | nil => []
  | node l a v _ r => entries l ++ (a, v) :: entries r

/-- The number of nodes. -/
def size : Tree α → Nat
  | nil => 0
  | node l _ _ _ r => size l + 1 + size r

/-- The height: 0 for the empty tree. -/
def height : Tree α → Nat
  | nil => 0
  | node l _ _ _ r => max (height l) (height r) + 1

/-- The balance stored at the root (0 for the empty tree). -/
def bal : Tree α → Int
  | nil => 0
  | node _ _ _ b _ => b

/-- The AVL invariant with its bookkeeping: at every node the two subtree
    heights differ by at most 1, and the stored balance is the actual height
    difference `height(left) - height(right)` (the convention the code
    follows: `insert` decrements the balance of a node whose right subtree
    grows) and lies in `[-1, 1]`. -/
def Avl : Tree α → Prop
  | nil => True
  | node l _ _ b r =>
    (height l ≤ height r + 1 ∧ height r ≤ height l + 1) ∧
      b = (height l : Int) - (height r : Int) ∧ (-1 ≤ b ∧ b ≤ 1) ∧ Avl l ∧ Avl r

/-- Binary-search-tree order: everything in a left subtree is less than the
    node, everything in a right subtree is greater. -/
def Ordered [LT α] : Tree α → Prop
  | nil => True
  | node l _ v _ r =>
    (∀ x ∈ inorder l, x < v) ∧ (∀ x ∈ inorder r, v < x) ∧ Ordered l ∧ Ordered r

end Tree

/-- The cell a node must have in the heap. -/
def Tree.cell (l : Tree α) (v : α) (b : Int) (r : Tree α) (parent : Ptr) : Node α :=
  { value := v, left := l.ptr, right := r.ptr, parent := parent, balance := b }

/-- The heap cells hold the tree `t` below a node whose `parent` field is
    `parent`: values, child links, parent links and balances all agree. -/
def Rep (cells : Nat → Option (Node α)) : Ptr → Tree α → Prop
  | _, .nil => True
  | parent, .node l a v b r =>
    cells a = some (Tree.cell l v b r parent) ∧ Rep cells (some a) l ∧ Rep cells (some a) r

/-- Read the tree below a pointer back from the heap (to depth `fuel`). -/
def readTree (cells : Nat → Option (Node α)) : Nat → Ptr → Tree α
  | 0, _ => .nil
  | _ + 1, none => .nil
  | fuel + 1, some a =>
    match cells a with
    | none => .nil
    | some n => .node (readTree cells fuel n.left) a n.value n.balance (readTree cells fuel n.right)

/-- The heap holds exactly the tree `t` at the root: `Rep` with no parent,
    pairwise distinct addresses, all of them handed out by the allocator. -/
structure Whole (h : Heap α) (t : Tree α) : Prop where
  rep : Rep h.cells none t
  nodup : t.addrs.Nodup
  fresh : ∀ a ∈ t.addrs, a < h.next

/-- The set `s` is the tree `t`: the heap holds `t` at `_root`, the cached
    `_begin_node` and `_last_node` are the first and last node in in-order,
    and `_size` is the number of nodes. -/
structure Models (s : Set α) (t : Tree α) : Prop where
  whole : Whole s.heap t
  root : s._root = t.ptr
  first : s._begin_node = t.addrs.head?
  last : s._last_node = t.addrs.getLast?
  size : s._size = t.size

/-- A well-formed set: it is some tree that is BST-ordered and AVL-balanced
    with consistent parent links and balances. -/
def WellFormed [LT α] (s : Set α) : Prop :=
  ∃ t, Models s t ∧ t.Ordered ∧ t.Avl

/-! ### Paths -/

/-- The tree rooted at the node of a frame, given the subtree in the hole. -/
def Frame.fill (f : Frame α) (t : Tree α) : Tree α :=
  match f.dir with
  | .L => .node t f.a f.v f.b f.sib
  | .R => .node f.sib f.a f.v f.b t

/-- The cell of the node of a frame, given the pointer in the hole. -/
def Frame.cell (f : Frame α) (hole parent : Ptr) : Node α :=
  match f.dir with
  | .L => { value := f.v, left := hole, right := f.sib.ptr, parent := parent, balance := f.b }
  | .R => { value := f.v, left := f.sib.ptr, right := hole, parent := parent, balance := f.b }

/-- The whole tree, given the subtree in the hole of a path (innermost
    frame first). -/
def plug : List (Frame α) → Tree α → Tree α
  | [], t => t
  | f :: p, t => plug p (f.fill t)

/-- The `parent` pointer of the node in the hole. -/
def pathPtr : List (Frame α) → Ptr
  | [] => none
  | f :: _ => some f.a

/-- The addresses on and beside a path. -/
def pathAddrs : List (Frame α) → List Nat
  | [] => []
  | f :: p => f.a :: (f.sib.addrs ++ pathAddrs p)

/-- The nodes that come before the hole in in-order. -/
def pathBefore : List (Frame α) → List (Nat × α)
  | [] => []
  | f :: p =>
    match f.dir with
    | .L => pathBefore p
    | .R => pathBefore p ++ (f.sib.entries ++ [(f.a, f.v)])

/-- The nodes that come after the hole in in-order. -/
def pathAfter : List (Frame α) → List (Nat × α)
  | [] => []
  | f :: p =>
    match f.dir with
    | .L => (f.a, f.v) :: (f.sib.entries ++ pathAfter p)
    | .R => pathAfter p

/-- The height of the whole tree, given the height `n` of the subtree in
    the hole. -/
def pathHeight : List (Frame α) → Nat → Nat
  | [], n => n
  | f :: p, n => pathHeight p (max n f.sib.height + 1)

/-- The AVL invariant of the nodes on and beside a path, given the height
    `n` of the subtree in the hole: each sibling subtree is AVL and each
    stored balance on the path is the height difference it should be. -/
def PathAvl : List (Frame α) → Nat → Prop
  | [], _ => True
  | f :: p, n =>
    f.sib.Avl ∧
      (f.b = match f.dir with
        | .L => (n : Int) - (f.sib.height : Int)
        | .R => (f.sib.height : Int) - (n : Int)) ∧
      (-1 ≤ f.b ∧ f.b ≤ 1) ∧ PathAvl p (max n f.sib.height + 1)

/-- The heap cells hold the nodes on and beside a path whose hole holds the
    pointer `hole`. -/
def RepPath (cells : Nat → Option (Node α)) : List (Frame α) → Ptr → Prop
  | [], _ => True
  | f :: p, hole =>
    cells f.a = some (f.cell hole (pathPtr p)) ∧ Rep cells (some f.a) f.sib ∧
      RepPath cells p (some f.a)

/-- The heap holds the tree `plug p t`, seen from the hole of `p`. -/
structure Zip (h : Heap α) (p : List (Frame α)) (t : Tree α) : Prop where
  path : RepPath h.cells p t.ptr
  sub : Rep h.cells (pathPtr p) t
  nodup : (pathAddrs p ++ t.addrs).Nodup
  fresh : ∀ a ∈ pathAddrs p ++ t.addrs, a < h.next

/-! ### The operations on trees

What each member function does to the tree a heap holds.  The functions
below follow the loops of the source on a path and a subtree; the section
on refinement proves that the code on the heap computes them. -/

/-- A freshly allocated node as a tree. -/
def Tree.leaf (a : Nat) (v : α) : Tree α := .node .nil a v 0 .nil

/-- `Node::rotate_left` on the tree: the right child is promoted. -/
def Tree.rotate_left : Tree α → Option (Tree α)
  | .node l a v _ (.node rl ra rv rb rr) =>
    some (.node (.node l a v (if rb = 0 then -1 else 0) rl) ra rv (if rb = 0 then 1 else 0) rr)
  | _ => none

/-- `Node::rotate_right` on the tree: the left child is promoted. -/
def Tree.rotate_right : Tree α → Option (Tree α)
  | .node (.node ll la lv lb lr) a v _ r =>
    some (.node ll la lv (if lb = 0 then -1 else 0) (.node lr a v (if lb = 0 then 1 else 0) r))
  | _ => none

/-- `Node::big_rotate_left` on the tree: the right child's left child is
    promoted. -/
def Tree.big_rotate_left : Tree α → Option (Tree α)
  | .node l a v _ (.node (.node rll c cv cb rlr) ra rv _ rr) =>
    some (.node (.node l a v (if cb = -1 then 1 else 0) rll) c cv 0
      (.node rlr ra rv (if cb = 1 then -1 else 0) rr))
  | _ => none

/-- `Node::big_rotate_right` on the tree: the left child's right child is
    promoted. -/
def Tree.big_rotate_right : Tree α → Option (Tree α)
  | .node (.node ll la lv _ (.node lrl c cv cb lrr)) a v _ r =>
    some (.node (.node ll la lv (if cb = -1 then 1 else 0) lrl) c cv 0
      (.node lrr a v (if cb = 1 then -1 else 0) r))
  | _ => none

/-- `Node::apply_rotation` on the tree; `none` where the code would follow
    a null pointer. -/
def Tree.apply_rotation : Tree α → Option (Tree α)
  | .nil => none
  | .node l a v b r =>
    if b = -2 then
      match r with
      | .nil => none
      | .node _ _ _ rb _ =>
        if rb ≤ 0 then (Tree.node l a v b r).rotate_left
        else (Tree.node l a v b r).big_rotate_left
    else if b = 2 then
      match l with
      | .nil => none
      | .node _ _ _ lb _ =>
        if lb ≥ 0 then (Tree.node l a v b r).rotate_right
        else (Tree.node l a v b r).big_rotate_right
    else some (.node l a v b r)

/-- The balance of a parent after the rebalance walk of `insert` has
    propagated a height increase from one of its children. -/
def Frame.grown (f : Frame α) : Frame α :=
  match f.dir with
  | .L => { f with b := f.b + 1 }
  | .R => { f with b := f.b - 1 }

/-- The balance of a parent after a height decrease has been propagated
    from a child by the rebalance walk of `erase`, or after that child,
    a leaf, has been detached. -/
def Frame.shrunk (f : Frame α) : Frame α :=
  match f.dir with
  | .L => { f with b := f.b - 1 }
  | .R => { f with b := f.b + 1 }

/-- The first loop of `Set::insert` on the tree: `none` when the value is
    already stored, otherwise the path and subtree at which the rebalance
    walk starts (the parent of the new node `nx`, its balance adjusted). -/
def Tree.insert_descend [LinearOrder α] (value : α) (nx : Nat) :
    Tree α → List (Frame α) → Option (List (Frame α) × Tree α)
  | .nil, p => some (p, .nil)
  | .node l a v b r, p =>
    if v < value then
      match r with
      | .nil => some (p, .node l a v (b - 1) (Tree.leaf nx value))
      | .node rl ra rv rb rr =>
        Tree.insert_descend value nx (.node rl ra rv rb rr)
          ({ dir := .R, a := a, v := v, b := b, sib := l } :: p)
    else if value < v then
      match l with
      | .nil => some (p, .node (Tree.leaf nx value) a v (b + 1) r)
      | .node ll la lv lb lr =>
        Tree.insert_descend value nx (.node ll la lv lb lr)
          ({ dir := .L, a := a, v := v, b := b, sib := r } :: p)
    else none

/-- The rebalance walk of `Set::insert` on the tree. -/
def Tree.insert_walk : List (Frame α) → Tree α → Option (Tree α)
  | [], t =>
    match t.apply_rotation with
    | some (.node l a v b r) => some (.node l a v b r)
    | _ => none
  | f :: q, t =>
    match t.apply_rotation with
    | some (.node l a v b r) =>
      if b = 0 then some (plug (f :: q) (.node l a v b r))
      else Tree.insert_walk q (f.grown.fill (.node l a v b r))
    | _ => none

/-- `Set::insert` on the tree, `nx` being the address of the new node. -/
def Tree.insert [LinearOrder α] (value : α) (nx : Nat) (t : Tree α) : Option (Tree α) :=
  match t with
  | .nil => some (Tree.leaf nx value)
  | .node l a v b r =>
    match Tree.insert_descend value nx (.node l a v b r) [] with
    | none => some (.node l a v b r)
    | some (p, s) => Tree.insert_walk p s

/-- The search loops of `find` and `erase` on the tree: the path to the
    node holding the value and the subtree below it (`nil` when absent). -/
def Tree.search [LinearOrder α] (value : α) :
    Tree α → List (Frame α) → List (Frame α) × Tree α
  | .nil, p => (p, .nil)
  | .node l a v b r, p =>
    if v < value then Tree.search value r ({ dir := .R, a := a, v := v, b := b, sib := l } :: p)
    else if value < v then
      Tree.search value l ({ dir := .L, a := a, v := v, b := b, sib := r } :: p)
    else (p, .node l a v b r)

/-- Follow `right` links to the last node of a non-empty subtree. -/
def Tree.rightmost : Tree α → List (Frame α) → List (Frame α) × Tree α
  | .nil, p => (p, .nil)
  | .node l a v b r, p =>
    match r with
    | .nil => (p, .node l a v b .nil)
    | .node rl ra rv rb rr =>
      Tree.rightmost (.node rl ra rv rb rr) ({ dir := .R, a := a, v := v, b := b, sib := l } :: p)

/-- Follow `left` links to the first node of a non-empty subtree. -/
def Tree.leftmost : Tree α → List (Frame α) → List (Frame α) × Tree α
  | .nil, p => (p, .nil)
  | .node l a v b r, p =>
    match l with
    | .nil => (p, .node .nil a v b r)
    | .node ll la lv lb lr =>
      Tree.leftmost (.node ll la lv lb lr) ({ dir := .L, a := a, v := v, b := b, sib := r } :: p)

/-- The value stored at the root of a subtree replaced. -/
def Tree.setValue (v : α) : Tree α → Tree α
  | .nil => .nil
  | .node l a _ b r => .node l a v b r

/-- The `while(true)` loop of `Set::erase` on the tree: the value is
    swapped down to a leaf, the leaf is detached, and the result is the path
    and subtree at which the rebalance walk starts (the parent of the
    detached leaf, its balance adjusted; the empty tree when the last node
    went). -/
def Tree.erase_detach : Nat → List (Frame α) → Tree α → Option (List (Frame α) × Tree α)
  | 0, _, _ => none
  | _ + 1, _, .nil => none
  | fuel + 1, p, .node l a v b r =>
    match l, r with
    | .nil, .nil =>
      match p with
      | [] => some ([], .nil)
      | f :: q => some (q, f.shrunk.fill .nil)
    | .node ll la lv lb lr, _ =>
      match Tree.rightmost (.node ll la lv lb lr) [] with
      | (q, .node nl na nv nb nr) =>
        Tree.erase_detach fuel (q ++ { dir := .L, a := a, v := nv, b := b, sib := r } :: p)
          (.node nl na v nb nr)
      | (_, .nil) => none
    | .nil, .node rl ra rv rb rr =>
      match Tree.leftmost (.node rl ra rv rb rr) [] with
      | (q, .node nl na nv nb nr) =>
        Tree.erase_detach fuel (q ++ { dir := .R, a := a, v := nv, b := b, sib := .nil } :: p)
          (.node nl na v nb nr)
      | (_, .nil) => none

/-- The rebalance walk of `Set::erase` on the tree. -/
def Tree.erase_walk : List (Frame α) → Tree α → Option (Tree α)
  | p, .nil => some (plug p .nil)
  | [], .node l a v b r =>
    match (Tree.node l a v b r).apply_rotation with
    | some (.node l' a' v' b' r') => some (.node l' a' v' b' r')
    | _ => none
  | f :: q, .node l a v b r =>
    match (Tree.node l a v b r).apply_rotation with
    | some (.node l' a' v' b' r') =>
      if b'.natAbs = 1 then some (plug (f :: q) (.node l' a' v' b' r'))
      else Tree.erase_walk q (f.shrunk.fill (.node l' a' v' b' r'))
    | _ => none

/-- `Set::erase` on the tree. -/
def Tree.erase [LinearOrder α] (fuel : Nat) (value : α) (t : Tree α) : Option (Tree α) :=
  match Tree.search value t [] with
  | (_, .nil) => some t
  | (p, .node l a v b r) =>
    match Tree.erase_detach fuel p (.node l a v b r) with
    | none => none
    | some (q, s) => Tree.erase_walk q s

/-- The loop of `Set::lower_bound` on the tree: the pair `(current,
    last_greater)` it ends with. -/
def Tree.lower_bound_loop [LinearOrder α] (value : α) : Tree α → Ptr → Ptr × Ptr
  | .nil, last_greater => (none, last_greater)
  | .node l a v _ r, last_greater =>
    if v < value then Tree.lower_bound_loop value r last_greater
    else if value < v then Tree.lower_bound_loop value l (some a)
    else (some a, last_greater)

/-- The position after a node: the first of the addresses `ys` that follow
    it in in-order, or the node itself with the past-the-end flag when there
    is none. -/
def positionAfter (node : Ptr) (ys : List Nat) : iterator :=
  match ys with
  | [] => { _node := node, _is_end := true }
  | y :: _ => { _node := some y, _is_end := false }

/-- The states of a set reached from the empty set by a finite sequence of
    `insert`, `erase` and `clear` calls that return. -/
inductive Reachable [LinearOrder α] : Set α → Prop
  | empty : Reachable Set.empty_set
  | insert (fuel : Nat) (value : α) {s s' : Set α} :
      Reachable s → Set.insert fuel s value = .ok s' → Reachable s'
  | erase (fuel : Nat) (value : α) {s s' : Set α} :
      Reachable s → Set.erase fuel s value = .ok s' → Reachable s'
  | clear (fuel : Nat) {s s' : Set α} :
      Reachable s → Set.clear fuel s = .ok s' → Reachable s'

/-- The run does not report an error to the caller: it does not end in the
    `std::domain_error` that the dereference operators throw. -/
def NoThrow {β : Type} (x : Except Fault β) : Prop := x ≠ .error .domain_error

/-! ### Conventions and safety conditions -/

/-- The balance convention in the words of the specification: every stored
    balance is the height of the right subtree minus the height of the left
    subtree. -/
def Tree.balance_right_minus_left : Tree α → Prop
  | .nil => True
  | .node l _ _ b r =>
    b = (r.height : Int) - (l.height : Int) ∧
      l.balance_right_minus_left ∧ r.balance_right_minus_left

/-- The balance convention of the code: every stored balance is the height
    of the left subtree minus the height of the right subtree. -/
def Tree.balance_left_minus_right : Tree α → Prop
  | .nil => True
  | .node l _ _ b r =>
    b = (l.height : Int) - (r.height : Int) ∧
      l.balance_left_minus_right ∧ r.balance_left_minus_right

/-- Every stored balance of the tree is in `[-2, 2]`. -/
def Tree.BalIn : Tree α → Prop
  | .nil => True
  | .node l _ _ b r => (-2 ≤ b ∧ b ≤ 2) ∧ l.BalIn ∧ r.BalIn

/-- Every stored balance on and beside a path is in `[-2, 2]`. -/
def PathBalIn : List (Frame α) → Prop
  | [] => True
  | f :: p => (-2 ≤ f.b ∧ f.b ≤ 2) ∧ f.sib.BalIn ∧ PathBalIn p

/-- The nodes on a path with their values. -/
def pathNodes (p : List (Frame α)) : List (Nat × α) := p.map (fun f => (f.a, f.v))

/-- The nodes at the addresses `nodes` are live and their stored balances
    are in `[-2, 2]`. -/
def BalancesInRange (h : Heap α) (nodes : List Nat) : Prop :=
  ∀ a ∈ nodes, ∃ n, h.cells a = some n ∧ -2 ≤ n.balance ∧ n.balance ≤ 2

/-- What `apply_rotation` and the rotation it selects read without a
    guard is there: the node is live with a balance in `[-2, 2]`; at balance
    -2 the right child is live, and when a double rotation is selected (the
    right child's balance is positive) so is the right child's left child;
    symmetrically at balance 2. -/
def RotationDefined (h : Heap α) (c : Nat) : Prop :=
  ∃ n, h.cells c = some n ∧ (-2 ≤ n.balance ∧ n.balance ≤ 2) ∧
    (n.balance = -2 → ∃ ra rn, n.right = some ra ∧ h.cells ra = some rn ∧
      (0 < rn.balance → ∃ ga gn, rn.left = some ga ∧ h.cells ga = some gn)) ∧
    (n.balance = 2 → ∃ la ln, n.left = some la ∧ h.cells la = some ln ∧
      (ln.balance < 0 → ∃ ga gn, ln.right = some ga ∧ h.cells ga = some gn))

/-- The state of a rebalance walk at a call of `apply_rotation` on the node
    `c`: the heap holds a tree with the nodes `nodes` in which the subtrees
    of `c` are AVL, the balance stored in `c` is its height difference and
    lies in `[-2, 2]`, and the nodes above and beside `c` satisfy the AVL
    invariant for some height `n` of the subtree of `c`. -/
def WalkState (h : Heap α) (c : Nat) (nodes : List (Nat × α)) : Prop :=
  ∃ (p : List (Frame α)) (l r : Tree α) (v : α) (b : Int) (n : Nat),
    Zip h p (.node l c v b r) ∧ l.Avl ∧ r.Avl ∧
      b = (l.height : Int) - (r.height : Int) ∧ (-2 ≤ b ∧ b ≤ 2) ∧ PathAvl p n ∧
      (plug p (.node l c v b r)).entries = nodes

/-- A freed node stays freed: when the run returns, the cell at `d` is
    empty in the heap of the result (`heap_of` picks that heap). -/
def StaysFreed {β : Type} (d : Nat) (heap_of : β → Heap α) (x : Except Fault β) : Prop :=
  ∀ r, x = .ok r → (heap_of r).cells d = none

/-- Parent/child link symmetry on the nodes `nodes` of a heap whose root
    pointer is `root`: every node is live; a node without parent is the one
    `root` names; the parent of a node is a node whose `left` or `right`
    link is that node; the children of a node are nodes whose `parent` link
    is that node; and `root` names a node without parent, or is null when
    there is no node. -/
def LinkSymmetric (h : Heap α) (root : Ptr) (nodes : List Nat) : Prop :=
  (∀ a ∈ nodes, ∃ n, h.cells a = some n ∧
    (n.parent = none → root = some a) ∧
    (∀ p, n.parent = some p → p ∈ nodes ∧
      ∃ m, h.cells p = some m ∧ (m.left = some a ∨ m.right = some a)) ∧
    (∀ c, n.left = some c → c ∈ nodes ∧ ∃ m, h.cells c = some m ∧ m.parent = some a) ∧
    (∀ c, n.right = some c → c ∈ nodes ∧ ∃ m, h.cells c = some m ∧ m.parent = some a)) ∧
  (∀ r, root = some r → r ∈ nodes ∧ ∃ n, h.cells r = some n ∧ n.parent = none) ∧
  (root = none → nodes = [])

/-! ### Deciding the predicates on concrete sets -/

/-- `Rep` can be checked node by node. -/
instance Rep.decidable [DecidableEq α] (cells : Nat → Option (Node α)) :
    ∀ (parent : Ptr) (t : Tree α), Decidable (Rep cells parent t)
  | _, .nil => isTrue trivial
  | parent, .node l a v b r =>
    have := Rep.decidable cells (some a) l
    have := Rep.decidable cells (some a) r
    inferInstanceAs (Decidable (cells a = some (Tree.cell l v b r parent) ∧
      Rep cells (some a) l ∧ Rep cells (some a) r))

/-- `Tree.Avl` can be checked node by node. -/
instance Tree.Avl.decidable : ∀ t : Tree α, Decidable t.Avl
  | .nil => isTrue trivial
  | .node l _ _ b r =>
    have := Tree.Avl.decidable l
    have := Tree.Avl.decidable r
    inferInstanceAs (Decidable ((Tree.height l ≤ Tree.height r + 1 ∧
      Tree.height r ≤ Tree.height l + 1) ∧
      b = (Tree.height l : Int) - (Tree.height r : Int) ∧ (-1 ≤ b ∧ b ≤ 1) ∧
      Tree.Avl l ∧ Tree.Avl r))

/-- `Tree.Ordered` can be checked node by node. -/
instance Tree.Ordered.decidable [LT α] [DecidableRel (fun x y : α => x < y)] :
    ∀ t : Tree α, Decidable t.Ordered
  | .nil => isTrue trivial
  | .node l _ v _ r =>
    have := Tree.Ordered.decidable l
    have := Tree.Ordered.decidable r
    inferInstanceAs (Decidable ((∀ x ∈ Tree.inorder l, x < v) ∧
      (∀ x ∈ Tree.inorder r, v < x) ∧ Tree.Ordered l ∧ Tree.Ordered r))

/-- The result of a run, or the empty set when the run failed. -/
def Set.result (r : Except Fault (Set α)) : Set α :=
  match r with
  | .ok s => s
  | .error _ => Set.empty_set

/-- The set built from `{5, 3, 8, 1, 4, 7, 9}`. -/
def scenario_set : Set Nat := Set.result (Set.of_list 10 [5, 3, 8, 1, 4, 7, 9])

/-- The tree of `scenario_set`. -/
def scenario_tree : Tree Nat :=
  .node (.node (.node .nil 3 1 0 .nil) 1 3 0 (.node .nil 4 4 0 .nil)) 0 5 0
    (.node (.node .nil 5 7 0 .nil) 2 8 0 (.node .nil 6 9 0 .nil))

/-- The set built by inserting `1, 2, 3, 4, 5, 6` in this order. -/
def ascending_set : Set Nat := Set.result (Set.of_list 10 [1, 2, 3, 4, 5, 6])

/-- The tree of `ascending_set`. -/
def ascending_tree : Tree Nat :=
  .node (.node (.node .nil 0 1 0 .nil) 1 2 0 (.node .nil 2 3 0 .nil)) 3 4 0
    (.node .nil 4 5 (-1) (.node .nil 5 6 0 .nil))

/-- The perfectly balanced tree of height 3 on `1, ..., 7`, rooted at 4. -/
def perfect_tree : Tree Nat :=
  .node (.node (.node .nil 0 1 0 .nil) 1 2 0 (.node .nil 2 3 0 .nil)) 3 4 0
    (.node (.node .nil 4 5 0 .nil) 5 6 0 (.node .nil 6 7 0 .nil))

/-- The set built by inserting `1, 2` in this order. -/
def pair_set : Set Nat := Set.result (Set.of_list 10 [1, 2])

/-- The tree of `pair_set`: the root holds 1, its right child 2. -/
def pair_tree : Tree Nat := .node .nil 0 1 (-1) (.node .nil 1 2 0 .nil)

/-- The set built by inserting `2, 1, 4, 3, 5` in this order. -/
def fork_set : Set Nat := Set.result (Set.of_list 10 [2, 1, 4, 3, 5])

/-- The tree of `fork_set`: the root holds 2, its right child 4 has the
    children 3 and 5. -/
def fork_tree : Tree Nat :=
  .node (.node .nil 1 1 0 .nil) 0 2 (-1)
    (.node (.node .nil 3 3 0 .nil) 2 4 0 (.node .nil 4 5 0 .nil))

/-- The heap in which `insert(3)` into `pair_set` has `apply_rotation` rotate
    the root (the last call). -/
def chain_heap : Heap Nat :=
  match (pair_set.insert_calls 10 3).getLast? with
  | some x => x.1
  | none => Heap.empty

/-- The heap in which `erase(1)` from `fork_set` has `apply_rotation` rotate
    the root (the first call). -/
def fork_heap : Heap Nat :=
  match (fork_set.erase_calls 10 1).head? with
  | some x => x.1
  | none => Heap.empty

/-- The heap in which `insert(1)` into the set built from `3, 2` has
    `apply_rotation` rotate the root (the last call). -/
def mirror_chain_heap : Heap Nat :=
  match ((Set.result (Set.of_list 10 [3, 2])).insert_calls 10 1).getLast? with
  | some x => x.1
  | none => Heap.empty

/-- The heap in which `erase(5)` from the set built from `4, 5, 2, 1, 3` has
    `apply_rotation` rotate the root (the first call). -/
def mirror_fork_heap : Heap Nat :=
  match ((Set.result (Set.of_list 10 [4, 5, 2, 1, 3])).erase_calls 10 5).head? with
  | some x => x.1
  | none => Heap.empty

/-- The balance stored at an address. -/
def Heap.balance_at (h : Heap α) (a : Nat) : Option Int := (h.cells a).map Node.balance

/-- The value stored at an address. -/
def Heap.value_at (h : Heap α) (a : Nat) : Option α := (h.cells a).map Node.value

/-- `Tree.balance_right_minus_left` can be checked node by node. -/
instance Tree.balance_right_minus_left.decidable :
    ∀ t : Tree α, Decidable t.balance_right_minus_left
  | .nil => isTrue trivial
  | .node l _ _ b r =>
    have := Tree.balance_right_minus_left.decidable l
    have := Tree.balance_right_minus_left.decidable r
    inferInstanceAs (Decidable (b = (Tree.height r : Int) - (Tree.height l : Int) ∧
      Tree.balance_right_minus_left l ∧ Tree.balance_right_minus_left r))

/-- `Tree.balance_left_minus_right` can be checked node by node. -/
instance Tree.balance_left_minus_right.decidable :
    ∀ t : Tree α, Decidable t.balance_left_minus_right
  | .nil => isTrue trivial
  | .node l _ _ b r =>
    have := Tree.balance_left_minus_right.decidable l
    have := Tree.balance_left_minus_right.decidable r
    inferInstanceAs (Decidable (b = (Tree.height l : Int) - (Tree.height r : Int) ∧
      Tree.balance_left_minus_right l ∧ Tree.balance_left_minus_right r))

end Spec

/-! ## Basic facts about the monad and the heap -/

section HeapBasic

variable {α : Type}

theorem ok_bind {ε β γ : Type} (a : β) (f : β → Except ε γ) :
    (Except.ok a >>= f) = f a := rfl

theorem error_bind {ε β γ : Type} (e : ε) (f : β → Except ε γ) :
    ((Except.error e : Except ε β) >>= f) = Except.error e := rfl

theorem pure_eq_ok {ε β : Type} (a : β) : (pure a : Except ε β) = Except.ok a := rfl

theorem Heap.get_some (h : Heap α) (a : Nat) (n : Node α) (hc : h.cells a = some n) :
    h.get (some a) = .ok n := by
  simp [Heap.get, hc]

theorem Heap.upd_some (h : Heap α) (a : Nat) (n : Node α) (f : Node α → Node α)
    (hc : h.cells a = some n) : h.upd (some a) f = .ok (h.set a (f n)) := by
  simp [Heap.upd, hc]

theorem Heap.set_cells (h : Heap α) (a x : Nat) (n : Node α) :
    (h.set a n).cells x = if x = a then some n else h.cells x := rfl

theorem Heap.set_next (h : Heap α) (a : Nat) (n : Node α) : (h.set a n).next = h.next := rfl

end HeapBasic

/-! ## Rotations on the heap are rotations of the tree -/

section Rotations

variable {α : Type}

set_option maxHeartbeats 2000000 in
/-- The cells after `rotate_left`, given the cells it reads. -/
theorem rotate_left_cells {h : Heap α} {a ra : Nat} {na nra : Node α}
    (ha : h.cells a = some na) (hr : na.right = some ra) (hra : h.cells ra = some nra)
    (hne : a ≠ ra)
    (hpar : ∀ pa, na.parent = some pa → (∃ npa, h.cells pa = some npa) ∧ pa ≠ a ∧ pa ≠ ra)
    (hinn : ∀ x, nra.left = some x →
      (∃ nx, h.cells x = some nx) ∧ x ≠ a ∧ x ≠ ra ∧ na.parent ≠ some x) :
    ∃ h', rotate_left h a = .ok (ra, h') ∧ h'.next = h.next ∧
      ∀ y, h'.cells y =
        if y = a then
          some { na with balance := if nra.balance = 0 then -1 else 0, right := nra.left,
                         parent := some ra }
        else if y = ra then
          some { nra with balance := if nra.balance = 0 then 1 else 0, left := some a,
                          parent := na.parent }
        else if some y = na.parent then
          (h.cells y).map (fun m =>
            if m.left = some a then { m with left := some ra } else { m with right := some ra })
        else if some y = nra.left then (h.cells y).map (fun m => { m with parent := some a })
        else h.cells y := by
  have hne' : ra ≠ a := Ne.symm hne
  rcases hp : na.parent with _ | pa
  · rcases hx : nra.left with _ | x
    · by_cases hb : nra.balance = 0 <;>
      · simp [rotate_left, Heap.get, Heap.upd, Heap.set_cells, ha, hr, hra, hne, hne', hp, hx,
          hb, ok_bind, pure_eq_ok]
        refine ⟨rfl, fun y => ?_⟩
        by_cases h1 : y = a <;> by_cases h2 : y = ra <;> simp [h1, h2]
    · obtain ⟨⟨nx, hnx⟩, hxa, hxra, -⟩ := hinn x hx
      have hxa' := Ne.symm hxa
      have hxra' := Ne.symm hxra
      by_cases hb : nra.balance = 0 <;>
      · simp [rotate_left, Heap.get, Heap.upd, Heap.set_cells, ha, hr, hra, hne, hne', hp, hx,
          hb, ok_bind, pure_eq_ok, hnx, hxa, hxra, hxa', hxra']
        refine ⟨rfl, fun y => ?_⟩
        by_cases h1 : y = a <;> by_cases h2 : y = ra <;> by_cases h3 : y = x <;>
          simp [h1, h2, h3, hnx, hxa, hxra, hxa', hxra', hne, hne']
  · obtain ⟨⟨npa, hnpa⟩, hpa, hpra⟩ := hpar pa hp
    have hpa' := Ne.symm hpa
    have hpra' := Ne.symm hpra
    rcases hx : nra.left with _ | x
    · by_cases hb : nra.balance = 0 <;> by_cases hd : npa.left = some a <;>
      · simp [rotate_left, Heap.get, Heap.upd, Heap.set_cells, ha, hr, hra, hne, hne', hp, hx,
          hb, ok_bind, pure_eq_ok, hnpa, hpa, hpra, hpa', hpra', hd]
        refine ⟨rfl, fun y => ?_⟩
        by_cases h1 : y = a <;> by_cases h2 : y = ra <;> by_cases h3 : y = pa <;>
          simp [h1, h2, h3, hnpa, hpa, hpra, hpa', hpra', hne, hne', hd]
    · obtain ⟨⟨nx, hnx⟩, hxa, hxra, hxp⟩ := hinn x hx
      have hxa' := Ne.symm hxa
      have hxra' := Ne.symm hxra
      have hxpa : pa ≠ x := by
        intro e; apply hxp; rw [hp, e]
      have hxpa' := Ne.symm hxpa
      by_cases hb : nra.balance = 0 <;> by_cases hd : npa.left = some a <;>
      · simp [rotate_left, Heap.get, Heap.upd, Heap.set_cells, ha, hr, hra, hne, hne', hp, hx,
          hb, ok_bind, pure_eq_ok, hnpa, hpa, hpra, hpa', hpra', hd, hnx, hxa, hxra, hxa',
          hxra', hxpa, hxpa']
        refine ⟨rfl, fun y => ?_⟩
        by_cases h1 : y = a <;> by_cases h2 : y = ra <;> by_cases h3 : y = pa <;>
          by_cases h4 : y = x <;>
          simp [h1, h2, h3, h4, hnpa, hpa, hpra, hpa', hpra', hne, hne', hd, hnx, hxa, hxra,
            hxa', hxra', hxpa, hxpa']

set_option maxHeartbeats 2000000 in
/-- The cells after `rotate_right`, given the cells it reads. -/
theorem rotate_right_cells {h : Heap α} {a ra : Nat} {na nra : Node α}
    (ha : h.cells a = some na) (hr : na.left = some ra) (hra : h.cells ra = some nra)
    (hne : a ≠ ra)
    (hpar : ∀ pa, na.parent = some pa → (∃ npa, h.cells pa = some npa) ∧ pa ≠ a ∧ pa ≠ ra)
    (hinn : ∀ x, nra.right = some x →
      (∃ nx, h.cells x = some nx) ∧ x ≠ a ∧ x ≠ ra ∧ na.parent ≠ some x) :
    ∃ h', rotate_right h a = .ok (ra, h') ∧ h'.next = h.next ∧
      ∀ y, h'.cells y =
        if y = a then
          some { na with balance := if nra.balance = 0 then 1 else 0, left := nra.right,
                         parent := some ra }
        else if y = ra then
          some { nra with balance := if nra.balance = 0 then -1 else 0, right := some a,
                          parent := na.parent }
        else if some y = na.parent then
          (h.cells y).map (fun m =>
            if m.left = some a then { m with left := some ra } else { m with right := some ra })
        else if some y = nra.right then (h.cells y).map (fun m => { m with parent := some a })
        else h.cells y := by
  have hne' : ra ≠ a := Ne.symm hne
  rcases hp : na.parent with _ | pa
  · rcases hx : nra.right with _ | x
    · by_cases hb : nra.balance = 0 <;>
      · simp [rotate_right, Heap.get, Heap.upd, Heap.set_cells, ha, hr, hra, hne, hne', hp, hx,
          hb, ok_bind, pure_eq_ok]
        refine ⟨rfl, fun y => ?_⟩
        by_cases h1 : y = a <;> by_cases h2 : y = ra <;> simp [h1, h2]
    · obtain ⟨⟨nx, hnx⟩, hxa, hxra, -⟩ := hinn x hx
      have hxa' := Ne.symm hxa
      have hxra' := Ne.symm hxra
      by_cases hb : nra.balance = 0 <;>
      · simp [rotate_right, Heap.get, Heap.upd, Heap.set_cells, ha, hr, hra, hne, hne', hp, hx,
          hb, ok_bind, pure_eq_ok, hnx, hxa, hxra, hxa', hxra']
        refine ⟨rfl, fun y => ?_⟩
        by_cases h1 : y = a <;> by_cases h2 : y = ra <;> by_cases h3 : y = x <;>
          simp [h1, h2, h3, hnx, hxa, hxra, hxa', hxra', hne, hne']
  · obtain ⟨⟨npa, hnpa⟩, hpa, hpra⟩ := hpar pa hp
    have hpa' := Ne.symm hpa
    have hpra' := Ne.symm hpra
    rcases hx : nra.right with _ | x
    · by_cases hb : nra.balance = 0 <;> by_cases hd : npa.left = some a <;>
      · simp [rotate_right, Heap.get, Heap.upd, Heap.set_cells, ha, hr, hra, hne, hne', hp, hx,
          hb, ok_bind, pure_eq_ok, hnpa, hpa, hpra, hpa', hpra', hd]
        refine ⟨rfl, fun y => ?_⟩
        by_cases h1 : y = a <;> by_cases h2 : y = ra <;> by_cases h3 : y = pa <;>
          simp [h1, h2, h3, hnpa, hpa, hpra, hpa', hpra', hne, hne', hd]
    · obtain ⟨⟨nx, hnx⟩, hxa, hxra, hxp⟩ := hinn x hx
      have hxa' := Ne.symm hxa
      have hxra' := Ne.symm hxra
      have hxpa : pa ≠ x := by
        intro e; apply hxp; rw [hp, e]
      have hxpa' := Ne.symm hxpa
      by_cases hb : nra.balance = 0 <;> by_cases hd : npa.left = some a <;>
      · simp [rotate_right, Heap.get, Heap.upd, Heap.set_cells, ha, hr, hra, hne, hne', hp, hx,
          hb, ok_bind, pure_eq_ok, hnpa, hpa, hpra, hpa', hpra', hd, hnx, hxa, hxra, hxa',
          hxra', hxpa, hxpa']
        refine ⟨rfl, fun y => ?_⟩
        by_cases h1 : y = a <;> by_cases h2 : y = ra <;> by_cases h3 : y = pa <;>
          by_cases h4 : y = x <;>
          simp [h1, h2, h3, h4, hnpa, hpa, hpra, hpa', hpra', hne, hne', hd, hnx, hxa, hxra,
            hxa', hxra', hxpa, hxpa']


end Rotations

/-! ## Basic facts about trees and paths -/

section Basic

variable {α : Type}

/-! ### `Rep` -/

theorem Rep.frame {c c' : Nat → Option (Node α)} {t : Tree α} {par : Ptr}
    (hr : Rep c par t) (he : ∀ x ∈ t.addrs, c' x = c x) : Rep c' par t := by
  induction t generalizing par with
  | nil => trivial
  | node l a v b r ihl ihr =>
    obtain ⟨h1, h2, h3⟩ := hr
    refine ⟨?_, ihl h2 ?_, ihr h3 ?_⟩
    · rw [he a (by simp [Tree.addrs])]; exact h1
    · intro x hx; exact he x (by simp [Tree.addrs, hx])
    · intro x hx; exact he x (by simp [Tree.addrs, hx])

theorem RepPath.frame_path {c c' : Nat → Option (Node α)} {p : List (Frame α)} {hole : Ptr}
    (hr : RepPath c p hole) (he : ∀ x ∈ pathAddrs p, c' x = c x) : RepPath c' p hole := by
  induction p generalizing hole with
  | nil => trivial
  | cons f p ih =>
    obtain ⟨h1, h2, h3⟩ := hr
    refine ⟨?_, h2.frame ?_, ih h3 ?_⟩
    · rw [he f.a (by simp [pathAddrs])]; exact h1
    · intro x hx; exact he x (by simp [pathAddrs, hx])
    · intro x hx; exact he x (by simp [pathAddrs, hx])

/-- Changing the `parent` field of the root of a subtree re-hangs it. -/
theorem Rep.reparent {c c' : Nat → Option (Node α)} {t : Tree α} {par par' : Ptr}
    (hr : Rep c par t)
    (hroot : ∀ l a v b r, t = .node l a v b r → c' a = some (Tree.cell l v b r par'))
    (he : ∀ l a v b r, t = .node l a v b r → ∀ x ∈ l.addrs ++ r.addrs, c' x = c x) :
    Rep c' par' t := by
  cases t with
  | nil => trivial
  | node l a v b r =>
    obtain ⟨_, h2, h3⟩ := hr
    refine ⟨hroot l a v b r rfl, h2.frame ?_, h3.frame ?_⟩
    · intro x hx; exact he l a v b r rfl x (by simp [hx])
    · intro x hx; exact he l a v b r rfl x (by simp [hx])

@[simp] theorem Tree.ptr_nil : (Tree.nil : Tree α).ptr = none := rfl

@[simp] theorem Tree.ptr_node (l : Tree α) (a : Nat) (v : α) (b : Int) (r : Tree α) :
    (Tree.node l a v b r).ptr = some a := rfl

theorem Tree.ptr_eq_none {t : Tree α} : t.ptr = none ↔ t = .nil := by
  cases t <;> simp [Tree.ptr]

theorem Tree.ptr_mem_addrs {t : Tree α} {a : Nat} (h : t.ptr = some a) : a ∈ t.addrs := by
  cases t with
  | nil => simp [Tree.ptr] at h
  | node l x v b r =>
    simp [Tree.ptr] at h
    simp [Tree.addrs, h]

theorem Tree.addrs_length (t : Tree α) : t.addrs.length = t.size := by
  induction t with
  | nil => rfl
  | node l a v b r ihl ihr => simp [Tree.addrs, Tree.size, ihl, ihr]; omega

theorem Tree.inorder_length (t : Tree α) : t.inorder.length = t.size := by
  induction t with
  | nil => rfl
  | node l a v b r ihl ihr => simp [Tree.inorder, Tree.size, ihl, ihr]; omega

theorem Tree.entries_fst (t : Tree α) : t.entries.map Prod.fst = t.addrs := by
  induction t with
  | nil => rfl
  | node l a v b r ihl ihr => simp [Tree.entries, Tree.addrs, ihl, ihr]

theorem Tree.entries_snd (t : Tree α) : t.entries.map Prod.snd = t.inorder := by
  induction t with
  | nil => rfl
  | node l a v b r ihl ihr => simp [Tree.entries, Tree.inorder, ihl, ihr]

/-! ### Paths -/

theorem Frame.fill_ptr (f : Frame α) (t : Tree α) : (f.fill t).ptr = some f.a := by
  cases f with
  | mk d a v b sib => cases d <;> rfl

theorem Frame.fill_addrs_perm (f : Frame α) (t : Tree α) :
    (f.fill t).addrs.Perm (f.a :: (f.sib.addrs ++ t.addrs)) := by
  cases f with
  | mk d a v b sib =>
    cases d
    · simp only [Frame.fill, Tree.addrs]
      have h1 : (t.addrs ++ a :: sib.addrs).Perm (a :: sib.addrs ++ t.addrs) :=
        List.perm_append_comm
      simpa using h1
    · simp only [Frame.fill, Tree.addrs]
      exact (List.perm_middle).trans (List.Perm.refl _)

theorem plug_addrs_perm (p : List (Frame α)) (t : Tree α) :
    (plug p t).addrs.Perm (pathAddrs p ++ t.addrs) := by
  induction p generalizing t with
  | nil => simp [plug, pathAddrs]
  | cons f p ih =>
    simp only [plug, pathAddrs]
    refine (ih (f.fill t)).trans ?_
    have h1 := (f.fill_addrs_perm t).append_left (pathAddrs p)
    refine h1.trans ?_
    have h2 : (pathAddrs p ++ (f.a :: (f.sib.addrs ++ t.addrs))).Perm
        ((f.a :: (f.sib.addrs ++ t.addrs)) ++ pathAddrs p) := List.perm_append_comm
    refine h2.trans ?_
    simp only [List.cons_append, List.append_assoc]
    refine List.Perm.cons _ ?_
    refine List.Perm.append_left _ ?_
    exact List.perm_append_comm

theorem plug_entries (p : List (Frame α)) (t : Tree α) :
    (plug p t).entries = pathBefore p ++ t.entries ++ pathAfter p := by
  induction p generalizing t with
  | nil => simp [plug, pathBefore, pathAfter]
  | cons f p ih =>
    cases f with
    | mk d a v b sib =>
      cases d <;> simp [plug, ih, Frame.fill, Tree.entries, pathBefore, pathAfter]

theorem rep_plug {c : Nat → Option (Node α)} (p : List (Frame α)) (t : Tree α) :
    Rep c none (plug p t) ↔ RepPath c p t.ptr ∧ Rep c (pathPtr p) t := by
  induction p generalizing t with
  | nil => simp [plug, RepPath, pathPtr]
  | cons f p ih =>
    cases f with
    | mk d a v b sib =>
      cases d <;>
        simp only [plug, ih, Frame.fill, RepPath, Rep, Tree.ptr, pathPtr, Frame.cell,
          Tree.cell] <;> tauto

theorem whole_plug {h : Heap α} {p : List (Frame α)} {t : Tree α} :
    Whole h (plug p t) ↔ Zip h p t := by
  constructor
  · intro hw
    have hp := plug_addrs_perm p t
    obtain ⟨h1, h2⟩ := (rep_plug p t).1 hw.rep
    exact ⟨h1, h2, hp.nodup_iff.1 hw.nodup, fun a ha => hw.fresh a (hp.mem_iff.2 ha)⟩
  · intro hz
    have hp := plug_addrs_perm p t
    exact ⟨(rep_plug p t).2 ⟨hz.path, hz.sub⟩, hp.nodup_iff.2 hz.nodup,
      fun a ha => hz.fresh a (hp.mem_iff.1 ha)⟩

theorem plug_append (p q : List (Frame α)) (t : Tree α) :
    plug (q ++ p) t = plug p (plug q t) := by
  induction q generalizing t with
  | nil => rfl
  | cons f q ih => simp [plug, ih]

theorem plug_ptr_cons (f : Frame α) (p : List (Frame α)) (t t' : Tree α) :
    (plug (f :: p) t).ptr = (plug (f :: p) t').ptr := by
  induction p generalizing f t t' with
  | nil => simp [plug, Frame.fill_ptr]
  | cons g p ih => exact ih g (f.fill t) (f.fill t')

theorem readTree_of_rep {c : Nat → Option (Node α)} {t : Tree α} {par : Ptr} {fuel : Nat}
    (hr : Rep c par t) (hf : t.height ≤ fuel) : readTree c fuel t.ptr = t := by
  induction t generalizing par fuel with
  | nil => cases fuel <;> rfl
  | node l a v b r ihl ihr =>
    obtain ⟨h1, h2, h3⟩ := hr
    cases fuel with
    | zero => simp [Tree.height] at hf
    | succ k =>
      simp only [Tree.height] at hf
      show readTree c (k + 1) (some a) = _
      simp only [readTree, h1, Tree.cell]
      rw [ihl h2 (by omega), ihr h3 (by omega)]

end Basic

section PathFacts

variable {α : Type}

@[simp] theorem pathPtr_nil : pathPtr ([] : List (Frame α)) = none := rfl

@[simp] theorem pathPtr_cons (f : Frame α) (p : List (Frame α)) :
    pathPtr (f :: p) = some f.a := rfl

theorem pathPtr_mem {p : List (Frame α)} {a : Nat} (h : pathPtr p = some a) :
    a ∈ pathAddrs p := by
  cases p with
  | nil => simp [pathPtr] at h
  | cons f p =>
    simp [pathPtr] at h
    simp [pathAddrs, h]

/-- Changing the pointer in the hole of a path only changes the innermost
    frame's cell. -/
theorem RepPath.retarget {c c' : Nat → Option (Node α)} {p : List (Frame α)} {hole hole' : Ptr}
    (hr : RepPath c p hole)
    (hroot : ∀ f q, p = f :: q → c' f.a = some (f.cell hole' (pathPtr q)))
    (he : ∀ f q, p = f :: q → ∀ x ∈ f.sib.addrs ++ pathAddrs q, c' x = c x) :
    RepPath c' p hole' := by
  cases p with
  | nil => trivial
  | cons f q =>
    obtain ⟨_, h2, h3⟩ := hr
    refine ⟨hroot f q rfl, h2.frame ?_, h3.frame_path ?_⟩
    · intro x hx; exact he f q rfl x (by simp [hx])
    · intro x hx; exact he f q rfl x (by simp [hx])

theorem Rep.root_cell {c : Nat → Option (Node α)} {t : Tree α} {par : Ptr} {x : Nat}
    (hr : Rep c par t) (hx : t.ptr = some x) : ∃ n, c x = some n ∧ n.parent = par := by
  cases t with
  | nil => simp [Tree.ptr] at hx
  | node l a v b r =>
    simp [Tree.ptr] at hx
    subst hx
    exact ⟨_, hr.1, rfl⟩

theorem RepPath.parent_cell {c : Nat → Option (Node α)} {p : List (Frame α)} {hole : Ptr}
    {x : Nat} (hr : RepPath c p hole) (hx : pathPtr p = some x) :
    ∃ n, c x = some n ∧ (n.left = hole ∨ n.right = hole) := by
  cases p with
  | nil => simp [pathPtr] at hx
  | cons f q =>
    simp [pathPtr] at hx
    subst hx
    refine ⟨_, hr.1, ?_⟩
    cases f with
    | mk d a v b sib => cases d <;> simp [Frame.cell]

end PathFacts

/-! ## Rotations on the heap are rotations of the tree -/

section RotTree

variable {α : Type}

theorem rotate_left_zip {h : Heap α} {p : List (Frame α)} {l rl rr : Tree α} {a ra : Nat}
    {v rv : α} {b rb : Int}
    (hz : Zip h p (.node l a v b (.node rl ra rv rb rr))) :
    ∃ h', rotate_left h a = .ok (ra, h') ∧ h'.next = h.next ∧
      Zip h' p (.node (.node l a v (if rb = 0 then -1 else 0) rl) ra rv
        (if rb = 0 then 1 else 0) rr) := by
  obtain ⟨hpath, hsub, hnd, hfr⟩ := hz
  obtain ⟨ha, hl, hra, hrl, hrr⟩ := hsub
  have hnd0 := hnd
  simp only [Tree.addrs] at hnd hfr
  simp only [List.nodup_append, List.nodup_cons, List.mem_append, List.mem_cons, not_or,
    List.disjoint_left] at hnd
  obtain ⟨hndp, ⟨hndl, ⟨⟨ha_rl, ha_ra, ha_rr⟩, hndrl, ⟨hra_rr, hndrr⟩, hrl_⟩, hl_⟩, hp_⟩ := hnd
  have hpar : ∀ pa, (Tree.cell l v b (.node rl ra rv rb rr) (pathPtr p)).parent = some pa →
      (∃ npa, h.cells pa = some npa) ∧ pa ≠ a ∧ pa ≠ ra := by
    intro pa hpa
    have hm := pathPtr_mem hpa
    obtain ⟨n, hn, -⟩ := hpath.parent_cell hpa
    exact ⟨⟨n, hn⟩, (hp_ hm).2.1, (hp_ hm).2.2.2.1⟩
  have hinn : ∀ x, (Tree.cell rl rv rb rr (some a)).left = some x →
      (∃ nx, h.cells x = some nx) ∧ x ≠ a ∧ x ≠ ra ∧
        (Tree.cell l v b (.node rl ra rv rb rr) (pathPtr p)).parent ≠ some x := by
    intro x hx
    have hm := Tree.ptr_mem_addrs hx
    obtain ⟨n, hn, -⟩ := hrl.root_cell hx
    refine ⟨⟨n, hn⟩, ?_, (hrl_ hm).1, ?_⟩
    · rintro rfl; exact ha_rl hm
    · intro e
      exact (hp_ (pathPtr_mem e)).2.2.1 hm
  obtain ⟨h', he, hn, hc⟩ := rotate_left_cells ha rfl hra ha_ra hpar hinn
  have hframe : ∀ y, y ≠ a → y ≠ ra → some y ≠ pathPtr p → some y ≠ rl.ptr →
      h'.cells y = h.cells y := by
    intro y h1 h2 h3 h4
    rw [hc]
    simp [h1, h2, h3, h4, Tree.cell]
  refine ⟨h', he, hn, ?_, ?_, ?_, ?_⟩
  · -- the path, now pointing at `ra`
    refine hpath.retarget ?_ ?_
    · intro f q hpq
      subst hpq
      have hm : f.a ∈ pathAddrs (f :: q) := by simp [pathAddrs]
      have h1 : f.a ≠ a := (hp_ hm).2.1
      have h2 : f.a ≠ ra := (hp_ hm).2.2.2.1
      have hsa : f.sib.ptr ≠ some a := by
        intro e
        have hm' : a ∈ pathAddrs (f :: q) := by
          simp [pathAddrs, Tree.ptr_mem_addrs e]
        exact (hp_ hm').2.1 rfl
      rw [hc]
      simp only [h1, h2, if_false, Tree.cell, pathPtr, if_true, hpath.1, Option.map_some']
      cases f with
      | mk d fa fv fb sib =>
        cases d
        · simp [Frame.cell, Tree.ptr]
        · simp only [Frame.cell]
          simp only at hsa
          simp [hsa]
    · intro f q hpq x hx
      subst hpq
      have hm : x ∈ pathAddrs (f :: q) := by
        simp only [pathAddrs, List.mem_cons]; exact Or.inr hx
      have hfa : x ≠ f.a := by
        rintro rfl
        simp only [pathAddrs, List.nodup_cons] at hndp
        exact hndp.1 hx
      refine hframe x (hp_ hm).2.1 (hp_ hm).2.2.2.1 ?_ ?_
      · simpa [pathPtr] using hfa
      · intro e
        exact (hp_ hm).2.2.1 (Tree.ptr_mem_addrs e.symm)
  · -- the rotated subtree
    refine ⟨?_, ⟨?_, ?_, ?_⟩, ?_⟩
    · rw [hc]; simp [Ne.symm ha_ra, Tree.cell, Tree.ptr]
    · rw [hc]; simp [Tree.cell, Tree.ptr]
    · refine hl.frame fun x hx => hframe x (hl_ hx).1 (hl_ hx).2.2.1 ?_ ?_
      · intro e
        exact (hp_ (pathPtr_mem e.symm)).1 hx
      · intro e
        exact (hl_ hx).2.1 (Tree.ptr_mem_addrs e.symm)
    · refine hrl.reparent ?_ ?_
      · intro l' x v' b' r' hrl'
        subst hrl'
        have hm : x ∈ (Tree.node l' x v' b' r').addrs := by simp [Tree.addrs]
        have h1 : x ≠ a := by rintro rfl; exact ha_rl hm
        have h3 : some x ≠ pathPtr p := by
          intro e
          exact (hp_ (pathPtr_mem e.symm)).2.2.1 hm
        rw [hc]
        simp [h1, (hrl_ hm).1, h3, Tree.cell, Tree.ptr, hrl.1]
      · intro l' x v' b' r' hrl' y hy
        subst hrl'
        have hm : y ∈ (Tree.node l' x v' b' r').addrs := by
          simp only [List.mem_append] at hy
          simp only [Tree.addrs, List.mem_append, List.mem_cons]
          tauto
        have hyx : y ≠ x := by
          rintro rfl
          simp only [Tree.addrs, List.nodup_append, List.nodup_cons, List.disjoint_left,
            List.mem_cons, not_or] at hndrl
          simp only [List.mem_append] at hy
          rcases hy with hy | hy
          · exact (hndrl.2.2 hy).1 rfl
          · exact hndrl.2.1.1 hy
        refine hframe y ?_ (hrl_ hm).1 ?_ ?_
        · rintro rfl; exact ha_rl hm
        · intro e
          exact (hp_ (pathPtr_mem e.symm)).2.2.1 hm
        · simpa [Tree.ptr] using hyx
    · have hrr_ : ∀ x ∈ rr.addrs, x ≠ a ∧ x ≠ ra ∧ x ∉ rl.addrs ∧ x ∉ pathAddrs p := by
        intro x hx
        refine ⟨?_, ?_, ?_, ?_⟩
        · rintro rfl; exact ha_rr hx
        · rintro rfl; exact hra_rr hx
        · intro hx'; exact (hrl_ hx').2 hx
        · intro hx'; exact (hp_ hx').2.2.2.2 hx
      refine hrr.frame fun x hx => hframe x (hrr_ x hx).1 (hrr_ x hx).2.1 ?_ ?_
      · intro e
        exact (hrr_ x hx).2.2.2 (pathPtr_mem e.symm)
      · intro e
        exact (hrr_ x hx).2.2.1 (Tree.ptr_mem_addrs e.symm)
  · simpa [Tree.addrs] using hnd0
  · intro x hx
    rw [hn]
    exact hfr x (by simpa [Tree.addrs] using hx)

theorem rotate_right_zip {h : Heap α} {p : List (Frame α)} {ll lr r : Tree α} {a la : Nat}
    {v lv : α} {b lb : Int}
    (hz : Zip h p (.node (.node ll la lv lb lr) a v b r)) :
    ∃ h', rotate_right h a = .ok (la, h') ∧ h'.next = h.next ∧
      Zip h' p (.node ll la lv (if lb = 0 then -1 else 0)
        (.node lr a v (if lb = 0 then 1 else 0) r)) := by
  obtain ⟨hpath, hsub, hnd, hfr⟩ := hz
  obtain ⟨ha, ⟨hla, hll, hlr⟩, hr⟩ := hsub
  have hnd0 := hnd
  simp only [Tree.addrs] at hnd hfr
  simp only [List.nodup_append, List.nodup_cons, List.mem_append, List.mem_cons, not_or,
    List.disjoint_left] at hnd
  obtain ⟨hndp, ⟨⟨hndll, ⟨hla_lr, hndlr⟩, hll_⟩, ⟨ha_r, hndr⟩, hL_⟩, hp_⟩ := hnd
  have hla_a : la ≠ a := (hL_ (Or.inr (Or.inl rfl))).1
  have hpar : ∀ pa, (Tree.cell (.node ll la lv lb lr) v b r (pathPtr p)).parent = some pa →
      (∃ npa, h.cells pa = some npa) ∧ pa ≠ a ∧ pa ≠ la := by
    intro pa hpa
    have hm := pathPtr_mem hpa
    obtain ⟨n, hn, -⟩ := hpath.parent_cell hpa
    exact ⟨⟨n, hn⟩, (hp_ hm).2.1, (hp_ hm).1.2.1⟩
  have hinn : ∀ x, (Tree.cell ll lv lb lr (some a)).right = some x →
      (∃ nx, h.cells x = some nx) ∧ x ≠ a ∧ x ≠ la ∧
        (Tree.cell (.node ll la lv lb lr) v b r (pathPtr p)).parent ≠ some x := by
    intro x hx
    have hm := Tree.ptr_mem_addrs hx
    obtain ⟨n, hn, -⟩ := hlr.root_cell hx
    refine ⟨⟨n, hn⟩, (hL_ (Or.inr (Or.inr hm))).1, ?_, ?_⟩
    · rintro rfl; exact hla_lr hm
    · intro e
      exact (hp_ (pathPtr_mem e)).1.2.2 hm
  obtain ⟨h', he, hn, hc⟩ := rotate_right_cells ha rfl hla (Ne.symm hla_a) hpar hinn
  have hframe : ∀ y, y ≠ a → y ≠ la → some y ≠ pathPtr p → some y ≠ lr.ptr →
      h'.cells y = h.cells y := by
    intro y h1 h2 h3 h4
    rw [hc]
    simp [h1, h2, h3, h4, Tree.cell]
  refine ⟨h', he, hn, ?_, ?_, ?_, ?_⟩
  · -- the path, now pointing at `la`
    refine hpath.retarget ?_ ?_
    · intro f q hpq
      subst hpq
      have hm : f.a ∈ pathAddrs (f :: q) := by simp [pathAddrs]
      have h1 : f.a ≠ a := (hp_ hm).2.1
      have h2 : f.a ≠ la := (hp_ hm).1.2.1
      have hsa : f.sib.ptr ≠ some a := by
        intro e
        have hm' : a ∈ pathAddrs (f :: q) := by
          simp [pathAddrs, Tree.ptr_mem_addrs e]
        exact (hp_ hm').2.1 rfl
      rw [hc]
      simp only [h1, h2, if_false, Tree.cell, pathPtr, if_true, hpath.1, Option.map_some']
      cases f with
      | mk d fa fv fb sib =>
        cases d
        · simp [Frame.cell, Tree.ptr]
        · simp only [Frame.cell]
          simp only at hsa
          simp [hsa]
    · intro f q hpq x hx
      subst hpq
      have hm : x ∈ pathAddrs (f :: q) := by
        simp only [pathAddrs, List.mem_cons]; exact Or.inr hx
      have hfa : x ≠ f.a := by
        rintro rfl
        simp only [pathAddrs, List.nodup_cons] at hndp
        exact hndp.1 hx
      refine hframe x (hp_ hm).2.1 (hp_ hm).1.2.1 ?_ ?_
      · simpa [pathPtr] using hfa
      · intro e
        exact (hp_ hm).1.2.2 (Tree.ptr_mem_addrs e.symm)
  · -- the rotated subtree
    refine ⟨?_, ?_, ⟨?_, ?_, ?_⟩⟩
    · rw [hc]; simp [hla_a, Tree.cell, Tree.ptr]
    · refine hll.frame fun x hx => hframe x (hL_ (Or.inl hx)).1 (hll_ hx).1 ?_ ?_
      · intro e
        exact (hp_ (pathPtr_mem e.symm)).1.1 hx
      · intro e
        exact (hll_ hx).2 (Tree.ptr_mem_addrs e.symm)
    · rw [hc]; simp [Tree.cell, Tree.ptr]
    · refine hlr.reparent ?_ ?_
      · intro l' x v' b' r' hlr'
        subst hlr'
        have hm : x ∈ (Tree.node l' x v' b' r').addrs := by simp [Tree.addrs]
        have h1 : x ≠ a := (hL_ (Or.inr (Or.inr hm))).1
        have h2 : x ≠ la := by rintro rfl; exact hla_lr hm
        have h3 : some x ≠ pathPtr p := by
          intro e
          exact (hp_ (pathPtr_mem e.symm)).1.2.2 hm
        rw [hc]
        simp [h1, h2, h3, Tree.cell, Tree.ptr, hlr.1]
      · intro l' x v' b' r' hlr' y hy
        subst hlr'
        have hm : y ∈ (Tree.node l' x v' b' r').addrs := by
          simp only [List.mem_append] at hy
          simp only [Tree.addrs, List.mem_append, List.mem_cons]
          tauto
        have hyx : y ≠ x := by
          rintro rfl
          simp only [Tree.addrs, List.nodup_append, List.nodup_cons, List.disjoint_left,
            List.mem_cons, not_or] at hndlr
          simp only [List.mem_append] at hy
          rcases hy with hy | hy
          · exact (hndlr.2.2 hy).1 rfl
          · exact hndlr.2.1.1 hy
        refine hframe y (hL_ (Or.inr (Or.inr hm))).1 ?_ ?_ ?_
        · rintro rfl; exact hla_lr hm
        · intro e
          exact (hp_ (pathPtr_mem e.symm)).1.2.2 hm
        · simpa [Tree.ptr] using hyx
    · have hr_ : ∀ x ∈ r.addrs, x ≠ a ∧ x ≠ la ∧ x ∉ lr.addrs ∧ x ∉ pathAddrs p := by
        intro x hx
        refine ⟨?_, ?_, ?_, ?_⟩
        · rintro rfl; exact ha_r hx
        · rintro rfl; exact (hL_ (Or.inr (Or.inl rfl))).2 hx
        · intro hx'; exact (hL_ (Or.inr (Or.inr hx'))).2 hx
        · intro hx'; exact (hp_ hx').2.2 hx
      refine hr.frame fun x hx => hframe x (hr_ x hx).1 (hr_ x hx).2.1 ?_ ?_
      · intro e
        exact (hr_ x hx).2.2.2 (pathPtr_mem e.symm)
      · intro e
        exact (hr_ x hx).2.2.1 (Tree.ptr_mem_addrs e.symm)
  · simpa [Tree.addrs] using hnd0
  · intro x hx
    rw [hn]
    exact hfr x (by simpa [Tree.addrs] using hx)

/-- Moving the focus of a zipper one node up. -/
theorem Zip.up {h : Heap α} {p : List (Frame α)} {f : Frame α} {t : Tree α} :
    Zip h (f :: p) t ↔ Zip h p (f.fill t) := by
  rw [← whole_plug, ← whole_plug]
  rfl

theorem Zip.next_eq {h h' : Heap α} {p : List (Frame α)} {t : Tree α} (hz : Zip h p t)
    (hc : h'.cells = h.cells) (hn : h.next ≤ h'.next) : Zip h' p t := by
  obtain ⟨h1, h2, h3, h4⟩ := hz
  refine ⟨?_, ?_, h3, fun a ha => lt_of_lt_of_le (h4 a ha) hn⟩
  · rw [hc]; exact h1
  · rw [hc]; exact h2

/-- Overwriting the value and balance of the node in focus. -/
theorem Zip.set_root {h : Heap α} {p : List (Frame α)} {l r : Tree α} {a : Nat} {v : α}
    {b : Int} (hz : Zip h p (.node l a v b r)) (v' : α) (b' : Int) :
    Zip (h.set a (Tree.cell l v' b' r (pathPtr p))) p (.node l a v' b' r) := by
  obtain ⟨hpath, ⟨ha, hl, hr⟩, hnd, hfr⟩ := hz
  have hnd0 := hnd
  simp only [Tree.addrs, List.nodup_append, List.nodup_cons, List.mem_append, List.mem_cons,
    not_or, List.disjoint_left] at hnd
  obtain ⟨hndp, ⟨hndl, ⟨ha_r, hndr⟩, hl_⟩, hp_⟩ := hnd
  refine ⟨?_, ⟨?_, ?_, ?_⟩, hnd0, hfr⟩
  · refine hpath.frame_path fun x hx => ?_
    simp [Heap.set_cells, (hp_ hx).2.1]
  · simp [Heap.set_cells]
  · refine hl.frame fun x hx => ?_
    simp [Heap.set_cells, (hl_ hx).1]
  · refine hr.frame fun x hx => ?_
    have : x ≠ a := by rintro rfl; exact ha_r hx
    simp [Heap.set_cells, this]

/-- Assigning the value or balance field of the node in focus. -/
theorem Zip.upd_root {h : Heap α} {p : List (Frame α)} {l r : Tree α} {a : Nat} {v : α}
    {b : Int} (hz : Zip h p (.node l a v b r)) (g : Node α → Node α) (v' : α) (b' : Int)
    (hg : g (Tree.cell l v b r (pathPtr p)) = Tree.cell l v' b' r (pathPtr p)) :
    ∃ h', h.upd (some a) g = .ok h' ∧ h'.next = h.next ∧ Zip h' p (.node l a v' b' r) := by
  refine ⟨_, Heap.upd_some h a _ g hz.sub.1, rfl, ?_⟩
  rw [hg]
  exact hz.set_root v' b'

theorem Zip.get_root {h : Heap α} {p : List (Frame α)} {l r : Tree α} {a : Nat} {v : α}
    {b : Int} (hz : Zip h p (.node l a v b r)) :
    h.get (some a) = .ok (Tree.cell l v b r (pathPtr p)) :=
  Heap.get_some h a _ hz.sub.1

theorem Zip.down_left {h : Heap α} {p : List (Frame α)} {l r : Tree α} {a : Nat} {v : α}
    {b : Int} (hz : Zip h p (.node l a v b r)) :
    Zip h ({ dir := .L, a := a, v := v, b := b, sib := r } :: p) l :=
  Zip.up.2 hz

theorem Zip.down_right {h : Heap α} {p : List (Frame α)} {l r : Tree α} {a : Nat} {v : α}
    {b : Int} (hz : Zip h p (.node l a v b r)) :
    Zip h ({ dir := .R, a := a, v := v, b := b, sib := l } :: p) r :=
  Zip.up.2 hz

theorem Zip.up_left {h : Heap α} {p : List (Frame α)} {l r : Tree α} {a : Nat} {v : α}
    {b : Int} (hz : Zip h ({ dir := .L, a := a, v := v, b := b, sib := r } :: p) l) :
    Zip h p (.node l a v b r) :=
  Zip.up.1 hz

theorem Zip.up_right {h : Heap α} {p : List (Frame α)} {l r : Tree α} {a : Nat} {v : α}
    {b : Int} (hz : Zip h ({ dir := .R, a := a, v := v, b := b, sib := l } :: p) r) :
    Zip h p (.node l a v b r) :=
  Zip.up.1 hz

/-- Assigning the value or balance field of the left child of the node in
    focus. -/
theorem Zip.upd_left_child {h : Heap α} {p : List (Frame α)} {ll lr r : Tree α} {a la : Nat}
    {v lv : α} {b lb : Int} (hz : Zip h p (.node (.node ll la lv lb lr) a v b r))
    (g : Node α → Node α) (lv' : α) (lb' : Int)
    (hg : g (Tree.cell ll lv lb lr (some a)) = Tree.cell ll lv' lb' lr (some a)) :
    ∃ h', h.upd (some la) g = .ok h' ∧ h'.next = h.next ∧
      Zip h' p (.node (.node ll la lv' lb' lr) a v b r) := by
  obtain ⟨h', e, n, z⟩ := hz.down_left.upd_root g lv' lb' hg
  exact ⟨h', e, n, z.up_left⟩

/-- Assigning the value or balance field of the right child of the node in
    focus. -/
theorem Zip.upd_right_child {h : Heap α} {p : List (Frame α)} {l rl rr : Tree α} {a ra : Nat}
    {v rv : α} {b rb : Int} (hz : Zip h p (.node l a v b (.node rl ra rv rb rr)))
    (g : Node α → Node α) (rv' : α) (rb' : Int)
    (hg : g (Tree.cell rl rv rb rr (some a)) = Tree.cell rl rv' rb' rr (some a)) :
    ∃ h', h.upd (some ra) g = .ok h' ∧ h'.next = h.next ∧
      Zip h' p (.node l a v b (.node rl ra rv' rb' rr)) := by
  obtain ⟨h', e, n, z⟩ := hz.down_right.upd_root g rv' rb' hg
  exact ⟨h', e, n, z.up_right⟩

theorem big_rotate_left_zip {h : Heap α} {p : List (Frame α)} {l rll rlr rr : Tree α}
    {a ra c : Nat} {v rv cv : α} {b rb cb : Int}
    (hz : Zip h p (.node l a v b (.node (.node rll c cv cb rlr) ra rv rb rr))) :
    ∃ h', big_rotate_left h a = .ok (c, h') ∧ h'.next = h.next ∧
      Zip h' p (.node (.node l a v (if cb = -1 then 1 else 0) rll) c cv 0
        (.node rlr ra rv (if cb = 1 then -1 else 0) rr)) := by
  have hz1 := hz.down_right
  have hz2 := hz1.down_left
  obtain ⟨h1, e1, n1, z1⟩ := rotate_right_zip hz1
  obtain ⟨h2, e2, n2, z2⟩ := z1.up_right.upd_root (fun m => { m with right := some c }) v b rfl
  obtain ⟨h3, e3, n3, z3⟩ := rotate_left_zip z2
  obtain ⟨h4, e4, n4, z4⟩ := z3.upd_root (fun m => { m with balance := 0 }) cv 0 rfl
  simp only [big_rotate_left, hz.get_root, hz1.get_root, hz2.get_root, ok_bind, Tree.cell,
    Tree.ptr, pure_eq_ok, e1, e2, e3, e4, z4.get_root]
  have hn : h4.next = h.next := by rw [n4, n3, n2, n1]
  by_cases hc1 : cb = 1
  · obtain ⟨h5, e5, n5, z5⟩ :=
      z4.upd_left_child (fun m => { m with balance := 0 }) v 0 rfl
    obtain ⟨h6, e6, n6, z6⟩ :=
      z5.upd_right_child (fun m => { m with balance := -1 }) rv (-1) rfl
    refine ⟨h6, ?_, by rw [n6, n5, hn], ?_⟩
    · simp only [hc1, if_true, e5, e6, ok_bind]
    · have : ¬ ((1 : Int) = -1) := by decide
      simpa [hc1, this] using z6
  · by_cases hc2 : cb = -1
    · obtain ⟨h5, e5, n5, z5⟩ :=
        z4.upd_left_child (fun m => { m with balance := 1 }) v 1 rfl
      obtain ⟨h6, e6, n6, z6⟩ :=
        z5.upd_right_child (fun m => { m with balance := 0 }) rv 0 rfl
      refine ⟨h6, ?_, by rw [n6, n5, hn], ?_⟩
      · simp [hc2, e5, e6, ok_bind]
      · simpa [hc1, hc2] using z6
    · obtain ⟨h5, e5, n5, z5⟩ :=
        z4.upd_left_child (fun m => { m with balance := 0 }) v 0 rfl
      obtain ⟨h6, e6, n6, z6⟩ :=
        z5.upd_right_child (fun m => { m with balance := 0 }) rv 0 rfl
      refine ⟨h6, ?_, by rw [n6, n5, hn], ?_⟩
      · simp only [hc1, hc2, if_false, e5, e6, ok_bind]
      · simpa [hc1, hc2] using z6

theorem big_rotate_right_zip {h : Heap α} {p : List (Frame α)} {ll lrl lrr r : Tree α}
    {a la c : Nat} {v lv cv : α} {b lb cb : Int}
    (hz : Zip h p (.node (.node ll la lv lb (.node lrl c cv cb lrr)) a v b r)) :
    ∃ h', big_rotate_right h a = .ok (c, h') ∧ h'.next = h.next ∧
      Zip h' p (.node (.node ll la lv (if cb = -1 then 1 else 0) lrl) c cv 0
        (.node lrr a v (if cb = 1 then -1 else 0) r)) := by
  have hz1 := hz.down_left
  have hz2 := hz1.down_right
  obtain ⟨h1, e1, n1, z1⟩ := rotate_left_zip hz1
  obtain ⟨h2, e2, n2, z2⟩ := z1.up_left.upd_root (fun m => { m with left := some c }) v b rfl
  obtain ⟨h3, e3, n3, z3⟩ := rotate_right_zip z2
  obtain ⟨h4, e4, n4, z4⟩ := z3.upd_root (fun m => { m with balance := 0 }) cv 0 rfl
  simp only [big_rotate_right, hz.get_root, hz1.get_root, hz2.get_root, ok_bind, Tree.cell,
    Tree.ptr, pure_eq_ok, e1, e2, e3, e4, z4.get_root]
  have hn : h4.next = h.next := by rw [n4, n3, n2, n1]
  by_cases hc1 : cb = 1
  · obtain ⟨h5, e5, n5, z5⟩ :=
      z4.upd_right_child (fun m => { m with balance := -1 }) v (-1) rfl
    obtain ⟨h6, e6, n6, z6⟩ :=
      z5.upd_left_child (fun m => { m with balance := 0 }) lv 0 rfl
    refine ⟨h6, ?_, by rw [n6, n5, hn], ?_⟩
    · simp only [hc1, if_true, e5, e6, ok_bind]
    · have : ¬ ((1 : Int) = -1) := by decide
      simpa [hc1, this] using z6
  · by_cases hc2 : cb = -1
    · obtain ⟨h5, e5, n5, z5⟩ :=
        z4.upd_right_child (fun m => { m with balance := 0 }) v 0 rfl
      obtain ⟨h6, e6, n6, z6⟩ :=
        z5.upd_left_child (fun m => { m with balance := 1 }) lv 1 rfl
      refine ⟨h6, ?_, by rw [n6, n5, hn], ?_⟩
      · simp [hc2, e5, e6, ok_bind]
      · simpa [hc1, hc2] using z6
    · obtain ⟨h5, e5, n5, z5⟩ :=
        z4.upd_right_child (fun m => { m with balance := 0 }) v 0 rfl
      obtain ⟨h6, e6, n6, z6⟩ :=
        z5.upd_left_child (fun m => { m with balance := 0 }) lv 0 rfl
      refine ⟨h6, ?_, by rw [n6, n5, hn], ?_⟩
      · simp only [hc1, hc2, if_false, e5, e6, ok_bind]
      · simpa [hc1, hc2] using z6

/-- `apply_rotation` on the heap computes `Tree.apply_rotation`. -/
theorem apply_rotation_zip {h : Heap α} {p : List (Frame α)} {t t' : Tree α} {a : Nat}
    (hz : Zip h p t) (ha : t.ptr = some a) (ht : t.apply_rotation = some t') :
    ∃ h' a', apply_rotation h a = .ok (a', h') ∧ t'.ptr = some a' ∧ h'.next = h.next ∧
      Zip h' p t' := by
  cases t with
  | nil => simp [Tree.ptr] at ha
  | node l x v b r =>
    simp only [Tree.ptr, Option.some.injEq] at ha
    subst ha
    simp only [Tree.apply_rotation] at ht
    simp only [apply_rotation, hz.get_root, ok_bind, Tree.cell]
    by_cases hb1 : b = -2
    · simp only [hb1, if_true] at ht ⊢
      subst hb1
      cases r with
      | nil => simp at ht
      | node rl ra rv rb rr =>
        simp only [Tree.ptr, hz.down_right.get_root, ok_bind, Tree.cell]
        by_cases hrb : rb ≤ 0
        · simp only [hrb, if_true, Tree.rotate_left, Option.some.injEq] at ht ⊢
          subst ht
          obtain ⟨h', e, n, z⟩ := rotate_left_zip hz
          exact ⟨h', ra, e, rfl, n, z⟩
        · simp only [hrb, if_false] at ht ⊢
          cases rl with
          | nil => simp [Tree.big_rotate_left] at ht
          | node rll c cv cb rlr =>
            simp only [Tree.big_rotate_left, Option.some.injEq] at ht
            subst ht
            obtain ⟨h', e, n, z⟩ := big_rotate_left_zip hz
            exact ⟨h', c, e, rfl, n, z⟩
    · simp only [hb1, if_false] at ht ⊢
      by_cases hb2 : b = 2
      · simp only [hb2, if_true] at ht ⊢
        subst hb2
        cases l with
        | nil => simp at ht
        | node ll la lv lb lr =>
          simp only [Tree.ptr, hz.down_left.get_root, ok_bind, Tree.cell]
          by_cases hlb : lb ≥ 0
          · simp only [hlb, if_true, Tree.rotate_right, Option.some.injEq] at ht ⊢
            subst ht
            obtain ⟨h', e, n, z⟩ := rotate_right_zip hz
            exact ⟨h', la, e, rfl, n, z⟩
          · simp only [hlb, if_false] at ht ⊢
            cases lr with
            | nil => simp [Tree.big_rotate_right] at ht
            | node lrl c cv cb lrr =>
              simp only [Tree.big_rotate_right, Option.some.injEq] at ht
              subst ht
              obtain ⟨h', e, n, z⟩ := big_rotate_right_zip hz
              exact ⟨h', c, e, rfl, n, z⟩
      · simp only [hb2, if_false, Option.some.injEq] at ht ⊢
        subst ht
        exact ⟨h, x, rfl, rfl, rfl, hz⟩

end RotTree

/-! ## `insert` on the heap computes `Tree.insert` -/

section InsertHeap

variable {α : Type}

/-- Linking a freshly allocated node into the empty slot in focus. -/
theorem Zip.attach {h h' : Heap α} {p : List (Frame α)} {f : Frame α} (value : α) (b' : Int)
    (hz : Zip h (f :: p) .nil) (hn : h'.next = h.next + 1)
    (hc : ∀ x, h'.cells x =
      if x = f.a then some (Frame.cell { f with b := b' } (some h.next) (pathPtr p))
      else if x = h.next then some (Tree.cell .nil value 0 .nil (some f.a))
      else h.cells x) :
    Zip h' ({ f with b := b' } :: p) (Tree.leaf h.next value) := by
  obtain ⟨hpath, -, hnd, hfr⟩ := hz
  simp only [Tree.addrs, List.append_nil, pathAddrs, List.nodup_cons, List.mem_append, not_or,
    List.nodup_append, List.disjoint_left] at hnd
  obtain ⟨⟨hfs, hfp⟩, hnds, hndp, hsp⟩ := hnd
  simp only [Tree.addrs, List.append_nil, pathAddrs, List.mem_cons, List.mem_append] at hfr
  have hfa : f.a ≠ h.next := Nat.ne_of_lt (hfr _ (Or.inl rfl))
  obtain ⟨h1, h2, h3⟩ := hpath
  refine ⟨⟨?_, ?_, ?_⟩, ⟨?_, trivial, trivial⟩, ?_, ?_⟩
  · rw [hc]; simp [Tree.leaf]
  · refine h2.frame fun x hx => ?_
    have hx1 : x ≠ f.a := by rintro rfl; exact hfs hx
    have hx2 : x ≠ h.next := Nat.ne_of_lt (hfr _ (Or.inr (Or.inl hx)))
    rw [hc]; simp [hx1, hx2]
  · refine h3.frame_path fun x hx => ?_
    have hx1 : x ≠ f.a := by rintro rfl; exact hfp hx
    have hx2 : x ≠ h.next := Nat.ne_of_lt (hfr _ (Or.inr (Or.inr hx)))
    rw [hc]; simp [hx1, hx2]
  · rw [hc]; simp [Ne.symm hfa, pathPtr]
  · simp only [Tree.leaf, Tree.addrs, List.nil_append, pathAddrs, List.nodup_append,
      List.nodup_cons, List.mem_append, not_or, List.disjoint_left, List.mem_cons,
      List.mem_singleton, List.not_mem_nil, not_false_eq_true, List.nodup_nil, and_true]
    refine ⟨⟨⟨hfs, hfp⟩, hnds, hndp, hsp⟩, trivial, ?_⟩
    intro x hx
    rcases hx with rfl | hx | hx
    · exact hfa
    · exact Nat.ne_of_lt (hfr _ (Or.inr (Or.inl hx)))
    · exact Nat.ne_of_lt (hfr _ (Or.inr (Or.inr hx)))
  · intro x hx
    simp only [Tree.leaf, Tree.addrs, List.nil_append, pathAddrs, List.mem_append,
      List.mem_cons, List.mem_singleton, List.not_mem_nil, or_false] at hx
    rw [hn]
    rcases hx with (rfl | hx | hx) | rfl
    · exact Nat.lt_succ_of_lt (hfr _ (Or.inl rfl))
    · exact Nat.lt_succ_of_lt (hfr _ (Or.inr (Or.inl hx)))
    · exact Nat.lt_succ_of_lt (hfr _ (Or.inr (Or.inr hx)))
    · exact Nat.lt_succ_self _

variable [LinearOrder α]

theorem insert_descend_zip_some (value : α) (t : Tree α) :
    ∀ (p : List (Frame α)) (fuel : Nat) (h : Heap α) (q : List (Frame α)) (s : Tree α),
      Zip h p t → t ≠ .nil → t.height ≤ fuel →
      Tree.insert_descend value h.next t p = some (q, s) →
      ∃ h', insert_descend value fuel h t.ptr = .ok (some (h', s.ptr)) ∧
        h'.next = h.next + 1 ∧ Zip h' q s := by
  induction t with
  | nil => intro p fuel h q s _ hne; exact absurd rfl hne
  | node l a v b r ihl ihr =>
    intro p fuel h q s hz _ hf hd
    cases fuel with
    | zero => simp [Tree.height] at hf
    | succ k =>
      simp only [Tree.height] at hf
      unfold Tree.insert_descend at hd
      simp only [Tree.ptr_node, insert_descend, hz.get_root, ok_bind, Tree.cell]
      have hca := hz.sub.1
      have han : a ≠ h.next := Nat.ne_of_lt (hz.fresh a (by simp [Tree.addrs]))
      by_cases h1 : v < value
      · simp only [h1, if_true] at hd ⊢
        cases r with
        | nil =>
          simp only [Option.some.injEq, Prod.mk.injEq] at hd
          obtain ⟨rfl, rfl⟩ := hd
          simp [Heap.alloc, Heap.upd, Heap.get, Heap.set_cells, hca, han, Tree.cell,
            pure_eq_ok, ok_bind, Ne.symm han]
          refine ⟨rfl, (Zip.attach value (b - 1) hz.down_right rfl fun x => ?_).up_right⟩
          simp only [Heap.set_cells, Frame.cell, Tree.cell, Tree.ptr_nil]
          by_cases hx1 : x = a <;> by_cases hx2 : x = h.next <;> simp [hx1, hx2, han]
        | node rl ra rv rb rr =>
          simp only [Tree.ptr_node, reduceCtorEq, if_false]
          exact ihr _ k h q s hz.down_right (by simp) (by omega) hd
      · simp only [h1, if_false] at hd ⊢
        by_cases h2 : value < v
        · simp only [h2, if_true] at hd ⊢
          cases l with
          | nil =>
            simp only [Option.some.injEq, Prod.mk.injEq] at hd
            obtain ⟨rfl, rfl⟩ := hd
            simp [Heap.alloc, Heap.upd, Heap.get, Heap.set_cells, hca, han, Tree.cell,
              pure_eq_ok, ok_bind, Ne.symm han]
            refine ⟨rfl, (Zip.attach value (b + 1) hz.down_left rfl fun x => ?_).up_left⟩
            simp only [Heap.set_cells, Frame.cell, Tree.cell, Tree.ptr_nil]
            by_cases hx1 : x = a <;> by_cases hx2 : x = h.next <;> simp [hx1, hx2, han]
          | node ll la lv lb lr =>
            simp only [Tree.ptr_node, reduceCtorEq, if_false]
            exact ihl _ k h q s hz.down_left (by simp) (by omega) hd
        · simp [h2] at hd

theorem insert_descend_zip_none (value : α) (t : Tree α) :
    ∀ (p : List (Frame α)) (fuel : Nat) (h : Heap α) (nx : Nat),
      Zip h p t → t.height ≤ fuel → t ≠ .nil →
      Tree.insert_descend value nx t p = none →
      insert_descend value fuel h t.ptr = .ok none := by
  induction t with
  | nil => intro p fuel h nx _ _ hne; exact absurd rfl hne
  | node l a v b r ihl ihr =>
    intro p fuel h nx hz hf _ hd
    cases fuel with
    | zero => simp [Tree.height] at hf
    | succ k =>
      simp only [Tree.height] at hf
      unfold Tree.insert_descend at hd
      simp only [Tree.ptr_node, insert_descend, hz.get_root, ok_bind, Tree.cell]
      by_cases h1 : v < value
      · simp only [h1, if_true] at hd ⊢
        cases r with
        | nil => simp at hd
        | node rl ra rv rb rr =>
          simp only [Tree.ptr_node, reduceCtorEq, if_false]
          exact ihr _ k h nx hz.down_right (by omega) (by simp) hd
      · simp only [h1, if_false] at hd ⊢
        by_cases h2 : value < v
        · simp only [h2, if_true] at hd ⊢
          cases l with
          | nil => simp at hd
          | node ll la lv lb lr =>
            simp only [Tree.ptr_node, reduceCtorEq, if_false]
            exact ihl _ k h nx hz.down_left (by omega) (by simp) hd
        · simp [h2, pure_eq_ok]

omit [LinearOrder α] in
theorem Zip.sib_ptr_ne {h : Heap α} {p : List (Frame α)} {f : Frame α} {t : Tree α} {c : Nat}
    (hz : Zip h (f :: p) t) (hc : t.ptr = some c) : f.sib.ptr ≠ some c := by
  intro e
  have h1 := Tree.ptr_mem_addrs e
  have h2 := Tree.ptr_mem_addrs hc
  have hnd := hz.nodup
  simp only [pathAddrs, List.cons_append, List.append_assoc, List.nodup_cons, List.mem_append,
    not_or, List.nodup_append, List.disjoint_left] at hnd
  exact (hnd.2.2.2 h1).2 h2

omit [LinearOrder α] in
/-- The rebalance walk of `insert` on the heap computes `Tree.insert_walk`. -/
theorem insert_walk_zip (p : List (Frame α)) :
    ∀ (t t' : Tree α) (h : Heap α) (fuel : Nat) (root : Ptr),
      Zip h p t → Tree.insert_walk p t = some t' → p.length + 2 ≤ fuel →
      (p ≠ [] → root = (plug p t).ptr) →
      ∃ h', insert_walk fuel h root t.ptr = .ok (h', t'.ptr) ∧ h'.next = h.next ∧
        Whole h' t' := by
  induction p with
  | nil =>
    intro t t' h fuel root hz hw hf _
    obtain ⟨k, rfl⟩ : ∃ k, fuel = k + 2 := ⟨fuel - 2, by simp at hf; omega⟩
    simp only [Tree.insert_walk] at hw
    cases hr : t.apply_rotation with
    | none => simp [hr] at hw
    | some t1 =>
      cases t1 with
      | nil => simp [hr] at hw
      | node l1 a1 v1 b1 r1 =>
        simp only [hr, Option.some.injEq] at hw
        subst hw
        cases t with
        | nil => simp [Tree.apply_rotation] at hr
        | node l a v b r =>
          obtain ⟨h1, a', e, hp', n, z⟩ := apply_rotation_zip hz rfl hr
          simp only [Tree.ptr_node, Option.some.injEq] at hp'
          subst hp'
          refine ⟨h1, ?_, n, whole_plug.2 z⟩
          simp only [Tree.ptr_node, insert_walk, e, ok_bind, z.get_root, Tree.cell, pathPtr,
            if_true, pure_eq_ok]
          by_cases hb : b1 = 0
          · simp [hb]
          · simp [hb, ok_bind]
  | cons f q ih =>
    intro t t' h fuel root hz hw hf hroot
    obtain ⟨k, rfl⟩ : ∃ k, fuel = k + 1 := ⟨fuel - 1, by simp at hf; omega⟩
    simp only [Tree.insert_walk] at hw
    cases hr : t.apply_rotation with
    | none => simp [hr] at hw
    | some t1 =>
      cases t1 with
      | nil => simp [hr] at hw
      | node l1 a1 v1 b1 r1 =>
        simp only [hr] at hw
        cases t with
        | nil => simp [Tree.apply_rotation] at hr
        | node l a v b r =>
          obtain ⟨h1, a', e, hp', n, z⟩ := apply_rotation_zip hz rfl hr
          simp only [Tree.ptr_node, Option.some.injEq] at hp'
          subst hp'
          have hroot' := hroot (by simp)
          simp only [Tree.ptr_node, insert_walk, e, ok_bind, z.get_root, Tree.cell, pathPtr,
            reduceCtorEq, if_false, pure_eq_ok]
          by_cases hb : b1 = 0
          · simp only [hb, if_true, Option.some.injEq] at hw ⊢
            subst hw
            refine ⟨h1, ?_, n, whole_plug.2 (hb ▸ z)⟩
            rw [hroot']
            exact congrArg _ (congrArg _ (plug_ptr_cons f q _ _))
          · simp only [hb, if_false] at hw ⊢
            have zu := Zip.up.1 z
            have hsib := z.sib_ptr_ne rfl
            obtain ⟨fd, fa, fv, fb, fs⟩ := f
            cases fd
            · -- `current` is the left child of its parent
              obtain ⟨h2, e2, n2, z2⟩ :=
                zu.upd_root (fun m => { m with balance := m.balance + 1 }) fv (fb + 1) rfl
              have hg : (h1.get (some fa)) = .ok (Tree.cell (.node l1 a1 v1 b1 r1) fv fb fs
                  (pathPtr q)) := zu.get_root
              simp only [ne_eq, not_false_eq_true, if_true, reduceCtorEq, hg, ok_bind, Tree.cell,
                Tree.ptr_node, e2]
              obtain ⟨h3, e3, n3, w3⟩ := ih _ t' h2 k root z2 hw (by simp at hf ⊢; omega)
                (by
                  intro hq
                  rw [hroot']
                  obtain ⟨g, q', rfl⟩ := List.exists_cons_of_ne_nil hq
                  exact plug_ptr_cons g q' _ _)
              exact ⟨h3, e3, by rw [n3, n2, n], w3⟩
            · -- `current` is the right child of its parent
              obtain ⟨h2, e2, n2, z2⟩ :=
                zu.upd_root (fun m => { m with balance := m.balance - 1 }) fv (fb - 1) rfl
              have hg : (h1.get (some fa)) = .ok (Tree.cell fs fv fb (.node l1 a1 v1 b1 r1)
                  (pathPtr q)) := zu.get_root
              have hsib' : ¬ (some a1 = fs.ptr) := fun e => hsib e.symm
              simp only [ne_eq, not_false_eq_true, if_true, reduceCtorEq, hg, ok_bind, Tree.cell,
                Tree.ptr_node, e2, hsib', if_false]
              obtain ⟨h3, e3, n3, w3⟩ := ih _ t' h2 k root z2 hw (by simp at hf ⊢; omega)
                (by
                  intro hq
                  rw [hroot']
                  obtain ⟨g, q', rfl⟩ := List.exists_cons_of_ne_nil hq
                  exact plug_ptr_cons g q' _ _)
              exact ⟨h3, e3, by rw [n3, n2, n], w3⟩

omit [LinearOrder α] in
theorem Tree.addrs_ne_nil {t : Tree α} (h : t ≠ .nil) : t.addrs ≠ [] := by
  cases t with
  | nil => exact absurd rfl h
  | node l a v b r => simp [Tree.addrs]

omit [LinearOrder α] in
theorem Tree.rightmost_snd (t : Tree α) :
    ∀ p : List (Frame α), t ≠ .nil → (Tree.rightmost t p).2.ptr = t.addrs.getLast? := by
  induction t with
  | nil => intro p hne; exact absurd rfl hne
  | node l a v b r _ ihr =>
    intro p _
    cases r with
    | nil => simp [Tree.rightmost, Tree.addrs]
    | node rl ra rv rb rr =>
      unfold Tree.rightmost
      rw [ihr _ (by simp)]
      have e : (Tree.node l a v b (.node rl ra rv rb rr)).addrs =
          (l.addrs ++ [a]) ++ (Tree.node rl ra rv rb rr).addrs := by simp [Tree.addrs]
      rw [e, List.getLast?_append_of_ne_nil _ (Tree.addrs_ne_nil (by simp))]

omit [LinearOrder α] in
theorem Tree.leftmost_snd (t : Tree α) :
    ∀ p : List (Frame α), t ≠ .nil → (Tree.leftmost t p).2.ptr = t.addrs.head? := by
  induction t with
  | nil => intro p hne; exact absurd rfl hne
  | node l a v b r ihl _ =>
    intro p _
    cases l with
    | nil => simp [Tree.leftmost, Tree.addrs]
    | node ll la lv lb lr =>
      unfold Tree.leftmost
      rw [ihl _ (by simp)]
      have hne := Tree.addrs_ne_nil (t := Tree.node ll la lv lb lr) (by simp)
      simp only [Tree.addrs] at hne ⊢
      rw [List.head?_append_of_ne_nil _ hne]

omit [LinearOrder α] in
/-- The loop that follows `right` links ends at the last node. -/
theorem rightmost_loop_rep {h : Heap α} (t : Tree α) :
    ∀ (par : Ptr) (fuel : Nat) (p : List (Frame α)), Rep h.cells par t → t ≠ .nil →
      t.height ≤ fuel → rightmost_loop h fuel t.ptr = .ok (Tree.rightmost t p).2.ptr := by
  induction t with
  | nil => intro par fuel p _ hne; exact absurd rfl hne
  | node l a v b r _ ihr =>
    intro par fuel p hr _ hf
    cases fuel with
    | zero => simp [Tree.height] at hf
    | succ k =>
      simp only [Tree.height] at hf
      simp only [Tree.ptr_node, rightmost_loop, Heap.get_some _ _ _ hr.1, ok_bind, Tree.cell]
      cases r with
      | nil => simp [Tree.rightmost, pure_eq_ok]
      | node rl ra rv rb rr =>
        simp only [Tree.ptr_node, ne_eq, reduceCtorEq, not_false_eq_true, if_true]
        unfold Tree.rightmost
        exact ihr _ k _ hr.2.2 (by simp) (by omega)

omit [LinearOrder α] in
/-- The loop that follows `left` links ends at the first node. -/
theorem leftmost_loop_rep {h : Heap α} (t : Tree α) :
    ∀ (par : Ptr) (fuel : Nat) (p : List (Frame α)), Rep h.cells par t → t ≠ .nil →
      t.height ≤ fuel → leftmost_loop h fuel t.ptr = .ok (Tree.leftmost t p).2.ptr := by
  induction t with
  | nil => intro par fuel p _ hne; exact absurd rfl hne
  | node l a v b r ihl _ =>
    intro par fuel p hr _ hf
    cases fuel with
    | zero => simp [Tree.height] at hf
    | succ k =>
      simp only [Tree.height] at hf
      simp only [Tree.ptr_node, leftmost_loop, Heap.get_some _ _ _ hr.1, ok_bind, Tree.cell]
      cases l with
      | nil => simp [Tree.leftmost, pure_eq_ok]
      | node ll la lv lb lr =>
        simp only [Tree.ptr_node, ne_eq, reduceCtorEq, not_false_eq_true, if_true]
        unfold Tree.leftmost
        exact ihl _ k _ hr.2.1 (by simp) (by omega)

omit [LinearOrder α] in
/-- `update_edge_nodes` caches the first and the last node. -/
theorem update_edge_nodes_models (s : Set α) (t : Tree α) (fuel : Nat)
    (hw : Whole s.heap t) (hroot : s._root = t.ptr) (hsize : s._size = t.size)
    (hf : t.height ≤ fuel) :
    ∃ s', s.update_edge_nodes fuel = .ok s' ∧ Models s' t ∧ s'.heap = s.heap := by
  cases t with
  | nil =>
    refine ⟨{ s with _begin_node := none, _last_node := none }, ?_, ⟨hw, hroot, rfl, rfl, hsize⟩,
      rfl⟩
    simp only [Tree.ptr_nil] at hroot
    simp [Set.update_edge_nodes, hroot, pure_eq_ok]
  | node l a v b r =>
    have h1 := leftmost_loop_rep (h := s.heap) (.node l a v b r) none fuel [] hw.rep (by simp) hf
    have h2 := rightmost_loop_rep (h := s.heap) (.node l a v b r) none fuel [] hw.rep (by simp) hf
    rw [Tree.leftmost_snd _ _ (by simp)] at h1
    rw [Tree.rightmost_snd _ _ (by simp)] at h2
    simp only [Tree.ptr_node] at hroot h1 h2
    refine ⟨{ s with _begin_node := (Tree.node l a v b r).addrs.head?,
                     _last_node := (Tree.node l a v b r).addrs.getLast? }, ?_,
      ⟨hw, hroot, rfl, rfl, hsize⟩, rfl⟩
    simp [Set.update_edge_nodes, hroot, h1, h2, ok_bind, pure_eq_ok]

omit [LinearOrder α] in
theorem plug_ptr_congr (p : List (Frame α)) {t t' : Tree α} (h : t.ptr = t'.ptr) :
    (plug p t).ptr = (plug p t').ptr := by
  cases p with
  | nil => exact h
  | cons f q => exact plug_ptr_cons f q t t'

theorem Tree.insert_descend_path (value : α) (nx : Nat) (t : Tree α) :
    ∀ (p q : List (Frame α)) (s : Tree α), t ≠ .nil →
      Tree.insert_descend value nx t p = some (q, s) →
      q.length + 1 ≤ p.length + t.height ∧ (plug q s).ptr = (plug p t).ptr ∧ s ≠ .nil := by
  induction t with
  | nil => intro p q s hne; exact absurd rfl hne
  | node l a v b r ihl ihr =>
    intro p q s _ hd
    unfold Tree.insert_descend at hd
    simp only [Tree.height]
    by_cases h1 : v < value
    · simp only [h1, if_true] at hd
      cases r with
      | nil =>
        simp only [Option.some.injEq, Prod.mk.injEq] at hd
        obtain ⟨rfl, rfl⟩ := hd
        exact ⟨by omega, plug_ptr_congr _ rfl, by simp⟩
      | node rl ra rv rb rr =>
        obtain ⟨i1, i2, i3⟩ := ihr _ q s (by simp) hd
        refine ⟨?_, i2, i3⟩
        simp only [List.length_cons] at i1
        omega
    · simp only [h1, if_false] at hd
      by_cases h2 : value < v
      · simp only [h2, if_true] at hd
        cases l with
        | nil =>
          simp only [Option.some.injEq, Prod.mk.injEq] at hd
          obtain ⟨rfl, rfl⟩ := hd
          exact ⟨by omega, plug_ptr_congr _ rfl, by simp⟩
        | node ll la lv lb lr =>
          obtain ⟨i1, i2, i3⟩ := ihl _ q s (by simp) hd
          refine ⟨?_, i2, i3⟩
          simp only [List.length_cons] at i1
          omega
      · simp [h2] at hd

/-- `Set::insert` of a value that is already stored returns at once. -/
theorem insert_models_dup {s : Set α} {t : Tree α} {fuel : Nat} (value : α) (nx : Nat)
    (hm : Models s t) (hne : t ≠ .nil) (hf : t.height ≤ fuel)
    (hd : Tree.insert_descend value nx t [] = none) :
    Set.insert fuel s value = .ok s := by
  have hz : Zip s.heap [] t := whole_plug.1 hm.whole
  have e := insert_descend_zip_none value t [] fuel s.heap nx hz hf hne hd
  have hr : s._root ≠ none := by
    rw [hm.root]; intro e'; exact hne (Tree.ptr_eq_none.1 e')
  simp only [Set.insert, hr, if_false]
  rw [hm.root, e]
  rfl

/-- `Set::insert` of a new value computes `Tree.insert`. -/
theorem insert_models_new {s : Set α} {t t' : Tree α} {fuel : Nat} (value : α)
    (hm : Models s t) (hf : t.height + 2 ≤ fuel) (hf' : t'.height ≤ fuel)
    (hsize : t'.size = t.size + 1)
    (hnew : t = .nil ∨ Tree.insert_descend value s.heap.next t [] ≠ none)
    (hi : Tree.insert value s.heap.next t = some t') :
    ∃ s', Set.insert fuel s value = .ok s' ∧ Models s' t' ∧
      s'.heap.next = s.heap.next + 1 := by
  cases t with
  | nil =>
    simp only [Tree.insert, Option.some.injEq] at hi
    subst hi
    have hr : s._root = none := hm.root
    refine ⟨_, by simp only [Set.insert, hr, if_true]; rfl, ⟨⟨?_, ?_, ?_⟩, rfl, rfl, rfl, ?_⟩, rfl⟩
    · exact ⟨by simp [Heap.alloc, Tree.cell], trivial, trivial⟩
    · simp [Tree.leaf, Tree.addrs]
    · simp [Tree.leaf, Tree.addrs, Heap.alloc]
    · simp [hm.size, Tree.size, Tree.leaf]
  | node l a v b r =>
    have hz : Zip s.heap [] (.node l a v b r) := whole_plug.1 hm.whole
    have hr : s._root ≠ none := by rw [hm.root]; simp
    simp only [Tree.insert] at hi
    cases hd : Tree.insert_descend value s.heap.next (.node l a v b r) [] with
    | none =>
      rcases hnew with hnew | hnew
      · simp at hnew
      · exact absurd hd hnew
    | some qs =>
      obtain ⟨q, sub⟩ := qs
      simp only [hd] at hi
      obtain ⟨h1, e1, n1, z1⟩ := insert_descend_zip_some value _ [] fuel s.heap q sub hz (by simp)
        (by omega) hd
      obtain ⟨i1, i2, -⟩ := Tree.insert_descend_path value _ _ [] q sub (by simp) hd
      have hq : q.length + 2 ≤ fuel := by
        simp only [List.length_nil] at i1
        omega
      have hroot : q ≠ [] → s._root = (plug q sub).ptr := by
        intro _
        rw [i2, hm.root]
        rfl
      obtain ⟨h2, e2, n2, w2⟩ := insert_walk_zip q sub t' h1 fuel s._root z1 hi hq hroot
      obtain ⟨s3, e3, m3, hh3⟩ := update_edge_nodes_models
        { s with heap := h2, _root := t'.ptr, _size := s._size + 1 } t' fuel
        w2 rfl (by simp [hm.size, hsize]) hf'
      refine ⟨s3, ?_, m3, by rw [hh3]; simp [n2, n1]⟩
      simp only [Set.insert, hr, if_false]
      rw [hm.root, e1]
      simp only [ok_bind]
      rw [← hm.root, e2]
      exact e3

end InsertHeap

/-! ## The operations on trees keep the invariants -/

section TreeFacts

variable {α : Type}

theorem Tree.height_le_size (t : Tree α) : t.height ≤ t.size := by
  induction t with
  | nil => simp [Tree.height]
  | node l a v b r ihl ihr => simp only [Tree.height, Tree.size]; omega

theorem Tree.entries_length (t : Tree α) : t.entries.length = t.size := by
  rw [← Tree.addrs_length, ← Tree.entries_fst, List.length_map]

theorem apply_rotation_entries {t t' : Tree α} (h : t.apply_rotation = some t') :
    t'.entries = t.entries ∧ t' ≠ .nil := by
  cases t with
  | nil => simp [Tree.apply_rotation] at h
  | node l a v b r =>
    simp only [Tree.apply_rotation] at h
    split_ifs at h with h1 h2
    · cases r with
      | nil => simp at h
      | node rl ra rv rb rr =>
        simp only at h
        split_ifs at h with h3
        · simp only [Tree.rotate_left, Option.some.injEq] at h
          subst h
          simp [Tree.entries]
        · cases rl with
          | nil => simp [Tree.big_rotate_left] at h
          | node rll c cv cb rlr =>
            simp only [Tree.big_rotate_left, Option.some.injEq] at h
            subst h
            simp [Tree.entries]
    · cases l with
      | nil => simp at h
      | node ll la lv lb lr =>
        simp only at h
        split_ifs at h with h3
        · simp only [Tree.rotate_right, Option.some.injEq] at h
          subst h
          simp [Tree.entries]
        · cases lr with
          | nil => simp [Tree.big_rotate_right] at h
          | node lrl c cv cb lrr =>
            simp only [Tree.big_rotate_right, Option.some.injEq] at h
            subst h
            simp [Tree.entries]
    · simp only [Option.some.injEq] at h
      subst h
      simp

theorem avl_plug (p : List (Frame α)) (t : Tree α) :
    (plug p t).Avl ↔ t.Avl ∧ PathAvl p t.height := by
  induction p generalizing t with
  | nil => simp [plug, PathAvl]
  | cons f p ih =>
    obtain ⟨d, a, v, b, sib⟩ := f
    cases d
    · simp only [plug, ih, Frame.fill, Tree.Avl, Tree.height, PathAvl]
      constructor
      · rintro ⟨⟨h1, h2, h3, h4, h5⟩, h6⟩
        exact ⟨h4, h5, h2, h3, h6⟩
      · rintro ⟨h4, h5, h2, h3, h6⟩
        exact ⟨⟨by omega, h2, h3, h4, h5⟩, h6⟩
    · simp only [plug, ih, Frame.fill, Tree.Avl, Tree.height, PathAvl]
      constructor
      · rintro ⟨⟨h1, h2, h3, h4, h5⟩, h6⟩
        exact ⟨h5, h4, h2, h3, by rwa [max_comm]⟩
      · rintro ⟨h4, h5, h2, h3, h6⟩
        exact ⟨⟨by omega, h2, h3, h5, h4⟩, by rwa [max_comm]⟩

/-- What `apply_rotation` does to a node whose subtrees are AVL and whose
    stored balance is its actual height difference, in `[-2, 2]`: nothing
    when the balance is in `[-1, 1]`; otherwise an AVL tree, one level lower
    with root balance 0 when the heavy child was not balanced evenly, and of
    the same height with root balance `±1` when it was. -/
theorem apply_rotation_avl {l r : Tree α} {a : Nat} {v : α} {b : Int}
    (hl : l.Avl) (hr : r.Avl) (hb : b = (l.height : Int) - (r.height : Int))
    (hrange : -2 ≤ b ∧ b ≤ 2) :
    ∃ t1, (Tree.node l a v b r).apply_rotation = some t1 ∧ t1.Avl ∧ t1 ≠ .nil ∧
      (((-1 ≤ b ∧ b ≤ 1) ∧ t1 = .node l a v b r) ∨
        ((b = -2 ∧ r.bal ≠ 0 ∨ b = 2 ∧ l.bal ≠ 0) ∧ t1.bal = 0 ∧
          t1.height + 1 = (Tree.node l a v b r).height) ∨
        ((b = -2 ∧ r.bal = 0 ∨ b = 2 ∧ l.bal = 0) ∧ (t1.bal = 1 ∨ t1.bal = -1) ∧
          t1.height = (Tree.node l a v b r).height)) := by
  by_cases h1 : b = -2
  · subst h1
    cases r with
    | nil => simp only [Tree.height] at hb; omega
    | node rl ra rv rb rr =>
      obtain ⟨hr1, hr2, hr3, hr4, hr5⟩ := hr
      simp only [Tree.height] at hb hr1 hr2
      by_cases h3 : rb ≤ 0
      · refine ⟨.node (.node l a v (if rb = 0 then -1 else 0) rl) ra rv (if rb = 0 then 1 else 0) rr,
          by simp [Tree.apply_rotation, h3, Tree.rotate_left], ?_, by simp, ?_⟩
        · by_cases h4 : rb = 0
          · simp only [h4, if_true, Tree.Avl, Tree.height]
            refine ⟨by omega, by omega, by omega, ⟨by omega, by omega, by omega, hl, hr4⟩, hr5⟩
          · simp only [h4, if_false, Tree.Avl, Tree.height]
            refine ⟨by omega, by omega, by omega, ⟨by omega, by omega, by omega, hl, hr4⟩, hr5⟩
        · by_cases h4 : rb = 0
          · right; right
            refine ⟨Or.inl ⟨rfl, h4⟩, Or.inl (by simp [Tree.bal, h4]), ?_⟩
            simp only [Tree.height]; omega
          · right; left
            refine ⟨Or.inl ⟨rfl, h4⟩, by simp [Tree.bal, h4], ?_⟩
            simp only [Tree.height]; omega
      · have hrb : rb = 1 := by omega
        subst hrb
        cases rl with
        | nil => simp only [Tree.height] at hr2; omega
        | node rll c cv cb rlr =>
          obtain ⟨hc1, hc2, hc3, hc4, hc5⟩ := hr4
          simp only [Tree.height] at hb hr1 hr2 hc1 hc2
          refine ⟨.node (.node l a v (if cb = -1 then 1 else 0) rll) c cv 0
              (.node rlr ra rv (if cb = 1 then -1 else 0) rr),
            by simp [Tree.apply_rotation, Tree.big_rotate_left], ?_, by simp, ?_⟩
          · simp only [Tree.Avl, Tree.height]
            refine ⟨by omega, by omega, by omega, ⟨by omega, ?_, ?_, hl, hc4⟩,
              ⟨by omega, ?_, ?_, hc5, hr5⟩⟩
            · split_ifs <;> omega
            · split_ifs <;> omega
            · split_ifs <;> omega
            · split_ifs <;> omega
          · right; left
            refine ⟨Or.inl ⟨rfl, by simp [Tree.bal]⟩, rfl, ?_⟩
            simp only [Tree.height]; omega
  · by_cases h2 : b = 2
    · subst h2
      cases l with
      | nil => simp only [Tree.height] at hb; omega
      | node ll la lv lb lr =>
        obtain ⟨hl1, hl2, hl3, hl4, hl5⟩ := hl
        simp only [Tree.height] at hb hl1 hl2
        by_cases h3 : lb ≥ 0
        · refine ⟨.node ll la lv (if lb = 0 then -1 else 0)
              (.node lr a v (if lb = 0 then 1 else 0) r),
            by simp [Tree.apply_rotation, h3, Tree.rotate_right], ?_, by simp, ?_⟩
          · by_cases h4 : lb = 0
            · simp only [h4, if_true, Tree.Avl, Tree.height]
              refine ⟨by omega, by omega, by omega, hl4, ⟨by omega, by omega, by omega, hl5, hr⟩⟩
            · simp only [h4, if_false, Tree.Avl, Tree.height]
              refine ⟨by omega, by omega, by omega, hl4, ⟨by omega, by omega, by omega, hl5, hr⟩⟩
          · by_cases h4 : lb = 0
            · right; right
              refine ⟨Or.inr ⟨rfl, h4⟩, Or.inr (by simp [Tree.bal, h4]), ?_⟩
              simp only [Tree.height]; omega
            · right; left
              refine ⟨Or.inr ⟨rfl, h4⟩, by simp [Tree.bal, h4], ?_⟩
              simp only [Tree.height]; omega
        · have hlb : lb = -1 := by omega
          subst hlb
          cases lr with
          | nil => simp only [Tree.height] at hl2; omega
          | node lrl c cv cb lrr =>
            obtain ⟨hc1, hc2, hc3, hc4, hc5⟩ := hl5
            simp only [Tree.height] at hb hl1 hl2 hc1 hc2
            refine ⟨.node (.node ll la lv (if cb = -1 then 1 else 0) lrl) c cv 0
                (.node lrr a v (if cb = 1 then -1 else 0) r),
              by simp [Tree.apply_rotation, Tree.big_rotate_right], ?_, by simp, ?_⟩
            · simp only [Tree.Avl, Tree.height]
              refine ⟨by omega, by omega, by omega, ⟨by omega, ?_, ?_, hl4, hc4⟩,
                ⟨by omega, ?_, ?_, hc5, hr⟩⟩
              · split_ifs <;> omega
              · split_ifs <;> omega
              · split_ifs <;> omega
              · split_ifs <;> omega
            · right; left
              refine ⟨Or.inr ⟨rfl, by simp [Tree.bal]⟩, rfl, ?_⟩
              simp only [Tree.height]; omega
    · refine ⟨.node l a v b r, by simp [Tree.apply_rotation, h1, h2], ?_, by simp,
        Or.inl ⟨by omega, rfl⟩⟩
      exact ⟨by omega, hb, by omega, hl, hr⟩

/-! ### The rebalance walk of `insert` -/

theorem insert_walk_nil_eq {t t1 : Tree α} (h : t.apply_rotation = some t1) (hne : t1 ≠ .nil) :
    Tree.insert_walk [] t = some t1 := by
  cases t1 with
  | nil => exact absurd rfl hne
  | node l a v b r => simp [Tree.insert_walk, h]

theorem insert_walk_cons_eq {t t1 : Tree α} (f : Frame α) (q : List (Frame α))
    (h : t.apply_rotation = some t1) (hne : t1 ≠ .nil) :
    Tree.insert_walk (f :: q) t =
      if t1.bal = 0 then some (plug (f :: q) t1) else Tree.insert_walk q (f.grown.fill t1) := by
  cases t1 with
  | nil => exact absurd rfl hne
  | node l a v b r => simp [Tree.insert_walk, h, Tree.bal]

theorem insert_walk_rot {p : List (Frame α)} {t t' : Tree α}
    (h : Tree.insert_walk p t = some t') : ∃ t1, t.apply_rotation = some t1 ∧ t1 ≠ .nil := by
  cases hr : t.apply_rotation with
  | none => cases p <;> simp [Tree.insert_walk, hr] at h
  | some t1 =>
    cases t1 with
    | nil => cases p <;> simp [Tree.insert_walk, hr] at h
    | node l a v b r => exact ⟨_, rfl, by simp⟩

theorem Frame.grown_fill_entries (f : Frame α) (t : Tree α) :
    (f.grown.fill t).entries = (f.fill t).entries := by
  obtain ⟨d, a, v, b, sib⟩ := f
  cases d <;> rfl

theorem Frame.shrunk_fill_entries (f : Frame α) (t : Tree α) :
    (f.shrunk.fill t).entries = (f.fill t).entries := by
  obtain ⟨d, a, v, b, sib⟩ := f
  cases d <;> rfl

theorem plug_entries_congr (p : List (Frame α)) {t t' : Tree α} (h : t'.entries = t.entries) :
    (plug p t').entries = (plug p t).entries := by
  rw [plug_entries, plug_entries, h]

/-- The rebalance walk of `insert` keeps the in-order sequence of nodes. -/
theorem insert_walk_entries (p : List (Frame α)) :
    ∀ t t' : Tree α, Tree.insert_walk p t = some t' → t'.entries = (plug p t).entries := by
  induction p with
  | nil =>
    intro t t' hw
    obtain ⟨t1, hr, hne⟩ := insert_walk_rot hw
    rw [insert_walk_nil_eq hr hne] at hw
    cases hw
    exact (apply_rotation_entries hr).1
  | cons f q ih =>
    intro t t' hw
    obtain ⟨t1, hr, hne⟩ := insert_walk_rot hw
    rw [insert_walk_cons_eq f q hr hne] at hw
    have he := (apply_rotation_entries hr).1
    split_ifs at hw with hb
    · cases hw
      exact plug_entries_congr _ he
    · rw [ih _ _ hw]
      show (plug q (f.grown.fill t1)).entries = (plug q (f.fill t)).entries
      refine plug_entries_congr q ?_
      rw [Frame.grown_fill_entries]
      exact plug_entries_congr [f] he

/-- The rebalance walk of `insert` restores the AVL invariant.  At the head
    of the loop the subtrees of `current` are AVL and its stored balance is
    exact; either the balance is 0 and the subtree is as high as before the
    insertion, or it is not 0, the subtree is one higher, and a balance of
    `±2` comes with a heavy child that is not evenly balanced. -/
theorem insert_walk_avl (p : List (Frame α)) :
    ∀ (l r : Tree α) (a : Nat) (v : α) (b : Int) (n : Nat),
      PathAvl p n → l.Avl → r.Avl → b = (l.height : Int) - (r.height : Int) →
      (b = 0 ∧ (Tree.node l a v b r).height = n ∨
        b ≠ 0 ∧ (-2 ≤ b ∧ b ≤ 2) ∧ (Tree.node l a v b r).height = n + 1 ∧
          (b = -2 → r.bal ≠ 0) ∧ (b = 2 → l.bal ≠ 0)) →
      ∃ t', Tree.insert_walk p (.node l a v b r) = some t' ∧ t'.Avl := by
  induction p with
  | nil =>
    intro l r a v b n _ hl hr hb hinv
    obtain ⟨t1, e, ha, hne, -⟩ := apply_rotation_avl (a := a) (v := v) hl hr hb (by omega)
    exact ⟨t1, insert_walk_nil_eq e hne, ha⟩
  | cons f q ih =>
    intro l r a v b n hp hl hr hb hinv
    obtain ⟨t1, e, ha, hne, hcase⟩ := apply_rotation_avl (a := a) (v := v) hl hr hb (by omega)
    rw [insert_walk_cons_eq f q e hne]
    have hstop : t1.height = n → (plug (f :: q) t1).Avl := by
      intro hh
      exact (avl_plug _ _).2 ⟨ha, hh ▸ hp⟩
    rcases hcase with ⟨hr1, rfl⟩ | ⟨hh, hb1, hht⟩ | ⟨hh, -, -⟩
    · -- no rotation
      by_cases hb0 : b = 0
      · simp only [Tree.bal, hb0, if_true]
        refine ⟨_, rfl, ?_⟩
        rw [← hb0]
        exact hstop (by omega)
      · simp only [Tree.bal, hb0, if_false]
        have hn : (Tree.node l a v b r).height = n + 1 := by omega
        obtain ⟨d, fa, fv, fb, sib⟩ := f
        obtain ⟨hs, hfb, hfr, hq⟩ := hp
        cases d
        · simp only at hfb hfr hq hs
          show ∃ t', Tree.insert_walk q (.node (.node l a v b r) fa fv (fb + 1) sib) = some t' ∧
            t'.Avl
          refine ih _ _ fa fv (fb + 1) _ hq ha hs ?_ ?_
          · rw [hn]; push_cast; omega
          · simp only [Tree.height] at hn ⊢
            simp only [Tree.bal]
            omega
        · simp only at hfb hfr hq hs
          show ∃ t', Tree.insert_walk q (.node sib fa fv (fb - 1) (.node l a v b r)) = some t' ∧
            t'.Avl
          refine ih _ _ fa fv (fb - 1) _ hq hs ha ?_ ?_
          · rw [hn]; push_cast; omega
          · simp only [Tree.height] at hn ⊢
            simp only [Tree.bal]
            omega
    · -- a rotation that lowers the subtree back to its old height
      simp only [hb1, if_true]
      exact ⟨_, rfl, hstop (by omega)⟩
    · omega

end TreeFacts

/-! ## `Tree.insert`: order, content and balance -/

section InsertSpec

variable {α : Type}

theorem Tree.avl_leaf (a : Nat) (v : α) : (Tree.leaf a v).Avl := by
  simp [Tree.leaf, Tree.Avl, Tree.height]

theorem Tree.mem_entries_inorder {t : Tree α} {x : Nat × α} (h : x ∈ t.entries) :
    x.2 ∈ t.inorder := by
  rw [← Tree.entries_snd]
  exact List.mem_map_of_mem _ h

theorem Tree.ordered_iff_sorted [Preorder α] (t : Tree α) :
    t.Ordered ↔ t.inorder.Pairwise (· < ·) := by
  induction t with
  | nil => simp [Tree.Ordered, Tree.inorder]
  | node l a v b r ihl ihr =>
    simp only [Tree.Ordered, Tree.inorder, List.pairwise_append, List.pairwise_cons, ihl, ihr,
      List.mem_cons]
    constructor
    · rintro ⟨h1, h2, h3, h4⟩
      refine ⟨h3, ⟨h2, h4⟩, ?_⟩
      intro x hx y hy
      rcases hy with rfl | hy
      · exact h1 x hx
      · exact lt_trans (h1 x hx) (h2 y hy)
    · rintro ⟨h3, ⟨h2, h4⟩, h5⟩
      exact ⟨fun x hx => h5 x hx v (Or.inl rfl), h2, h3, h4⟩

variable [LinearOrder α]

/-- The descent of `insert` stops with `none` only at a node that holds the
    value. -/
theorem insert_descend_none_mem (value : α) (nx : Nat) (t : Tree α) :
    ∀ p : List (Frame α), Tree.insert_descend value nx t p = none → value ∈ t.inorder := by
  induction t with
  | nil => intro p h; simp [Tree.insert_descend] at h
  | node l a v b r ihl ihr =>
    intro p h
    unfold Tree.insert_descend at h
    simp only [Tree.inorder, List.mem_append, List.mem_cons]
    split_ifs at h with h1 h2
    · cases r with
      | nil => simp at h
      | node rl ra rv rb rr => exact Or.inr (Or.inr (ihr _ h))
    · cases l with
      | nil => simp at h
      | node ll la lv lb lr => exact Or.inl (ihl _ h)
    · exact Or.inr (Or.inl (le_antisymm (not_lt.1 h1) (not_lt.1 h2)))

/-- The descent of `insert` puts the new node at the sorted position. -/
theorem insert_descend_entries (value : α) (nx : Nat) (t : Tree α) :
    ∀ (p q : List (Frame α)) (s : Tree α), t ≠ .nil → t.Ordered →
      (∀ x ∈ pathBefore p, x.2 < value) → (∀ x ∈ pathAfter p, value < x.2) →
      Tree.insert_descend value nx t p = some (q, s) →
      ∃ L1 L2, (plug p t).entries = L1 ++ L2 ∧ (plug q s).entries = L1 ++ (nx, value) :: L2 ∧
        (∀ x ∈ L1, x.2 < value) ∧ (∀ x ∈ L2, value < x.2) := by
  induction t with
  | nil => intro p q s hne; exact absurd rfl hne
  | node l a v b r ihl ihr =>
    intro p q s _ ho hb ha hd
    obtain ⟨ho1, ho2, ho3, ho4⟩ := ho
    unfold Tree.insert_descend at hd
    split_ifs at hd with h1 h2
    · cases r with
      | nil =>
        simp only [Option.some.injEq, Prod.mk.injEq] at hd
        obtain ⟨rfl, rfl⟩ := hd
        refine ⟨pathBefore p ++ (l.entries ++ [(a, v)]), pathAfter p, ?_, ?_, ?_, ha⟩
        · simp [plug_entries, Tree.entries]
        · simp [plug_entries, Tree.entries, Tree.leaf]
        · intro x hx
          simp only [List.mem_append, List.mem_singleton] at hx
          rcases hx with hx | hx | rfl
          · exact hb x hx
          · exact lt_trans (ho1 _ (Tree.mem_entries_inorder hx)) h1
          · exact h1
      | node rl ra rv rb rr =>
        refine ihr _ q s (by simp) ho4 ?_ ?_ hd
        · intro x hx
          simp only [pathBefore, List.mem_append, List.mem_singleton] at hx
          rcases hx with hx | hx | rfl
          · exact hb x hx
          · exact lt_trans (ho1 _ (Tree.mem_entries_inorder hx)) h1
          · exact h1
        · intro x hx
          exact ha x hx
    · cases l with
      | nil =>
        simp only [Option.some.injEq, Prod.mk.injEq] at hd
        obtain ⟨rfl, rfl⟩ := hd
        refine ⟨pathBefore p, (a, v) :: r.entries ++ pathAfter p, ?_, ?_, hb, ?_⟩
        · simp [plug_entries, Tree.entries]
        · simp [plug_entries, Tree.entries, Tree.leaf]
        · intro x hx
          simp only [List.cons_append, List.mem_cons, List.mem_append] at hx
          rcases hx with rfl | hx | hx
          · exact h2
          · exact lt_trans h2 (ho2 _ (Tree.mem_entries_inorder hx))
          · exact ha x hx
      | node ll la lv lb lr =>
        refine ihl _ q s (by simp) ho3 ?_ ?_ hd
        · intro x hx
          exact hb x hx
        · intro x hx
          simp only [pathAfter, List.mem_cons, List.mem_append] at hx
          rcases hx with rfl | hx | hx
          · exact h2
          · exact lt_trans h2 (ho2 _ (Tree.mem_entries_inorder hx))
          · exact ha x hx

/-- The descent of `insert` leaves the walk in its starting state: see
    `insert_walk_avl`. -/
theorem insert_descend_avl (value : α) (nx : Nat) (t : Tree α) :
    ∀ (p q : List (Frame α)) (s : Tree α), t ≠ .nil → t.Avl → PathAvl p t.height →
      Tree.insert_descend value nx t p = some (q, s) →
      ∃ l a v b r n, s = .node l a v b r ∧ PathAvl q n ∧ l.Avl ∧ r.Avl ∧
        b = (l.height : Int) - (r.height : Int) ∧
        (b = 0 ∧ (Tree.node l a v b r).height = n ∨
          b ≠ 0 ∧ (-2 ≤ b ∧ b ≤ 2) ∧ (Tree.node l a v b r).height = n + 1 ∧
            (b = -2 → r.bal ≠ 0) ∧ (b = 2 → l.bal ≠ 0)) := by
  induction t with
  | nil => intro p q s hne; exact absurd rfl hne
  | node l a v b r ihl ihr =>
    intro p q s _ hav hp hd
    obtain ⟨h1, h2, h3, h4, h5⟩ := hav
    unfold Tree.insert_descend at hd
    split_ifs at hd with c1 c2
    · cases r with
      | nil =>
        simp only [Option.some.injEq, Prod.mk.injEq] at hd
        obtain ⟨rfl, rfl⟩ := hd
        refine ⟨l, a, v, b - 1, Tree.leaf nx value, _, rfl, hp, h4, Tree.avl_leaf _ _, ?_, ?_⟩
        · simp only [Tree.leaf, Tree.height] at h2 ⊢
          omega
        · simp only [Tree.leaf, Tree.height] at h1 h2 ⊢
          omega
      | node rl ra rv rb rr =>
        refine ihr _ q s (by simp) h5 ?_ hd
        refine ⟨h4, ?_, h3, ?_⟩
        · exact h2
        · simpa [max_comm] using hp
    · cases l with
      | nil =>
        simp only [Option.some.injEq, Prod.mk.injEq] at hd
        obtain ⟨rfl, rfl⟩ := hd
        refine ⟨Tree.leaf nx value, a, v, b + 1, r, _, rfl, hp, Tree.avl_leaf _ _, h5, ?_, ?_⟩
        · simp only [Tree.leaf, Tree.height] at h2 ⊢
          omega
        · simp only [Tree.leaf, Tree.height] at h1 h2 ⊢
          omega
      | node ll la lv lb lr =>
        refine ihl _ q s (by simp) h4 ?_ hd
        exact ⟨h5, h2, h3, hp⟩

/-- `Tree.insert` on an ordered AVL tree: a value already stored leaves the
    tree alone; a new value gives an AVL tree whose in-order sequence of
    nodes is the old one with the new node at the sorted position. -/
theorem Tree.insert_spec (value : α) (nx : Nat) (t : Tree α) (ho : t.Ordered) (ha : t.Avl) :
    (value ∈ t.inorder ∧ t ≠ .nil ∧ Tree.insert_descend value nx t [] = none) ∨
    (value ∉ t.inorder ∧ (t = .nil ∨ Tree.insert_descend value nx t [] ≠ none) ∧
      ∃ t', Tree.insert value nx t = some t' ∧ t'.Avl ∧
        ∃ L1 L2, t.entries = L1 ++ L2 ∧ t'.entries = L1 ++ (nx, value) :: L2 ∧
          (∀ x ∈ L1, x.2 < value) ∧ (∀ x ∈ L2, value < x.2)) := by
  cases t with
  | nil =>
    right
    refine ⟨by simp [Tree.inorder], Or.inl rfl, Tree.leaf nx value, rfl, Tree.avl_leaf _ _,
      [], [], ?_⟩
    simp [Tree.entries, Tree.leaf]
  | node l a v b r =>
    cases hd : Tree.insert_descend value nx (.node l a v b r) [] with
    | none =>
      left
      exact ⟨insert_descend_none_mem value nx _ [] hd, by simp, rfl⟩
    | some qs =>
      obtain ⟨q, s⟩ := qs
      right
      obtain ⟨L1, L2, e1, e2, hL1, hL2⟩ := insert_descend_entries value nx _ [] q s (by simp) ho
        (by simp [pathBefore]) (by simp [pathAfter]) hd
      obtain ⟨l', a', v', b', r', n, rfl, hq, hl', hr', hb', hinv⟩ :=
        insert_descend_avl value nx _ [] q s (by simp) ha trivial hd
      obtain ⟨t', hw, hav⟩ := insert_walk_avl q l' r' a' v' b' n hq hl' hr' hb' hinv
      have hent := insert_walk_entries q _ _ hw
      refine ⟨?_, Or.inr (by simp), t', by simp only [Tree.insert, hd]; exact hw, hav, L1, L2,
        e1, by rw [hent, e2], hL1, hL2⟩
      intro hmem
      rw [← Tree.entries_snd] at hmem
      simp only [plug] at e1
      rw [e1, List.map_append, List.mem_append] at hmem
      rcases hmem with hm | hm
      · obtain ⟨x, hx, rfl⟩ := List.mem_map.1 hm
        exact lt_irrefl _ (hL1 x hx)
      · obtain ⟨x, hx, rfl⟩ := List.mem_map.1 hm
        exact lt_irrefl _ (hL2 x hx)

end InsertSpec

/-! ## `erase` on the heap computes `Tree.erase` -/

section EraseHeap

variable {α : Type}

/-- Freeing the leaf in focus and clearing its parent's link to it. -/
theorem Zip.detach {h h' : Heap α} {p : List (Frame α)} {f : Frame α} {a : Nat} {v : α}
    {b : Int} (b' : Int)
    (hz : Zip h (f :: p) (.node .nil a v b .nil)) (hn : h'.next = h.next)
    (hc : ∀ x, h'.cells x =
      if x = f.a then some (Frame.cell { f with b := b' } none (pathPtr p))
      else if x = a then none
      else h.cells x) :
    Zip h' ({ f with b := b' } :: p) .nil := by
  obtain ⟨hpath, -, hnd, hfr⟩ := hz
  simp only [Tree.addrs, List.nil_append, pathAddrs, List.nodup_cons, List.mem_append, not_or,
    List.nodup_append, List.disjoint_left, List.mem_cons, List.not_mem_nil, or_false,
    List.mem_singleton, List.cons_append, List.append_assoc] at hnd
  obtain ⟨⟨hfs, hfp, hfa⟩, hnds, ⟨hndp, -, hpa⟩, hsp⟩ := hnd
  simp only [Tree.addrs, List.nil_append, pathAddrs, List.mem_cons, List.mem_append,
    List.cons_append, List.append_assoc, List.mem_singleton, List.not_mem_nil, or_false] at hfr
  obtain ⟨h1, h2, h3⟩ := hpath
  refine ⟨⟨?_, ?_, ?_⟩, trivial, ?_, ?_⟩
  · rw [hc]; simp
  · refine h2.frame fun x hx => ?_
    have hx1 : x ≠ f.a := by rintro rfl; exact hfs hx
    have hx2 : x ≠ a := (hsp hx).2
    rw [hc]; simp [hx1, hx2]
  · refine h3.frame_path fun x hx => ?_
    have hx1 : x ≠ f.a := by rintro rfl; exact hfp hx
    have hx2 : x ≠ a := hpa hx
    rw [hc]; simp [hx1, hx2]
  · simp only [Tree.addrs, List.append_nil, pathAddrs, List.nodup_cons, List.mem_append, not_or,
      List.nodup_append, List.disjoint_left]
    exact ⟨⟨hfs, hfp⟩, hnds, hndp, fun x hx => (hsp hx).1⟩
  · intro x hx
    simp only [Tree.addrs, List.append_nil, pathAddrs, List.mem_cons, List.mem_append] at hx
    rw [hn]
    rcases hx with rfl | hx | hx
    · exact hfr _ (Or.inl rfl)
    · exact hfr _ (Or.inr (Or.inl hx))
    · exact hfr _ (Or.inr (Or.inr (Or.inl hx)))

theorem Tree.rightmost_plug (t : Tree α) :
    ∀ p : List (Frame α), plug (Tree.rightmost t p).1 (Tree.rightmost t p).2 = plug p t := by
  induction t with
  | nil => intro p; rfl
  | node l a v b r _ ihr =>
    intro p
    cases r with
    | nil => rfl
    | node rl ra rv rb rr =>
      unfold Tree.rightmost
      exact ihr _

theorem Tree.leftmost_plug (t : Tree α) :
    ∀ p : List (Frame α), plug (Tree.leftmost t p).1 (Tree.leftmost t p).2 = plug p t := by
  induction t with
  | nil => intro p; rfl
  | node l a v b r ihl _ =>
    intro p
    cases l with
    | nil => rfl
    | node ll la lv lb lr =>
      unfold Tree.leftmost
      exact ihl _

theorem Tree.rightmost_height (t : Tree α) :
    ∀ p : List (Frame α), (Tree.rightmost t p).2.height ≤ t.height := by
  induction t with
  | nil => intro p; simp [Tree.rightmost]
  | node l a v b r _ ihr =>
    intro p
    cases r with
    | nil => simp [Tree.rightmost]
    | node rl ra rv rb rr =>
      unfold Tree.rightmost
      have := ihr ({ dir := .R, a := a, v := v, b := b, sib := l } :: p)
      simp only [Tree.height] at this ⊢
      omega

theorem Tree.leftmost_height (t : Tree α) :
    ∀ p : List (Frame α), (Tree.leftmost t p).2.height ≤ t.height := by
  induction t with
  | nil => intro p; simp [Tree.leftmost]
  | node l a v b r ihl _ =>
    intro p
    cases l with
    | nil => simp [Tree.leftmost]
    | node ll la lv lb lr =>
      unfold Tree.leftmost
      have := ihl ({ dir := .L, a := a, v := v, b := b, sib := r } :: p)
      simp only [Tree.height] at this ⊢
      omega

/-- Moving the focus of a zipper down a path. -/
theorem Zip.focus {h : Heap α} {p q : List (Frame α)} {t : Tree α} :
    Zip h (q ++ p) t ↔ Zip h p (plug q t) := by
  rw [← whole_plug, ← whole_plug, plug_append]

theorem Heap.free_some (h : Heap α) (a : Nat) (n : Node α) (hc : h.cells a = some n) :
    h.free (some a) = .ok { h with cells := fun x => if x = a then none else h.cells x } := by
  simp [Heap.free, hc]

/-- `std::swap` of the values of a node and of a node below it. -/
theorem swap_values_zip {h : Heap α} {p q : List (Frame α)} {d : Dir} {a na : Nat}
    {v nv : α} {b nb : Int} {sib nl nr : Tree α}
    (hz : Zip h (q ++ { dir := d, a := a, v := v, b := b, sib := sib } :: p)
      (.node nl na nv nb nr)) :
    ∃ h', swap_values h (some a) (some na) = .ok h' ∧ h'.next = h.next ∧
      Zip h' (q ++ { dir := d, a := a, v := nv, b := b, sib := sib } :: p)
        (.node nl na v nb nr) := by
  have z0 : Zip h p (Frame.fill { dir := d, a := a, v := v, b := b, sib := sib }
      (plug q (.node nl na nv nb nr))) := Zip.up.1 (Zip.focus.1 hz)
  cases d
  · have hg : h.get (some a) = .ok (Tree.cell _ v b sib (pathPtr p)) := Zip.get_root z0
    obtain ⟨h1, e1, n1, z1⟩ := Zip.upd_root z0 (fun m => { m with value := nv }) nv b rfl
    have z1' : Zip h1 (q ++ { dir := .L, a := a, v := nv, b := b, sib := sib } :: p)
        (.node nl na nv nb nr) := Zip.focus.2 (Zip.up.2 z1)
    obtain ⟨h2, e2, n2, z2⟩ := z1'.upd_root (fun m => { m with value := v }) v nb rfl
    refine ⟨h2, ?_, by rw [n2, n1], z2⟩
    simp only [swap_values, hg, hz.get_root, ok_bind, Tree.cell, e1, e2]
  · have hg : h.get (some a) = .ok (Tree.cell sib v b _ (pathPtr p)) := Zip.get_root z0
    obtain ⟨h1, e1, n1, z1⟩ := Zip.upd_root z0 (fun m => { m with value := nv }) nv b rfl
    have z1' : Zip h1 (q ++ { dir := .R, a := a, v := nv, b := b, sib := sib } :: p)
        (.node nl na nv nb nr) := Zip.focus.2 (Zip.up.2 z1)
    obtain ⟨h2, e2, n2, z2⟩ := z1'.upd_root (fun m => { m with value := v }) v nb rfl
    refine ⟨h2, ?_, by rw [n2, n1], z2⟩
    simp only [swap_values, hg, hz.get_root, ok_bind, Tree.cell, e1, e2]

theorem plug_ptr_append (p q : List (Frame α)) (f g : Frame α) (t t' : Tree α)
    (hfg : f.a = g.a) : (plug (q ++ f :: p) t).ptr = (plug (g :: p) t').ptr := by
  rw [plug_append]
  simp only [plug]
  exact plug_ptr_congr p (by rw [Frame.fill_ptr, Frame.fill_ptr, hfg])

/-- The swap-and-detach loop of `erase` on the heap computes
    `Tree.erase_detach`. -/
theorem erase_detach_zip (fuel : Nat) :
    ∀ (p : List (Frame α)) (t : Tree α) (h : Heap α) (q : List (Frame α)) (s : Tree α),
      Zip h p t → t.height ≤ fuel → Tree.erase_detach fuel p t = some (q, s) →
      ∃ h', erase_detach fuel h (plug p t).ptr t.ptr = .ok (h', (plug q s).ptr, s.ptr) ∧
        h'.next = h.next ∧ Zip h' q s := by
  induction fuel with
  | zero => intro p t h q s _ _ hd; simp [Tree.erase_detach] at hd
  | succ k ih =>
    intro p t h q s hz hf hd
    cases t with
    | nil => simp [Tree.erase_detach] at hd
    | node l a v b r =>
      simp only [Tree.height] at hf
      simp only [Tree.ptr_node, erase_detach, hz.get_root, ok_bind, Tree.cell]
      cases l with
      | nil =>
        cases r with
        | nil =>
          -- a leaf: detach it
          simp only [Tree.ptr_nil, and_self, if_true]
          cases p with
          | nil =>
            simp only [Tree.erase_detach, Option.some.injEq, Prod.mk.injEq] at hd
            obtain ⟨rfl, rfl⟩ := hd
            simp only [pathPtr_nil, if_true, plug, Tree.ptr_node, Heap.free_some _ _ _ hz.sub.1,
              ok_bind, pure_eq_ok, Tree.ptr_nil]
            exact ⟨_, rfl, rfl, ⟨trivial, trivial, by simp [pathAddrs, Tree.addrs],
              by simp [pathAddrs, Tree.addrs]⟩⟩
          | cons f p' =>
            simp only [Tree.erase_detach, Option.some.injEq, Prod.mk.injEq] at hd
            obtain ⟨rfl, rfl⟩ := hd
            have hsib := hz.sib_ptr_ne rfl
            have hcf := hz.path.1
            have hca := hz.sub.1
            have hfa : f.a ≠ a := by
              have hnd := hz.nodup
              simp only [pathAddrs, Tree.addrs, List.nil_append, List.cons_append,
                List.nodup_cons, List.mem_append, List.mem_singleton, not_or] at hnd
              exact hnd.1.2
            have hroot : (plug (f :: p') (Tree.node .nil a v b .nil)).ptr =
                (plug p' (f.shrunk.fill .nil)).ptr := by
              simp only [plug]
              refine plug_ptr_congr p' ?_
              rw [Frame.fill_ptr, Frame.fill_ptr]
              obtain ⟨d, fa, fv, fb, fs⟩ := f
              cases d <;> rfl
            rw [hroot]
            obtain ⟨d, fa, fv, fb, fs⟩ := f
            cases d
            · -- the leaf is a left child
              simp only at hsib hcf hfa
              have hne : ¬ (fs.ptr = some a) := hsib
              simp [Heap.get, Heap.free, Heap.upd, Heap.set_cells, hcf, hca, Frame.cell,
                hne, ok_bind, pure_eq_ok, hfa, Ne.symm hfa, Frame.fill_ptr, Frame.shrunk]
              refine ⟨rfl, Zip.up.1 (Zip.detach (fb - 1) hz rfl fun x => ?_)⟩
              simp only [Heap.set_cells, Frame.cell]
              by_cases hx1 : x = fa <;> by_cases hx2 : x = a <;> simp [hx1, hx2, hfa, Ne.symm hfa]
            · -- the leaf is a right child
              simp only at hsib hcf hfa
              simp [Heap.get, Heap.free, Heap.upd, Heap.set_cells, hcf, hca, Frame.cell,
                ok_bind, pure_eq_ok, hfa, Ne.symm hfa, Frame.fill_ptr, Frame.shrunk]
              refine ⟨rfl, Zip.up.1 (Zip.detach (fb + 1) hz rfl fun x => ?_)⟩
              simp only [Heap.set_cells, Frame.cell]
              by_cases hx1 : x = fa <;> by_cases hx2 : x = a <;> simp [hx1, hx2, hfa, Ne.symm hfa]
        | node rl ra rv rb rr =>
          -- no left subtree: swap with the first node of the right subtree
          simp only [Tree.ptr_nil, Tree.ptr_node, reduceCtorEq, and_false, if_false, ne_eq,
            not_true_eq_false, not_false_eq_true, if_true]
          simp only [Tree.erase_detach] at hd
          rcases hlm : Tree.leftmost (Tree.node rl ra rv rb rr) [] with ⟨q0, s0⟩
          rw [hlm] at hd
          cases s0 with
          | nil => simp at hd
          | node nl na nv nb nr =>
            simp only at hd
            have hpl := Tree.leftmost_plug (Tree.node rl ra rv rb rr) []
            have hht := Tree.leftmost_height (Tree.node rl ra rv rb rr) []
            rw [hlm] at hpl hht
            simp only [plug, Tree.height] at hpl hht
            have hloop := leftmost_loop_rep (h := h) (Tree.node rl ra rv rb rr) (some a) k []
              hz.sub.2.2 (by simp) (by simp only [Tree.height] at hf ⊢; omega)
            rw [hlm] at hloop
            simp only [Tree.ptr_node] at hloop
            have hz' : Zip h (q0 ++ { dir := .R, a := a, v := v, b := b, sib := .nil } :: p)
                (.node nl na nv nb nr) := by
              refine Zip.focus.2 (Zip.up.2 ?_)
              rw [hpl]
              exact hz
            obtain ⟨h1, e1, n1, z1⟩ := swap_values_zip hz'
            obtain ⟨h2, e2, n2, z2⟩ := ih _ _ h1 q s z1 (by simp only [Tree.height] at hf hht ⊢; omega) hd
            refine ⟨h2, ?_, by rw [n2, n1], z2⟩
            simp only [hloop, ok_bind, e1]
            rw [← e2]
            congr 1
            exact (plug_ptr_append p q0 { dir := .R, a := a, v := nv, b := b, sib := .nil }
              { dir := .R, a := a, v := v, b := b, sib := .nil } _ (.node rl ra rv rb rr) rfl).symm
      | node ll la lv lb lr =>
        -- swap with the last node of the left subtree
        simp only [Tree.ptr_node, reduceCtorEq, false_and, if_false, ne_eq,
          not_false_eq_true, if_true]
        simp only [Tree.erase_detach] at hd
        rcases hrm : Tree.rightmost (Tree.node ll la lv lb lr) [] with ⟨q0, s0⟩
        rw [hrm] at hd
        cases s0 with
        | nil => simp at hd
        | node nl na nv nb nr =>
          simp only at hd
          have hpl := Tree.rightmost_plug (Tree.node ll la lv lb lr) []
          have hht := Tree.rightmost_height (Tree.node ll la lv lb lr) []
          rw [hrm] at hpl hht
          simp only [plug, Tree.height] at hpl hht
          have hloop := rightmost_loop_rep (h := h) (Tree.node ll la lv lb lr) (some a) k []
            hz.sub.2.1 (by simp) (by simp only [Tree.height] at hf ⊢; omega)
          rw [hrm] at hloop
          simp only [Tree.ptr_node] at hloop
          have hz' : Zip h (q0 ++ { dir := .L, a := a, v := v, b := b, sib := r } :: p)
              (.node nl na nv nb nr) := by
            refine Zip.focus.2 (Zip.up.2 ?_)
            rw [hpl]
            exact hz
          obtain ⟨h1, e1, n1, z1⟩ := swap_values_zip hz'
          obtain ⟨h2, e2, n2, z2⟩ := ih _ _ h1 q s z1 (by simp only [Tree.height] at hf hht ⊢; omega) hd
          refine ⟨h2, ?_, by rw [n2, n1], z2⟩
          simp only [hloop, ok_bind, e1]
          rw [← e2]
          congr 1
          exact (plug_ptr_append p q0 { dir := .L, a := a, v := nv, b := b, sib := r }
            { dir := .L, a := a, v := v, b := b, sib := r } _ (.node ll la lv lb lr) rfl).symm

/-- The rebalance walk of `erase` on the heap computes `Tree.erase_walk`. -/
theorem erase_walk_zip (p : List (Frame α)) :
    ∀ (t t' : Tree α) (h : Heap α) (fuel : Nat) (root : Ptr),
      Zip h p t → t ≠ .nil → Tree.erase_walk p t = some t' → p.length + 2 ≤ fuel →
      (p ≠ [] → root = (plug p t).ptr) →
      ∃ h', erase_walk fuel h root t.ptr = .ok (h', t'.ptr) ∧ h'.next = h.next ∧
        Whole h' t' := by
  induction p with
  | nil =>
    intro t t' h fuel root hz hne hw hf _
    obtain ⟨k, rfl⟩ : ∃ k, fuel = k + 2 := ⟨fuel - 2, by simp at hf; omega⟩
    cases t with
    | nil => exact absurd rfl hne
    | node l a v b r =>
      simp only [Tree.erase_walk] at hw
      cases hr : (Tree.node l a v b r).apply_rotation with
      | none => simp [hr] at hw
      | some t1 =>
        cases t1 with
        | nil => simp [hr] at hw
        | node l1 a1 v1 b1 r1 =>
          simp only [hr, Option.some.injEq] at hw
          subst hw
          obtain ⟨h1, a', e, hp', n, z⟩ := apply_rotation_zip hz rfl hr
          simp only [Tree.ptr_node, Option.some.injEq] at hp'
          subst hp'
          refine ⟨h1, ?_, n, whole_plug.2 z⟩
          simp only [Tree.ptr_node, erase_walk, e, ok_bind, z.get_root, Tree.cell, pathPtr_nil,
            if_true, pure_eq_ok]
          by_cases hb : b1.natAbs = 1
          · simp [hb]
          · simp [hb, ok_bind]
  | cons f q ih =>
    intro t t' h fuel root hz hne hw hf hroot
    obtain ⟨k, rfl⟩ : ∃ k, fuel = k + 1 := ⟨fuel - 1, by simp at hf; omega⟩
    cases t with
    | nil => exact absurd rfl hne
    | node l a v b r =>
      simp only [Tree.erase_walk] at hw
      cases hr : (Tree.node l a v b r).apply_rotation with
      | none => simp [hr] at hw
      | some t1 =>
        cases t1 with
        | nil => simp [hr] at hw
        | node l1 a1 v1 b1 r1 =>
          simp only [hr] at hw
          obtain ⟨h1, a', e, hp', n, z⟩ := apply_rotation_zip hz rfl hr
          simp only [Tree.ptr_node, Option.some.injEq] at hp'
          subst hp'
          have hroot' := hroot (by simp)
          simp only [Tree.ptr_node, erase_walk, e, ok_bind, z.get_root, Tree.cell, pathPtr_cons,
            reduceCtorEq, if_false, pure_eq_ok]
          by_cases hb : b1.natAbs = 1
          · simp only [hb, if_true, Option.some.injEq] at hw ⊢
            subst hw
            refine ⟨h1, ?_, n, whole_plug.2 z⟩
            rw [hroot']
            exact congrArg _ (congrArg _ (plug_ptr_cons f q _ _))
          · simp only [hb, if_false] at hw ⊢
            have zu := Zip.up.1 z
            have hsib := z.sib_ptr_ne rfl
            obtain ⟨fd, fa, fv, fb, fs⟩ := f
            have hnn : Frame.fill (Frame.shrunk { dir := fd, a := fa, v := fv, b := fb, sib := fs })
                (Tree.node l1 a1 v1 b1 r1) ≠ .nil := by
              cases fd <;> simp [Frame.shrunk, Frame.fill]
            cases fd
            · -- `current` is the left child of its parent
              obtain ⟨h2, e2, n2, z2⟩ :=
                zu.upd_root (fun m => { m with balance := m.balance - 1 }) fv (fb - 1) rfl
              have hg : (h1.get (some fa)) = .ok (Tree.cell (.node l1 a1 v1 b1 r1) fv fb fs
                  (pathPtr q)) := zu.get_root
              simp only [ne_eq, not_false_eq_true, if_true, reduceCtorEq, hg, ok_bind, Tree.cell,
                Tree.ptr_node, e2]
              obtain ⟨h3, e3, n3, w3⟩ := ih _ t' h2 k root z2 hnn hw (by simp at hf ⊢; omega)
                (by
                  intro hq
                  rw [hroot']
                  obtain ⟨g, q', rfl⟩ := List.exists_cons_of_ne_nil hq
                  exact plug_ptr_cons g q' _ _)
              exact ⟨h3, e3, by rw [n3, n2, n], w3⟩
            · -- `current` is the right child of its parent
              obtain ⟨h2, e2, n2, z2⟩ :=
                zu.upd_root (fun m => { m with balance := m.balance + 1 }) fv (fb + 1) rfl
              have hg : (h1.get (some fa)) = .ok (Tree.cell fs fv fb (.node l1 a1 v1 b1 r1)
                  (pathPtr q)) := zu.get_root
              have hsib' : ¬ (some a1 = fs.ptr) := fun e => hsib e.symm
              simp only [ne_eq, not_false_eq_true, if_true, reduceCtorEq, hg, ok_bind, Tree.cell,
                Tree.ptr_node, e2, hsib', if_false]
              obtain ⟨h3, e3, n3, w3⟩ := ih _ t' h2 k root z2 hnn hw (by simp at hf ⊢; omega)
                (by
                  intro hq
                  rw [hroot']
                  obtain ⟨g, q', rfl⟩ := List.exists_cons_of_ne_nil hq
                  exact plug_ptr_cons g q' _ _)
              exact ⟨h3, e3, by rw [n3, n2, n], w3⟩

variable [LinearOrder α]

/-- The search loop of `find` ends at the subtree `Tree.search` finds. -/
theorem find_loop_rep {h : Heap α} (value : α) (t : Tree α) :
    ∀ (par : Ptr) (fuel : Nat) (p : List (Frame α)), Rep h.cells par t → t.height + 1 ≤ fuel →
      find_loop h value fuel t.ptr = .ok (Tree.search value t p).2.ptr := by
  induction t with
  | nil =>
    intro par fuel p _ hf
    obtain ⟨k, rfl⟩ : ∃ k, fuel = k + 1 := ⟨fuel - 1, by omega⟩
    rfl
  | node l a v b r ihl ihr =>
    intro par fuel p hr hf
    obtain ⟨k, rfl⟩ : ∃ k, fuel = k + 1 := ⟨fuel - 1, by omega⟩
    simp only [Tree.height] at hf
    simp only [Tree.ptr_node, find_loop, Heap.get_some _ _ _ hr.1, ok_bind, Tree.cell,
      Tree.search]
    split_ifs with h1 h2
    · exact ihr _ k _ hr.2.2 (by omega)
    · exact ihl _ k _ hr.2.1 (by omega)
    · rfl

theorem erase_search_eq_find_loop (h : Heap α) (value : α) (fuel : Nat) (c : Ptr) :
    erase_search h value fuel c = find_loop h value fuel c := by
  induction fuel generalizing c with
  | zero => rfl
  | succ k ih =>
    cases c with
    | none => rfl
    | some a =>
      simp only [erase_search, find_loop]
      cases h.get (some a) with
      | error e => rfl
      | ok n =>
        simp only [ok_bind]
        split_ifs
        · exact ih _
        · exact ih _
        · rfl

theorem Tree.search_plug (value : α) (t : Tree α) :
    ∀ p : List (Frame α),
      plug (Tree.search value t p).1 (Tree.search value t p).2 = plug p t := by
  induction t with
  | nil => intro p; rfl
  | node l a v b r ihl ihr =>
    intro p
    simp only [Tree.search]
    split_ifs
    · exact ihr _
    · exact ihl _
    · rfl

theorem Tree.search_found (value : α) (t : Tree α) :
    ∀ (p q : List (Frame α)) (l r : Tree α) (a : Nat) (v : α) (b : Int),
      Tree.search value t p = (q, .node l a v b r) → v = value := by
  induction t with
  | nil => intro p q l r a v b h; simp [Tree.search] at h
  | node l' a' v' b' r' ihl ihr =>
    intro p q l r a v b h
    simp only [Tree.search] at h
    split_ifs at h with h1 h2
    · exact ihr _ _ _ _ _ _ _ h
    · exact ihl _ _ _ _ _ _ _ h
    · simp only [Prod.mk.injEq, Tree.node.injEq] at h
      obtain ⟨-, -, -, rfl, -, -⟩ := h
      exact le_antisymm (not_lt.1 h2) (not_lt.1 h1)

omit [LinearOrder α] in
theorem Tree.rightmost_path (t : Tree α) :
    ∀ p : List (Frame α),
      (Tree.rightmost t p).1.length + (Tree.rightmost t p).2.height ≤ p.length + t.height := by
  induction t with
  | nil => intro p; simp [Tree.rightmost]
  | node l a v b r _ ihr =>
    intro p
    cases r with
    | nil => simp [Tree.rightmost, Tree.height]
    | node rl ra rv rb rr =>
      unfold Tree.rightmost
      have := ihr ({ dir := .R, a := a, v := v, b := b, sib := l } :: p)
      simp only [Tree.height, List.length_cons] at this ⊢
      omega

omit [LinearOrder α] in
theorem Tree.leftmost_path (t : Tree α) :
    ∀ p : List (Frame α),
      (Tree.leftmost t p).1.length + (Tree.leftmost t p).2.height ≤ p.length + t.height := by
  induction t with
  | nil => intro p; simp [Tree.leftmost]
  | node l a v b r ihl _ =>
    intro p
    cases l with
    | nil => simp [Tree.leftmost, Tree.height]
    | node ll la lv lb lr =>
      unfold Tree.leftmost
      have := ihl ({ dir := .L, a := a, v := v, b := b, sib := r } :: p)
      simp only [Tree.height, List.length_cons] at this ⊢
      omega

theorem Tree.search_path (value : α) (t : Tree α) :
    ∀ p : List (Frame α),
      (Tree.search value t p).1.length + (Tree.search value t p).2.height ≤
        p.length + t.height := by
  induction t with
  | nil => intro p; simp [Tree.search]
  | node l a v b r ihl ihr =>
    intro p
    simp only [Tree.search]
    split_ifs
    · have := ihr ({ dir := .R, a := a, v := v, b := b, sib := l } :: p)
      simp only [Tree.height, List.length_cons] at this ⊢
      omega
    · have := ihl ({ dir := .L, a := a, v := v, b := b, sib := r } :: p)
      simp only [Tree.height, List.length_cons] at this ⊢
      omega
    · simp

omit [LinearOrder α] in
theorem Tree.erase_detach_path (fuel : Nat) :
    ∀ (p q : List (Frame α)) (t s : Tree α), Tree.erase_detach fuel p t = some (q, s) →
      q.length + 1 ≤ p.length + t.height ∧ (s = .nil → q = []) := by
  induction fuel with
  | zero => intro p q t s h; simp [Tree.erase_detach] at h
  | succ k ih =>
    intro p q t s h
    cases t with
    | nil => simp [Tree.erase_detach] at h
    | node l a v b r =>
      cases l with
      | nil =>
        cases r with
        | nil =>
          cases p with
          | nil =>
            simp only [Tree.erase_detach, Option.some.injEq, Prod.mk.injEq] at h
            obtain ⟨rfl, rfl⟩ := h
            simp [Tree.height]
          | cons f p' =>
            simp only [Tree.erase_detach, Option.some.injEq, Prod.mk.injEq] at h
            obtain ⟨rfl, rfl⟩ := h
            refine ⟨by simp [Tree.height], ?_⟩
            obtain ⟨d, fa, fv, fb, fs⟩ := f
            cases d <;> simp [Frame.shrunk, Frame.fill]
        | node rl ra rv rb rr =>
          simp only [Tree.erase_detach] at h
          rcases hlm : Tree.leftmost (Tree.node rl ra rv rb rr) [] with ⟨q0, s0⟩
          rw [hlm] at h
          cases s0 with
          | nil => simp at h
          | node nl na nv nb nr =>
            simp only at h
            obtain ⟨i1, i2⟩ := ih _ q _ s h
            have hp := Tree.leftmost_path (Tree.node rl ra rv rb rr) []
            rw [hlm] at hp
            refine ⟨?_, i2⟩
            simp only [Tree.height, List.length_append, List.length_cons, List.length_nil] at *
            omega
      | node ll la lv lb lr =>
        simp only [Tree.erase_detach] at h
        rcases hrm : Tree.rightmost (Tree.node ll la lv lb lr) [] with ⟨q0, s0⟩
        rw [hrm] at h
        cases s0 with
        | nil => simp at h
        | node nl na nv nb nr =>
          simp only at h
          obtain ⟨i1, i2⟩ := ih _ q _ s h
          have hp := Tree.rightmost_path (Tree.node ll la lv lb lr) []
          rw [hrm] at hp
          refine ⟨?_, i2⟩
          simp only [Tree.height, List.length_append, List.length_cons, List.length_nil] at *
          omega

/-- `Set::erase` of a value that is not stored returns at once. -/
theorem erase_models_absent {s : Set α} {t : Tree α} {fuel : Nat} (value : α)
    (hm : Models s t) (hf : t.height + 1 ≤ fuel)
    (habs : (Tree.search value t []).2 = .nil) :
    Set.erase fuel s value = .ok s := by
  have e := find_loop_rep (h := s.heap) value t none fuel [] hm.whole.rep hf
  rw [habs] at e
  simp only [Set.erase, erase_search_eq_find_loop, hm.root, e, ok_bind, Tree.ptr_nil, if_true]
  rfl

/-- `Set::erase` of a stored value computes `Tree.erase`. -/
theorem erase_models_present {s : Set α} {t t' : Tree α} {fuel : Nat} (value : α)
    (hm : Models s t) (hf : t.height + 1 ≤ fuel) (hf' : t'.height ≤ fuel)
    (hsize : t'.size + 1 = t.size)
    (hfound : (Tree.search value t []).2 ≠ .nil)
    (he : Tree.erase fuel value t = some t') :
    ∃ s', Set.erase fuel s value = .ok s' ∧ Models s' t' ∧ s'.heap.next = s.heap.next := by
  have e := find_loop_rep (h := s.heap) value t none fuel [] hm.whole.rep hf
  have hpl := Tree.search_plug value t []
  have hpath := Tree.search_path value t []
  rcases hs : Tree.search value t [] with ⟨p, t0⟩
  rw [hs] at e hfound hpl hpath
  simp only [plug] at hpl
  simp only [List.length_nil, zero_add] at hpath
  cases t0 with
  | nil => exact absurd rfl hfound
  | node l a v b r =>
    simp only [Tree.erase, hs] at he
    cases hd : Tree.erase_detach fuel p (.node l a v b r) with
    | none => simp [hd] at he
    | some qs =>
      obtain ⟨q, sub⟩ := qs
      simp only [hd] at he
      have hz : Zip s.heap p (.node l a v b r) := whole_plug.1 (hpl ▸ hm.whole)
      obtain ⟨h1, e1, n1, z1⟩ := erase_detach_zip fuel p _ s.heap q sub hz (by omega) hd
      obtain ⟨i1, i2⟩ := Tree.erase_detach_path fuel p q _ sub hd
      rw [hpl, ← hm.root] at e1
      simp only [Tree.ptr_node] at e e1
      have key : ∃ h2, erase_walk fuel h1 (plug q sub).ptr sub.ptr = .ok (h2, t'.ptr) ∧
          h2.next = h1.next ∧ Whole h2 t' := by
        cases sub with
        | nil =>
          have hq := i2 rfl
          subst hq
          simp only [Tree.erase_walk, plug, Option.some.injEq] at he
          subst he
          obtain ⟨k, rfl⟩ : ∃ k, fuel = k + 1 := ⟨fuel - 1, by omega⟩
          exact ⟨h1, rfl, rfl, whole_plug.2 z1⟩
        | node sl sa sv sb sr =>
          exact erase_walk_zip q _ t' h1 fuel _ z1 (by simp) he (by omega) (fun _ => rfl)
      obtain ⟨h2, e2, n2, w2⟩ := key
      obtain ⟨s3, e3, m3, hh3⟩ := update_edge_nodes_models
        { s with heap := h2, _root := t'.ptr, _size := s._size - 1 } t' fuel
        w2 rfl (by simp only [hm.size]; omega) hf'
      refine ⟨s3, ?_, m3, by rw [hh3]; simp [n2, n1]⟩
      simp only [Set.erase, erase_search_eq_find_loop, hm.root, e, ok_bind, reduceCtorEq,
        if_false]
      rw [← hm.root, e1]
      simp only [ok_bind, e2]
      exact e3

end EraseHeap

/-! ## `Tree.erase`: order, content and balance -/

section EraseSpec

variable {α : Type}

theorem plug_inorder (p : List (Frame α)) (t : Tree α) :
    (plug p t).inorder =
      (pathBefore p).map Prod.snd ++ t.inorder ++ (pathAfter p).map Prod.snd := by
  rw [← Tree.entries_snd, plug_entries, List.map_append, List.map_append, Tree.entries_snd]

theorem pathBefore_append (q p : List (Frame α)) :
    pathBefore (q ++ p) = pathBefore p ++ pathBefore q := by
  induction q with
  | nil => simp [pathBefore]
  | cons f q ih =>
    obtain ⟨d, a, v, b, sib⟩ := f
    cases d <;> simp [pathBefore, ih]

theorem pathAfter_append (q p : List (Frame α)) :
    pathAfter (q ++ p) = pathAfter q ++ pathAfter p := by
  induction q with
  | nil => simp [pathAfter]
  | cons f q ih =>
    obtain ⟨d, a, v, b, sib⟩ := f
    cases d <;> simp [pathAfter, ih]

theorem height_plug (p : List (Frame α)) (t : Tree α) :
    (plug p t).height = pathHeight p t.height := by
  induction p generalizing t with
  | nil => rfl
  | cons f p ih =>
    obtain ⟨d, a, v, b, sib⟩ := f
    cases d
    · simp only [plug, ih, Frame.fill, Tree.height, pathHeight]
    · simp only [plug, ih, Frame.fill, Tree.height, pathHeight, max_comm]

theorem pathAvl_append (q p : List (Frame α)) (n : Nat) :
    PathAvl (q ++ p) n ↔ PathAvl q n ∧ PathAvl p (pathHeight q n) := by
  induction q generalizing n with
  | nil => simp [PathAvl, pathHeight]
  | cons f q ih =>
    show PathAvl (f :: (q ++ p)) n ↔ _
    simp only [PathAvl, pathHeight]
    rw [ih]
    tauto

/-- The last node of a subtree has no right child, and nothing of the
    subtree comes after it. -/
theorem Tree.rightmost_shape (t : Tree α) :
    ∀ (p q : List (Frame α)) (s : Tree α), Tree.rightmost t p = (q, s) →
      pathAfter q = pathAfter p ∧ ∀ l a v b r, s = .node l a v b r → r = .nil := by
  induction t with
  | nil =>
    intro p q s h
    simp only [Tree.rightmost, Prod.mk.injEq] at h
    obtain ⟨rfl, rfl⟩ := h
    exact ⟨rfl, fun l a v b r h => by cases h⟩
  | node l a v b r _ ihr =>
    intro p q s h
    cases r with
    | nil =>
      simp only [Tree.rightmost, Prod.mk.injEq] at h
      obtain ⟨rfl, rfl⟩ := h
      refine ⟨rfl, fun l' a' v' b' r' h => ?_⟩
      simp only [Tree.node.injEq] at h
      exact h.2.2.2.2.symm
    | node rl ra rv rb rr =>
      unfold Tree.rightmost at h
      obtain ⟨i1, i2⟩ := ihr _ q s h
      exact ⟨by simpa [pathAfter] using i1, i2⟩

/-- The first node of a subtree has no left child, and nothing of the
    subtree comes before it. -/
theorem Tree.leftmost_shape (t : Tree α) :
    ∀ (p q : List (Frame α)) (s : Tree α), Tree.leftmost t p = (q, s) →
      pathBefore q = pathBefore p ∧ ∀ l a v b r, s = .node l a v b r → l = .nil := by
  induction t with
  | nil =>
    intro p q s h
    simp only [Tree.leftmost, Prod.mk.injEq] at h
    obtain ⟨rfl, rfl⟩ := h
    exact ⟨rfl, fun l a v b r h => by cases h⟩
  | node l a v b r ihl _ =>
    intro p q s h
    cases l with
    | nil =>
      simp only [Tree.leftmost, Prod.mk.injEq] at h
      obtain ⟨rfl, rfl⟩ := h
      refine ⟨rfl, fun l' a' v' b' r' h => ?_⟩
      simp only [Tree.node.injEq] at h
      exact h.1.symm
    | node ll la lv lb lr =>
      unfold Tree.leftmost at h
      obtain ⟨i1, i2⟩ := ihl _ q s h
      exact ⟨by simpa [pathBefore] using i1, i2⟩

/-- The swap-and-detach loop of `erase` ends on every non-empty subtree. -/
theorem erase_detach_total (fuel : Nat) :
    ∀ (p : List (Frame α)) (t : Tree α), t ≠ .nil → t.height ≤ fuel →
      ∃ q s, Tree.erase_detach fuel p t = some (q, s) := by
  induction fuel with
  | zero =>
    intro p t hne hf
    cases t with
    | nil => exact absurd rfl hne
    | node l a v b r => simp [Tree.height] at hf
  | succ k ih =>
    intro p t hne hf
    cases t with
    | nil => exact absurd rfl hne
    | node l a v b r =>
      simp only [Tree.height] at hf
      cases l with
      | nil =>
        cases r with
        | nil => cases p <;> simp [Tree.erase_detach]
        | node rl ra rv rb rr =>
          simp only [Tree.erase_detach]
          have hpl := Tree.leftmost_plug (Tree.node rl ra rv rb rr) []
          have hht := Tree.leftmost_height (Tree.node rl ra rv rb rr) []
          rcases hlm : Tree.leftmost (Tree.node rl ra rv rb rr) [] with ⟨q0, s0⟩
          rw [hlm] at hpl hht
          cases s0 with
          | nil =>
            exfalso
            have h1 := congrArg Tree.ptr hpl
            have h2 := Tree.leftmost_snd (Tree.node rl ra rv rb rr) [] (by simp)
            rw [hlm] at h2
            have h3 := Tree.addrs_ne_nil (t := Tree.node rl ra rv rb rr) (by simp)
            cases h4 : (Tree.node rl ra rv rb rr).addrs with
            | nil => exact h3 h4
            | cons x xs => rw [h4] at h2; simp at h2
          | node nl na nv nb nr =>
            simp only
            refine ih _ _ (by simp) ?_
            simp only [Tree.height] at hht hf ⊢
            omega
      | node ll la lv lb lr =>
        simp only [Tree.erase_detach]
        have hht := Tree.rightmost_height (Tree.node ll la lv lb lr) []
        rcases hrm : Tree.rightmost (Tree.node ll la lv lb lr) [] with ⟨q0, s0⟩
        rw [hrm] at hht
        cases s0 with
        | nil =>
          exfalso
          have h2 := Tree.rightmost_snd (Tree.node ll la lv lb lr) [] (by simp)
          rw [hrm] at h2
          have h3 := Tree.addrs_ne_nil (t := Tree.node ll la lv lb lr) (by simp)
          have h5 := List.getLast?_eq_none_iff.1 h2.symm
          exact h3 h5
        | node nl na nv nb nr =>
          simp only
          refine ih _ _ (by simp) ?_
          simp only [Tree.height] at hht hf ⊢
          omega

theorem Frame.shrunk_fill_inorder (f : Frame α) (t : Tree α) :
    (f.shrunk.fill t).inorder = (f.fill t).inorder := by
  obtain ⟨d, a, v, b, sib⟩ := f
  cases d <;> rfl

/-- The swap-and-detach loop of `erase` removes the value of the node it
    starts at from the in-order sequence, and nothing else. -/
theorem erase_detach_inorder (fuel : Nat) :
    ∀ (p q : List (Frame α)) (l r s : Tree α) (a : Nat) (v : α) (b : Int),
      Tree.erase_detach fuel p (.node l a v b r) = some (q, s) →
      (plug q s).inorder =
        (pathBefore p).map Prod.snd ++ l.inorder ++ r.inorder ++ (pathAfter p).map Prod.snd := by
  induction fuel with
  | zero => intro p q l r s a v b h; simp [Tree.erase_detach] at h
  | succ k ih =>
    intro p q l r s a v b h
    cases l with
    | nil =>
      cases r with
      | nil =>
        cases p with
        | nil =>
          simp only [Tree.erase_detach, Option.some.injEq, Prod.mk.injEq] at h
          obtain ⟨rfl, rfl⟩ := h
          simp [plug, Tree.inorder, pathBefore, pathAfter]
        | cons f p' =>
          simp only [Tree.erase_detach, Option.some.injEq, Prod.mk.injEq] at h
          obtain ⟨rfl, rfl⟩ := h
          have h1 : (plug p' (f.shrunk.fill .nil)).inorder = (plug (f :: p') .nil).inorder := by
            simp only [plug]
            rw [plug_inorder, plug_inorder, Frame.shrunk_fill_inorder]
          rw [h1, plug_inorder]
          simp [Tree.inorder]
      | node rl ra rv rb rr =>
        simp only [Tree.erase_detach] at h
        rcases hlm : Tree.leftmost (Tree.node rl ra rv rb rr) [] with ⟨q0, s0⟩
        rw [hlm] at h
        cases s0 with
        | nil => simp at h
        | node nl na nv nb nr =>
          simp only at h
          have hpl := Tree.leftmost_plug (Tree.node rl ra rv rb rr) []
          rw [hlm] at hpl
          simp only [plug] at hpl
          obtain ⟨hb0, hsh⟩ := Tree.leftmost_shape _ _ _ _ hlm
          have hnl := hsh _ _ _ _ _ rfl
          subst hnl
          rw [ih _ _ _ _ _ _ _ _ h, pathBefore_append, pathAfter_append, ← hpl, plug_inorder, hb0]
          simp [pathBefore, pathAfter, Tree.inorder, Tree.entries_snd]
    | node ll la lv lb lr =>
      simp only [Tree.erase_detach] at h
      rcases hrm : Tree.rightmost (Tree.node ll la lv lb lr) [] with ⟨q0, s0⟩
      rw [hrm] at h
      cases s0 with
      | nil => simp at h
      | node nl na nv nb nr =>
        simp only at h
        have hpl := Tree.rightmost_plug (Tree.node ll la lv lb lr) []
        rw [hrm] at hpl
        simp only [plug] at hpl
        obtain ⟨ha0, hsh⟩ := Tree.rightmost_shape _ _ _ _ hrm
        have hnr := hsh _ _ _ _ _ rfl
        subst hnr
        rw [ih _ _ _ _ _ _ _ _ h, pathBefore_append, pathAfter_append, ← hpl, plug_inorder, ha0]
        simp [pathBefore, pathAfter, Tree.inorder, Tree.entries_snd]

/-- The swap-and-detach loop of `erase` leaves the rebalance walk in its
    starting state: see `erase_walk_avl`. -/
theorem erase_detach_avl (fuel : Nat) :
    ∀ (p q : List (Frame α)) (t s : Tree α), t.Avl → PathAvl p t.height →
      Tree.erase_detach fuel p t = some (q, s) →
      (s = .nil ∧ q = []) ∨
      ∃ l a v b r n, s = .node l a v b r ∧ PathAvl q n ∧ l.Avl ∧ r.Avl ∧
        b = (l.height : Int) - (r.height : Int) ∧ (-2 ≤ b ∧ b ≤ 2) ∧
        (b = 0 → (Tree.node l a v b r).height + 1 = n) ∧
        (b ≠ 0 → (Tree.node l a v b r).height = n) := by
  induction fuel with
  | zero => intro p q t s _ _ h; simp [Tree.erase_detach] at h
  | succ k ih =>
    intro p q t s hav hp h
    cases t with
    | nil => simp [Tree.erase_detach] at h
    | node l a v b r =>
      obtain ⟨h1, h2, h3, h4, h5⟩ := hav
      cases l with
      | nil =>
        cases r with
        | nil =>
          cases p with
          | nil =>
            simp only [Tree.erase_detach, Option.some.injEq, Prod.mk.injEq] at h
            obtain ⟨rfl, rfl⟩ := h
            exact Or.inl ⟨rfl, rfl⟩
          | cons f p' =>
            simp only [Tree.erase_detach, Option.some.injEq, Prod.mk.injEq] at h
            obtain ⟨rfl, rfl⟩ := h
            right
            obtain ⟨d, fa, fv, fb, fs⟩ := f
            obtain ⟨hs, hfb, hfr, hq⟩ := hp
            simp only [Tree.height] at hfb hq
            simp only at hfr hs
            cases d
            · simp only at hfb
              refine ⟨.nil, fa, fv, fb - 1, fs, _, rfl, hq, trivial, hs, ?_, ?_, ?_, ?_⟩ <;>
                (try simp only [Tree.height]) <;> omega
            · simp only at hfb
              refine ⟨fs, fa, fv, fb + 1, .nil, _, rfl, hq, hs, trivial, ?_, ?_, ?_, ?_⟩ <;>
                (try simp only [Tree.height]) <;> omega
        | node rl ra rv rb rr =>
          simp only [Tree.erase_detach] at h
          rcases hlm : Tree.leftmost (Tree.node rl ra rv rb rr) [] with ⟨q0, s0⟩
          rw [hlm] at h
          cases s0 with
          | nil => simp at h
          | node nl na nv nb nr =>
            simp only at h
            have hpl := Tree.leftmost_plug (Tree.node rl ra rv rb rr) []
            rw [hlm] at hpl
            simp only [plug] at hpl
            have ha0 := (avl_plug q0 (.node nl na nv nb nr)).1 (hpl ▸ h5)
            have hh := height_plug q0 (.node nl na nv nb nr)
            rw [hpl] at hh
            refine ih _ q _ s (show (Tree.node nl na v nb nr).Avl from ha0.1) ?_ h
            rw [pathAvl_append]
            refine ⟨ha0.2, ?_⟩
            show PathAvl _ (pathHeight q0 (Tree.node nl na nv nb nr).height)
            rw [← hh]
            refine ⟨trivial, ?_, h3, ?_⟩
            · exact h2
            · simpa [Tree.height, max_comm] using hp
      | node ll la lv lb lr =>
        simp only [Tree.erase_detach] at h
        rcases hrm : Tree.rightmost (Tree.node ll la lv lb lr) [] with ⟨q0, s0⟩
        rw [hrm] at h
        cases s0 with
        | nil => simp at h
        | node nl na nv nb nr =>
          simp only at h
          have hpl := Tree.rightmost_plug (Tree.node ll la lv lb lr) []
          rw [hrm] at hpl
          simp only [plug] at hpl
          have ha0 := (avl_plug q0 (.node nl na nv nb nr)).1 (hpl ▸ h4)
          have hh := height_plug q0 (.node nl na nv nb nr)
          rw [hpl] at hh
          refine ih _ q _ s (show (Tree.node nl na v nb nr).Avl from ha0.1) ?_ h
          rw [pathAvl_append]
          refine ⟨ha0.2, ?_⟩
          show PathAvl _ (pathHeight q0 (Tree.node nl na nv nb nr).height)
          rw [← hh]
          exact ⟨h5, h2, h3, hp⟩

/-! ### The rebalance walk of `erase` -/

theorem erase_walk_nil_eq {l r t1 : Tree α} {a : Nat} {v : α} {b : Int}
    (h : (Tree.node l a v b r).apply_rotation = some t1) (hne : t1 ≠ .nil) :
    Tree.erase_walk [] (.node l a v b r) = some t1 := by
  cases t1 with
  | nil => exact absurd rfl hne
  | node l1 a1 v1 b1 r1 => simp [Tree.erase_walk, h]

theorem erase_walk_cons_eq {l r t1 : Tree α} {a : Nat} {v : α} {b : Int} (f : Frame α)
    (q : List (Frame α)) (h : (Tree.node l a v b r).apply_rotation = some t1)
    (hne : t1 ≠ .nil) :
    Tree.erase_walk (f :: q) (.node l a v b r) =
      if t1.bal.natAbs = 1 then some (plug (f :: q) t1)
      else Tree.erase_walk q (f.shrunk.fill t1) := by
  cases t1 with
  | nil => exact absurd rfl hne
  | node l1 a1 v1 b1 r1 => simp [Tree.erase_walk, h, Tree.bal]

theorem erase_walk_rot {p : List (Frame α)} {l r t' : Tree α} {a : Nat} {v : α} {b : Int}
    (h : Tree.erase_walk p (.node l a v b r) = some t') :
    ∃ t1, (Tree.node l a v b r).apply_rotation = some t1 ∧ t1 ≠ .nil := by
  cases hr : (Tree.node l a v b r).apply_rotation with
  | none => cases p <;> simp [Tree.erase_walk, hr] at h
  | some t1 =>
    cases t1 with
    | nil => cases p <;> simp [Tree.erase_walk, hr] at h
    | node l1 a1 v1 b1 r1 => exact ⟨_, rfl, by simp⟩

theorem Frame.shrunk_fill_ne_nil (f : Frame α) (t : Tree α) : f.shrunk.fill t ≠ .nil := by
  obtain ⟨d, a, v, b, sib⟩ := f
  cases d <;> simp [Frame.shrunk, Frame.fill]

/-- The rebalance walk of `erase` keeps the in-order sequence of nodes. -/
theorem erase_walk_entries (p : List (Frame α)) :
    ∀ t t' : Tree α, Tree.erase_walk p t = some t' → t'.entries = (plug p t).entries := by
  induction p with
  | nil =>
    intro t t' hw
    cases t with
    | nil => simp only [Tree.erase_walk, Option.some.injEq] at hw; rw [← hw]
    | node l a v b r =>
      obtain ⟨t1, hr, hne⟩ := erase_walk_rot hw
      rw [erase_walk_nil_eq hr hne] at hw
      cases hw
      exact (apply_rotation_entries hr).1
  | cons f q ih =>
    intro t t' hw
    cases t with
    | nil => simp only [Tree.erase_walk, Option.some.injEq] at hw; rw [← hw]
    | node l a v b r =>
      obtain ⟨t1, hr, hne⟩ := erase_walk_rot hw
      rw [erase_walk_cons_eq f q hr hne] at hw
      have he := (apply_rotation_entries hr).1
      split_ifs at hw with hb
      · cases hw
        exact plug_entries_congr _ he
      · rw [ih _ _ hw]
        show (plug q (f.shrunk.fill t1)).entries = (plug q (f.fill (.node l a v b r))).entries
        refine plug_entries_congr q ?_
        rw [Frame.shrunk_fill_entries]
        exact plug_entries_congr [f] he

/-- The rebalance walk of `erase` restores the AVL invariant.  At the head of
    the loop the subtrees of `current` are AVL and its stored balance is
    exact, in `[-2, 2]`; the subtree is one lower than before the erasure
    when the balance is 0 and as high as before otherwise.  So stopping at a
    balance of `±1` is right: the height seen from above has not changed. -/
theorem erase_walk_avl (p : List (Frame α)) :
    ∀ (l r : Tree α) (a : Nat) (v : α) (b : Int) (n : Nat),
      PathAvl p n → l.Avl → r.Avl → b = (l.height : Int) - (r.height : Int) →
      (-2 ≤ b ∧ b ≤ 2) →
      (b = 0 → (Tree.node l a v b r).height + 1 = n) →
      (b ≠ 0 → (Tree.node l a v b r).height = n) →
      ∃ t', Tree.erase_walk p (.node l a v b r) = some t' ∧ t'.Avl := by
  induction p with
  | nil =>
    intro l r a v b n _ hl hr hb hrange _ _
    obtain ⟨t1, e, ha, hne, -⟩ := apply_rotation_avl (a := a) (v := v) hl hr hb hrange
    exact ⟨t1, erase_walk_nil_eq e hne, ha⟩
  | cons f q ih =>
    intro l r a v b n hp hl hr hb hrange h0 h1
    obtain ⟨t1, e, ha, hne, hcase⟩ := apply_rotation_avl (a := a) (v := v) hl hr hb hrange
    rw [erase_walk_cons_eq f q e hne]
    -- what the walk does with the subtree `t1` it finds after the rotation
    have hgo : ((t1.bal = 1 ∨ t1.bal = -1) ∧ t1.height = n) ∨
        (t1.bal = 0 ∧ t1.height + 1 = n) := by
      rcases hcase with ⟨hr1, rfl⟩ | ⟨hh, hb1, hht⟩ | ⟨hh, hb1, hht⟩
      · simp only [Tree.bal]
        by_cases hb0 : b = 0
        · exact Or.inr ⟨hb0, h0 hb0⟩
        · exact Or.inl ⟨by omega, h1 hb0⟩
      · have hb2 : b ≠ 0 := by rcases hh with ⟨h, -⟩ | ⟨h, -⟩ <;> omega
        exact Or.inr ⟨hb1, by have := h1 hb2; omega⟩
      · have hb2 : b ≠ 0 := by rcases hh with ⟨h, -⟩ | ⟨h, -⟩ <;> omega
        exact Or.inl ⟨hb1, by have := h1 hb2; omega⟩
    cases t1 with
    | nil => exact absurd rfl hne
    | node l1 a1 v1 b1 r1 =>
      simp only [Tree.bal] at hgo ⊢
      rcases hgo with ⟨hb1, hh⟩ | ⟨hb1, hh⟩
      · have : b1.natAbs = 1 := by omega
        simp only [this, if_true]
        exact ⟨_, rfl, (avl_plug _ _).2 ⟨ha, hh ▸ hp⟩⟩
      · have : ¬ (b1.natAbs = 1) := by omega
        simp only [this, if_false]
        obtain ⟨d, fa, fv, fb, sib⟩ := f
        obtain ⟨hs, hfb, hfr, hq⟩ := hp
        cases d
        · simp only at hfb hfr hq hs
          show ∃ t', Tree.erase_walk q (.node (.node l1 a1 v1 b1 r1) fa fv (fb - 1) sib) =
            some t' ∧ t'.Avl
          refine ih _ _ fa fv (fb - 1) _ hq ha hs ?_ ?_ ?_ ?_
          · omega
          · omega
          · intro hz; simp only [Tree.height] at hh ⊢; omega
          · intro hz; simp only [Tree.height] at hh ⊢; omega
        · simp only at hfb hfr hq hs
          show ∃ t', Tree.erase_walk q (.node sib fa fv (fb + 1) (.node l1 a1 v1 b1 r1)) =
            some t' ∧ t'.Avl
          refine ih _ _ fa fv (fb + 1) _ hq hs ha ?_ ?_ ?_ ?_
          · omega
          · omega
          · intro hz; simp only [Tree.height] at hh ⊢; omega
          · intro hz; simp only [Tree.height] at hh ⊢; omega

variable [LinearOrder α]

/-- The search loop runs off an ordered tree only when the value is not
    stored. -/
theorem Tree.search_absent (value : α) (t : Tree α) :
    ∀ p : List (Frame α), t.Ordered → (Tree.search value t p).2 = .nil → value ∉ t.inorder := by
  induction t with
  | nil => intro p _ _; simp [Tree.inorder]
  | node l a v b r ihl ihr =>
    intro p ho h
    obtain ⟨ho1, ho2, ho3, ho4⟩ := ho
    simp only [Tree.search] at h
    simp only [Tree.inorder, List.mem_append, List.mem_cons, not_or]
    split_ifs at h with h1 h2
    · exact ⟨fun hm => lt_asymm (ho1 _ hm) h1, ne_of_gt h1, ihr _ ho4 h⟩
    · exact ⟨ihl _ ho3 h, ne_of_lt h2, fun hm => lt_asymm (ho2 _ hm) h2⟩

/-- `Tree.erase` on an ordered AVL tree: a value that is not stored leaves
    the tree alone; a stored value gives an AVL tree whose in-order sequence
    is the old one with that value taken out. -/
theorem Tree.erase_spec (value : α) (fuel : Nat) (t : Tree α) (ho : t.Ordered) (ha : t.Avl)
    (hf : t.height ≤ fuel) :
    (value ∉ t.inorder ∧ (Tree.search value t []).2 = .nil) ∨
    ((Tree.search value t []).2 ≠ .nil ∧
      ∃ t', Tree.erase fuel value t = some t' ∧ t'.Avl ∧
        ∃ L1 L2, t.inorder = L1 ++ value :: L2 ∧ t'.inorder = L1 ++ L2) := by
  have hpl := Tree.search_plug value t []
  have hpath := Tree.search_path value t []
  rcases hs : Tree.search value t [] with ⟨p, t0⟩
  rw [hs] at hpl hpath
  simp only [plug, List.length_nil, zero_add] at hpl hpath
  cases t0 with
  | nil =>
    left
    exact ⟨Tree.search_absent value t [] ho (by rw [hs]), rfl⟩
  | node l a v b r =>
    right
    have hv := Tree.search_found value t [] p l r a v b hs
    subst hv
    obtain ⟨hav0, hp0⟩ := (avl_plug p _).1 (hpl ▸ ha)
    obtain ⟨q, s, hd⟩ := erase_detach_total fuel p (.node l a v b r) (by simp) (by omega)
    have hino := erase_detach_inorder fuel p q l r s a v b hd
    have hL : t.inorder = ((pathBefore p).map Prod.snd ++ l.inorder) ++
        v :: (r.inorder ++ (pathAfter p).map Prod.snd) := by
      rw [← hpl, plug_inorder]
      simp [Tree.inorder]
    have hwalk : ∃ t', Tree.erase_walk q s = some t' ∧ t'.Avl := by
      rcases erase_detach_avl fuel p q _ s hav0 hp0 hd with ⟨rfl, rfl⟩ |
        ⟨l', a', v', b', r', n, rfl, hq, hl', hr', hb', hrg, hz0, hz1⟩
      · exact ⟨.nil, rfl, trivial⟩
      · exact erase_walk_avl q l' r' a' v' b' n hq hl' hr' hb' hrg hz0 hz1
    obtain ⟨t', hw, hav⟩ := hwalk
    refine ⟨by simp, t', by simp only [Tree.erase, hs, hd]; exact hw, hav, _, _, hL, ?_⟩
    rw [← Tree.entries_snd, erase_walk_entries q s t' hw, Tree.entries_snd, hino]
    simp

end EraseSpec

/-! ## `insert` and `erase` on well-formed sets -/

section Mutation

variable {α : Type} [LinearOrder α]

/-- What `Set::insert` does on a well-formed set: nothing when the value is
    stored; otherwise the new state is again an ordered AVL tree, holding
    the old nodes and the new one at the sorted position. -/
theorem insert_correct {s : Set α} {t : Tree α} (value : α) (fuel : Nat)
    (hm : Models s t) (ho : t.Ordered) (ha : t.Avl) (hf : t.size + 2 ≤ fuel) :
    (value ∈ t.inorder ∧ Set.insert fuel s value = .ok s) ∨
    (value ∉ t.inorder ∧ ∃ s' t', Set.insert fuel s value = .ok s' ∧ Models s' t' ∧
      t'.Avl ∧ t'.Ordered ∧ s'.heap.next = s.heap.next + 1 ∧
      ∃ L1 L2, t.entries = L1 ++ L2 ∧ t'.entries = L1 ++ (s.heap.next, value) :: L2 ∧
        (∀ x ∈ L1, x.2 < value) ∧ (∀ x ∈ L2, value < x.2)) := by
  have hh := t.height_le_size
  rcases Tree.insert_spec value s.heap.next t ho ha with ⟨hmem, hne, hd⟩ |
    ⟨hmem, hnew, t', hi, hav, L1, L2, e1, e2, hL1, hL2⟩
  · exact Or.inl ⟨hmem, insert_models_dup value _ hm hne (by omega) hd⟩
  · right
    have hsize : t'.size = t.size + 1 := by
      rw [← Tree.entries_length, ← Tree.entries_length, e1, e2]
      simp only [List.length_append, List.length_cons]
      omega
    have hh' := t'.height_le_size
    obtain ⟨s', es, hm', hn'⟩ :=
      insert_models_new value hm (show t.height + 2 ≤ fuel by omega)
        (show t'.height ≤ fuel by omega) hsize hnew hi
    refine ⟨hmem, s', t', es, hm', hav, ?_, hn', L1, L2, e1, e2, hL1, hL2⟩
    rw [Tree.ordered_iff_sorted] at ho ⊢
    rw [← Tree.entries_snd, e1, List.map_append, List.pairwise_append] at ho
    rw [← Tree.entries_snd, e2, List.map_append, List.map_cons, List.pairwise_append,
      List.pairwise_cons]
    refine ⟨ho.1, ⟨?_, ho.2.1⟩, ?_⟩
    · intro y hy
      obtain ⟨x, hx, rfl⟩ := List.mem_map.1 hy
      exact hL2 x hx
    · intro x hx y hy
      rcases List.mem_cons.1 hy with rfl | hy
      · obtain ⟨x', hx', rfl⟩ := List.mem_map.1 hx
        exact hL1 x' hx'
      · exact ho.2.2 x hx y hy

/-- What `Set::erase` does on a well-formed set: nothing when the value is
    not stored; otherwise the new state is again an ordered AVL tree, and its
    in-order sequence is the old one with the value taken out. -/
theorem erase_correct {s : Set α} {t : Tree α} (value : α) (fuel : Nat)
    (hm : Models s t) (ho : t.Ordered) (ha : t.Avl) (hf : t.size + 1 ≤ fuel) :
    (value ∉ t.inorder ∧ Set.erase fuel s value = .ok s) ∨
    (∃ s' t', Set.erase fuel s value = .ok s' ∧ Models s' t' ∧ t'.Avl ∧ t'.Ordered ∧
      s'.heap.next = s.heap.next ∧
      ∃ L1 L2, t.inorder = L1 ++ value :: L2 ∧ t'.inorder = L1 ++ L2) := by
  have hh := t.height_le_size
  rcases Tree.erase_spec value fuel t ho ha (by omega) with ⟨hmem, habs⟩ |
    ⟨hfound, t', he, hav, L1, L2, e1, e2⟩
  · exact Or.inl ⟨hmem, erase_models_absent value hm (by omega) habs⟩
  · right
    have hsize : t'.size + 1 = t.size := by
      rw [← Tree.inorder_length, ← Tree.inorder_length, e1, e2]
      simp only [List.length_append, List.length_cons]
      omega
    have hh' := t'.height_le_size
    obtain ⟨s', es, hm', hn'⟩ :=
      erase_models_present value hm (by omega) (by omega) hsize hfound he
    refine ⟨s', t', es, hm', hav, ?_, hn', L1, L2, e1, e2⟩
    rw [Tree.ordered_iff_sorted] at ho ⊢
    rw [e1] at ho
    rw [e2]
    exact ho.sublist (List.Sublist.append_left (List.sublist_cons_self _ _) _)

end Mutation

/-! ## `find` and `lower_bound` -/

section Query

variable {α : Type} [LinearOrder α]

theorem Tree.search_entry (value : α) (t : Tree α) (q : List (Frame α)) (l r : Tree α)
    (a : Nat) (v : α) (b : Int) (h : Tree.search value t [] = (q, .node l a v b r)) :
    (a, v) ∈ t.entries := by
  have hpl := Tree.search_plug value t []
  rw [h] at hpl
  simp only [plug] at hpl
  rw [← hpl, plug_entries]
  simp [Tree.entries]

omit [LinearOrder α] in
/-- The cell of a node of the tree holds its value. -/
theorem Rep.entry_cell {c : Nat → Option (Node α)} {t : Tree α} {par : Ptr} {a : Nat} {v : α}
    (hr : Rep c par t) (he : (a, v) ∈ t.entries) : ∃ n, c a = some n ∧ n.value = v := by
  induction t generalizing par with
  | nil => simp [Tree.entries] at he
  | node l x w b r ihl ihr =>
    simp only [Tree.entries, List.mem_append, List.mem_cons, Prod.mk.injEq] at he
    rcases he with he | ⟨rfl, rfl⟩ | he
    · exact ihl hr.2.1 he
    · exact ⟨_, hr.1, rfl⟩
    · exact ihr hr.2.2 he

omit [LinearOrder α] in
theorem deref_entry {s : Set α} {t : Tree α} {a : Nat} {v : α} (hw : Whole s.heap t)
    (he : (a, v) ∈ t.entries) :
    iterator.deref s.heap { _node := some a, _is_end := false } = .ok v := by
  obtain ⟨n, hn, hv⟩ := hw.rep.entry_cell he
  simp [iterator.deref, Heap.get, hn, hv, ok_bind, pure_eq_ok]

/-- `Set::find` on an ordered tree: the node holding the value, or `end()`. -/
theorem find_correct {s : Set α} {t : Tree α} (value : α) (fuel : Nat)
    (hw : Whole s.heap t) (hroot : s._root = t.ptr) (ho : t.Ordered)
    (hf : t.height + 1 ≤ fuel) :
    (value ∈ t.inorder ∧ ∃ a, Set.find fuel s value = .ok { _node := some a, _is_end := false } ∧
      (a, value) ∈ t.entries) ∨
    (value ∉ t.inorder ∧ Set.find fuel s value = .ok s.end_) := by
  have e := find_loop_rep (h := s.heap) value t none fuel [] hw.rep hf
  rcases hs : Tree.search value t [] with ⟨q, t0⟩
  rw [hs] at e
  cases t0 with
  | nil =>
    right
    refine ⟨Tree.search_absent value t [] ho (by rw [hs]), ?_⟩
    simp only [Set.find, hroot, e, ok_bind, Tree.ptr_nil, pure_eq_ok]
  | node l a v b r =>
    left
    have hv := Tree.search_found value t [] q l r a v b hs
    subst hv
    have hent := Tree.search_entry v t q l r a v b hs
    refine ⟨Tree.mem_entries_inorder hent, a, ?_, hent⟩
    simp only [Set.find, hroot, e, ok_bind, Tree.ptr_node, pure_eq_ok]

/-- The loop of `lower_bound` on the heap computes `Tree.lower_bound_loop`. -/
theorem lower_bound_loop_rep {h : Heap α} (value : α) (t : Tree α) :
    ∀ (par : Ptr) (fuel : Nat) (lg : Ptr), Rep h.cells par t → t.height + 1 ≤ fuel →
      lower_bound_loop h value fuel t.ptr lg = .ok (Tree.lower_bound_loop value t lg) := by
  induction t with
  | nil =>
    intro par fuel lg _ hf
    obtain ⟨k, rfl⟩ : ∃ k, fuel = k + 1 := ⟨fuel - 1, by omega⟩
    rfl
  | node l a v b r ihl ihr =>
    intro par fuel lg hr hf
    obtain ⟨k, rfl⟩ : ∃ k, fuel = k + 1 := ⟨fuel - 1, by omega⟩
    simp only [Tree.height] at hf
    simp only [Tree.ptr_node, lower_bound_loop, Heap.get_some _ _ _ hr.1, ok_bind, Tree.cell,
      Tree.lower_bound_loop]
    split_ifs with h1 h2
    · exact ihr _ k _ hr.2.2 (by omega)
    · exact ihl _ k _ hr.2.1 (by omega)
    · rfl

/-- On an ordered tree the loop of `lower_bound` ends at the first node, in
    in-order, whose value is not less than the query; when there is none it
    ends with `current` null and `last_greater` unchanged. -/
theorem Tree.lower_bound_loop_spec (value : α) (t : Tree α) :
    ∀ lg : Ptr, t.Ordered →
      ((∀ x ∈ t.inorder, x < value) ∧ Tree.lower_bound_loop value t lg = (none, lg)) ∨
      (∃ L1 L2 a x, t.entries = L1 ++ (a, x) :: L2 ∧ (∀ e ∈ L1, e.2 < value) ∧ ¬ x < value ∧
        ((∃ lg', Tree.lower_bound_loop value t lg = (some a, lg')) ∨
          Tree.lower_bound_loop value t lg = (none, some a))) := by
  induction t with
  | nil =>
    intro lg _
    exact Or.inl ⟨by simp [Tree.inorder], rfl⟩
  | node l a v b r ihl ihr =>
    intro lg ho
    obtain ⟨ho1, ho2, ho3, ho4⟩ := ho
    simp only [Tree.lower_bound_loop]
    split_ifs with h1 h2
    · -- the node is less than the query: the answer is in the right subtree
      have hleft : ∀ e ∈ l.entries ++ [(a, v)], e.2 < value := by
        intro e he
        simp only [List.mem_append, List.mem_singleton] at he
        rcases he with he | rfl
        · exact lt_trans (ho1 _ (Tree.mem_entries_inorder he)) h1
        · exact h1
      rcases ihr lg ho4 with ⟨hall, e⟩ | ⟨L1, L2, a', x, e1, hL1, hx, e⟩
      · left
        refine ⟨?_, e⟩
        intro y hy
        simp only [Tree.inorder, List.mem_append, List.mem_cons] at hy
        rcases hy with hy | rfl | hy
        · exact lt_trans (ho1 _ hy) h1
        · exact h1
        · exact hall y hy
      · right
        refine ⟨(l.entries ++ [(a, v)]) ++ L1, L2, a', x, ?_, ?_, hx, e⟩
        · simp [Tree.entries, e1]
        · intro e' he'
          rcases List.mem_append.1 he' with he' | he'
          · exact hleft e' he'
          · exact hL1 e' he'
    · -- the node is greater than the query: it is the answer unless the left
      -- subtree has one
      right
      rcases ihl (some a) ho3 with ⟨hall, e⟩ | ⟨L1, L2, a', x, e1, hL1, hx, e⟩
      · refine ⟨l.entries, r.entries, a, v, by simp [Tree.entries], ?_, h1, Or.inr e⟩
        intro e' he'
        exact hall _ (Tree.mem_entries_inorder he')
      · exact ⟨L1, L2 ++ (a, v) :: r.entries, a', x, by simp [Tree.entries, e1], hL1, hx, e⟩
    · right
      refine ⟨l.entries, r.entries, a, v, by simp [Tree.entries], ?_, h1, Or.inl ⟨lg, rfl⟩⟩
      intro e' he'
      have := ho1 _ (Tree.mem_entries_inorder he')
      exact lt_of_lt_of_le this (not_lt.1 h2)

/-- `Set::lower_bound` on an ordered tree: the node with the least value
    not less than the query, or `end()` when every value is less. -/
theorem lower_bound_correct {s : Set α} {t : Tree α} (value : α) (fuel : Nat)
    (hw : Whole s.heap t) (hroot : s._root = t.ptr) (ho : t.Ordered)
    (hf : t.height + 1 ≤ fuel) :
    ((∀ x ∈ t.inorder, x < value) ∧ Set.lower_bound fuel s value = .ok s.end_) ∨
    (∃ a x, Set.lower_bound fuel s value = .ok { _node := some a, _is_end := false } ∧
      (a, x) ∈ t.entries ∧ ¬ x < value ∧ ∀ y ∈ t.inorder, ¬ y < value → x ≤ y) := by
  have e := lower_bound_loop_rep (h := s.heap) value t none fuel none hw.rep hf
  rcases Tree.lower_bound_loop_spec value t none ho with ⟨hall, e'⟩ |
    ⟨L1, L2, a, x, e1, hL1, hx, e'⟩
  · left
    refine ⟨hall, ?_⟩
    simp only [Set.lower_bound, hroot, e, e', ok_bind, if_true, pure_eq_ok]
  · right
    refine ⟨a, x, ?_, by rw [e1]; simp, hx, ?_⟩
    · rcases e' with ⟨lg', e'⟩ | e'
      · simp only [Set.lower_bound, hroot, e, e', ok_bind, pure_eq_ok]
      · simp only [Set.lower_bound, hroot, e, e', ok_bind, pure_eq_ok, reduceCtorEq, if_false]
    · intro y hy hny
      rw [Tree.ordered_iff_sorted, ← Tree.entries_snd, e1, List.map_append, List.map_cons,
        List.pairwise_append, List.pairwise_cons] at ho
      rw [← Tree.entries_snd, e1, List.map_append, List.map_cons, List.mem_append,
        List.mem_cons] at hy
      rcases hy with hy | rfl | hy
      · obtain ⟨e0, he0, rfl⟩ := List.mem_map.1 hy
        exact absurd (hL1 e0 he0) hny
      · exact le_refl _
      · exact le_of_lt (ho.2.1.1 y hy)

end Query

/-! ## Iterators: `operator++` and `operator--` walk the in-order sequence -/

section Iter

variable {α : Type}

theorem pathHeight_ge (p : List (Frame α)) (n : Nat) : p.length + n ≤ pathHeight p n := by
  induction p generalizing n with
  | nil => simp [pathHeight]
  | cons f p ih =>
    have := ih (max n f.sib.height + 1)
    simp only [pathHeight, List.length_cons]
    omega

/-- Every node of a tree is the focus of a zipper. -/
theorem Tree.zipper_of_mem (t : Tree α) :
    ∀ (p : List (Frame α)) (a : Nat), a ∈ t.addrs →
      ∃ q l v b r, plug q (.node l a v b r) = plug p t := by
  induction t with
  | nil => intro p a h; simp [Tree.addrs] at h
  | node l x v b r ihl ihr =>
    intro p a h
    simp only [Tree.addrs, List.mem_append, List.mem_cons] at h
    rcases h with h | rfl | h
    · exact ihl ({ dir := .L, a := x, v := v, b := b, sib := r } :: p) a h
    · exact ⟨p, l, v, b, r, rfl⟩
    · exact ihr ({ dir := .R, a := x, v := v, b := b, sib := l } :: p) a h

/-- The parent-climbing loop of `operator++` ends at the first node after
    the subtree it starts from, or reports the end. -/
theorem increment_climb_zip (p : List (Frame α)) :
    ∀ (h : Heap α) (t : Tree α) (c : Nat) (copy : Ptr) (fuel : Nat),
      Zip h p t → t.ptr = some c → p.length + 1 ≤ fuel →
      increment_climb h copy fuel (some c) = .ok
        (positionAfter copy ((pathAfter p).map Prod.fst)) := by
  induction p with
  | nil =>
    intro h t c copy fuel hz hc hf
    obtain ⟨k, rfl⟩ : ∃ k, fuel = k + 1 := ⟨fuel - 1, by simp at hf; omega⟩
    obtain ⟨n, hn, hpar⟩ := hz.sub.root_cell hc
    simp only [pathPtr_nil] at hpar
    simp [increment_climb, Heap.get, hn, hpar, ok_bind, pure_eq_ok, pathAfter, positionAfter]
  | cons f q ih =>
    intro h t c copy fuel hz hc hf
    obtain ⟨k, rfl⟩ : ∃ k, fuel = k + 1 := ⟨fuel - 1, by simp at hf; omega⟩
    obtain ⟨n, hn, hpar⟩ := hz.sub.root_cell hc
    simp only [pathPtr_cons] at hpar
    have hsib := hz.sib_ptr_ne hc
    have hcf := hz.path.1
    obtain ⟨d, fa, fv, fb, fs⟩ := f
    cases d
    · simp only at hsib hcf hpar
      simp [increment_climb, Heap.get, hn, hpar, ok_bind, pure_eq_ok, pathAfter, hcf, Frame.cell,
        hsib, positionAfter]
    · simp only at hsib hcf hpar
      have := ih h _ fa copy k (Zip.up.1 hz) (Frame.fill_ptr _ _) (by simp at hf ⊢; omega)
      simp [increment_climb, Heap.get, hn, hpar, ok_bind, pure_eq_ok, pathAfter, hcf, Frame.cell,
        hc]
      exact this

/-- The parent-climbing loop of `operator--` ends at the last node before
    the subtree it starts from, or at a null pointer. -/
theorem decrement_climb_zip (p : List (Frame α)) :
    ∀ (h : Heap α) (t : Tree α) (c : Nat) (fuel : Nat),
      Zip h p t → t.ptr = some c → p.length + 1 ≤ fuel →
      decrement_climb h fuel (some c) = .ok ((pathBefore p).map Prod.fst).getLast? := by
  induction p with
  | nil =>
    intro h t c fuel hz hc hf
    obtain ⟨k, rfl⟩ : ∃ k, fuel = k + 1 := ⟨fuel - 1, by simp at hf; omega⟩
    obtain ⟨n, hn, hpar⟩ := hz.sub.root_cell hc
    simp only [pathPtr_nil] at hpar
    simp [decrement_climb, Heap.get, hn, hpar, ok_bind, pure_eq_ok, pathBefore]
  | cons f q ih =>
    intro h t c fuel hz hc hf
    obtain ⟨k, rfl⟩ : ∃ k, fuel = k + 1 := ⟨fuel - 1, by simp at hf; omega⟩
    obtain ⟨n, hn, hpar⟩ := hz.sub.root_cell hc
    simp only [pathPtr_cons] at hpar
    have hsib := hz.sib_ptr_ne hc
    have hcf := hz.path.1
    obtain ⟨d, fa, fv, fb, fs⟩ := f
    cases d
    · simp only at hsib hcf hpar
      have := ih h _ fa k (Zip.up.1 hz) (Frame.fill_ptr _ _) (by simp at hf ⊢; omega)
      simp [decrement_climb, Heap.get, hn, hpar, ok_bind, pure_eq_ok, pathBefore, hcf, Frame.cell,
        hc]
      simpa using this
    · simp only at hsib hcf hpar
      simp [decrement_climb, Heap.get, hn, hpar, ok_bind, pure_eq_ok, pathBefore, hcf, Frame.cell,
        hsib]

theorem split_unique {β : Type} {a : β} :
    ∀ {xs ys xs' ys' : List β}, (xs ++ a :: ys).Nodup → xs ++ a :: ys = xs' ++ a :: ys' →
      xs = xs' ∧ ys = ys' := by
  intro xs
  induction xs with
  | nil =>
    intro ys xs' ys' hnd he
    cases xs' with
    | nil => simpa using he
    | cons x xs' =>
      simp only [List.nil_append, List.cons_append, List.cons.injEq] at he
      obtain ⟨rfl, rfl⟩ := he
      simp at hnd
  | cons x xs ih =>
    intro ys xs' ys' hnd he
    cases xs' with
    | nil =>
      simp only [List.nil_append, List.cons_append, List.cons.injEq] at he
      obtain ⟨rfl, rfl⟩ := he
      simp at hnd
    | cons x' xs' =>
      simp only [List.cons_append, List.cons.injEq] at he
      obtain ⟨rfl, he⟩ := he
      simp only [List.cons_append, List.nodup_cons] at hnd
      obtain ⟨i1, i2⟩ := ih hnd.2 he
      exact ⟨by rw [i1], i2⟩

theorem plug_addrs (p : List (Frame α)) (t : Tree α) :
    (plug p t).addrs =
      (pathBefore p).map Prod.fst ++ t.addrs ++ (pathAfter p).map Prod.fst := by
  rw [← Tree.entries_fst, plug_entries, List.map_append, List.map_append, Tree.entries_fst]

/-- `operator++` at a node, seen through a zipper. -/
theorem increment_zip {h : Heap α} {p : List (Frame α)} {l r : Tree α} {a : Nat} {v : α}
    {b : Int} {fuel : Nat} (hz : Zip h p (.node l a v b r)) (hf1 : p.length + 1 ≤ fuel)
    (hf2 : r.height ≤ fuel) :
    iterator.increment fuel h { _node := some a, _is_end := false } = .ok
      (positionAfter (some a) (r.addrs ++ (pathAfter p).map Prod.fst)) := by
  have hg := hz.get_root
  cases r with
  | nil =>
    have := increment_climb_zip p h _ a (some a) fuel hz rfl hf1
    simp only [iterator.increment, reduceCtorEq, Bool.false_eq_true, or_self, if_false, hg,
      ok_bind, Tree.cell, Tree.ptr_nil, if_true, Tree.addrs, List.nil_append]
    exact this
  | node rl ra rv rb rr =>
    have h1 := leftmost_loop_rep (h := h) (.node rl ra rv rb rr) (some a) fuel [] hz.sub.2.2
      (by simp) hf2
    rw [Tree.leftmost_snd _ _ (by simp)] at h1
    have hne := Tree.addrs_ne_nil (t := Tree.node rl ra rv rb rr) (by simp)
    simp only [iterator.increment, reduceCtorEq, Bool.false_eq_true, or_self, if_false, hg,
      ok_bind, Tree.cell, h1, pure_eq_ok]
    cases hra : (Tree.node rl ra rv rb rr).addrs with
    | nil => exact absurd hra hne
    | cons y ys => simp [positionAfter]

/-- `operator--` at a node, seen through a zipper. -/
theorem decrement_zip {h : Heap α} {p : List (Frame α)} {l r : Tree α} {a : Nat} {v : α}
    {b : Int} {fuel : Nat} (hz : Zip h p (.node l a v b r)) (hf1 : p.length + 1 ≤ fuel)
    (hf2 : l.height ≤ fuel) :
    iterator.decrement fuel h { _node := some a, _is_end := false } = .ok
      { _node := ((pathBefore p).map Prod.fst ++ l.addrs).getLast?, _is_end := false } := by
  have hg := hz.get_root
  cases l with
  | nil =>
    have := decrement_climb_zip p h _ a fuel hz rfl hf1
    simp only [iterator.decrement, reduceCtorEq, Bool.false_eq_true, if_false, hg,
      ok_bind, Tree.cell, Tree.ptr_nil, if_true, Tree.addrs, List.append_nil, this, pure_eq_ok]
  | node ll la lv lb lr =>
    have h1 := rightmost_loop_rep (h := h) (.node ll la lv lb lr) (some a) fuel [] hz.sub.2.1
      (by simp) hf2
    rw [Tree.rightmost_snd _ _ (by simp)] at h1
    simp only [Tree.ptr_node] at h1
    have hne := Tree.addrs_ne_nil (t := Tree.node ll la lv lb lr) (by simp)
    simp only [iterator.decrement, reduceCtorEq, Bool.false_eq_true, if_false, hg,
      ok_bind, Tree.cell, h1, pure_eq_ok, Tree.ptr_node]
    rw [List.getLast?_append_of_ne_nil _ hne]

/-- `operator++` at a node of the tree moves to the next address in
    in-order, or sets the past-the-end flag at the last one. -/
theorem increment_split {h : Heap α} {t : Tree α} {xs ys : List Nat} {a : Nat} {fuel : Nat}
    (hw : Whole h t) (hs : t.addrs = xs ++ a :: ys) (hf : t.height ≤ fuel) :
    iterator.increment fuel h { _node := some a, _is_end := false } = .ok
      (positionAfter (some a) ys) := by
  obtain ⟨q, l, v, b, r, hpl⟩ := Tree.zipper_of_mem t [] a (by rw [hs]; simp)
  simp only [plug] at hpl
  have hz : Zip h q (.node l a v b r) := whole_plug.1 (hpl ▸ hw)
  have hh := height_plug q (.node l a v b r)
  have hge := pathHeight_ge q (Tree.node l a v b r).height
  rw [hpl] at hh
  simp only [Tree.height] at hge hh
  have hadd := plug_addrs q (.node l a v b r)
  rw [hpl, hs] at hadd
  simp only [Tree.addrs, List.append_assoc, List.cons_append] at hadd
  rw [← List.append_assoc] at hadd
  obtain ⟨-, e2⟩ := split_unique (by rw [← hs]; exact hw.nodup) hadd
  subst e2
  have h1 : q.length + 1 ≤ fuel := by omega
  have h2 : r.height ≤ fuel := by omega
  exact increment_zip hz h1 h2

/-- `operator--` at a node of the tree moves to the previous address in
    in-order, or to a null pointer at the first one. -/
theorem decrement_split {h : Heap α} {t : Tree α} {xs ys : List Nat} {a : Nat} {fuel : Nat}
    (hw : Whole h t) (hs : t.addrs = xs ++ a :: ys) (hf : t.height ≤ fuel) :
    iterator.decrement fuel h { _node := some a, _is_end := false } = .ok
      { _node := xs.getLast?, _is_end := false } := by
  obtain ⟨q, l, v, b, r, hpl⟩ := Tree.zipper_of_mem t [] a (by rw [hs]; simp)
  simp only [plug] at hpl
  have hz : Zip h q (.node l a v b r) := whole_plug.1 (hpl ▸ hw)
  have hh := height_plug q (.node l a v b r)
  have hge := pathHeight_ge q (Tree.node l a v b r).height
  rw [hpl] at hh
  simp only [Tree.height] at hge hh
  have hadd := plug_addrs q (.node l a v b r)
  rw [hpl, hs] at hadd
  simp only [Tree.addrs, List.append_assoc, List.cons_append] at hadd
  rw [← List.append_assoc] at hadd
  obtain ⟨e1, -⟩ := split_unique (by rw [← hs]; exact hw.nodup) hadd
  subst e1
  have h1 : q.length + 1 ≤ fuel := by omega
  have h2 : l.height ≤ fuel := by omega
  exact decrement_zip hz h1 h2

theorem iterator.eq_iff (x y : iterator) : x.eq y = true ↔ x = y := by
  obtain ⟨xn, xe⟩ := x
  obtain ⟨yn, ye⟩ := y
  simp [iterator.eq]

theorem iterator.ne_iff (x y : iterator) : x.ne y = true ↔ x ≠ y := by
  obtain ⟨xn, xe⟩ := x
  obtain ⟨yn, ye⟩ := y
  simp only [iterator.ne, Bool.or_eq_true, decide_eq_true_eq, ne_eq, iterator.mk.injEq, not_and]
  tauto

theorem Models.begin_eq {s : Set α} {t : Tree α} (hm : Models s t) :
    s.begin = positionAfter s._last_node t.addrs := by
  cases h : t.addrs with
  | nil =>
    have h1 := hm.first
    have h2 := hm.last
    rw [h] at h1 h2
    simp only [List.head?_nil, List.getLast?_nil] at h1 h2
    simp [Set.begin, positionAfter, h1, h2]
  | cons y ys =>
    have h1 := hm.first
    rw [h] at h1
    simp only [List.head?_cons] at h1
    simp [Set.begin, positionAfter, h1]

/-- One `++` from the position before the addresses `y :: ys`. -/
theorem increment_position {s : Set α} {t : Tree α} {xs ys : List Nat} {y : Nat} {fuel : Nat}
    (hm : Models s t) (hs : t.addrs = xs ++ y :: ys) (hf : t.height ≤ fuel) :
    iterator.increment fuel s.heap (positionAfter s._last_node (y :: ys)) =
      .ok (positionAfter s._last_node ys) := by
  have h1 := increment_split hm.whole hs hf
  simp only [positionAfter] at h1 ⊢
  rw [h1]
  cases ys with
  | nil =>
    have h2 := hm.last
    rw [hs] at h2
    simp only [List.getLast?_append_of_ne_nil _ (List.cons_ne_nil y []),
      List.getLast?_singleton] at h2
    simp [h2]
  | cons z zs => rfl

/-- `k` increments from a position move `k` addresses on. -/
theorem advance_position {s : Set α} {t : Tree α} {fuel : Nat} (hm : Models s t)
    (hf : t.height ≤ fuel) :
    ∀ (k : Nat) (xs ys : List Nat), t.addrs = xs ++ ys → k ≤ ys.length →
      iterator.advance fuel s.heap k (positionAfter s._last_node ys) =
        .ok (positionAfter s._last_node (ys.drop k)) := by
  intro k
  induction k with
  | zero => intro xs ys _ _; rfl
  | succ k ih =>
    intro xs ys hs hk
    cases ys with
    | nil => simp at hk
    | cons y ys =>
      simp only [iterator.advance, increment_position hm hs hf, ok_bind, List.drop_succ_cons]
      exact ih (xs ++ [y]) ys (by simp [hs]) (by simpa using hk)

/-- The traversal loop from a position collects the values that follow. -/
theorem traverse_position {s : Set α} {t : Tree α} {fuel : Nat} (hm : Models s t)
    (hf : t.height ≤ fuel) :
    ∀ (E2 E1 : List (Nat × α)) (k : Nat), t.entries = E1 ++ E2 → E2.length + 1 ≤ k →
      Set.traverse fuel s k (positionAfter s._last_node (E2.map Prod.fst)) =
        .ok (E2.map Prod.snd) := by
  intro E2
  induction E2 with
  | nil =>
    intro E1 k _ hk
    obtain ⟨k, rfl⟩ : ∃ j, k = j + 1 := ⟨k - 1, by simp at hk; omega⟩
    have : (positionAfter s._last_node []).ne s.end_ = false := by
      rw [← Bool.not_eq_true, iterator.ne_iff]
      simp [Set.end_, positionAfter]
    simp [Set.traverse, this, pure_eq_ok]
  | cons e E2 ih =>
    intro E1 k hs hk
    obtain ⟨k, rfl⟩ : ∃ j, k = j + 1 := ⟨k - 1, by simp at hk; omega⟩
    obtain ⟨y, v⟩ := e
    have hne : (positionAfter s._last_node (List.map Prod.fst ((y, v) :: E2))).ne s.end_ = true := by
      rw [iterator.ne_iff]
      simp [Set.end_, positionAfter]
    have hd : iterator.deref s.heap (positionAfter s._last_node (List.map Prod.fst ((y, v) :: E2)))
        = .ok v := deref_entry hm.whole (by rw [hs]; simp)
    have hadd : t.addrs = E1.map Prod.fst ++ y :: E2.map Prod.fst := by
      rw [← Tree.entries_fst, hs]; simp
    have hi := increment_position hm hadd hf
    simp only [List.map_cons] at hne hd ⊢
    simp only [Set.traverse, hne, if_true, hd, ok_bind, hi]
    rw [ih (E1 ++ [(y, v)]) k (by simp [hs]) (by simp at hk ⊢; omega)]
    rfl

/-- `--` undoes `++` at every node of the tree. -/
theorem decrement_increment {s : Set α} {t : Tree α} {fuel : Nat} {a : Nat} (hm : Models s t)
    (hf : t.height ≤ fuel) (ha : a ∈ t.addrs) :
    ∃ it, iterator.increment fuel s.heap { _node := some a, _is_end := false } = .ok it ∧
      iterator.decrement fuel s.heap it = .ok { _node := some a, _is_end := false } ∧
      (t.addrs.getLast? = some a → it = s.end_) ∧
      (t.addrs.getLast? ≠ some a → it._is_end = false) := by
  obtain ⟨xs, ys, hs⟩ := List.append_of_mem ha
  refine ⟨_, increment_split hm.whole hs hf, ?_, ?_, ?_⟩
  · cases ys with
    | nil => simp [positionAfter, iterator.decrement, pure_eq_ok]
    | cons y ys =>
      have hs' : t.addrs = (xs ++ [a]) ++ y :: ys := by simp [hs]
      have := decrement_split hm.whole hs' hf
      simpa [positionAfter] using this
  · intro hl
    cases ys with
    | nil =>
      have h2 := hm.last
      rw [hl] at h2
      simp [positionAfter, Set.end_, h2]
    | cons y ys =>
      exfalso
      have hnd := hm.whole.nodup
      rw [hs] at hl hnd
      rw [List.getLast?_append_of_ne_nil _ (by simp)] at hl
      have : a ∈ y :: ys := by
        rw [List.getLast?_cons_cons] at hl
        exact List.mem_of_getLast?_eq_some hl
      simp only [List.nodup_append, List.nodup_cons] at hnd
      exact hnd.2.1.1 this
  · intro hl
    cases ys with
    | nil =>
      exfalso
      apply hl
      rw [hs, List.getLast?_append_of_ne_nil _ (by simp)]
      rfl
    | cons y ys => rfl

/-- `++` undoes `--` at every node of the tree but the first. -/
theorem increment_decrement {s : Set α} {t : Tree α} {fuel : Nat} {a : Nat} (hm : Models s t)
    (hf : t.height ≤ fuel) (ha : a ∈ t.addrs)
    (hb : ({ _node := some a, _is_end := false } : iterator) ≠ s.begin) :
    ∃ it, iterator.decrement fuel s.heap { _node := some a, _is_end := false } = .ok it ∧
      iterator.increment fuel s.heap it = .ok { _node := some a, _is_end := false } := by
  obtain ⟨xs, ys, hs⟩ := List.append_of_mem ha
  refine ⟨_, decrement_split hm.whole hs hf, ?_⟩
  rcases List.eq_nil_or_concat xs with rfl | ⟨xs', x, rfl⟩
  · exfalso
    apply hb
    rw [hm.begin_eq, hs]
    rfl
  · have hs' : t.addrs = xs' ++ x :: (a :: ys) := by simp [hs]
    have := increment_split hm.whole hs' hf
    simpa [positionAfter] using this

end Iter

/-! ## More fuel does not change a result

A loop that returns with some fuel returns the same result with any larger
fuel: the fuel only bounds the number of iterations. -/

section Fuel

variable {α : Type}

theorem bind_ok_mono {β γ : Type} {x x' : Except Fault β} {k k' : β → Except Fault γ} {r : γ}
    (hx : ∀ a, x = .ok a → x' = .ok a)
    (hk : ∀ a, x = .ok a → k a = .ok r → k' a = .ok r) (e : x >>= k = .ok r) :
    x' >>= k' = .ok r := by
  cases x with
  | error f => exact Except.noConfusion e
  | ok a =>
    rw [hx a rfl]
    exact hk a rfl e

theorem bind_ok_right {β γ : Type} {x : Except Fault β} {k k' : β → Except Fault γ} {r : γ}
    (hk : ∀ a, x = .ok a → k a = .ok r → k' a = .ok r) (e : x >>= k = .ok r) :
    x >>= k' = .ok r :=
  bind_ok_mono (fun _ h => h) hk e

theorem leftmost_loop_mono (h : Heap α) :
    ∀ (fuel fuel' : Nat) (p r : Ptr), fuel ≤ fuel' →
      leftmost_loop h fuel p = .ok r → leftmost_loop h fuel' p = .ok r
  | 0, _, _, _, _, e => Except.noConfusion e
  | fuel + 1, 0, _, _, hf, _ => absurd hf (by omega)
  | fuel + 1, fuel' + 1, p, r, hf, e => by
    rw [leftmost_loop] at e ⊢
    refine bind_ok_right (fun n _ e => ?_) e
    split_ifs at e ⊢
    · exact leftmost_loop_mono h fuel fuel' _ _ (by omega) e
    · exact e

theorem rightmost_loop_mono (h : Heap α) :
    ∀ (fuel fuel' : Nat) (p r : Ptr), fuel ≤ fuel' →
      rightmost_loop h fuel p = .ok r → rightmost_loop h fuel' p = .ok r
  | 0, _, _, _, _, e => Except.noConfusion e
  | fuel + 1, 0, _, _, hf, _ => absurd hf (by omega)
  | fuel + 1, fuel' + 1, p, r, hf, e => by
    rw [rightmost_loop] at e ⊢
    refine bind_ok_right (fun n _ e => ?_) e
    split_ifs at e ⊢
    · exact rightmost_loop_mono h fuel fuel' _ _ (by omega) e
    · exact e

theorem update_edge_nodes_mono (fuel fuel' : Nat) (s r : Set α) (hf : fuel ≤ fuel')
    (e : s.update_edge_nodes fuel = .ok r) : s.update_edge_nodes fuel' = .ok r := by
  unfold Set.update_edge_nodes at e ⊢
  simp only at e ⊢
  split_ifs at e ⊢
  · exact e
  · refine bind_ok_mono (fun a ha => leftmost_loop_mono _ _ _ _ _ hf ha) (fun b _ e => ?_) e
    exact bind_ok_mono (fun a ha => rightmost_loop_mono _ _ _ _ _ hf ha) (fun b _ e => e) e

theorem clear_loop_mono :
    ∀ (fuel fuel' : Nat) (h : Heap α) (c : Ptr) (r : Heap α), fuel ≤ fuel' →
      clear_loop fuel h c = .ok r → clear_loop fuel' h c = .ok r
  | 0, _, _, _, _, _, e => Except.noConfusion e
  | fuel + 1, 0, _, _, _, hf, _ => absurd hf (by omega)
  | fuel + 1, fuel' + 1, h, none, r, _, e => e
  | fuel + 1, fuel' + 1, h, some c, r, hf, e => by
    rw [clear_loop] at e ⊢
    refine bind_ok_right (fun n _ e => ?_) e
    simp only at e ⊢
    split_ifs at e ⊢
    · exact clear_loop_mono fuel fuel' _ _ _ (by omega) e
    · exact clear_loop_mono fuel fuel' _ _ _ (by omega) e
    · exact e
    · refine bind_ok_right (fun p _ e => ?_) e
      split_ifs at e ⊢
      · refine bind_ok_right (fun h1 _ e => ?_) e
        refine bind_ok_right (fun h2 _ e => ?_) e
        exact clear_loop_mono fuel fuel' _ _ _ (by omega) e
      · refine bind_ok_right (fun h1 _ e => ?_) e
        refine bind_ok_right (fun h2 _ e => ?_) e
        exact clear_loop_mono fuel fuel' _ _ _ (by omega) e

theorem clear_mono (fuel fuel' : Nat) (s r : Set α) (hf : fuel ≤ fuel')
    (e : s.clear fuel = .ok r) : s.clear fuel' = .ok r := by
  unfold Set.clear at e ⊢
  exact bind_ok_mono (fun a ha => clear_loop_mono _ _ _ _ _ hf ha) (fun b _ e => e) e

theorem insert_walk_mono :
    ∀ (fuel fuel' : Nat) (h : Heap α) (root c : Ptr) (r : Heap α × Ptr), fuel ≤ fuel' →
      insert_walk fuel h root c = .ok r → insert_walk fuel' h root c = .ok r
  | 0, _, _, _, _, _, _, e => Except.noConfusion e
  | fuel + 1, 0, _, _, _, _, hf, _ => absurd hf (by omega)
  | fuel + 1, fuel' + 1, h, root, none, r, _, e => e
  | fuel + 1, fuel' + 1, h, root, some c, r, hf, e => by
    rw [insert_walk] at e ⊢
    refine bind_ok_right (fun x _ e => ?_) e
    refine bind_ok_right (fun n _ e => ?_) e
    simp only at e ⊢
    repeat' first
      | exact e
      | exact insert_walk_mono fuel fuel' _ _ _ _ (by omega) e
      | refine bind_ok_right (fun _ _ e => ?_) e
      | split_ifs at e ⊢

theorem erase_detach_mono :
    ∀ (fuel fuel' : Nat) (h : Heap α) (root c : Ptr) (r : Heap α × Ptr × Ptr), fuel ≤ fuel' →
      erase_detach fuel h root c = .ok r → erase_detach fuel' h root c = .ok r
  | 0, _, _, _, _, _, _, e => Except.noConfusion e
  | fuel + 1, 0, _, _, _, _, hf, _ => absurd hf (by omega)
  | fuel + 1, fuel' + 1, h, root, c, r, hf, e => by
    rw [erase_detach] at e ⊢
    refine bind_ok_right (fun n _ e => ?_) e
    split_ifs at e ⊢
    · exact e
    · exact e
    · refine bind_ok_mono (fun a ha => rightmost_loop_mono _ _ _ _ _ (by omega) ha)
        (fun m _ e => ?_) e
      refine bind_ok_right (fun h1 _ e => ?_) e
      exact erase_detach_mono fuel fuel' _ _ _ _ (by omega) e
    · refine bind_ok_mono (fun a ha => leftmost_loop_mono _ _ _ _ _ (by omega) ha)
        (fun m _ e => ?_) e
      refine bind_ok_right (fun h1 _ e => ?_) e
      exact erase_detach_mono fuel fuel' _ _ _ _ (by omega) e
    · exact erase_detach_mono fuel fuel' _ _ _ _ (by omega) e

theorem erase_walk_mono :
    ∀ (fuel fuel' : Nat) (h : Heap α) (root c : Ptr) (r : Heap α × Ptr), fuel ≤ fuel' →
      erase_walk fuel h root c = .ok r → erase_walk fuel' h root c = .ok r
  | 0, _, _, _, _, _, _, e => Except.noConfusion e
  | fuel + 1, 0, _, _, _, _, hf, _ => absurd hf (by omega)
  | fuel + 1, fuel' + 1, h, root, none, r, _, e => e
  | fuel + 1, fuel' + 1, h, root, some c, r, hf, e => by
    rw [erase_walk] at e ⊢
    refine bind_ok_right (fun x _ e => ?_) e
    refine bind_ok_right (fun n _ e => ?_) e
    simp only at e ⊢
    repeat' first
      | exact e
      | exact erase_walk_mono fuel fuel' _ _ _ _ (by omega) e
      | refine bind_ok_right (fun _ _ e => ?_) e
      | split_ifs at e ⊢

variable [LinearOrder α]

theorem find_loop_mono (h : Heap α) (value : α) :
    ∀ (fuel fuel' : Nat) (c r : Ptr), fuel ≤ fuel' →
      find_loop h value fuel c = .ok r → find_loop h value fuel' c = .ok r
  | 0, _, _, _, _, e => Except.noConfusion e
  | fuel + 1, 0, _, _, hf, _ => absurd hf (by omega)
  | fuel + 1, fuel' + 1, none, r, _, e => e
  | fuel + 1, fuel' + 1, some c, r, hf, e => by
    rw [find_loop] at e ⊢
    refine bind_ok_right (fun n _ e => ?_) e
    split_ifs at e ⊢
    · exact find_loop_mono h value fuel fuel' _ _ (by omega) e
    · exact find_loop_mono h value fuel fuel' _ _ (by omega) e
    · exact e

theorem insert_descend_mono (value : α) :
    ∀ (fuel fuel' : Nat) (h : Heap α) (c : Ptr) (r : Option (Heap α × Ptr)), fuel ≤ fuel' →
      insert_descend value fuel h c = .ok r → insert_descend value fuel' h c = .ok r
  | 0, _, _, _, _, _, e => Except.noConfusion e
  | fuel + 1, 0, _, _, _, hf, _ => absurd hf (by omega)
  | fuel + 1, fuel' + 1, h, none, r, _, e => e
  | fuel + 1, fuel' + 1, h, some c, r, hf, e => by
    rw [insert_descend] at e ⊢
    refine bind_ok_right (fun n _ e => ?_) e
    split_ifs at e ⊢
    · exact e
    · exact insert_descend_mono value fuel fuel' _ _ _ (by omega) e
    · exact e
    · exact insert_descend_mono value fuel fuel' _ _ _ (by omega) e
    · exact e

theorem insert_mono (fuel fuel' : Nat) (s r : Set α) (value : α) (hf : fuel ≤ fuel')
    (e : s.insert fuel value = .ok r) : s.insert fuel' value = .ok r := by
  unfold Set.insert at e ⊢
  split_ifs at e ⊢
  · exact e
  · refine bind_ok_mono (fun a ha => insert_descend_mono _ _ _ _ _ _ hf ha) (fun d _ e => ?_) e
    cases d with
    | none => exact e
    | some x =>
      simp only at e ⊢
      refine bind_ok_mono (fun a ha => insert_walk_mono _ _ _ _ _ _ hf ha) (fun w _ e => ?_) e
      exact update_edge_nodes_mono _ _ _ _ hf e

theorem erase_mono (fuel fuel' : Nat) (s r : Set α) (value : α) (hf : fuel ≤ fuel')
    (e : s.erase fuel value = .ok r) : s.erase fuel' value = .ok r := by
  unfold Set.erase at e ⊢
  refine bind_ok_mono (fun a ha => ?_) (fun c _ e => ?_) e
  · rw [erase_search_eq_find_loop] at ha ⊢
    exact find_loop_mono _ _ _ _ _ _ hf ha
  · split_ifs at e ⊢
    · exact e
    · simp only at e ⊢
      refine bind_ok_mono (fun a ha => erase_detach_mono _ _ _ _ _ _ hf ha) (fun d _ e => ?_) e
      refine bind_ok_mono (fun a ha => erase_walk_mono _ _ _ _ _ _ hf ha) (fun w _ e => ?_) e
      exact update_edge_nodes_mono _ _ _ _ hf e

end Fuel

/-! ## `clear` on the heap -/

section Clear

variable {α : Type}

/-- The loop of `clear`, entered at the root of a subtree: it frees the
    subtree and goes on at the parent, or returns when there is none. -/
theorem clear_loop_zip (n : Nat) :
    ∀ (t : Tree α) (p : List (Frame α)) (h : Heap α), t.size ≤ n → t ≠ .nil → Zip h p t →
      ∃ h', h'.next = h.next ∧ Zip h' p .nil ∧
        ∀ k, clear_loop (2 * t.size - 1 + k) h t.ptr =
          if pathPtr p = none then .ok h' else clear_loop k h' (pathPtr p) := by
  induction n with
  | zero =>
    intro t p h hs hne _
    cases t with
    | nil => exact absurd rfl hne
    | node l a v b r => simp [Tree.size] at hs
  | succ n ih =>
    intro t p h hs hne hz
    cases t with
    | nil => exact absurd rfl hne
    | node l a v b r =>
      simp only [Tree.size] at hs
      cases l with
      | node ll la lv lb lr =>
        obtain ⟨h1, hn1, hz1, e1⟩ := ih (.node ll la lv lb lr) _ h (by omega) (by simp)
          hz.down_left
        have hz1' := Zip.up_left hz1
        obtain ⟨h2, hn2, hz2, e2⟩ := ih (.node .nil a v b r) p h1
          (by simp only [Tree.size] at hs ⊢; omega) (by simp) hz1'
        refine ⟨h2, by rw [hn2, hn1], hz2, fun k => ?_⟩
        have hfuel : 2 * (Tree.node (.node ll la lv lb lr) a v b r).size - 1 + k =
            (2 * (Tree.node ll la lv lb lr).size - 1 +
              (2 * (Tree.node .nil a v b r).size - 1 + k)) + 1 := by
          simp only [Tree.size]; omega
        rw [hfuel, Tree.ptr_node, clear_loop, hz.get_root]
        simp only [ok_bind, Tree.cell, Tree.ptr_node, ne_eq, reduceCtorEq, not_false_eq_true,
          if_true]
        have := e1 (2 * (Tree.node .nil a v b r).size - 1 + k)
        simp only [Tree.ptr_node, pathPtr_cons, reduceCtorEq, if_false] at this
        rw [this]
        exact e2 k
      | nil =>
        cases r with
        | node rl ra rv rb rr =>
          obtain ⟨h1, hn1, hz1, e1⟩ := ih (.node rl ra rv rb rr) _ h (by omega) (by simp)
            hz.down_right
          have hz1' := Zip.up_right hz1
          obtain ⟨h2, hn2, hz2, e2⟩ := ih (.node .nil a v b .nil) p h1
            (by simp only [Tree.size] at hs ⊢; omega) (by simp) hz1'
          refine ⟨h2, by rw [hn2, hn1], hz2, fun k => ?_⟩
          have hfuel : 2 * (Tree.node .nil a v b (.node rl ra rv rb rr)).size - 1 + k =
              (2 * (Tree.node rl ra rv rb rr).size - 1 +
                (2 * (Tree.node .nil a v b .nil).size - 1 + k)) + 1 := by
            simp only [Tree.size]; omega
          rw [hfuel, Tree.ptr_node, clear_loop, hz.get_root]
          simp only [ok_bind, Tree.cell, Tree.ptr_node, Tree.ptr_nil, ne_eq, reduceCtorEq,
            not_false_eq_true, not_true_eq_false, if_true, if_false]
          have := e1 (2 * (Tree.node .nil a v b .nil).size - 1 + k)
          simp only [Tree.ptr_node, pathPtr_cons, reduceCtorEq, if_false] at this
          rw [this]
          exact e2 k
        | nil =>
          have hfuel : ∀ k, 2 * (Tree.node .nil a v b .nil : Tree α).size - 1 + k = k + 1 := by
            intro k; simp only [Tree.size]; omega
          simp only [hfuel, Tree.ptr_node, clear_loop, hz.get_root, ok_bind, Tree.cell,
            Tree.ptr_nil, ne_eq, not_true_eq_false, if_false]
          cases p with
          | nil =>
            simp only [pathPtr_nil, if_true, Heap.free_some _ _ _ hz.sub.1]
            exact ⟨{ h with cells := fun x => if x = a then none else h.cells x }, rfl,
              ⟨trivial, trivial, by simp [pathAddrs, Tree.addrs],
                by simp [pathAddrs, Tree.addrs]⟩, fun _ => rfl⟩
          | cons f p' =>
            have hsib := hz.sib_ptr_ne rfl
            have hcf := hz.path.1
            have hca := hz.sub.1
            have hfa : f.a ≠ a := by
              have hnd := hz.nodup
              simp only [pathAddrs, Tree.addrs, List.nil_append, List.cons_append,
                List.nodup_cons, List.mem_append, List.mem_singleton, not_or] at hnd
              exact hnd.1.2
            obtain ⟨d, fa, fv, fb, fs⟩ := f
            cases d
            · simp only at hsib hcf hfa
              have hne : ¬ (fs.ptr = some a) := hsib
              refine ⟨Heap.mk (fun x => if x = a then none else if x = fa then
                  some (Frame.cell (Frame.mk .L fa fv fb fs) none (pathPtr p'))
                  else h.cells x) h.next, rfl, Zip.detach fb hz rfl fun x => ?_, fun k => ?_⟩
              · simp only [Frame.cell]
                by_cases hx1 : x = fa <;> by_cases hx2 : x = a <;>
                  simp [hx1, hx2, hfa, Ne.symm hfa]
              · simp [Heap.get, Heap.free, Heap.upd, Heap.set_cells, hcf, hca, Frame.cell,
                  hne, ok_bind, pure_eq_ok, hfa, Ne.symm hfa]
                rfl
            · simp only at hsib hcf hfa
              refine ⟨Heap.mk (fun x => if x = a then none else if x = fa then
                  some (Frame.cell (Frame.mk .R fa fv fb fs) none (pathPtr p'))
                  else h.cells x) h.next, rfl, Zip.detach fb hz rfl fun x => ?_, fun k => ?_⟩
              · simp only [Frame.cell]
                by_cases hx1 : x = fa <;> by_cases hx2 : x = a <;>
                  simp [hx1, hx2, hfa, Ne.symm hfa]
              · simp [Heap.get, Heap.free, Heap.upd, Heap.set_cells, hcf, hca, Frame.cell,
                  ok_bind, pure_eq_ok, hfa, Ne.symm hfa]
                rfl

/-- `clear` on a set that is a tree: it returns, and the result is the
    empty tree. -/
theorem clear_models {s : Set α} {t : Tree α} (fuel : Nat) (hm : Models s t)
    (hf : 2 * t.size + 1 ≤ fuel) :
    ∃ s', Set.clear fuel s = .ok s' ∧ Models s' .nil ∧ s'.heap.next = s.heap.next := by
  cases t with
  | nil =>
    obtain ⟨k, rfl⟩ : ∃ k, fuel = k + 1 := ⟨fuel - 1, by omega⟩
    have hr : s._root = none := hm.root
    refine ⟨Set.mk s.heap none none none 0, by simp only [Set.clear, hr, clear_loop, ok_bind, pure_eq_ok], ?_, rfl⟩
    exact ⟨⟨trivial, List.nodup_nil, fun _ ha => absurd ha (List.not_mem_nil _)⟩, rfl, rfl, rfl,
      rfl⟩
  | node l a v b r =>
    have hz : Zip s.heap [] (.node l a v b r) := whole_plug.1 hm.whole
    obtain ⟨h', hn, -, e⟩ := clear_loop_zip _ _ [] s.heap le_rfl (by simp) hz
    have e0 := e 0
    simp only [pathPtr_nil, if_true, Nat.add_zero] at e0
    have e1 := clear_loop_mono _ fuel _ _ _ (by omega) e0
    have hr : s._root = some a := hm.root
    refine ⟨Set.mk h' none none none 0, by simp only [Set.clear, hr]; rw [← Tree.ptr_node, e1]; rfl, ?_, hn⟩
    exact ⟨⟨trivial, List.nodup_nil, fun _ ha => absurd ha (List.not_mem_nil _)⟩, rfl, rfl, rfl,
      rfl⟩

end Clear

/-! ## The states a set can reach -/

section Reach

variable {α : Type}

theorem models_empty_set : Models (Set.empty_set : Set α) .nil :=
  ⟨⟨trivial, List.nodup_nil, fun _ ha => absurd ha (List.not_mem_nil _)⟩, rfl, rfl, rfl, rfl⟩

variable [LinearOrder α]

/-- Every state reached from the empty set is a BST-ordered AVL tree with
    consistent links, caches and size. -/
theorem reachable_wellformed {s : Set α} (hr : Reachable s) :
    ∃ t, Models s t ∧ t.Ordered ∧ t.Avl := by
  induction hr with
  | empty => exact ⟨.nil, models_empty_set, trivial, trivial⟩
  | insert fuel value _ e ih =>
    obtain ⟨t, hm, ho, ha⟩ := ih
    have e1 := insert_mono _ _ _ _ value (le_max_left fuel (t.size + 2)) e
    rcases insert_correct value (max fuel (t.size + 2)) hm ho ha (le_max_right _ _) with
      ⟨-, e'⟩ | ⟨-, s'', t', e', hm', ha', ho', -⟩
    · rw [e'] at e1
      cases e1
      exact ⟨t, hm, ho, ha⟩
    · rw [e'] at e1
      cases e1
      exact ⟨t', hm', ho', ha'⟩
  | erase fuel value _ e ih =>
    obtain ⟨t, hm, ho, ha⟩ := ih
    have e1 := erase_mono _ _ _ _ value (le_max_left fuel (t.size + 1)) e
    rcases erase_correct value (max fuel (t.size + 1)) hm ho ha (le_max_right _ _) with
      ⟨-, e'⟩ | ⟨s'', t', e', hm', ha', ho', -⟩
    · rw [e'] at e1
      cases e1
      exact ⟨t, hm, ho, ha⟩
    · rw [e'] at e1
      cases e1
      exact ⟨t', hm', ho', ha'⟩
  | clear fuel _ e ih =>
    obtain ⟨t, hm, -, -⟩ := ih
    have e1 := clear_mono _ _ _ _ (le_max_left fuel (2 * t.size + 1)) e
    obtain ⟨s'', e', hm', -⟩ := clear_models (max fuel (2 * t.size + 1)) hm (le_max_right _ _)
    rw [e'] at e1
    cases e1
    exact ⟨.nil, hm', trivial, trivial⟩

/-- The sets built by `Set(std::initializer_list)` are reachable. -/
theorem reachable_foldl (fuel : Nat) :
    ∀ (init : List α) (s0 s : Set α), Reachable s0 →
      init.foldlM (fun s value => Set.insert fuel s value) s0 = .ok s → Reachable s
  | [], s0, s, hr, e => by
    cases e
    exact hr
  | v :: init, s0, s, hr, e => by
    rw [List.foldlM_cons] at e
    cases h1 : Set.insert fuel s0 v with
    | error f => rw [h1] at e; exact Except.noConfusion e
    | ok s1 =>
      rw [h1] at e
      exact reachable_foldl fuel init s1 s (Reachable.insert fuel v hr h1) e

theorem reachable_of_list (fuel : Nat) (init : List α) (s : Set α)
    (e : Set.of_list fuel init = .ok s) : Reachable s :=
  reachable_foldl fuel init _ s Reachable.empty e

end Reach

/-! ## No operation but the dereference throws

The only `throw` of the source is in `operator*` and `operator->`. -/

section Throw

variable {α : Type}

set_option linter.unusedTactic false
set_option linter.unreachableTactic false

theorem nt_ok {β : Type} (a : β) : NoThrow (Except.ok a : Except Fault β) :=
  fun e => Except.noConfusion e

theorem nt_fault {β : Type} {f : Fault} (hf : f ≠ .domain_error) :
    NoThrow (Except.error f : Except Fault β) :=
  fun e => hf (Except.error.inj e)

theorem nt_bind {β γ : Type} {x : Except Fault β} {k : β → Except Fault γ}
    (hx : NoThrow x) (hk : ∀ a, NoThrow (k a)) : NoThrow (x >>= k) := by
  cases x with
  | error f => exact fun e => hx (by rw [Except.error.inj e])
  | ok a => exact hk a

theorem nt_get (h : Heap α) (p : Ptr) : NoThrow (h.get p) := by
  unfold Heap.get
  repeat' first
    | exact nt_ok _
    | exact nt_fault (by decide)
    | split

theorem nt_upd (h : Heap α) (p : Ptr) (f : Node α → Node α) : NoThrow (h.upd p f) := by
  unfold Heap.upd
  repeat' first
    | exact nt_ok _
    | exact nt_fault (by decide)
    | split

theorem nt_free (h : Heap α) (p : Ptr) : NoThrow (h.free p) := by
  unfold Heap.free
  repeat' first
    | exact nt_ok _
    | exact nt_fault (by decide)
    | split

theorem nt_rotate_left (h : Heap α) (this : Nat) : NoThrow (rotate_left h this) := by
  unfold rotate_left
  repeat' first
    | exact nt_ok _
    | exact nt_fault (by decide)
    | exact nt_get _ _
    | exact nt_upd _ _ _
    | exact nt_free _ _
    | refine nt_bind ?_ (fun _ => ?_)
    | split
    | dsimp only

theorem nt_rotate_right (h : Heap α) (this : Nat) : NoThrow (rotate_right h this) := by
  unfold rotate_right
  repeat' first
    | exact nt_ok _
    | exact nt_fault (by decide)
    | exact nt_get _ _
    | exact nt_upd _ _ _
    | exact nt_free _ _
    | refine nt_bind ?_ (fun _ => ?_)
    | split
    | dsimp only

theorem nt_big_rotate_left (h : Heap α) (this : Nat) : NoThrow (big_rotate_left h this) := by
  unfold big_rotate_left
  repeat' first
    | exact nt_ok _
    | exact nt_fault (by decide)
    | exact nt_get _ _
    | exact nt_upd _ _ _
    | exact nt_free _ _
    | exact nt_rotate_left _ _
    | exact nt_rotate_right _ _
    | refine nt_bind ?_ (fun _ => ?_)
    | split
    | dsimp only

theorem nt_big_rotate_right (h : Heap α) (this : Nat) : NoThrow (big_rotate_right h this) := by
  unfold big_rotate_right
  repeat' first
    | exact nt_ok _
    | exact nt_fault (by decide)
    | exact nt_get _ _
    | exact nt_upd _ _ _
    | exact nt_free _ _
    | exact nt_rotate_left _ _
    | exact nt_rotate_right _ _
    | refine nt_bind ?_ (fun _ => ?_)
    | split
    | dsimp only

theorem nt_apply_rotation (h : Heap α) (this : Nat) : NoThrow (apply_rotation h this) := by
  unfold apply_rotation
  repeat' first
    | exact nt_ok _
    | exact nt_fault (by decide)
    | exact nt_get _ _
    | exact nt_upd _ _ _
    | exact nt_free _ _
    | exact nt_rotate_left _ _
    | exact nt_rotate_right _ _
    | exact nt_big_rotate_left _ _
    | exact nt_big_rotate_right _ _
    | refine nt_bind ?_ (fun _ => ?_)
    | split
    | dsimp only

theorem nt_leftmost_loop (h : Heap α) :
    ∀ (fuel : Nat) (p : Ptr), NoThrow (leftmost_loop h fuel p) := by
  intro fuel
  induction fuel with
  | zero =>
    intros
    exact nt_fault (by decide)
  | succ k ih =>
    intro p
    rw [leftmost_loop]
    repeat' first
      | exact nt_ok _
      | exact nt_fault (by decide)
      | exact nt_get _ _
      | exact nt_upd _ _ _
      | exact nt_free _ _
      | exact ih _
      | refine nt_bind ?_ (fun _ => ?_)
      | split
      | dsimp only

theorem nt_rightmost_loop (h : Heap α) :
    ∀ (fuel : Nat) (p : Ptr), NoThrow (rightmost_loop h fuel p) := by
  intro fuel
  induction fuel with
  | zero =>
    intros
    exact nt_fault (by decide)
  | succ k ih =>
    intro p
    rw [rightmost_loop]
    repeat' first
      | exact nt_ok _
      | exact nt_fault (by decide)
      | exact nt_get _ _
      | exact nt_upd _ _ _
      | exact nt_free _ _
      | exact ih _
      | refine nt_bind ?_ (fun _ => ?_)
      | split
      | dsimp only

theorem nt_update_edge_nodes (fuel : Nat) (s : Set α) : NoThrow (s.update_edge_nodes fuel) := by
  unfold Set.update_edge_nodes
  repeat' first
    | exact nt_ok _
    | exact nt_fault (by decide)
    | exact nt_get _ _
    | exact nt_upd _ _ _
    | exact nt_free _ _
    | exact nt_leftmost_loop _ _ _
    | exact nt_rightmost_loop _ _ _
    | refine nt_bind ?_ (fun _ => ?_)
    | split
    | dsimp only

theorem nt_clear_loop  :
    ∀ (fuel : Nat) (h : Heap α) (c : Ptr), NoThrow (clear_loop fuel h c) := by
  intro fuel
  induction fuel with
  | zero =>
    intros
    exact nt_fault (by decide)
  | succ k ih =>
    intro h c
    cases c with
    | none => exact nt_ok _
    | some a =>
      rw [clear_loop]
      repeat' first
        | exact nt_ok _
        | exact nt_fault (by decide)
        | exact nt_get _ _
        | exact nt_upd _ _ _
        | exact nt_free _ _
        | exact ih _ _
        | refine nt_bind ?_ (fun _ => ?_)
        | split
        | dsimp only

theorem nt_clear (fuel : Nat) (s : Set α) : NoThrow (s.clear fuel) := by
  unfold Set.clear
  repeat' first
    | exact nt_ok _
    | exact nt_fault (by decide)
    | exact nt_get _ _
    | exact nt_upd _ _ _
    | exact nt_free _ _
    | exact nt_clear_loop _ _ _
    | refine nt_bind ?_ (fun _ => ?_)
    | split
    | dsimp only

theorem nt_increment_climb (h : Heap α) (node_copy : Ptr) :
    ∀ (fuel : Nat) (node : Ptr), NoThrow (increment_climb h node_copy fuel node) := by
  intro fuel
  induction fuel with
  | zero =>
    intros
    exact nt_fault (by decide)
  | succ k ih =>
    intro node
    rw [increment_climb]
    repeat' first
      | exact nt_ok _
      | exact nt_fault (by decide)
      | exact nt_get _ _
      | exact nt_upd _ _ _
      | exact nt_free _ _
      | exact ih _
      | refine nt_bind ?_ (fun _ => ?_)
      | split
      | dsimp only

theorem nt_increment (fuel : Nat) (h : Heap α) (it : iterator) : NoThrow (it.increment fuel h) := by
  unfold iterator.increment
  repeat' first
    | exact nt_ok _
    | exact nt_fault (by decide)
    | exact nt_get _ _
    | exact nt_upd _ _ _
    | exact nt_free _ _
    | exact nt_increment_climb _ _ _ _
    | exact nt_leftmost_loop _ _ _
    | refine nt_bind ?_ (fun _ => ?_)
    | split
    | dsimp only

theorem nt_decrement_climb (h : Heap α) :
    ∀ (fuel : Nat) (node : Ptr), NoThrow (decrement_climb h fuel node) := by
  intro fuel
  induction fuel with
  | zero =>
    intros
    exact nt_fault (by decide)
  | succ k ih =>
    intro node
    rw [decrement_climb]
    repeat' first
      | exact nt_ok _
      | exact nt_fault (by decide)
      | exact nt_get _ _
      | exact nt_upd _ _ _
      | exact nt_free _ _
      | exact ih _
      | refine nt_bind ?_ (fun _ => ?_)
      | split
      | dsimp only

theorem nt_decrement (fuel : Nat) (h : Heap α) (it : iterator) : NoThrow (it.decrement fuel h) := by
  unfold iterator.decrement
  repeat' first
    | exact nt_ok _
    | exact nt_fault (by decide)
    | exact nt_get _ _
    | exact nt_upd _ _ _
    | exact nt_free _ _
    | exact nt_decrement_climb _ _ _
    | exact nt_rightmost_loop _ _ _
    | refine nt_bind ?_ (fun _ => ?_)
    | split
    | dsimp only

theorem nt_post_increment (fuel : Nat) (h : Heap α) (it : iterator) : NoThrow (it.post_increment fuel h) := by
  unfold iterator.post_increment
  repeat' first
    | exact nt_ok _
    | exact nt_fault (by decide)
    | exact nt_get _ _
    | exact nt_upd _ _ _
    | exact nt_free _ _
    | exact nt_increment _ _ _
    | refine nt_bind ?_ (fun _ => ?_)
    | split
    | dsimp only

theorem nt_post_decrement (fuel : Nat) (h : Heap α) (it : iterator) : NoThrow (it.post_decrement fuel h) := by
  unfold iterator.post_decrement
  repeat' first
    | exact nt_ok _
    | exact nt_fault (by decide)
    | exact nt_get _ _
    | exact nt_upd _ _ _
    | exact nt_free _ _
    | exact nt_decrement _ _ _
    | refine nt_bind ?_ (fun _ => ?_)
    | split
    | dsimp only

theorem nt_swap_values (h : Heap α) (a b : Ptr) : NoThrow (swap_values h a b) := by
  unfold swap_values
  repeat' first
    | exact nt_ok _
    | exact nt_fault (by decide)
    | exact nt_get _ _
    | exact nt_upd _ _ _
    | exact nt_free _ _
    | refine nt_bind ?_ (fun _ => ?_)
    | split
    | dsimp only

theorem nt_insert_walk  :
    ∀ (fuel : Nat) (h : Heap α) (root c : Ptr), NoThrow (insert_walk fuel h root c) := by
  intro fuel
  induction fuel with
  | zero =>
    intros
    exact nt_fault (by decide)
  | succ k ih =>
    intro h root c
    cases c with
    | none => exact nt_ok _
    | some a =>
      rw [insert_walk]
      repeat' first
        | exact nt_ok _
        | exact nt_fault (by decide)
        | exact nt_get _ _
        | exact nt_upd _ _ _
        | exact nt_free _ _
        | exact nt_apply_rotation _ _
        | exact ih _ _ _
        | refine nt_bind ?_ (fun _ => ?_)
        | split
        | dsimp only

theorem nt_erase_walk  :
    ∀ (fuel : Nat) (h : Heap α) (root c : Ptr), NoThrow (erase_walk fuel h root c) := by
  intro fuel
  induction fuel with
  | zero =>
    intros
    exact nt_fault (by decide)
  | succ k ih =>
    intro h root c
    cases c with
    | none => exact nt_ok _
    | some a =>
      rw [erase_walk]
      repeat' first
        | exact nt_ok _
        | exact nt_fault (by decide)
        | exact nt_get _ _
        | exact nt_upd _ _ _
        | exact nt_free _ _
        | exact nt_apply_rotation _ _
        | exact ih _ _ _
        | refine nt_bind ?_ (fun _ => ?_)
        | split
        | dsimp only

theorem nt_erase_detach  :
    ∀ (fuel : Nat) (h : Heap α) (root c : Ptr), NoThrow (erase_detach fuel h root c) := by
  intro fuel
  induction fuel with
  | zero =>
    intros
    exact nt_fault (by decide)
  | succ k ih =>
    intro h root c
    rw [erase_detach]
    repeat' first
      | exact nt_ok _
      | exact nt_fault (by decide)
      | exact nt_get _ _
      | exact nt_upd _ _ _
      | exact nt_free _ _
      | exact nt_swap_values _ _ _
      | exact nt_leftmost_loop _ _ _
      | exact nt_rightmost_loop _ _ _
      | exact ih _ _ _
      | refine nt_bind ?_ (fun _ => ?_)
      | split
      | dsimp only

variable [LinearOrder α]

theorem nt_find_loop (h : Heap α) (value : α) :
    ∀ (fuel : Nat) (c : Ptr), NoThrow (find_loop h value fuel c) := by
  intro fuel
  induction fuel with
  | zero =>
    intros
    exact nt_fault (by decide)
  | succ k ih =>
    intro c
    cases c with
    | none => exact nt_ok _
    | some a =>
      rw [find_loop]
      repeat' first
        | exact nt_ok _
        | exact nt_fault (by decide)
        | exact nt_get _ _
        | exact nt_upd _ _ _
        | exact nt_free _ _
        | exact ih _
        | refine nt_bind ?_ (fun _ => ?_)
        | split
        | dsimp only

theorem nt_find (fuel : Nat) (s : Set α) (value : α) : NoThrow (s.find fuel value) := by
  unfold Set.find
  repeat' first
    | exact nt_ok _
    | exact nt_fault (by decide)
    | exact nt_get _ _
    | exact nt_upd _ _ _
    | exact nt_free _ _
    | exact nt_find_loop _ _ _ _
    | refine nt_bind ?_ (fun _ => ?_)
    | split
    | dsimp only

theorem nt_lower_bound_loop (h : Heap α) (value : α) :
    ∀ (fuel : Nat) (c g : Ptr), NoThrow (lower_bound_loop h value fuel c g) := by
  intro fuel
  induction fuel with
  | zero =>
    intros
    exact nt_fault (by decide)
  | succ k ih =>
    intro c g
    cases c with
    | none => exact nt_ok _
    | some a =>
      rw [lower_bound_loop]
      repeat' first
        | exact nt_ok _
        | exact nt_fault (by decide)
        | exact nt_get _ _
        | exact nt_upd _ _ _
        | exact nt_free _ _
        | exact ih _ _
        | refine nt_bind ?_ (fun _ => ?_)
        | split
        | dsimp only

theorem nt_lower_bound (fuel : Nat) (s : Set α) (value : α) : NoThrow (s.lower_bound fuel value) := by
  unfold Set.lower_bound
  repeat' first
    | exact nt_ok _
    | exact nt_fault (by decide)
    | exact nt_get _ _
    | exact nt_upd _ _ _
    | exact nt_free _ _
    | exact nt_lower_bound_loop _ _ _ _ _
    | refine nt_bind ?_ (fun _ => ?_)
    | split
    | dsimp only

theorem nt_insert_descend (value : α) :
    ∀ (fuel : Nat) (h : Heap α) (c : Ptr), NoThrow (insert_descend value fuel h c) := by
  intro fuel
  induction fuel with
  | zero =>
    intros
    exact nt_fault (by decide)
  | succ k ih =>
    intro h c
    cases c with
    | none => exact nt_ok _
    | some a =>
      rw [insert_descend]
      repeat' first
        | exact nt_ok _
        | exact nt_fault (by decide)
        | exact nt_get _ _
        | exact nt_upd _ _ _
        | exact nt_free _ _
        | exact ih _ _
        | refine nt_bind ?_ (fun _ => ?_)
        | split
        | dsimp only

theorem nt_insert (fuel : Nat) (s : Set α) (value : α) : NoThrow (s.insert fuel value) := by
  unfold Set.insert
  repeat' first
    | exact nt_ok _
    | exact nt_fault (by decide)
    | exact nt_get _ _
    | exact nt_upd _ _ _
    | exact nt_free _ _
    | exact nt_insert_descend _ _ _ _
    | exact nt_insert_walk _ _ _ _
    | exact nt_update_edge_nodes _ _
    | refine nt_bind ?_ (fun _ => ?_)
    | split
    | dsimp only

theorem nt_erase_search (h : Heap α) (value : α) :
    ∀ (fuel : Nat) (c : Ptr), NoThrow (erase_search h value fuel c) := by
  intro fuel
  induction fuel with
  | zero =>
    intros
    exact nt_fault (by decide)
  | succ k ih =>
    intro c
    cases c with
    | none => exact nt_ok _
    | some a =>
      rw [erase_search]
      repeat' first
        | exact nt_ok _
        | exact nt_fault (by decide)
        | exact nt_get _ _
        | exact nt_upd _ _ _
        | exact nt_free _ _
        | exact ih _
        | refine nt_bind ?_ (fun _ => ?_)
        | split
        | dsimp only

theorem nt_erase (fuel : Nat) (s : Set α) (value : α) : NoThrow (s.erase fuel value) := by
  unfold Set.erase
  repeat' first
    | exact nt_ok _
    | exact nt_fault (by decide)
    | exact nt_get _ _
    | exact nt_upd _ _ _
    | exact nt_free _ _
    | exact nt_erase_search _ _ _ _
    | exact nt_erase_detach _ _ _ _
    | exact nt_erase_walk _ _ _ _
    | exact nt_update_edge_nodes _ _
    | refine nt_bind ?_ (fun _ => ?_)
    | split
    | dsimp only

end Throw

/-! ## `begin()` is at the minimum -/

section Begin

variable {α : Type} [LinearOrder α]

theorem begin_deref_min {s : Set α} {t : Tree α} (hm : Models s t) (ho : t.Ordered)
    (hne : t.size ≠ 0) :
    ∃ m, s.begin.deref s.heap = .ok m ∧ t.inorder.head? = some m ∧ ∀ x ∈ t.inorder, m ≤ x := by
  cases he : t.entries with
  | nil =>
    have := t.entries_length
    rw [he] at this
    exact absurd this.symm hne
  | cons e es =>
    obtain ⟨a0, v0⟩ := e
    have haddrs : t.addrs = a0 :: es.map Prod.fst := by
      rw [← Tree.entries_fst, he, List.map_cons]
    have hin : t.inorder = v0 :: es.map Prod.snd := by
      rw [← Tree.entries_snd, he, List.map_cons]
    have hb : s.begin = { _node := some a0, _is_end := false } := by
      rw [hm.begin_eq, haddrs]
      rfl
    have hmem : (a0, v0) ∈ t.entries := by rw [he]; exact List.mem_cons_self _ _
    refine ⟨v0, by rw [hb]; exact deref_entry hm.whole hmem, by rw [hin]; rfl, ?_⟩
    have hs := (Tree.ordered_iff_sorted t).1 ho
    rw [hin] at hs ⊢
    intro x hx
    rcases List.mem_cons.1 hx with rfl | hx
    · exact le_rfl
    · exact le_of_lt ((List.pairwise_cons.1 hs).1 x hx)

end Begin

/-! ## The main theorems -/

section Claims

variable {α : Type} [LinearOrder α]

/-- C1: `insert` keeps the AVL balance invariant.  For every set that is a
    well-formed AVL tree `t` (BST-ordered, parent links consistent, every
    stored balance equal to the node's height difference and in `[-1, 1]`)
    and every value, `insert` returns, and the new state is again a tree in
    which the subtree heights of every node differ by at most 1 and every
    stored balance is the node's actual height difference and lies in
    `[-1, 1]` (`Tree.Avl`). -/
theorem insert_keeps_avl (s : Set α) (t : Tree α) (value : α) (fuel : Nat)
    (hm : Models s t) (ho : t.Ordered) (ha : t.Avl) (hf : t.size + 2 ≤ fuel) :
    ∃ s' t', Set.insert fuel s value = .ok s' ∧ Models s' t' ∧ t'.Avl := by
  rcases insert_correct value fuel hm ho ha hf with ⟨-, e⟩ | ⟨-, s', t', e, hm', ha', -⟩
  · exact ⟨s, t, e, hm, ha⟩
  · exact ⟨s', t', e, hm', ha'⟩

/-- C2: `erase` keeps the AVL balance invariant.  For every set that is a
    well-formed AVL tree and every value, `erase` returns, and in the new
    state the subtree heights of every node differ by at most 1 and every
    stored balance is the node's actual height difference and lies in
    `[-1, 1]`: the rebalance walk, which stops as soon as the balance of
    `current` has absolute value 1, leaves no unbalanced or mis-labelled
    ancestor. -/
theorem erase_keeps_avl (s : Set α) (t : Tree α) (value : α) (fuel : Nat)
    (hm : Models s t) (ho : t.Ordered) (ha : t.Avl) (hf : t.size + 1 ≤ fuel) :
    ∃ s' t', Set.erase fuel s value = .ok s' ∧ Models s' t' ∧ t'.Avl := by
  rcases erase_correct value fuel hm ho ha hf with ⟨-, e⟩ | ⟨s', t', e, hm', ha', -⟩
  · exact ⟨s, t, e, hm, ha⟩
  · exact ⟨s', t', e, hm', ha'⟩

/-- C3: `insert` adds exactly the value and keeps BST order.  For every
    well-formed set with in-order sequence `L` and every value `v`, after
    `insert(v)` the in-order sequence is `L` itself when `v` is in `L`, and
    otherwise `L` with `v` put at its sorted position (`L = L1 ++ L2` with
    everything in `L1` less than `v` and everything in `L2` greater, and the
    new sequence is `L1 ++ v :: L2`); the new sequence is strictly ascending
    and the new tree is BST-ordered. -/
theorem insert_adds_in_order (s : Set α) (t : Tree α) (value : α) (fuel : Nat)
    (hm : Models s t) (ho : t.Ordered) (ha : t.Avl) (hf : t.size + 2 ≤ fuel) :
    ∃ s' t', Set.insert fuel s value = .ok s' ∧ Models s' t' ∧
      (value ∈ t.inorder ∧ t'.inorder = t.inorder ∨
        value ∉ t.inorder ∧ ∃ L1 L2, t.inorder = L1 ++ L2 ∧ t'.inorder = L1 ++ value :: L2 ∧
          (∀ x ∈ L1, x < value) ∧ (∀ x ∈ L2, value < x)) ∧
      t'.inorder.Pairwise (· < ·) ∧ t'.Ordered := by
  rcases insert_correct value fuel hm ho ha hf with ⟨hmem, e⟩ |
    ⟨hmem, s', t', e, hm', -, ho', -, L1, L2, e1, e2, hL1, hL2⟩
  · exact ⟨s, t, e, hm, Or.inl ⟨hmem, rfl⟩, (Tree.ordered_iff_sorted t).1 ho, ho⟩
  · refine ⟨s', t', e, hm', Or.inr ⟨hmem, L1.map Prod.snd, L2.map Prod.snd, ?_, ?_, ?_, ?_⟩,
      (Tree.ordered_iff_sorted t').1 ho', ho'⟩
    · rw [← Tree.entries_snd, e1, List.map_append]
    · rw [← Tree.entries_snd, e2, List.map_append, List.map_cons]
    · intro x hx
      obtain ⟨y, hy, rfl⟩ := List.mem_map.1 hx
      exact hL1 y hy
    · intro x hx
      obtain ⟨y, hy, rfl⟩ := List.mem_map.1 hx
      exact hL2 y hy

/-- C4: `erase` removes exactly the value and keeps BST order.  For every
    well-formed set with in-order sequence `L` and every value `v`, after
    `erase(v)` the in-order sequence is `L` itself when `v` is not in `L`,
    and otherwise `L` with `v` taken out (`L = L1 ++ v :: L2` and the new
    sequence is `L1 ++ L2`), whatever the number of children of the node of
    `v`; in both cases it is `L.erase v`, and the new tree is BST-ordered. -/
theorem erase_removes_in_order (s : Set α) (t : Tree α) (value : α) (fuel : Nat)
    (hm : Models s t) (ho : t.Ordered) (ha : t.Avl) (hf : t.size + 1 ≤ fuel) :
    ∃ s' t', Set.erase fuel s value = .ok s' ∧ Models s' t' ∧
      (value ∉ t.inorder ∧ t'.inorder = t.inorder ∨
        ∃ L1 L2, t.inorder = L1 ++ value :: L2 ∧ t'.inorder = L1 ++ L2) ∧
      t'.inorder = t.inorder.erase value ∧ t'.Ordered := by
  rcases erase_correct value fuel hm ho ha hf with ⟨hmem, e⟩ |
    ⟨s', t', e, hm', -, ho', -, L1, L2, e1, e2⟩
  · exact ⟨s, t, e, hm, Or.inl ⟨hmem, rfl⟩, (List.erase_of_not_mem hmem).symm, ho⟩
  · refine ⟨s', t', e, hm', Or.inr ⟨L1, L2, e1, e2⟩, ?_, ho'⟩
    have hs := (Tree.ordered_iff_sorted t).1 ho
    rw [e1, List.pairwise_append] at hs
    have hnot : value ∉ L1 := fun hx => lt_irrefl _ (hs.2.2 value hx value (by simp))
    rw [e1, e2, List.erase_append_right _ hnot, List.erase_cons_head]

/-- C5: `find` is exact membership.  For every BST-ordered set and every
    value `v`: when a node holds `v` (for a linear order, the value
    equivalent to `v`), `find(v)` returns an iterator to that node that is
    not past-the-end, differs from `end()` and dereferences to `v`; when no
    node holds `v`, `find(v)` returns an iterator equal to `end()`. -/
theorem find_exact_membership (s : Set α) (t : Tree α) (value : α) (fuel : Nat)
    (hm : Models s t) (ho : t.Ordered) (hf : t.size + 1 ≤ fuel) :
    (value ∈ t.inorder →
      ∃ a, Set.find fuel s value = .ok { _node := some a, _is_end := false } ∧
        (a, value) ∈ t.entries ∧
        iterator.deref s.heap { _node := some a, _is_end := false } = .ok value ∧
        iterator.eq { _node := some a, _is_end := false } s.end_ = false) ∧
    (value ∉ t.inorder → ∃ it, Set.find fuel s value = .ok it ∧ it.eq s.end_ = true) := by
  have hh := t.height_le_size
  rcases find_correct value fuel hm.whole hm.root ho (by omega) with ⟨hmem, a, e, hent⟩ |
    ⟨hmem, e⟩
  · refine ⟨fun _ => ⟨a, e, hent, deref_entry hm.whole hent, ?_⟩, fun h => absurd hmem h⟩
    simp [iterator.eq, Set.end_]
  · exact ⟨fun h => absurd h hmem, fun _ => ⟨_, e, (iterator.eq_iff _ _).2 rfl⟩⟩

/-- C6: `lower_bound` returns the least element not less than the query.
    For every BST-ordered set and every value `v`: when some element is not
    less than `v`, `lower_bound(v)` returns an iterator that is not
    past-the-end, to a node whose value `x` is not less than `v` and is at
    most every element not less than `v`; when every element is less than
    `v` (the empty set included) it returns an iterator equal to `end()`. -/
theorem lower_bound_least (s : Set α) (t : Tree α) (value : α) (fuel : Nat)
    (hm : Models s t) (ho : t.Ordered) (hf : t.size + 1 ≤ fuel) :
    ((∃ y ∈ t.inorder, ¬ y < value) →
      ∃ a x, Set.lower_bound fuel s value = .ok { _node := some a, _is_end := false } ∧
        (a, x) ∈ t.entries ∧
        iterator.deref s.heap { _node := some a, _is_end := false } = .ok x ∧
        ¬ x < value ∧ ∀ y ∈ t.inorder, ¬ y < value → x ≤ y) ∧
    ((∀ y ∈ t.inorder, y < value) →
      ∃ it, Set.lower_bound fuel s value = .ok it ∧ it.eq s.end_ = true) := by
  have hh := t.height_le_size
  rcases lower_bound_correct value fuel hm.whole hm.root ho (by omega) with ⟨hall, e⟩ |
    ⟨a, x, e, hent, hx, hmin⟩
  · refine ⟨?_, fun _ => ⟨_, e, (iterator.eq_iff _ _).2 rfl⟩⟩
    rintro ⟨y, hy, hny⟩
    exact absurd (hall y hy) hny
  · refine ⟨fun _ => ⟨a, x, e, hent, deref_entry hm.whole hent, hx, hmin⟩, ?_⟩
    intro hall
    exact absurd (hall x (Tree.mem_entries_inorder hent)) hx

/-- C7: forward iteration is the ascending in-order traversal.  For every
    well-formed set with `n` elements: the loop from `begin()` that
    dereferences and pre-increments until the iterator equals `end()`
    collects exactly the in-order sequence of the tree; after `i < n`
    increments the iterator is not yet `end()` and after `n` it is `end()`;
    the sequence is strictly ascending and has `size()` elements; in a
    non-empty set `begin()` dereferences to the minimum; and for the empty
    set `begin()` equals `end()`. -/
theorem forward_iteration_inorder (s : Set α) (t : Tree α) (fuel : Nat)
    (hm : Models s t) (ho : t.Ordered) (hf : t.size ≤ fuel) :
    Set.traverse fuel s (t.size + 1) s.begin = .ok t.inorder ∧
    (∀ i, i < t.size →
      ∃ it, iterator.advance fuel s.heap i s.begin = .ok it ∧ it.eq s.end_ = false) ∧
    iterator.advance fuel s.heap t.size s.begin = .ok s.end_ ∧
    t.inorder.Pairwise (· < ·) ∧
    t.inorder.length = s.size ∧
    (t.size ≠ 0 → ∃ m, s.begin.deref s.heap = .ok m ∧ ∀ x ∈ t.inorder, m ≤ x) ∧
    (t.size = 0 → s.begin.eq s.end_ = true) := by
  have hh := t.height_le_size
  have hfh : t.height ≤ fuel := by omega
  have hb := hm.begin_eq
  refine ⟨?_, ?_, ?_, (Tree.ordered_iff_sorted t).1 ho, ?_, ?_, ?_⟩
  · have := traverse_position hm hfh t.entries [] (t.size + 1) rfl
      (by rw [Tree.entries_length])
    rw [Tree.entries_fst, Tree.entries_snd] at this
    rw [hb]
    exact this
  · intro i hi
    have := advance_position hm hfh i [] t.addrs rfl (by rw [Tree.addrs_length]; omega)
    refine ⟨_, hb ▸ this, ?_⟩
    have hlen : (t.addrs.drop i).length ≠ 0 := by
      rw [List.length_drop, Tree.addrs_length]; omega
    cases hd : t.addrs.drop i with
    | nil => rw [hd] at hlen; simp at hlen
    | cons y ys => simp [positionAfter, iterator.eq, Set.end_]
  · have := advance_position hm hfh t.size [] t.addrs rfl (by rw [Tree.addrs_length])
    rw [hb, this, ← Tree.addrs_length, List.drop_length]
    rfl
  · rw [Tree.inorder_length]
    exact hm.size.symm
  · intro hne
    obtain ⟨m, e, -, hmin⟩ := begin_deref_min hm ho hne
    exact ⟨m, e, hmin⟩
  · intro h0
    rw [iterator.eq_iff, hb]
    have : t.addrs = [] := List.length_eq_zero.1 (by rw [Tree.addrs_length]; exact h0)
    rw [this]
    rfl

end Claims

section ClaimsIterator

variable {α : Type}

/-- C9: iterator symmetry.  For every well-formed set and every iterator
    `it` at one of its nodes (so not past-the-end): `--(++it)` equals `it`,
    where `++it` is `end()` when `it` is at the maximum and is not
    past-the-end otherwise; and when `it` is not `begin()`, `++(--it)`
    equals `it`.  Equality is `operator==`: same node and same past-the-end
    flag.  The iterator with a null node and a clear flag is left unchanged
    by `++` and by `--`, so both round trips hold for it as well. -/
theorem iterator_symmetry (s : Set α) (t : Tree α) (fuel : Nat) (a : Nat)
    (hm : Models s t) (hf : t.size ≤ fuel) (ha : a ∈ t.addrs) :
    (∃ it1 it2, iterator.increment fuel s.heap { _node := some a, _is_end := false } = .ok it1 ∧
      iterator.decrement fuel s.heap it1 = .ok it2 ∧
      it2.eq { _node := some a, _is_end := false } = true ∧
      (t.addrs.getLast? = some a → it1.eq s.end_ = true) ∧
      (t.addrs.getLast? ≠ some a → it1._is_end = false)) ∧
    (iterator.eq { _node := some a, _is_end := false } s.begin = false →
      ∃ it1 it2, iterator.decrement fuel s.heap { _node := some a, _is_end := false } = .ok it1 ∧
        iterator.increment fuel s.heap it1 = .ok it2 ∧
        it2.eq { _node := some a, _is_end := false } = true) ∧
    (∀ x y : iterator, x.eq y = true ↔ x._node = y._node ∧ x._is_end = y._is_end) ∧
    (iterator.increment fuel s.heap { _node := none, _is_end := false } =
        .ok { _node := none, _is_end := false } ∧
      iterator.decrement fuel s.heap { _node := none, _is_end := false } =
        .ok { _node := none, _is_end := false }) := by
  have hh := t.height_le_size
  have hfh : t.height ≤ fuel := by omega
  refine ⟨?_, ?_, ?_, rfl, rfl⟩
  · obtain ⟨it, e1, e2, h3, h4⟩ := decrement_increment hm hfh ha
    exact ⟨it, _, e1, e2, (iterator.eq_iff _ _).2 rfl,
      fun hl => (iterator.eq_iff _ _).2 (h3 hl), h4⟩
  · intro hb
    have hb' : ({ _node := some a, _is_end := false } : iterator) ≠ s.begin := by
      intro e
      rw [(iterator.eq_iff _ _).2 e] at hb
      exact Bool.noConfusion hb
    obtain ⟨it, e1, e2⟩ := increment_decrement hm hfh ha hb'
    exact ⟨it, _, e1, e2, (iterator.eq_iff _ _).2 rfl⟩
  · intro x y
    simp [iterator.eq]

end ClaimsIterator

section ClaimsState

variable {α : Type} [LinearOrder α]

/-- C8: `size()` is the element count.  In every state reached from the
    empty set by a finite sequence of `insert`, `erase` and `clear` calls
    (duplicate and absent values included), the nodes reachable from `_root`
    form a tree `t` with pairwise distinct nodes (reading the heap from
    `_root` along `left` and `right` to any depth of at least its height
    gives `t`), `size()` is the number of nodes of `t`, the number of nodes
    read from `_root` to any depth of at least `size()` is `size()`, and
    `empty()` is true exactly when that number is 0. -/
theorem size_is_node_count (s : Set α) (hr : Reachable s) :
    (∃ t, Models s t ∧ (∀ k, t.height ≤ k → readTree s.heap.cells k s._root = t) ∧
      s.size = t.size ∧ (s.empty = true ↔ t.size = 0)) ∧
    (∀ k, s.size ≤ k → (readTree s.heap.cells k s._root).size = s.size) ∧
    (s.empty = true ↔ (readTree s.heap.cells s.size s._root).size = 0) := by
  obtain ⟨t, hm, -, -⟩ := reachable_wellformed hr
  have hread : ∀ k, t.height ≤ k → readTree s.heap.cells k s._root = t := by
    intro k hk
    rw [hm.root]
    exact readTree_of_rep hm.whole.rep hk
  have hsz : s.size = t.size := hm.size
  have hh := t.height_le_size
  have hemp : s.empty = true ↔ t.size = 0 := by
    simp only [Set.empty, decide_eq_true_eq]
    rw [← hsz]
    rfl
  refine ⟨⟨t, hm, hread, hsz, hemp⟩, ?_, ?_⟩
  · intro k hk
    rw [hread k (by omega), hsz]
  · rw [hread s.size (by omega)]
    exact hemp

/-- C10: dereference reports the error exactly in the past-the-end state.
    For every iterator and heap, `operator*` and `operator->` end in the
    invalid-dereference error (`std::domain_error`) exactly when the
    past-the-end flag is set; when the flag is clear and the iterator points
    at a live node they return the value stored in that node (its address
    for `->`).  No other operation ever ends in that error: not `find`,
    `lower_bound`, `insert`, `erase`, `clear`, nor `++` and `--` in prefix
    or postfix form (`begin`, `end`, `size` and `empty` are plain values);
    and on a BST-ordered AVL set all of them return, `++` and `--` for every
    iterator that is past-the-end, null, or at a node of the set. -/
theorem deref_error_iff_end (h : Heap α) (it : iterator) :
    (it.deref h = .error .domain_error ↔ it._is_end = true) ∧
    (it.arrow h = .error .domain_error ↔ it._is_end = true) ∧
    (∀ a n, it._is_end = false → it._node = some a → h.cells a = some n →
      it.deref h = .ok n.value ∧ it.arrow h = .ok a) ∧
    (∀ (fuel : Nat) (s : Set α) (value : α),
      NoThrow (s.find fuel value) ∧ NoThrow (s.lower_bound fuel value) ∧
      NoThrow (s.insert fuel value) ∧ NoThrow (s.erase fuel value) ∧ NoThrow (s.clear fuel)) ∧
    (∀ fuel : Nat, NoThrow (it.increment fuel h) ∧ NoThrow (it.decrement fuel h) ∧
      NoThrow (it.post_increment fuel h) ∧ NoThrow (it.post_decrement fuel h)) ∧
    (∀ (s : Set α) (t : Tree α) (fuel : Nat) (value : α),
      Models s t → t.Ordered → t.Avl → s.heap = h → 2 * t.size + 2 ≤ fuel →
      (∃ r, s.find fuel value = .ok r) ∧ (∃ r, s.lower_bound fuel value = .ok r) ∧
      (∃ r, s.insert fuel value = .ok r) ∧ (∃ r, s.erase fuel value = .ok r) ∧
      (∃ r, s.clear fuel = .ok r) ∧
      ((it._is_end = true ∨ it._node = none ∨ ∃ a ∈ t.addrs, it._node = some a) →
        (∃ r, it.increment fuel h = .ok r) ∧ (∃ r, it.decrement fuel h = .ok r))) := by
  obtain ⟨node, is_end⟩ := it
  refine ⟨?_, ?_, ?_, ?_, ?_, ?_⟩
  · cases is_end
    · simp only [iterator.deref, Bool.false_eq_true, if_false, iff_false]
      exact nt_bind (nt_get _ _) (fun _ => nt_ok _)
    · simp [iterator.deref]
  · cases is_end
    · simp only [iterator.arrow, Bool.false_eq_true, if_false, iff_false]
      refine nt_bind (nt_get _ _) (fun _ => ?_)
      cases node
      · exact nt_fault (by decide)
      · exact nt_ok _
    · simp [iterator.arrow]
  · intro a n he hn hc
    simp only at he hn
    subst he hn
    simp [iterator.deref, iterator.arrow, Heap.get, hc, ok_bind, pure_eq_ok]
  · intro fuel s value
    exact ⟨nt_find _ _ _, nt_lower_bound _ _ _, nt_insert _ _ _, nt_erase _ _ _, nt_clear _ _⟩
  · intro fuel
    exact ⟨nt_increment _ _ _, nt_decrement _ _ _, nt_post_increment _ _ _,
      nt_post_decrement _ _ _⟩
  · intro s t fuel value hm ho ha hh hf
    subst hh
    have hht := t.height_le_size
    refine ⟨?_, ?_, ?_, ?_, ?_, ?_⟩
    · rcases find_correct value fuel hm.whole hm.root ho (by omega) with ⟨-, a, e, -⟩ | ⟨-, e⟩
      · exact ⟨_, e⟩
      · exact ⟨_, e⟩
    · rcases lower_bound_correct value fuel hm.whole hm.root ho (by omega) with ⟨-, e⟩ |
        ⟨a, x, e, -⟩
      · exact ⟨_, e⟩
      · exact ⟨_, e⟩
    · rcases insert_correct value fuel hm ho ha (by omega) with ⟨-, e⟩ | ⟨-, s', t', e, -⟩
      · exact ⟨_, e⟩
      · exact ⟨_, e⟩
    · rcases erase_correct value fuel hm ho ha (by omega) with ⟨-, e⟩ | ⟨s', t', e, -⟩
      · exact ⟨_, e⟩
      · exact ⟨_, e⟩
    · obtain ⟨s', e, -⟩ := clear_models fuel hm (by omega)
      exact ⟨_, e⟩
    · rintro (he | hn | ⟨a, hmem, hn⟩)
      · simp only at he
        subst he
        refine ⟨⟨⟨node, true⟩, by simp [iterator.increment, pure_eq_ok]⟩, ?_⟩
        cases node with
        | none => exact ⟨⟨none, true⟩, by simp [iterator.decrement, pure_eq_ok]⟩
        | some c => exact ⟨⟨some c, false⟩, by simp [iterator.decrement, pure_eq_ok]⟩
      · simp only at hn
        subst hn
        exact ⟨⟨⟨none, is_end⟩, by simp [iterator.increment, pure_eq_ok]⟩,
          ⟨⟨none, is_end⟩, by simp [iterator.decrement, pure_eq_ok]⟩⟩
      · simp only at hn
        subst hn
        cases is_end
        · obtain ⟨xs, ys, hsplit⟩ := List.append_of_mem hmem
          exact ⟨⟨_, increment_split hm.whole hsplit (by omega)⟩,
            ⟨_, decrement_split hm.whole hsplit (by omega)⟩⟩
        · exact ⟨⟨⟨some a, true⟩, by simp [iterator.increment, pure_eq_ok]⟩,
            ⟨⟨some a, false⟩, by simp [iterator.decrement, pure_eq_ok]⟩⟩

end ClaimsState

/-! ## The main theorems on the sets of the scenarios -/

section Instances

set_option maxRecDepth 100000 in
/-- Inserting 7 into the set built from `1, ..., 6` keeps the invariant;
    the set built from `1, ..., 7` is the perfectly balanced tree of height 3
    rooted at 4. -/
theorem insert_keeps_avl_ascending :
    (∃ s' t', Set.insert 10 ascending_set 7 = .ok s' ∧ Models s' t' ∧ t'.Avl) ∧
    (Set.of_list 10 [1, 2, 3, 4, 5, 6, 7]).map (fun s => readTree s.heap.cells 3 s._root) =
      .ok perfect_tree ∧
    perfect_tree.height = 3 ∧ perfect_tree.Avl :=
  ⟨insert_keeps_avl ascending_set ascending_tree 7 10
      ⟨⟨by decide, by decide, by decide⟩, by decide, by decide, by decide, by decide⟩
      (by decide) (by decide) (by decide),
    by rfl, by decide, by decide⟩

set_option maxRecDepth 100000 in
/-- Erasing 5, the root with two children, from the set built from
    `{5, 3, 8, 1, 4, 7, 9}` keeps the invariant. -/
theorem erase_keeps_avl_scenario :
    ∃ s' t', Set.erase 10 scenario_set 5 = .ok s' ∧ Models s' t' ∧ t'.Avl :=
  erase_keeps_avl scenario_set scenario_tree 5 10
    ⟨⟨by decide, by decide, by decide⟩, by decide, by decide, by decide, by decide⟩
    (by decide) (by decide) (by decide)

set_option maxRecDepth 100000 in
/-- Inserting 6 into the set built from `{5, 3, 8, 1, 4, 7, 9}` puts it
    between 5 and 7. -/
theorem insert_adds_in_order_scenario :
    (∃ s' t', Set.insert 10 scenario_set 6 = .ok s' ∧ Models s' t' ∧
      (6 ∈ scenario_tree.inorder ∧ t'.inorder = scenario_tree.inorder ∨
        6 ∉ scenario_tree.inorder ∧ ∃ L1 L2, scenario_tree.inorder = L1 ++ L2 ∧
          t'.inorder = L1 ++ 6 :: L2 ∧ (∀ x ∈ L1, x < 6) ∧ (∀ x ∈ L2, 6 < x)) ∧
      t'.inorder.Pairwise (· < ·) ∧ t'.Ordered) ∧
    (Set.insert 10 scenario_set 6).map (fun s => (readTree s.heap.cells 4 s._root).inorder) =
      .ok [1, 3, 4, 5, 6, 7, 8, 9] :=
  ⟨insert_adds_in_order scenario_set scenario_tree 6 10
      ⟨⟨by decide, by decide, by decide⟩, by decide, by decide, by decide, by decide⟩
      (by decide) (by decide) (by decide),
    by rfl⟩

set_option maxRecDepth 100000 in
/-- The set built from `{5, 3, 8, 1, 4, 7, 9}` after `erase(5)` traverses as
    `1, 3, 4, 7, 8, 9`. -/
theorem erase_removes_in_order_scenario :
    (∃ s' t', Set.erase 10 scenario_set 5 = .ok s' ∧ Models s' t' ∧
      (5 ∉ scenario_tree.inorder ∧ t'.inorder = scenario_tree.inorder ∨
        ∃ L1 L2, scenario_tree.inorder = L1 ++ 5 :: L2 ∧ t'.inorder = L1 ++ L2) ∧
      t'.inorder = scenario_tree.inorder.erase 5 ∧ t'.Ordered) ∧
    scenario_tree.inorder.erase 5 = [1, 3, 4, 7, 8, 9] ∧
    (Set.erase 10 scenario_set 5 >>= fun s => Set.traverse 10 s 10 s.begin) =
      .ok [1, 3, 4, 7, 8, 9] :=
  ⟨erase_removes_in_order scenario_set scenario_tree 5 10
      ⟨⟨by decide, by decide, by decide⟩, by decide, by decide, by decide, by decide⟩
      (by decide) (by decide) (by decide),
    by decide, by rfl⟩

set_option maxRecDepth 100000 in
/-- In the set built from `{5, 3, 8, 1, 4, 7, 9}`, `find(6)` is `end()` and
    `find(7)` is at the node of 7. -/
theorem find_exact_membership_scenario :
    ((6 ∈ scenario_tree.inorder →
        ∃ a, Set.find 10 scenario_set 6 = .ok { _node := some a, _is_end := false } ∧
          (a, 6) ∈ scenario_tree.entries ∧
          iterator.deref scenario_set.heap { _node := some a, _is_end := false } = .ok 6 ∧
          iterator.eq { _node := some a, _is_end := false } scenario_set.end_ = false) ∧
      (6 ∉ scenario_tree.inorder →
        ∃ it, Set.find 10 scenario_set 6 = .ok it ∧ it.eq scenario_set.end_ = true)) ∧
    Set.find 10 scenario_set 6 = .ok scenario_set.end_ ∧
    (Set.find 10 scenario_set 7 >>= fun it => it.deref scenario_set.heap) = .ok 7 :=
  ⟨find_exact_membership scenario_set scenario_tree 6 10
      ⟨⟨by decide, by decide, by decide⟩, by decide, by decide, by decide, by decide⟩
      (by decide) (by decide),
    by rfl, by rfl⟩

set_option maxRecDepth 100000 in
/-- In the set built from `{5, 3, 8, 1, 4, 7, 9}`, `lower_bound(6)` points
    at 7 and `lower_bound(10)` is `end()`. -/
theorem lower_bound_least_scenario :
    (((∃ y ∈ scenario_tree.inorder, ¬ y < 6) →
        ∃ a x, Set.lower_bound 10 scenario_set 6 = .ok { _node := some a, _is_end := false } ∧
          (a, x) ∈ scenario_tree.entries ∧
          iterator.deref scenario_set.heap { _node := some a, _is_end := false } = .ok x ∧
          ¬ x < 6 ∧ ∀ y ∈ scenario_tree.inorder, ¬ y < 6 → x ≤ y) ∧
      ((∀ y ∈ scenario_tree.inorder, y < 6) →
        ∃ it, Set.lower_bound 10 scenario_set 6 = .ok it ∧ it.eq scenario_set.end_ = true)) ∧
    (Set.lower_bound 10 scenario_set 6 >>= fun it => it.deref scenario_set.heap) = .ok 7 ∧
    Set.lower_bound 10 scenario_set 10 = .ok scenario_set.end_ :=
  ⟨lower_bound_least scenario_set scenario_tree 6 10
      ⟨⟨by decide, by decide, by decide⟩, by decide, by decide, by decide, by decide⟩
      (by decide) (by decide),
    by rfl, by rfl⟩

set_option maxRecDepth 100000 in
/-- The set built from `{5, 3, 8, 1, 4, 7, 9}` traverses as
    `1, 3, 4, 5, 7, 8, 9`, in 7 steps. -/
theorem forward_iteration_scenario :
    (Set.traverse 10 scenario_set (scenario_tree.size + 1) scenario_set.begin =
        .ok scenario_tree.inorder ∧
      (∀ i, i < scenario_tree.size →
        ∃ it, iterator.advance 10 scenario_set.heap i scenario_set.begin = .ok it ∧
          it.eq scenario_set.end_ = false) ∧
      iterator.advance 10 scenario_set.heap scenario_tree.size scenario_set.begin =
        .ok scenario_set.end_ ∧
      scenario_tree.inorder.Pairwise (· < ·) ∧
      scenario_tree.inorder.length = scenario_set.size ∧
      (scenario_tree.size ≠ 0 → ∃ m, scenario_set.begin.deref scenario_set.heap = .ok m ∧
        ∀ x ∈ scenario_tree.inorder, m ≤ x) ∧
      (scenario_tree.size = 0 → scenario_set.begin.eq scenario_set.end_ = true)) ∧
    scenario_tree.inorder = [1, 3, 4, 5, 7, 8, 9] ∧ scenario_tree.size = 7 :=
  ⟨forward_iteration_inorder scenario_set scenario_tree 10
      ⟨⟨by decide, by decide, by decide⟩, by decide, by decide, by decide, by decide⟩
      (by decide) (by decide),
    by decide, by decide⟩

set_option maxRecDepth 100000 in
/-- The set built from `{5, 3, 8, 1, 4, 7, 9}` is reached from the empty set
    by seven `insert` calls; its `size()` is 7, the number of its nodes. -/
theorem size_is_node_count_scenario :
    ((∃ t, Models scenario_set t ∧
        (∀ k, t.height ≤ k → readTree scenario_set.heap.cells k scenario_set._root = t) ∧
        scenario_set.size = t.size ∧ (scenario_set.empty = true ↔ t.size = 0)) ∧
      (∀ k, scenario_set.size ≤ k →
        (readTree scenario_set.heap.cells k scenario_set._root).size = scenario_set.size) ∧
      (scenario_set.empty = true ↔
        (readTree scenario_set.heap.cells scenario_set.size scenario_set._root).size = 0)) ∧
    scenario_set.size = 7 ∧ scenario_set.empty = false :=
  ⟨size_is_node_count scenario_set
      (reachable_of_list 10 [5, 3, 8, 1, 4, 7, 9] scenario_set (by rfl)),
    by decide, by decide⟩

set_option maxRecDepth 100000 in
/-- The iterator at the root (the node of 5) of the set built from
    `{5, 3, 8, 1, 4, 7, 9}`. -/
theorem iterator_symmetry_scenario :
    (∃ it1 it2, iterator.increment 10 scenario_set.heap { _node := some 0, _is_end := false } =
        .ok it1 ∧
      iterator.decrement 10 scenario_set.heap it1 = .ok it2 ∧
      it2.eq { _node := some 0, _is_end := false } = true ∧
      (scenario_tree.addrs.getLast? = some 0 → it1.eq scenario_set.end_ = true) ∧
      (scenario_tree.addrs.getLast? ≠ some 0 → it1._is_end = false)) ∧
    (iterator.eq { _node := some 0, _is_end := false } scenario_set.begin = false →
      ∃ it1 it2, iterator.decrement 10 scenario_set.heap { _node := some 0, _is_end := false } =
          .ok it1 ∧
        iterator.increment 10 scenario_set.heap it1 = .ok it2 ∧
        it2.eq { _node := some 0, _is_end := false } = true) ∧
    (∀ x y : iterator, x.eq y = true ↔ x._node = y._node ∧ x._is_end = y._is_end) ∧
    (iterator.increment 10 scenario_set.heap { _node := none, _is_end := false } =
        .ok { _node := none, _is_end := false } ∧
      iterator.decrement 10 scenario_set.heap { _node := none, _is_end := false } =
        .ok { _node := none, _is_end := false }) :=
  iterator_symmetry scenario_set scenario_tree 10 0
    ⟨⟨by decide, by decide, by decide⟩, by decide, by decide, by decide, by decide⟩
    (by decide) (by decide)

set_option maxRecDepth 100000 in
/-- In the set built from `{5, 3, 8, 1, 4, 7, 9}`, dereferencing `end()`
    reports the error, `++end()` does not, and dereferencing `find(7)`
    returns 7. -/
theorem deref_error_iff_end_scenario :
    iterator.deref scenario_set.heap scenario_set.end_ = .error .domain_error ∧
    NoThrow (iterator.increment 10 scenario_set.heap scenario_set.end_) ∧
    (Set.find 10 scenario_set 7 >>= fun it => it.deref scenario_set.heap) = .ok 7 :=
  ⟨(deref_error_iff_end scenario_set.heap scenario_set.end_).1.2 rfl,
    ((deref_error_iff_end scenario_set.heap scenario_set.end_).2.2.2.2.1 10).1, by rfl⟩

set_option maxRecDepth 100000 in
/-- In the set built from `{5, 3, 8, 1, 4, 7, 9}`, `--begin()` has a null
    node and a clear past-the-end flag, as has the default-constructed
    iterator: dereferencing it reads through the null pointer, so the
    operator neither reports the error nor returns the value of a node. -/
theorem deref_null_iterator :
    iterator.decrement 10 scenario_set.heap scenario_set.begin =
      .ok { _node := none, _is_end := false } ∧
    iterator.deref scenario_set.heap { _node := none, _is_end := false } =
      .error .null_deref ∧
    iterator.arrow scenario_set.heap { _node := none, _is_end := false } =
      .error .null_deref ∧
    ¬ (∀ it : iterator,
        (it._is_end = true → it.deref scenario_set.heap = .error .domain_error) ∧
        (it._is_end = false → ∃ v, it.deref scenario_set.heap = .ok v)) :=
  ⟨by rfl, by rfl, by rfl, fun hall => by
    obtain ⟨v, hv⟩ := (hall { _node := none, _is_end := false }).2 rfl
    exact Except.noConfusion hv⟩

end Instances

/-! ## Construction from a sequence and copying -/

section Build

variable {α : Type} [LinearOrder α]

/-- Inserting the elements of a list one after the other into a
    well-formed set. -/
theorem foldl_insert_correct (fuel : Nat) :
    ∀ (xs : List α) (s : Set α) (t : Tree α), Models s t → t.Ordered → t.Avl →
      t.size + xs.length + 2 ≤ fuel →
      ∃ s' t', xs.foldlM (fun s value => Set.insert fuel s value) s = .ok s' ∧ Models s' t' ∧
        t'.Ordered ∧ t'.Avl ∧ (∀ x, x ∈ t'.inorder ↔ x ∈ t.inorder ∨ x ∈ xs) ∧
        t'.size ≤ t.size + xs.length
  | [], s, t, hm, ho, ha, _ => ⟨s, t, rfl, hm, ho, ha, by simp, by simp⟩
  | v :: xs, s, t, hm, ho, ha, hf => by
    simp only [List.length_cons] at hf
    rw [List.foldlM_cons]
    rcases insert_correct v fuel hm ho ha (by omega) with ⟨hmem, e⟩ |
      ⟨-, s1, t1, e, hm1, ha1, ho1, -, L1, L2, e1, e2, -, -⟩
    · obtain ⟨s', t', e', hm', ho', ha', hmem', hsz⟩ :=
        foldl_insert_correct fuel xs s t hm ho ha (by omega)
      refine ⟨s', t', by rw [e]; exact e', hm', ho', ha', fun x => ?_, by
        simp only [List.length_cons]; omega⟩
      rw [hmem' x, List.mem_cons]
      constructor
      · rintro (h | h)
        · exact Or.inl h
        · exact Or.inr (Or.inr h)
      · rintro (h | rfl | h)
        · exact Or.inl h
        · exact Or.inl hmem
        · exact Or.inr h
    · have hsize : t1.size = t.size + 1 := by
        rw [← Tree.entries_length, ← Tree.entries_length, e1, e2]
        simp only [List.length_append, List.length_cons]
        omega
      obtain ⟨s', t', e', hm', ho', ha', hmem', hsz⟩ :=
        foldl_insert_correct fuel xs s1 t1 hm1 ho1 ha1 (by omega)
      refine ⟨s', t', by rw [e]; exact e', hm', ho', ha', fun x => ?_, by
        simp only [List.length_cons]; omega⟩
      have h1 : ∀ y, y ∈ t1.inorder ↔ y ∈ t.inorder ∨ y = v := by
        intro y
        rw [← Tree.entries_snd, ← Tree.entries_snd, e1, e2]
        simp only [List.map_append, List.map_cons, List.mem_append, List.mem_cons]
        tauto
      rw [hmem' x, h1 x, List.mem_cons]
      tauto

/-- A strictly ascending list is determined by its elements. -/
theorem sorted_eq_sort {L xs : List α} (hs : L.Pairwise (· < ·)) (hmem : ∀ x, x ∈ L ↔ x ∈ xs) :
    L = xs.toFinset.sort (· ≤ ·) := by
  have hnd : L.Nodup := hs.imp (fun h => ne_of_lt h)
  have hle : L.Sorted (· ≤ ·) := hs.imp (fun h => le_of_lt h)
  refine List.eq_of_perm_of_sorted ?_ hle (Finset.sort_sorted _ _)
  refine (List.perm_ext_iff_of_nodup hnd (Finset.sort_nodup _ _)).2 fun x => ?_
  rw [Finset.mem_sort, List.mem_toFinset, hmem]

omit [LinearOrder α] in
/-- The traversal loop from `begin()` collects the in-order sequence. -/
theorem traverse_inorder {s : Set α} {t : Tree α} {fuel k : Nat} (hm : Models s t)
    (hf : t.height ≤ fuel) (hk : t.size + 1 ≤ k) :
    Set.traverse fuel s k s.begin = .ok t.inorder := by
  have := traverse_position hm hf t.entries [] k rfl (by rw [Tree.entries_length]; exact hk)
  rw [Tree.entries_fst, Tree.entries_snd] at this
  rw [hm.begin_eq]
  exact this

/-- The loop of the copy constructor inserts the values that follow the
    position of the iterator in the source, in order. -/
theorem copy_loop_position {o : Set α} {t : Tree α} {fuel : Nat} (hm : Models o t)
    (hf : t.height ≤ fuel) :
    ∀ (E2 E1 : List (Nat × α)) (k : Nat) (this : Set α), t.entries = E1 ++ E2 →
      E2.length + 1 ≤ k →
      copy_loop fuel o k (positionAfter o._last_node (E2.map Prod.fst)) this =
        (E2.map Prod.snd).foldlM (fun s value => Set.insert fuel s value) this := by
  intro E2
  induction E2 with
  | nil =>
    intro E1 k this _ hk
    obtain ⟨k, rfl⟩ : ∃ j, k = j + 1 := ⟨k - 1, by simp at hk; omega⟩
    have : (positionAfter o._last_node []).ne o.end_ = false := by
      rw [← Bool.not_eq_true, iterator.ne_iff]
      simp [Set.end_, positionAfter]
    simp [copy_loop, this, pure_eq_ok]
  | cons e E2 ih =>
    intro E1 k this hs hk
    obtain ⟨k, rfl⟩ : ∃ j, k = j + 1 := ⟨k - 1, by simp at hk; omega⟩
    obtain ⟨y, v⟩ := e
    have hne : (positionAfter o._last_node (List.map Prod.fst ((y, v) :: E2))).ne o.end_ =
        true := by
      rw [iterator.ne_iff]
      simp [Set.end_, positionAfter]
    have hd : iterator.deref o.heap (positionAfter o._last_node
        (List.map Prod.fst ((y, v) :: E2))) = .ok v := deref_entry hm.whole (by rw [hs]; simp)
    have hadd : t.addrs = E1.map Prod.fst ++ y :: E2.map Prod.fst := by
      rw [← Tree.entries_fst, hs]; simp
    have hi := increment_position hm hadd hf
    simp only [List.map_cons] at hne hd ⊢
    rw [copy_loop, hne, List.foldlM_cons]
    simp only [if_true, hd, ok_bind]
    cases hins : Set.insert fuel this v with
    | error f => rfl
    | ok this1 =>
      simp only [ok_bind, hi]
      exact ih (E1 ++ [(y, v)]) k this1 (by simp [hs]) (by simpa using hk)

/-- The loop of the copy constructor run from `begin()`. -/
theorem copy_loop_begin {o : Set α} {t : Tree α} {fuel k : Nat} (hm : Models o t)
    (hf : t.height ≤ fuel) (hk : t.size + 1 ≤ k) (this : Set α) :
    copy_loop fuel o k o.begin this =
      t.inorder.foldlM (fun s value => Set.insert fuel s value) this := by
  have := copy_loop_position hm hf t.entries [] k this rfl
    (by rw [Tree.entries_length]; exact hk)
  rw [Tree.entries_fst, Tree.entries_snd] at this
  rw [hm.begin_eq]
  exact this

end Build

/-! ## Link symmetry and the balance convention -/

section Links

variable {α : Type}

/-- A heap that holds a tree has symmetric parent and child links. -/
theorem link_symmetric_of_whole {h : Heap α} {t : Tree α} (hw : Whole h t) :
    LinkSymmetric h t.ptr t.addrs := by
  refine ⟨?_, ?_, ?_⟩
  · intro a ha
    obtain ⟨q, l, v, b, r, hpl⟩ := Tree.zipper_of_mem t [] a ha
    simp only [plug] at hpl
    have hz : Zip h q (.node l a v b r) := whole_plug.1 (hpl ▸ hw)
    have hperm := plug_addrs_perm q (.node l a v b r)
    rw [hpl] at hperm
    refine ⟨_, hz.sub.1, ?_, ?_, ?_, ?_⟩
    · intro hp
      simp only [Tree.cell] at hp
      cases q with
      | nil =>
        simp only [plug] at hpl
        rw [← hpl]
        rfl
      | cons f q' => simp at hp
    · intro p hp
      simp only [Tree.cell] at hp
      cases q with
      | nil => simp at hp
      | cons f q' =>
        simp only [pathPtr_cons, Option.some.injEq] at hp
        subst hp
        refine ⟨hperm.mem_iff.2 (by simp [pathAddrs]), _, hz.path.1, ?_⟩
        obtain ⟨d, fa, fv, fb, fs⟩ := f
        cases d
        · exact Or.inl rfl
        · exact Or.inr rfl
    · intro c hc
      simp only [Tree.cell] at hc
      cases l with
      | nil => simp at hc
      | node ll la lv lb lr =>
        simp only [Tree.ptr_node, Option.some.injEq] at hc
        subst hc
        exact ⟨hperm.mem_iff.2 (by simp [Tree.addrs]), _, hz.sub.2.1.1, rfl⟩
    · intro c hc
      simp only [Tree.cell] at hc
      cases r with
      | nil => simp at hc
      | node rl ra rv rb rr =>
        simp only [Tree.ptr_node, Option.some.injEq] at hc
        subst hc
        exact ⟨hperm.mem_iff.2 (by simp [Tree.addrs]), _, hz.sub.2.2.1, rfl⟩
  · intro r hr
    cases t with
    | nil => simp at hr
    | node l a v b r' =>
      simp only [Tree.ptr_node, Option.some.injEq] at hr
      subst hr
      exact ⟨by simp [Tree.addrs], _, hw.rep.1, rfl⟩
  · intro hr
    rw [(Tree.ptr_eq_none).1 hr]
    rfl

theorem link_symmetric_of_models {s : Set α} {t : Tree α} (hm : Models s t) :
    LinkSymmetric s.heap s._root t.addrs := by
  rw [hm.root]
  exact link_symmetric_of_whole hm.whole

theorem Tree.Avl.balance_left_minus_right {t : Tree α} (h : t.Avl) :
    t.balance_left_minus_right := by
  induction t with
  | nil => trivial
  | node l a v b r ihl ihr =>
    obtain ⟨-, hb, -, hl, hr⟩ := h
    exact ⟨hb, ihl hl, ihr hr⟩

theorem Tree.Avl.balIn {t : Tree α} (h : t.Avl) : t.BalIn := by
  induction t with
  | nil => trivial
  | node l a v b r ihl ihr =>
    obtain ⟨-, -, hb, hl, hr⟩ := h
    exact ⟨⟨by omega, by omega⟩, ihl hl, ihr hr⟩

theorem PathAvl.pathBalIn : ∀ (p : List (Frame α)) (n : Nat), PathAvl p n → PathBalIn p
  | [], _, _ => trivial
  | f :: p, n, h => by
    obtain ⟨hs, -, hb, hp⟩ := h
    exact ⟨⟨by omega, by omega⟩, hs.balIn, PathAvl.pathBalIn p _ hp⟩

theorem balIn_plug : ∀ (p : List (Frame α)) (t : Tree α),
    (plug p t).BalIn ↔ t.BalIn ∧ PathBalIn p
  | [], t => by simp [plug, PathBalIn]
  | f :: p, t => by
    rw [plug, balIn_plug p, PathBalIn]
    obtain ⟨d, fa, fv, fb, fs⟩ := f
    cases d <;> simp only [Frame.fill, Tree.BalIn] <;> tauto

/-- The cells of a tree whose stored balances are in range. -/
theorem Rep.balances_in_range {c : Nat → Option (Node α)} {t : Tree α} {par : Ptr}
    (hr : Rep c par t) (hb : t.BalIn) :
    ∀ a ∈ t.addrs, ∃ n, c a = some n ∧ -2 ≤ n.balance ∧ n.balance ≤ 2 := by
  induction t generalizing par with
  | nil => intro a ha; simp [Tree.addrs] at ha
  | node l x v b r ihl ihr =>
    intro a ha
    simp only [Tree.addrs, List.mem_append, List.mem_cons] at ha
    rcases ha with ha | rfl | ha
    · exact ihl hr.2.1 hb.2.1 a ha
    · exact ⟨_, hr.1, hb.1⟩
    · exact ihr hr.2.2 hb.2.2 a ha

end Links

/-! ## The calls of `apply_rotation` in the rebalance walks -/

section Calls

variable {α : Type}

theorem WalkState.rotation_defined {h : Heap α} {c : Nat} {nodes : List (Nat × α)}
    (hw : WalkState h c nodes) : RotationDefined h c := by
  obtain ⟨p, l, r, v, b, n, hz, hl, hr, hb, hrange, -, -⟩ := hw
  refine ⟨_, hz.sub.1, hrange, ?_, ?_⟩
  · intro hb2
    simp only [Tree.cell] at hb2
    cases r with
    | nil =>
      simp only [Tree.height] at hb
      omega
    | node rl ra rv rb rr =>
      refine ⟨ra, _, rfl, hz.sub.2.2.1, ?_⟩
      intro hpos
      simp only [Tree.cell] at hpos
      cases rl with
      | nil =>
        have := hr.2.1
        simp only [Tree.height] at this
        omega
      | node rll c' cv cb rlr => exact ⟨c', _, rfl, hz.sub.2.2.2.1.1⟩
  · intro hb2
    simp only [Tree.cell] at hb2
    cases l with
    | nil =>
      simp only [Tree.height] at hb
      omega
    | node ll la lv lb lr =>
      refine ⟨la, _, rfl, hz.sub.2.1.1, ?_⟩
      intro hneg
      simp only [Tree.cell] at hneg
      cases lr with
      | nil =>
        have := hl.2.1
        simp only [Tree.height] at this
        omega
      | node lrl c' cv cb lrr => exact ⟨c', _, rfl, hz.sub.2.1.2.2.1⟩

theorem Zip.zip_balances_in_range {h : Heap α} {p : List (Frame α)} {t : Tree α} (hz : Zip h p t)
    (ht : t.BalIn) (hp : PathBalIn p) :
    BalancesInRange h ((plug p t).entries.map Prod.fst) := by
  rw [Tree.entries_fst]
  exact (whole_plug.2 hz).rep.balances_in_range ((balIn_plug p t).2 ⟨ht, hp⟩)

theorem WalkState.balances {h : Heap α} {c : Nat} {nodes : List (Nat × α)}
    (hw : WalkState h c nodes) : BalancesInRange h (nodes.map Prod.fst) := by
  obtain ⟨p, l, r, v, b, n, hz, hl, hr, hb, hrange, hp, rfl⟩ := hw
  exact hz.zip_balances_in_range ⟨hrange, hl.balIn, hr.balIn⟩ (PathAvl.pathBalIn p n hp)

/-- At a call of `apply_rotation` in a rebalance walk the call returns, and
    no stored balance is out of range afterwards. -/
theorem WalkState.apply_rotation_ok {h : Heap α} {c : Nat} {nodes : List (Nat × α)}
    (hw : WalkState h c nodes) :
    ∃ c' h', apply_rotation h c = .ok (c', h') ∧ BalancesInRange h' (nodes.map Prod.fst) := by
  obtain ⟨p, l, r, v, b, n, hz, hl, hr, hb, hrange, hp, rfl⟩ := hw
  obtain ⟨t1, e, ha, -, -⟩ := apply_rotation_avl (a := c) (v := v) hl hr hb hrange
  obtain ⟨h1, a', e1, -, -, z⟩ := apply_rotation_zip hz rfl e
  refine ⟨a', h1, e1, ?_⟩
  have := z.zip_balances_in_range ha.balIn (PathAvl.pathBalIn p n hp)
  rwa [plug_entries_congr p (apply_rotation_entries e).1] at this

/-- At a call of `apply_rotation` in a rebalance walk the parent and child
    links are symmetric, and they are again when the call has returned. -/
theorem WalkState.links {h : Heap α} {c : Nat} {nodes : List (Nat × α)}
    (hw : WalkState h c nodes) :
    (∃ root, LinkSymmetric h root (nodes.map Prod.fst)) ∧
    ∃ c' h' root', apply_rotation h c = .ok (c', h') ∧
      LinkSymmetric h' root' (nodes.map Prod.fst) := by
  obtain ⟨p, l, r, v, b, n, hz, hl, hr, hb, hrange, hp, rfl⟩ := hw
  obtain ⟨t1, e, -, -, -⟩ := apply_rotation_avl (a := c) (v := v) hl hr hb hrange
  obtain ⟨h1, a', e1, -, -, z⟩ := apply_rotation_zip hz rfl e
  refine ⟨⟨(plug p (.node l c v b r)).ptr, ?_⟩, a', h1, (plug p t1).ptr, e1, ?_⟩
  · have := link_symmetric_of_whole (whole_plug.2 hz)
    rwa [← Tree.entries_fst] at this
  · have := link_symmetric_of_whole (whole_plug.2 z)
    rwa [← Tree.entries_fst, plug_entries_congr p (apply_rotation_entries e).1] at this

/-- Every call of `apply_rotation` in the rebalance walk of `insert` finds
    the walk in a good state. -/
theorem insert_walk_calls_state (p : List (Frame α)) :
    ∀ (l r : Tree α) (a : Nat) (v : α) (b : Int) (n : Nat) (h : Heap α) (fuel : Nat),
      Zip h p (.node l a v b r) → PathAvl p n → l.Avl → r.Avl →
      b = (l.height : Int) - (r.height : Int) →
      (b = 0 ∧ (Tree.node l a v b r).height = n ∨
        b ≠ 0 ∧ (-2 ≤ b ∧ b ≤ 2) ∧ (Tree.node l a v b r).height = n + 1 ∧
          (b = -2 → r.bal ≠ 0) ∧ (b = 2 → l.bal ≠ 0)) →
      ∀ x ∈ insert_walk_calls fuel h (some a),
        WalkState x.1 x.2 (plug p (.node l a v b r)).entries := by
  induction p with
  | nil =>
    intro l r a v b n h fuel hz hp hl hr hb hinv x hx
    cases fuel with
    | zero => simp [insert_walk_calls] at hx
    | succ k =>
      have hrange : -2 ≤ b ∧ b ≤ 2 := by omega
      obtain ⟨t1, e, ha, hne, -⟩ := apply_rotation_avl (a := a) (v := v) hl hr hb hrange
      obtain ⟨h1, a', e1, hp', -, z⟩ := apply_rotation_zip hz rfl e
      cases t1 with
      | nil => exact absurd rfl hne
      | node l1 a1 v1 b1 r1 =>
        simp only [Tree.ptr_node, Option.some.injEq] at hp'
        subst hp'
        have hrest : insert_walk_calls (k + 1) h (some a) = [(h, a)] := by
          simp only [insert_walk_calls, e1, z.get_root, Tree.cell, pathPtr_nil]
          by_cases hb0 : b1 = 0
          · simp [hb0]
          · cases k <;> simp [hb0, pure_eq_ok, insert_walk_calls]
        rw [hrest, List.mem_singleton] at hx
        subst hx
        exact ⟨[], l, r, v, b, n, hz, hl, hr, hb, hrange, hp, rfl⟩
  | cons f q ih =>
    intro l r a v b n h fuel hz hp hl hr hb hinv x hx
    cases fuel with
    | zero => simp [insert_walk_calls] at hx
    | succ k =>
      have hrange : -2 ≤ b ∧ b ≤ 2 := by omega
      have hfirst : WalkState h a (plug (f :: q) (.node l a v b r)).entries :=
        ⟨f :: q, l, r, v, b, n, hz, hl, hr, hb, hrange, hp, rfl⟩
      obtain ⟨t1, e, ha, hne, hcase⟩ := apply_rotation_avl (a := a) (v := v) hl hr hb hrange
      obtain ⟨h1, a', e1, hp', -, z⟩ := apply_rotation_zip hz rfl e
      cases t1 with
      | nil => exact absurd rfl hne
      | node l1 a1 v1 b1 r1 =>
        simp only [Tree.ptr_node, Option.some.injEq] at hp'
        subst hp'
        simp only [insert_walk_calls, e1, z.get_root, Tree.cell, pathPtr_cons, ne_eq,
          reduceCtorEq, not_false_eq_true, if_true, List.mem_cons] at hx
        rcases hx with rfl | hx
        · exact hfirst
        by_cases hb0 : b1 = 0
        · simp [hb0] at hx
        simp only [hb0, if_false] at hx
        rcases hcase with ⟨hr1, heq⟩ | ⟨hh, hb1, hht⟩ | ⟨hh, -, -⟩
        · -- no rotation: the walk goes on at the parent
          simp only [Tree.node.injEq] at heq
          obtain ⟨rfl, rfl, rfl, rfl, rfl⟩ := heq
          have hn : (Tree.node l1 a1 v1 b1 r1).height = n + 1 := by omega
          have zu := Zip.up.1 z
          have hsib := z.sib_ptr_ne rfl
          obtain ⟨fd, fa, fv, fb, fs⟩ := f
          obtain ⟨hs, hfb, hfr, hq⟩ := hp
          cases fd
          · obtain ⟨h2, e2, -, z2⟩ :=
              zu.upd_root (fun m => { m with balance := m.balance + 1 }) fv (fb + 1) rfl
            have hg : (h1.get (some fa)) = .ok (Tree.cell (.node l1 a1 v1 b1 r1) fv fb fs
                (pathPtr q)) := zu.get_root
            simp only [hg, ok_bind, Tree.cell, Tree.ptr_node, if_true, e2] at hx
            simp only at hfb hfr hq hs
            have hent : (plug q (.node (.node l1 a1 v1 b1 r1) fa fv (fb + 1) fs)).entries =
                (plug q (.node (.node l1 a1 v1 b1 r1) fa fv fb fs)).entries :=
              plug_entries_congr q rfl
            have := ih _ _ fa fv (fb + 1) _ h2 k z2 hq ha hs
              (by rw [hn]; push_cast; omega)
              (by
                simp only [Tree.height] at hn ⊢
                simp only [Tree.bal]
                omega) x hx
            rw [hent] at this
            exact this
          · obtain ⟨h2, e2, -, z2⟩ :=
              zu.upd_root (fun m => { m with balance := m.balance - 1 }) fv (fb - 1) rfl
            have hg : (h1.get (some fa)) = .ok (Tree.cell fs fv fb (.node l1 a1 v1 b1 r1)
                (pathPtr q)) := zu.get_root
            have hsib' : ¬ (some a1 = fs.ptr) := fun e => hsib e.symm
            simp only [hg, ok_bind, Tree.cell, Tree.ptr_node, hsib', if_false, e2] at hx
            simp only at hfb hfr hq hs
            have hent : (plug q (.node fs fa fv (fb - 1) (.node l1 a1 v1 b1 r1))).entries =
                (plug q (.node fs fa fv fb (.node l1 a1 v1 b1 r1))).entries :=
              plug_entries_congr q rfl
            have := ih _ _ fa fv (fb - 1) _ h2 k z2 hq hs ha
              (by rw [hn]; push_cast; omega)
              (by
                simp only [Tree.height] at hn ⊢
                simp only [Tree.bal]
                omega) x hx
            rw [hent] at this
            exact this
        · exact absurd hb1 hb0
        · omega

/-- Every call of `apply_rotation` in the rebalance walk of `erase` finds
    the walk in a good state. -/
theorem erase_walk_calls_state (p : List (Frame α)) :
    ∀ (l r : Tree α) (a : Nat) (v : α) (b : Int) (n : Nat) (h : Heap α) (fuel : Nat),
      Zip h p (.node l a v b r) → PathAvl p n → l.Avl → r.Avl →
      b = (l.height : Int) - (r.height : Int) → (-2 ≤ b ∧ b ≤ 2) →
      (b = 0 → (Tree.node l a v b r).height + 1 = n) →
      (b ≠ 0 → (Tree.node l a v b r).height = n) →
      ∀ x ∈ erase_walk_calls fuel h (some a),
        WalkState x.1 x.2 (plug p (.node l a v b r)).entries := by
  induction p with
  | nil =>
    intro l r a v b n h fuel hz hp hl hr hb hrange _ _ x hx
    cases fuel with
    | zero => simp [erase_walk_calls] at hx
    | succ k =>
      obtain ⟨t1, e, ha, hne, -⟩ := apply_rotation_avl (a := a) (v := v) hl hr hb hrange
      obtain ⟨h1, a', e1, hp', -, z⟩ := apply_rotation_zip hz rfl e
      cases t1 with
      | nil => exact absurd rfl hne
      | node l1 a1 v1 b1 r1 =>
        simp only [Tree.ptr_node, Option.some.injEq] at hp'
        subst hp'
        have hrest : erase_walk_calls (k + 1) h (some a) = [(h, a)] := by
          simp only [erase_walk_calls, e1, z.get_root, Tree.cell, pathPtr_nil]
          by_cases hb0 : b1.natAbs = 1
          · simp [hb0]
          · cases k <;> simp [hb0, pure_eq_ok, erase_walk_calls]
        rw [hrest, List.mem_singleton] at hx
        subst hx
        exact ⟨[], l, r, v, b, n, hz, hl, hr, hb, hrange, hp, rfl⟩
  | cons f q ih =>
    intro l r a v b n h fuel hz hp hl hr hb hrange h0 h1' x hx
    cases fuel with
    | zero => simp [erase_walk_calls] at hx
    | succ k =>
      have hfirst : WalkState h a (plug (f :: q) (.node l a v b r)).entries :=
        ⟨f :: q, l, r, v, b, n, hz, hl, hr, hb, hrange, hp, rfl⟩
      obtain ⟨t1, e, ha, hne, hcase⟩ := apply_rotation_avl (a := a) (v := v) hl hr hb hrange
      obtain ⟨h1, a', e1, hp', -, z⟩ := apply_rotation_zip hz rfl e
      have hgo : ((t1.bal = 1 ∨ t1.bal = -1) ∧ t1.height = n) ∨
          (t1.bal = 0 ∧ t1.height + 1 = n) := by
        rcases hcase with ⟨hr1, rfl⟩ | ⟨hh, hb1, hht⟩ | ⟨hh, hb1, hht⟩
        · simp only [Tree.bal]
          by_cases hb0 : b = 0
          · exact Or.inr ⟨hb0, h0 hb0⟩
          · exact Or.inl ⟨by omega, h1' hb0⟩
        · have hb2 : b ≠ 0 := by rcases hh with ⟨h, -⟩ | ⟨h, -⟩ <;> omega
          exact Or.inr ⟨hb1, by have := h1' hb2; omega⟩
        · have hb2 : b ≠ 0 := by rcases hh with ⟨h, -⟩ | ⟨h, -⟩ <;> omega
          exact Or.inl ⟨hb1, by have := h1' hb2; omega⟩
      have hent1 := (apply_rotation_entries e).1
      cases t1 with
      | nil => exact absurd rfl hne
      | node l1 a1 v1 b1 r1 =>
        simp only [Tree.ptr_node, Option.some.injEq] at hp'
        subst hp'
        simp only [erase_walk_calls, e1, z.get_root, Tree.cell, pathPtr_cons, ne_eq,
          reduceCtorEq, not_false_eq_true, if_true, List.mem_cons] at hx
        rcases hx with rfl | hx
        · exact hfirst
        simp only [Tree.bal] at hgo
        rcases hgo with ⟨hb1, hh⟩ | ⟨hb1, hh⟩
        · have : b1.natAbs = 1 := by omega
          simp [this] at hx
        have hnat : ¬ (b1.natAbs = 1) := by omega
        simp only [hnat, if_false] at hx
        have zu := Zip.up.1 z
        have hsib := z.sib_ptr_ne rfl
        obtain ⟨fd, fa, fv, fb, fs⟩ := f
        obtain ⟨hs, hfb, hfr, hq⟩ := hp
        cases fd
        · obtain ⟨h2, e2, -, z2⟩ :=
            zu.upd_root (fun m => { m with balance := m.balance - 1 }) fv (fb - 1) rfl
          have hg : (h1.get (some fa)) = .ok (Tree.cell (.node l1 a1 v1 b1 r1) fv fb fs
              (pathPtr q)) := zu.get_root
          simp only [hg, ok_bind, Tree.cell, Tree.ptr_node, if_true, e2] at hx
          simp only at hfb hfr hq hs
          have hent : (plug q (.node (.node l1 a1 v1 b1 r1) fa fv (fb - 1) fs)).entries =
              (plug q (.node (.node l a v b r) fa fv fb fs)).entries :=
            plug_entries_congr q (by simp only [Tree.entries] at hent1 ⊢; rw [hent1])
          have z2' : Zip h2 q (.node (.node l1 a1 v1 b1 r1) fa fv (fb - 1) fs) := z2
          have := ih (.node l1 a1 v1 b1 r1) fs fa fv (fb - 1) _ h2 k z2' hq ha hs (by omega)
            (by omega)
            (by intro hz; simp only [Tree.height] at hh ⊢; omega)
            (by intro hz; simp only [Tree.height] at hh ⊢; omega) x hx
          rw [hent] at this
          exact this
        · obtain ⟨h2, e2, -, z2⟩ :=
            zu.upd_root (fun m => { m with balance := m.balance + 1 }) fv (fb + 1) rfl
          have hg : (h1.get (some fa)) = .ok (Tree.cell fs fv fb (.node l1 a1 v1 b1 r1)
              (pathPtr q)) := zu.get_root
          have hsib' : ¬ (some a1 = fs.ptr) := fun e => hsib e.symm
          simp only [hg, ok_bind, Tree.cell, Tree.ptr_node, hsib', if_false, e2] at hx
          simp only at hfb hfr hq hs
          have hent : (plug q (.node fs fa fv (fb + 1) (.node l1 a1 v1 b1 r1))).entries =
              (plug q (.node fs fa fv fb (.node l a v b r))).entries :=
            plug_entries_congr q (by simp only [Tree.entries] at hent1 ⊢; rw [hent1])
          have z2' : Zip h2 q (.node fs fa fv (fb + 1) (.node l1 a1 v1 b1 r1)) := z2
          have := ih fs (.node l1 a1 v1 b1 r1) fa fv (fb + 1) _ h2 k z2' hq hs ha (by omega)
            (by omega)
            (by intro hz; simp only [Tree.height] at hh ⊢; omega)
            (by intro hz; simp only [Tree.height] at hh ⊢; omega) x hx
          rw [hent] at this
          exact this

end Calls

/-! ## The calls of `apply_rotation` in `insert` and `erase` -/

section CallSets

variable {α : Type} [LinearOrder α]

omit [LinearOrder α] in
/-- A set is at most one tree. -/
theorem Models.unique {s : Set α} {t t' : Tree α} (hm : Models s t) (hm' : Models s t') :
    t = t' := by
  have h1 := readTree_of_rep hm.whole.rep (le_max_left t.height t'.height)
  have h2 := readTree_of_rep hm'.whole.rep (le_max_right t.height t'.height)
  rw [← hm.root] at h1
  rw [← hm'.root] at h2
  exact h1.symm.trans h2

/-- `insert` on a well-formed set returns, and each of its calls of
    `apply_rotation` finds the walk in a good state on the nodes of the
    result. -/
theorem insert_calls_state {s : Set α} {t : Tree α} (value : α) (fuel : Nat)
    (hm : Models s t) (ho : t.Ordered) (ha : t.Avl) (hf : t.size + 2 ≤ fuel) :
    ∃ s' t', Set.insert fuel s value = .ok s' ∧ Models s' t' ∧ t'.Avl ∧ t'.Ordered ∧
      ∀ x ∈ s.insert_calls fuel value, WalkState x.1 x.2 t'.entries := by
  have hh := t.height_le_size
  rcases insert_correct value fuel hm ho ha hf with ⟨hmem, e⟩ |
    ⟨hmem, s', t', es, hm', hav', ho', -, -⟩
  · -- the value is stored: no walk
    refine ⟨s, t, e, hm, ha, ho, fun x hx => ?_⟩
    rcases Tree.insert_spec value s.heap.next t ho ha with ⟨-, hne, hd⟩ | ⟨hnot, -⟩
    · have hz : Zip s.heap [] t := whole_plug.1 hm.whole
      have e1 := insert_descend_zip_none value t [] fuel s.heap s.heap.next hz (by omega) hne hd
      have hr : s._root ≠ none := by rw [hm.root]; exact fun h => hne (Tree.ptr_eq_none.1 h)
      simp only [Set.insert_calls, hr, if_false] at hx
      rw [hm.root, e1] at hx
      simp at hx
    · exact absurd hmem hnot
  · refine ⟨s', t', es, hm', hav', ho', fun x hx => ?_⟩
    cases t with
    | nil =>
      have hr : s._root = none := hm.root
      simp [Set.insert_calls, hr] at hx
    | node l a v b r =>
      have hz : Zip s.heap [] (.node l a v b r) := whole_plug.1 hm.whole
      have hr : s._root ≠ none := by rw [hm.root]; simp
      rcases Tree.insert_spec value s.heap.next (.node l a v b r) ho ha with ⟨hin, -⟩ |
        ⟨-, hnew, t1, hi, hav1, L1, L2, e1, e2, -, -⟩
      · exact absurd hin hmem
      simp only [Tree.insert] at hi
      cases hd : Tree.insert_descend value s.heap.next (.node l a v b r) [] with
      | none =>
        rcases hnew with hnew | hnew
        · simp at hnew
        · exact absurd hd hnew
      | some qs =>
        obtain ⟨q, sub⟩ := qs
        simp only [hd] at hi
        obtain ⟨h1, ed, -, z1⟩ := insert_descend_zip_some value _ [] fuel s.heap q sub hz
          (by simp) (by omega) hd
        obtain ⟨l', a', v', b', r', n, rfl, hq, hl', hr', hb', hinv⟩ :=
          insert_descend_avl value s.heap.next _ [] q sub (by simp) ha trivial hd
        have hsize : t1.size = (Tree.node l a v b r).size + 1 := by
          rw [← Tree.entries_length, ← Tree.entries_length, e1, e2]
          simp only [List.length_append, List.length_cons]
          omega
        have hh1 := t1.height_le_size
        obtain ⟨s1, es1, hm1, -⟩ := insert_models_new value hm (show _ + 2 ≤ fuel by omega)
          (show t1.height ≤ fuel by omega) hsize hnew
          (show Tree.insert value s.heap.next (.node l a v b r) = some t1 by
            simp only [Tree.insert, hd]; exact hi)
        rw [es] at es1
        cases es1
        have hwhole : Whole s'.heap t' := hm'.whole
        have hent : t'.entries = t1.entries := by rw [hm'.unique hm1]
        simp only [Set.insert_calls, hr, if_false] at hx
        rw [hm.root, Tree.ptr_node] at hx
        rw [← Tree.ptr_node (l := l) (v := v) (b := b) (r := r), ed] at hx
        simp only [Tree.ptr_node] at hx
        have := insert_walk_calls_state q l' r' a' v' b' n h1 fuel z1 hq hl' hr' hb' hinv x hx
        rw [← insert_walk_entries q _ _ hi, ← hent] at this
        exact this

/-- `erase` on a well-formed set returns, and each of its calls of
    `apply_rotation` finds the walk in a good state on the nodes of the
    result. -/
theorem erase_calls_state {s : Set α} {t : Tree α} (value : α) (fuel : Nat)
    (hm : Models s t) (ho : t.Ordered) (ha : t.Avl) (hf : t.size + 1 ≤ fuel) :
    ∃ s' t', Set.erase fuel s value = .ok s' ∧ Models s' t' ∧ t'.Avl ∧ t'.Ordered ∧
      ∀ x ∈ s.erase_calls fuel value, WalkState x.1 x.2 t'.entries := by
  have hh := t.height_le_size
  have e := find_loop_rep (h := s.heap) value t none fuel [] hm.whole.rep (by omega)
  have hpl := Tree.search_plug value t []
  rcases Tree.erase_spec value fuel t ho ha (by omega) with ⟨hmem, habs⟩ |
    ⟨hfound, t1, he, hav1, L1, L2, i1, i2⟩
  · refine ⟨s, t, erase_models_absent value hm (by omega) habs, hm, ha, ho, fun x hx => ?_⟩
    rw [habs] at e
    simp only [Set.erase_calls, erase_search_eq_find_loop, hm.root, e, Tree.ptr_nil] at hx
    simp at hx
  · have hsize : t1.size + 1 = t.size := by
      rw [← Tree.inorder_length, ← Tree.inorder_length, i1, i2]
      simp only [List.length_append, List.length_cons]
      omega
    have hh1 := t1.height_le_size
    obtain ⟨s', es, hm', -⟩ :=
      erase_models_present value hm (by omega) (by omega) hsize hfound he
    have ho1 : t1.Ordered := by
      rw [Tree.ordered_iff_sorted] at ho ⊢
      rw [i1] at ho
      rw [i2]
      exact ho.sublist (List.Sublist.append_left (List.sublist_cons_self _ _) _)
    refine ⟨s', t1, es, hm', hav1, ho1, fun x hx => ?_⟩
    rcases hs : Tree.search value t [] with ⟨p, t0⟩
    rw [hs] at e hfound hpl
    simp only [plug] at hpl
    cases t0 with
    | nil => exact absurd rfl hfound
    | node l a v b r =>
      simp only [Tree.erase, hs] at he
      obtain ⟨hav0, hp0⟩ := (avl_plug p _).1 (hpl ▸ ha)
      cases hd : Tree.erase_detach fuel p (.node l a v b r) with
      | none => simp [hd] at he
      | some qs =>
        obtain ⟨q, sub⟩ := qs
        simp only [hd] at he
        have hz : Zip s.heap p (.node l a v b r) := whole_plug.1 (hpl ▸ hm.whole)
        have hht : (Tree.node l a v b r).height ≤ fuel := by
          have := Tree.search_path value t []
          rw [hs] at this
          simp only [List.length_nil, zero_add] at this
          omega
        obtain ⟨h1, e1, -, z1⟩ := erase_detach_zip fuel p _ s.heap q sub hz hht hd
        rw [hpl, ← hm.root] at e1
        simp only [Tree.ptr_node] at e e1
        simp only [Set.erase_calls, erase_search_eq_find_loop, hm.root, e] at hx
        rw [← hm.root, e1] at hx
        simp only at hx
        rcases erase_detach_avl fuel p q _ sub hav0 hp0 hd with ⟨rfl, rfl⟩ |
          ⟨l', a', v', b', r', n, rfl, hq, hl', hr', hb', hrg, hz0, hz1⟩
        · cases fuel <;> simp [erase_walk_calls] at hx
        · have := erase_walk_calls_state q l' r' a' v' b' n h1 fuel z1 hq hl' hr' hb' hrg hz0
            hz1 x hx
          rw [← erase_walk_entries q _ _ he] at this
          exact this

end CallSets

/-! ## The node that `erase` frees -/

section Freed

variable {α : Type}

theorem plug_mem_addrs (q : List (Frame α)) {t : Tree α} {d : Nat} (h : d ∈ t.addrs) :
    d ∈ (plug q t).addrs :=
  (plug_addrs_perm q t).mem_iff.2 (List.mem_append_right _ h)

/-- The swap-and-detach loop of `erase` on the heap frees one node `d` of
    the subtree it starts at: the node itself when it is a leaf, otherwise a
    node of its left subtree when there is one, and of its right subtree when
    there is none. -/
theorem erase_detach_freed (fuel : Nat) :
    ∀ (p : List (Frame α)) (t : Tree α) (h : Heap α) (q : List (Frame α)) (s : Tree α),
      Zip h p t → t.height ≤ fuel → Tree.erase_detach fuel p t = some (q, s) →
      ∃ h' d, erase_detach fuel h (plug p t).ptr t.ptr = .ok (h', (plug q s).ptr, s.ptr) ∧
        Zip h' q s ∧ h'.cells d = none ∧
        ∀ l a v b r, t = .node l a v b r →
          (l ≠ .nil → d ∈ l.addrs) ∧ (l = .nil → r ≠ .nil → d ∈ r.addrs) ∧
          (l = .nil → r = .nil → d = a) := by
  induction fuel with
  | zero => intro p t h q s _ _ hd; simp [Tree.erase_detach] at hd
  | succ k ih =>
    intro p t h q s hz hf hd
    cases t with
    | nil => simp [Tree.erase_detach] at hd
    | node l a v b r =>
      simp only [Tree.height] at hf
      simp only [Tree.ptr_node, erase_detach, hz.get_root, ok_bind, Tree.cell]
      cases l with
      | nil =>
        cases r with
        | nil =>
          -- a leaf: detach it
          simp only [Tree.ptr_nil, and_self, if_true]
          cases p with
          | nil =>
            simp only [Tree.erase_detach, Option.some.injEq, Prod.mk.injEq] at hd
            obtain ⟨rfl, rfl⟩ := hd
            simp only [pathPtr_nil, if_true, plug, Tree.ptr_node, Heap.free_some _ _ _ hz.sub.1,
              ok_bind, pure_eq_ok, Tree.ptr_nil]
            refine ⟨Heap.mk (fun x => if x = a then none else h.cells x) h.next, a, rfl,
              ⟨trivial, trivial, by simp [pathAddrs, Tree.addrs],
                by simp [pathAddrs, Tree.addrs]⟩, by simp, ?_⟩
            intro l' a' v' b' r' heq
            simp only [Tree.node.injEq] at heq
            obtain ⟨rfl, rfl, -, -, rfl⟩ := heq
            exact ⟨fun hne => absurd rfl hne, fun _ hne => absurd rfl hne, fun _ _ => rfl⟩
          | cons f p' =>
            simp only [Tree.erase_detach, Option.some.injEq, Prod.mk.injEq] at hd
            obtain ⟨rfl, rfl⟩ := hd
            have hsib := hz.sib_ptr_ne rfl
            have hcf := hz.path.1
            have hca := hz.sub.1
            have hfa : f.a ≠ a := by
              have hnd := hz.nodup
              simp only [pathAddrs, Tree.addrs, List.nil_append, List.cons_append,
                List.nodup_cons, List.mem_append, List.mem_singleton, not_or] at hnd
              exact hnd.1.2
            have hroot : (plug (f :: p') (Tree.node .nil a v b .nil)).ptr =
                (plug p' (f.shrunk.fill .nil)).ptr := by
              simp only [plug]
              refine plug_ptr_congr p' ?_
              rw [Frame.fill_ptr, Frame.fill_ptr]
              obtain ⟨d, fa, fv, fb, fs⟩ := f
              cases d <;> rfl
            rw [hroot]
            have hcond : ∀ l' a' v' b' r', Tree.node .nil a v b .nil = .node l' a' v' b' r' →
                (l' ≠ .nil → a ∈ l'.addrs) ∧ (l' = .nil → r' ≠ .nil → a ∈ r'.addrs) ∧
                (l' = .nil → r' = .nil → a = a') := by
              intro l' a' v' b' r' heq
              simp only [Tree.node.injEq] at heq
              obtain ⟨rfl, rfl, -, -, rfl⟩ := heq
              exact ⟨fun hne => absurd rfl hne, fun _ hne => absurd rfl hne, fun _ _ => rfl⟩
            obtain ⟨d, fa, fv, fb, fs⟩ := f
            cases d
            · -- the leaf is a left child
              simp only at hsib hcf hfa
              have hne : ¬ (fs.ptr = some a) := hsib
              refine ⟨Heap.mk (fun x => if x = fa then
                  some (Frame.cell (Frame.mk .L fa fv (fb - 1) fs) none (pathPtr p'))
                  else if x = a then none else h.cells x) h.next, a, ?_,
                Zip.up.1 (Zip.detach (fb - 1) hz rfl fun x => rfl), ?_, hcond⟩
              · simp [Heap.get, Heap.free, Heap.upd, Heap.set_cells, hcf, hca, Frame.cell,
                  hne, ok_bind, pure_eq_ok, hfa, Ne.symm hfa, Frame.fill_ptr, Frame.shrunk]
                simp only [Heap.set, Heap.mk.injEq, and_true]
                funext x
                by_cases hx1 : x = fa <;> by_cases hx2 : x = a <;>
                  simp [hx1, hx2, hfa, Ne.symm hfa]
              · simp [hfa, Ne.symm hfa]
            · -- the leaf is a right child
              simp only at hsib hcf hfa
              refine ⟨Heap.mk (fun x => if x = fa then
                  some (Frame.cell (Frame.mk .R fa fv (fb + 1) fs) none (pathPtr p'))
                  else if x = a then none else h.cells x) h.next, a, ?_,
                Zip.up.1 (Zip.detach (fb + 1) hz rfl fun x => rfl), ?_, hcond⟩
              · simp [Heap.get, Heap.free, Heap.upd, Heap.set_cells, hcf, hca, Frame.cell,
                  ok_bind, pure_eq_ok, hfa, Ne.symm hfa, Frame.fill_ptr, Frame.shrunk]
                simp only [Heap.set, Heap.mk.injEq, and_true]
                funext x
                by_cases hx1 : x = fa <;> by_cases hx2 : x = a <;>
                  simp [hx1, hx2, hfa, Ne.symm hfa]
              · simp [hfa, Ne.symm hfa]
        | node rl ra rv rb rr =>
          -- no left subtree: swap with the first node of the right subtree
          simp only [Tree.ptr_nil, Tree.ptr_node, reduceCtorEq, and_false, if_false, ne_eq,
            not_true_eq_false, not_false_eq_true, if_true]
          simp only [Tree.erase_detach] at hd
          rcases hlm : Tree.leftmost (Tree.node rl ra rv rb rr) [] with ⟨q0, s0⟩
          rw [hlm] at hd
          cases s0 with
          | nil => simp at hd
          | node nl na nv nb nr =>
            simp only at hd
            have hpl := Tree.leftmost_plug (Tree.node rl ra rv rb rr) []
            have hht := Tree.leftmost_height (Tree.node rl ra rv rb rr) []
            rw [hlm] at hpl hht
            simp only [plug, Tree.height] at hpl hht
            have hloop := leftmost_loop_rep (h := h) (Tree.node rl ra rv rb rr) (some a) k []
              hz.sub.2.2 (by simp) (by simp only [Tree.height] at hf ⊢; omega)
            rw [hlm] at hloop
            simp only [Tree.ptr_node] at hloop
            have hz' : Zip h (q0 ++ { dir := .R, a := a, v := v, b := b, sib := .nil } :: p)
                (.node nl na nv nb nr) := by
              refine Zip.focus.2 (Zip.up.2 ?_)
              rw [hpl]
              exact hz
            obtain ⟨h1, e1, -, z1⟩ := swap_values_zip hz'
            obtain ⟨h2, d, e2, z2, hdead, hwhere⟩ := ih _ _ h1 q s z1
              (by simp only [Tree.height] at hf hht ⊢; omega) hd
            have hdn : d ∈ (Tree.node nl na nv nb nr).addrs := by
              obtain ⟨w1, w2, w3⟩ := hwhere nl na v nb nr rfl
              simp only [Tree.addrs, List.mem_append, List.mem_cons]
              by_cases hnl : nl = .nil
              · by_cases hnr : nr = .nil
                · exact Or.inr (Or.inl (w3 hnl hnr))
                · exact Or.inr (Or.inr (w2 hnl hnr))
              · exact Or.inl (w1 hnl)
            refine ⟨h2, d, ?_, z2, hdead, ?_⟩
            · simp only [hloop, ok_bind, e1]
              rw [← e2]
              congr 1
              exact (plug_ptr_append p q0 { dir := .R, a := a, v := nv, b := b, sib := .nil }
                { dir := .R, a := a, v := v, b := b, sib := .nil } _ (.node rl ra rv rb rr)
                rfl).symm
            · intro l' a' v' b' r' heq
              simp only [Tree.node.injEq] at heq
              obtain ⟨rfl, rfl, -, -, rfl⟩ := heq
              refine ⟨fun hne => absurd rfl hne, fun _ _ => ?_, fun _ hr => by simp at hr⟩
              rw [← hpl]
              exact plug_mem_addrs q0 hdn
      | node ll la lv lb lr =>
        -- swap with the last node of the left subtree
        simp only [Tree.ptr_node, reduceCtorEq, false_and, if_false, ne_eq,
          not_false_eq_true, if_true]
        simp only [Tree.erase_detach] at hd
        rcases hrm : Tree.rightmost (Tree.node ll la lv lb lr) [] with ⟨q0, s0⟩
        rw [hrm] at hd
        cases s0 with
        | nil => simp at hd
        | node nl na nv nb nr =>
          simp only at hd
          have hpl := Tree.rightmost_plug (Tree.node ll la lv lb lr) []
          have hht := Tree.rightmost_height (Tree.node ll la lv lb lr) []
          rw [hrm] at hpl hht
          simp only [plug, Tree.height] at hpl hht
          have hloop := rightmost_loop_rep (h := h) (Tree.node ll la lv lb lr) (some a) k []
            hz.sub.2.1 (by simp) (by simp only [Tree.height] at hf ⊢; omega)
          rw [hrm] at hloop
          simp only [Tree.ptr_node] at hloop
          have hz' : Zip h (q0 ++ { dir := .L, a := a, v := v, b := b, sib := r } :: p)
              (.node nl na nv nb nr) := by
            refine Zip.focus.2 (Zip.up.2 ?_)
            rw [hpl]
            exact hz
          obtain ⟨h1, e1, -, z1⟩ := swap_values_zip hz'
          obtain ⟨h2, d, e2, z2, hdead, hwhere⟩ := ih _ _ h1 q s z1
            (by simp only [Tree.height] at hf hht ⊢; omega) hd
          have hdn : d ∈ (Tree.node nl na nv nb nr).addrs := by
            obtain ⟨w1, w2, w3⟩ := hwhere nl na v nb nr rfl
            simp only [Tree.addrs, List.mem_append, List.mem_cons]
            by_cases hnl : nl = .nil
            · by_cases hnr : nr = .nil
              · exact Or.inr (Or.inl (w3 hnl hnr))
              · exact Or.inr (Or.inr (w2 hnl hnr))
            · exact Or.inl (w1 hnl)
          refine ⟨h2, d, ?_, z2, hdead, ?_⟩
          · simp only [hloop, ok_bind, e1]
            rw [← e2]
            congr 1
            exact (plug_ptr_append p q0 { dir := .L, a := a, v := nv, b := b, sib := r }
              { dir := .L, a := a, v := v, b := b, sib := r } _ (.node ll la lv lb lr) rfl).symm
          · intro l' a' v' b' r' heq
            simp only [Tree.node.injEq] at heq
            obtain ⟨rfl, rfl, -, -, rfl⟩ := heq
            refine ⟨fun _ => ?_, fun hl => by simp at hl, fun hl => by simp at hl⟩
            rw [← hpl]
            exact plug_mem_addrs q0 hdn

end Freed

/-! ## A freed node stays freed

The rebalance walk of `erase` only assigns fields of live nodes. -/

section StaysFreedFacts

variable {α : Type}

set_option linter.unusedTactic false
set_option linter.unreachableTactic false

theorem sf_error {β : Type} {d : Nat} {heap_of : β → Heap α} (f : Fault) :
    StaysFreed d heap_of (Except.error f : Except Fault β) :=
  fun _ e => Except.noConfusion e

theorem sf_ok {β : Type} {d : Nat} {heap_of : β → Heap α} {a : β}
    (h : (heap_of a).cells d = none) : StaysFreed d heap_of (Except.ok a : Except Fault β) := by
  intro r e
  cases e
  exact h

theorem sf_bind_any {β γ : Type} {d : Nat} {heap_of : β → Heap α} {x : Except Fault γ}
    {k : γ → Except Fault β} (hk : ∀ a, StaysFreed d heap_of (k a)) :
    StaysFreed d heap_of (x >>= k) := by
  cases x with
  | error f => exact sf_error f
  | ok a => exact hk a

theorem sf_bind_heap {β : Type} {d : Nat} {heap_of : β → Heap α} {x : Except Fault (Heap α)}
    {k : Heap α → Except Fault β} (hx : StaysFreed d id x)
    (hk : ∀ a, a.cells d = none → StaysFreed d heap_of (k a)) :
    StaysFreed d heap_of (x >>= k) := by
  cases x with
  | error f => exact sf_error f
  | ok a => exact hk a (hx a rfl)

theorem sf_bind_pair {β : Type} {d : Nat} {heap_of : β → Heap α}
    {x : Except Fault (Nat × Heap α)} {k : Nat × Heap α → Except Fault β}
    (hx : StaysFreed d Prod.snd x)
    (hk : ∀ a, a.2.cells d = none → StaysFreed d heap_of (k a)) :
    StaysFreed d heap_of (x >>= k) := by
  cases x with
  | error f => exact sf_error f
  | ok a => exact hk a (hx a rfl)

theorem sf_upd {d : Nat} (h : Heap α) (p : Ptr) (f : Node α → Node α) (hd : h.cells d = none) :
    StaysFreed d id (h.upd p f) := by
  intro r e
  cases p with
  | none => exact Except.noConfusion e
  | some a =>
    simp only [Heap.upd] at e
    cases hc : h.cells a with
    | none => rw [hc] at e; exact Except.noConfusion e
    | some n =>
      rw [hc] at e
      cases e
      have hne : d ≠ a := by
        rintro rfl
        rw [hd] at hc
        exact Option.noConfusion hc
      simp [Heap.set, hne, hd]

theorem sf_rotate_left {d : Nat} (h : Heap α) (this : Nat) (hd : h.cells d = none) :
    StaysFreed d Prod.snd (rotate_left h this) := by
  unfold rotate_left
  repeat' first
    | exact sf_error _
    | exact sf_ok (by assumption)
    | exact sf_upd _ _ _ (by assumption)
    | refine sf_bind_heap ?_ (fun _ _ => ?_)
    | refine sf_bind_pair ?_ (fun _ _ => ?_)
    | refine sf_bind_any (fun _ => ?_)
    | split
    | dsimp only

theorem sf_rotate_right {d : Nat} (h : Heap α) (this : Nat) (hd : h.cells d = none) :
    StaysFreed d Prod.snd (rotate_right h this) := by
  unfold rotate_right
  repeat' first
    | exact sf_error _
    | exact sf_ok (by assumption)
    | exact sf_upd _ _ _ (by assumption)
    | refine sf_bind_heap ?_ (fun _ _ => ?_)
    | refine sf_bind_pair ?_ (fun _ _ => ?_)
    | refine sf_bind_any (fun _ => ?_)
    | split
    | dsimp only

theorem sf_big_rotate_left {d : Nat} (h : Heap α) (this : Nat) (hd : h.cells d = none) :
    StaysFreed d Prod.snd (big_rotate_left h this) := by
  unfold big_rotate_left
  repeat' first
    | exact sf_error _
    | exact sf_ok (by assumption)
    | exact sf_upd _ _ _ (by assumption)
    | exact sf_rotate_left _ _ (by assumption)
    | exact sf_rotate_right _ _ (by assumption)
    | refine sf_bind_heap ?_ (fun _ _ => ?_)
    | refine sf_bind_pair ?_ (fun _ _ => ?_)
    | refine sf_bind_any (fun _ => ?_)
    | split
    | dsimp only

theorem sf_big_rotate_right {d : Nat} (h : Heap α) (this : Nat) (hd : h.cells d = none) :
    StaysFreed d Prod.snd (big_rotate_right h this) := by
  unfold big_rotate_right
  repeat' first
    | exact sf_error _
    | exact sf_ok (by assumption)
    | exact sf_upd _ _ _ (by assumption)
    | exact sf_rotate_left _ _ (by assumption)
    | exact sf_rotate_right _ _ (by assumption)
    | refine sf_bind_heap ?_ (fun _ _ => ?_)
    | refine sf_bind_pair ?_ (fun _ _ => ?_)
    | refine sf_bind_any (fun _ => ?_)
    | split
    | dsimp only

theorem sf_apply_rotation {d : Nat} (h : Heap α) (this : Nat) (hd : h.cells d = none) :
    StaysFreed d Prod.snd (apply_rotation h this) := by
  unfold apply_rotation
  repeat' first
    | exact sf_error _
    | exact sf_ok (by assumption)
    | exact sf_upd _ _ _ (by assumption)
    | exact sf_rotate_left _ _ (by assumption)
    | exact sf_rotate_right _ _ (by assumption)
    | exact sf_big_rotate_left _ _ (by assumption)
    | exact sf_big_rotate_right _ _ (by assumption)
    | refine sf_bind_heap ?_ (fun _ _ => ?_)
    | refine sf_bind_pair ?_ (fun _ _ => ?_)
    | refine sf_bind_any (fun _ => ?_)
    | split
    | dsimp only

theorem sf_erase_walk {d : Nat} :
    ∀ (fuel : Nat) (h : Heap α) (root c : Ptr), h.cells d = none →
      StaysFreed d Prod.fst (erase_walk fuel h root c) := by
  intro fuel
  induction fuel with
  | zero =>
    intros
    exact sf_error _
  | succ k ih =>
    intro h root c hd
    cases c with
    | none => exact sf_ok hd
    | some a =>
      rw [erase_walk]
      repeat' first
        | exact sf_error _
        | exact sf_ok (by assumption)
        | exact sf_upd _ _ _ (by assumption)
        | exact sf_apply_rotation _ _ (by assumption)
        | exact ih _ _ _ (by assumption)
        | refine sf_bind_heap ?_ (fun _ _ => ?_)
        | refine sf_bind_pair ?_ (fun _ _ => ?_)
        | refine sf_bind_any (fun _ => ?_)
        | split
        | dsimp only

theorem sf_update_edge_nodes {d : Nat} (fuel : Nat) (s : Set α) (hd : s.heap.cells d = none) :
    StaysFreed d Set.heap (s.update_edge_nodes fuel) := by
  unfold Set.update_edge_nodes
  repeat' first
    | exact sf_error _
    | exact sf_ok (by assumption)
    | exact sf_upd _ _ _ (by assumption)
    | refine sf_bind_heap ?_ (fun _ _ => ?_)
    | refine sf_bind_pair ?_ (fun _ _ => ?_)
    | refine sf_bind_any (fun _ => ?_)
    | split
    | dsimp only

end StaysFreedFacts

/-! ## The value `erase` moves into the node it empties -/

section Pred

variable {α : Type}

theorem pathNodes_mem_plug : ∀ (p : List (Frame α)) (t : Tree α) (x : Nat × α),
    x ∈ pathNodes p → x ∈ (plug p t).entries
  | [], _, _, h => by simp [pathNodes] at h
  | f :: p, t, x, h => by
    simp only [pathNodes, List.map_cons, List.mem_cons] at h
    rw [plug]
    rcases h with rfl | h
    · rw [plug_entries]
      refine List.mem_append_left _ (List.mem_append_right _ ?_)
      obtain ⟨d, fa, fv, fb, fs⟩ := f
      cases d <;> simp [Frame.fill, Tree.entries]
    · exact pathNodes_mem_plug p _ x h

/-- The swap-and-detach loop of `erase` leaves the nodes above the subtree
    it starts at, and their values, in place. -/
theorem erase_detach_pathNodes (fuel : Nat) :
    ∀ (p q : List (Frame α)) (t s : Tree α), Tree.erase_detach fuel p t = some (q, s) →
      ∀ x ∈ pathNodes p, x ∈ (plug q s).entries := by
  induction fuel with
  | zero => intro p q t s hd; simp [Tree.erase_detach] at hd
  | succ k ih =>
    intro p q t s hd x hx
    cases t with
    | nil => simp [Tree.erase_detach] at hd
    | node l a v b r =>
      cases l with
      | nil =>
        cases r with
        | nil =>
          cases p with
          | nil => simp [pathNodes] at hx
          | cons f p' =>
            simp only [Tree.erase_detach, Option.some.injEq, Prod.mk.injEq] at hd
            obtain ⟨rfl, rfl⟩ := hd
            have := pathNodes_mem_plug (f :: p') .nil x hx
            rw [plug] at this
            rwa [plug_entries_congr p' (Frame.shrunk_fill_entries f .nil)]
        | node rl ra rv rb rr =>
          simp only [Tree.erase_detach] at hd
          rcases hlm : Tree.leftmost (Tree.node rl ra rv rb rr) [] with ⟨q0, s0⟩
          rw [hlm] at hd
          cases s0 with
          | nil => simp at hd
          | node nl na nv nb nr =>
            simp only at hd
            exact ih _ _ _ _ hd x (by
              simp only [pathNodes, List.map_append, List.map_cons, List.mem_append,
                List.mem_cons] at hx ⊢
              exact Or.inr (Or.inr hx))
      | node ll la lv lb lr =>
        simp only [Tree.erase_detach] at hd
        rcases hrm : Tree.rightmost (Tree.node ll la lv lb lr) [] with ⟨q0, s0⟩
        rw [hrm] at hd
        cases s0 with
        | nil => simp at hd
        | node nl na nv nb nr =>
          simp only at hd
          exact ih _ _ _ _ hd x (by
            simp only [pathNodes, List.map_append, List.map_cons, List.mem_append,
              List.mem_cons] at hx ⊢
            exact Or.inr (Or.inr hx))

theorem Tree.rightmost_value (t : Tree α) :
    ∀ (p q : List (Frame α)) (nl nr : Tree α) (na : Nat) (nv : α) (nb : Int),
      Tree.rightmost t p = (q, .node nl na nv nb nr) → t.inorder.getLast? = some nv := by
  induction t with
  | nil => intro p q nl nr na nv nb h; simp [Tree.rightmost] at h
  | node l a v b r _ ihr =>
    intro p q nl nr na nv nb h
    cases r with
    | nil =>
      simp only [Tree.rightmost, Prod.mk.injEq, Tree.node.injEq] at h
      obtain ⟨-, -, -, rfl, -, -⟩ := h
      simp [Tree.inorder]
    | node rl ra rv rb rr =>
      unfold Tree.rightmost at h
      have := ihr _ _ _ _ _ _ _ h
      have e : (Tree.node l a v b (.node rl ra rv rb rr)).inorder =
          (l.inorder ++ [v]) ++ (Tree.node rl ra rv rb rr).inorder := by simp [Tree.inorder]
      rw [e, List.getLast?_append_of_ne_nil _ (by simp [Tree.inorder]), this]

theorem Tree.leftmost_value (t : Tree α) :
    ∀ (p q : List (Frame α)) (nl nr : Tree α) (na : Nat) (nv : α) (nb : Int),
      Tree.leftmost t p = (q, .node nl na nv nb nr) → t.inorder.head? = some nv := by
  induction t with
  | nil => intro p q nl nr na nv nb h; simp [Tree.leftmost] at h
  | node l a v b r ihl _ =>
    intro p q nl nr na nv nb h
    cases l with
    | nil =>
      simp only [Tree.leftmost, Prod.mk.injEq, Tree.node.injEq] at h
      obtain ⟨-, -, -, rfl, -, -⟩ := h
      simp [Tree.inorder]
    | node ll la lv lb lr =>
      unfold Tree.leftmost at h
      have := ihl _ _ _ _ _ _ _ h
      have e : (Tree.node (.node ll la lv lb lr) a v b r).inorder =
          (Tree.node ll la lv lb lr).inorder ++ (v :: r.inorder) := by simp [Tree.inorder]
      rw [e, List.head?_append_of_ne_nil _ (by simp [Tree.inorder]), this]

/-- After the swap-and-detach loop of `erase`, the node it started at holds
    the last value of its left subtree when it has one, and otherwise the
    first value of its right subtree. -/
theorem erase_detach_value (fuel : Nat) (p q : List (Frame α)) (l r s : Tree α) (a : Nat)
    (v : α) (b : Int) (hd : Tree.erase_detach fuel p (.node l a v b r) = some (q, s)) :
    (l ≠ .nil → ∃ m, l.inorder.getLast? = some m ∧ (a, m) ∈ (plug q s).entries) ∧
    (l = .nil → r ≠ .nil → ∃ m, r.inorder.head? = some m ∧ (a, m) ∈ (plug q s).entries) := by
  cases fuel with
  | zero => simp [Tree.erase_detach] at hd
  | succ k =>
    cases l with
    | nil =>
      refine ⟨fun h => absurd rfl h, fun _ hr => ?_⟩
      cases r with
      | nil => exact absurd rfl hr
      | node rl ra rv rb rr =>
        simp only [Tree.erase_detach] at hd
        rcases hlm : Tree.leftmost (Tree.node rl ra rv rb rr) [] with ⟨q0, s0⟩
        rw [hlm] at hd
        cases s0 with
        | nil => simp at hd
        | node nl na nv nb nr =>
          simp only at hd
          refine ⟨nv, Tree.leftmost_value _ _ _ _ _ _ _ _ hlm, ?_⟩
          exact erase_detach_pathNodes k _ _ _ _ hd (a, nv) (by simp [pathNodes])
    | node ll la lv lb lr =>
      refine ⟨fun _ => ?_, fun h => by simp at h⟩
      simp only [Tree.erase_detach] at hd
      rcases hrm : Tree.rightmost (Tree.node ll la lv lb lr) [] with ⟨q0, s0⟩
      rw [hrm] at hd
      cases s0 with
      | nil => simp at hd
      | node nl na nv nb nr =>
        simp only at hd
        refine ⟨nv, Tree.rightmost_value _ _ _ _ _ _ _ _ hrm, ?_⟩
        exact erase_detach_pathNodes k _ _ _ _ hd (a, nv) (by simp [pathNodes])

variable [LinearOrder α]

/-- On an ordered tree the search loop finds the node that holds the
    value. -/
theorem Tree.search_plug_bounds (value : α) :
    ∀ (p acc : List (Frame α)) (t : Tree α),
      (∀ x ∈ pathBefore p, x.2 < value) → (∀ x ∈ pathAfter p, value < x.2) →
      Tree.search value (plug p t) acc = Tree.search value t (p ++ acc)
  | [], acc, t, _, _ => rfl
  | f :: p, acc, t, hb, ha => by
    obtain ⟨d, fa, fv, fb, fs⟩ := f
    cases d
    · simp only [pathBefore, pathAfter, List.mem_cons, List.mem_append] at hb ha
      rw [plug, Tree.search_plug_bounds value p acc _ hb (fun x hx => ha x (Or.inr (Or.inr hx)))]
      have h1 : value < fv := ha (fa, fv) (Or.inl rfl)
      simp only [Frame.fill, Tree.search, not_lt_of_gt h1, if_false, h1, if_true,
        List.cons_append]
    · simp only [pathBefore, pathAfter, List.mem_cons, List.mem_append, List.mem_singleton]
        at hb ha
      rw [plug, Tree.search_plug_bounds value p acc _ (fun x hx => hb x (Or.inl hx)) ha]
      have h1 : fv < value := hb (fa, fv) (Or.inr (Or.inr (Or.inl rfl)))
      simp only [Frame.fill, Tree.search, h1, if_true, List.cons_append]

theorem Tree.search_focus {p : List (Frame α)} {l r : Tree α} {a : Nat} {v : α} {b : Int}
    (ho : (plug p (.node l a v b r)).Ordered) :
    Tree.search v (plug p (.node l a v b r)) [] = (p, .node l a v b r) := by
  have hs := (Tree.ordered_iff_sorted _).1 ho
  rw [plug_inorder] at hs
  simp only [Tree.inorder, List.append_assoc, List.pairwise_append, List.mem_append,
    List.mem_cons, List.pairwise_cons] at hs
  obtain ⟨-, ⟨-, ⟨-, -, hafter⟩, -⟩, hbefore⟩ := hs
  rw [Tree.search_plug_bounds v p [] _
    (fun x hx => hbefore x.2 (List.mem_map_of_mem _ hx) v (Or.inr (Or.inl (Or.inl rfl))))
    (fun x hx => hafter v (Or.inl rfl) x.2 (List.mem_map_of_mem _ hx))]
  simp [Tree.search]

end Pred

/-! ## `erase` of a value whose node is known -/

section EraseFocus

variable {α : Type} [LinearOrder α]

/-- `erase` of the value held by the node `a` with subtrees `l` and `r`:
    a node `d` is freed, and `a` gets the last value of `l`, or the first
    value of `r` when `l` is empty; `d` is `a` itself when `a` is a leaf. -/
theorem erase_focus {s : Set α} {p : List (Frame α)} {l r : Tree α} {a : Nat} {value : α}
    {b : Int} (fuel : Nat) (hm : Models s (plug p (.node l a value b r)))
    (ho : (plug p (.node l a value b r)).Ordered) (ha : (plug p (.node l a value b r)).Avl)
    (hf : (plug p (.node l a value b r)).size + 1 ≤ fuel) :
    ∃ s' t' d, Set.erase fuel s value = .ok s' ∧ Models s' t' ∧ s'.heap.cells d = none ∧
      (l ≠ .nil → ∃ m, l.inorder.getLast? = some m ∧ (a, m) ∈ t'.entries ∧ d ∈ l.addrs) ∧
      (l = .nil → r ≠ .nil → ∃ m, r.inorder.head? = some m ∧ (a, m) ∈ t'.entries ∧
        d ∈ r.addrs) ∧
      (l = .nil → r = .nil → d = a) := by
  have hh := (plug p (.node l a value b r)).height_le_size
  have hs := Tree.search_focus ho
  have e := find_loop_rep (h := s.heap) value _ none fuel [] hm.whole.rep
    (show (plug p (.node l a value b r)).height + 1 ≤ fuel by omega)
  rw [hs] at e
  rcases Tree.erase_spec value fuel _ ho ha (by omega) with ⟨-, habs⟩ |
    ⟨hfound, t1, he, -, L1, L2, i1, i2⟩
  · rw [hs] at habs
    exact Tree.noConfusion habs
  have hsize : t1.size + 1 = (plug p (.node l a value b r)).size := by
    rw [← Tree.inorder_length, ← Tree.inorder_length, i1, i2]
    simp only [List.length_append, List.length_cons]
    omega
  have hh1 := t1.height_le_size
  obtain ⟨s', es, hm', -⟩ :=
    erase_models_present value hm (by omega) (by omega) hsize hfound he
  simp only [Tree.erase, hs] at he
  cases hd : Tree.erase_detach fuel p (.node l a value b r) with
  | none => simp [hd] at he
  | some qs =>
    obtain ⟨q, sub⟩ := qs
    simp only [hd] at he
    have hz : Zip s.heap p (.node l a value b r) := whole_plug.1 hm.whole
    have hht : (Tree.node l a value b r).height ≤ fuel := by
      have := Tree.search_path value (plug p (.node l a value b r)) []
      rw [hs] at this
      simp only [List.length_nil, zero_add] at this
      omega
    obtain ⟨h1, d, e1, -, hdead, hwhere⟩ := erase_detach_freed fuel p _ s.heap q sub hz hht hd
    obtain ⟨w1, w2, w3⟩ := hwhere l a value b r rfl
    obtain ⟨v1, v2⟩ := erase_detach_value fuel p q l r sub a value b hd
    have hent := erase_walk_entries q sub t1 he
    refine ⟨s', t1, d, es, hm', ?_, ?_, ?_, w3⟩
    · rw [← hm.root] at e1
      simp only [Tree.ptr_node] at e e1
      simp only [Set.erase, erase_search_eq_find_loop, hm.root, e, ok_bind, reduceCtorEq,
        if_false] at es
      rw [← hm.root, e1] at es
      simp only [ok_bind] at es
      cases hw : erase_walk fuel h1 (plug q sub).ptr sub.ptr with
      | error f => rw [hw] at es; exact Except.noConfusion es
      | ok w =>
        rw [hw] at es
        simp only [ok_bind] at es
        have hd2 : w.1.cells d = none := sf_erase_walk fuel h1 _ _ hdead w hw
        exact sf_update_edge_nodes fuel _ hd2 s' es
    · intro hl
      obtain ⟨m, hm1, hm2⟩ := v1 hl
      exact ⟨m, hm1, hent ▸ hm2, w1 hl⟩
    · intro hl hr
      obtain ⟨m, hm1, hm2⟩ := v2 hl hr
      exact ⟨m, hm1, hent ▸ hm2, w2 hl hr⟩

end EraseFocus

/-! ## Balances after a single rotation and after detaching a leaf -/

section BalanceFacts

variable {α : Type}

/-- `rotate_left` on a node with a right child: the balances it stores. -/
theorem rotate_left_balances {h : Heap α} {p : List (Frame α)} {l rl rr : Tree α} {a ra : Nat}
    {v rv : α} {b rb : Int} (hz : Zip h p (.node l a v b (.node rl ra rv rb rr))) :
    ∃ h', rotate_left h a = .ok (ra, h') ∧ h.balance_at ra = some rb ∧
      h'.balance_at a = some (if rb = 0 then -1 else 0) ∧
      h'.balance_at ra = some (if rb = 0 then 1 else 0) := by
  obtain ⟨h', e, -, z⟩ := rotate_left_zip hz
  refine ⟨h', e, ?_, ?_, ?_⟩
  · simp [Heap.balance_at, hz.sub.2.2.1, Tree.cell]
  · simp [Heap.balance_at, z.sub.2.1.1, Tree.cell]
  · simp [Heap.balance_at, z.sub.1, Tree.cell]

/-- `rotate_right` on a node with a left child: the balances it stores. -/
theorem rotate_right_balances {h : Heap α} {p : List (Frame α)} {ll lr r : Tree α} {a la : Nat}
    {v lv : α} {b lb : Int} (hz : Zip h p (.node (.node ll la lv lb lr) a v b r)) :
    ∃ h', rotate_right h a = .ok (la, h') ∧ h.balance_at la = some lb ∧
      h'.balance_at a = some (if lb = 0 then 1 else 0) ∧
      h'.balance_at la = some (if lb = 0 then -1 else 0) := by
  obtain ⟨h', e, -, z⟩ := rotate_right_zip hz
  refine ⟨h', e, ?_, ?_, ?_⟩
  · simp [Heap.balance_at, hz.sub.2.1.1, Tree.cell]
  · simp [Heap.balance_at, z.sub.2.2.1, Tree.cell]
  · simp [Heap.balance_at, z.sub.1, Tree.cell]

/-- The swap-and-detach loop of `erase` at a leaf with a parent: the leaf is
    freed and the balance of the parent adjusted. -/
theorem erase_detach_leaf {h : Heap α} {f : Frame α} {p : List (Frame α)} {a : Nat} {v : α}
    {b : Int} (k : Nat) (hz : Zip h (f :: p) (.node .nil a v b .nil)) :
    ∃ h' root', erase_detach (k + 1) h (plug (f :: p) (.node .nil a v b .nil)).ptr (some a) =
        .ok (h', root', some f.a) ∧
      h.balance_at f.a = some f.b ∧ h'.balance_at f.a = some f.shrunk.b ∧
      h'.cells a = none := by
  obtain ⟨h', d, e, z, hdead, hwhere⟩ := erase_detach_freed (k + 1) (f :: p) _ h p
    (f.shrunk.fill .nil) hz (by simp [Tree.height]) (by simp [Tree.erase_detach])
  have hd := (hwhere .nil a v b .nil rfl).2.2 rfl rfl
  subst hd
  have hptr : (f.shrunk.fill (.nil : Tree α)).ptr = some f.a := by
    obtain ⟨d, fa, fv, fb, fs⟩ := f
    cases d <;> rfl
  rw [hptr, Tree.ptr_node] at e
  refine ⟨h', _, e, ?_, ?_, hdead⟩
  · have := hz.path.1
    obtain ⟨d, fa, fv, fb, fs⟩ := f
    cases d <;> simp [Heap.balance_at, this, Frame.cell]
  · obtain ⟨d, fa, fv, fb, fs⟩ := f
    cases d
    · have : h'.cells fa = some (Tree.cell .nil fv (fb - 1) fs (pathPtr p)) := z.sub.1
      simp [Heap.balance_at, this, Tree.cell, Frame.shrunk]
    · have : h'.cells fa = some (Tree.cell fs fv (fb + 1) .nil (pathPtr p)) := z.sub.1
      simp [Heap.balance_at, this, Tree.cell, Frame.shrunk]

end BalanceFacts

/-! ## The main theorems, continued -/

section Claims2

variable {α : Type} [LinearOrder α]

/-- `insert` on a well-formed set: the result is well-formed and holds the
    value. -/
theorem insert_then_member {s : Set α} {t : Tree α} (value : α) (fuel : Nat)
    (hm : Models s t) (ho : t.Ordered) (ha : t.Avl) (hf : t.size + 2 ≤ fuel) :
    ∃ s1 t1, Set.insert fuel s value = .ok s1 ∧ Models s1 t1 ∧ t1.Ordered ∧ t1.Avl ∧
      value ∈ t1.inorder ∧ t1.size ≤ t.size + 1 := by
  rcases insert_correct value fuel hm ho ha hf with ⟨hmem, e⟩ |
    ⟨-, s1, t1, e, hm1, ha1, ho1, -, L1, L2, e1, e2, -, -⟩
  · exact ⟨s, t, e, hm, ho, ha, hmem, by omega⟩
  · refine ⟨s1, t1, e, hm1, ho1, ha1, ?_, ?_⟩
    · rw [← Tree.entries_snd, e2]
      simp
    · rw [← Tree.entries_length, ← Tree.entries_length, e1, e2]
      simp only [List.length_append, List.length_cons]
      omega

/-- C11: insert/find/erase round trip.  For every well-formed set and every
    value `v`: `insert(v)` returns; in the resulting set `find(v)` is an
    iterator that is not past-the-end, differs from `end()` and dereferences
    to `v`; a following `erase(v)` returns, and then `find(v)` equals
    `end()`. -/
theorem insert_find_erase_round_trip (s : Set α) (t : Tree α) (value : α) (fuel : Nat)
    (hm : Models s t) (ho : t.Ordered) (ha : t.Avl) (hf : t.size + 3 ≤ fuel) :
    ∃ s1 t1, Set.insert fuel s value = .ok s1 ∧ Models s1 t1 ∧
      (∃ a, Set.find fuel s1 value = .ok { _node := some a, _is_end := false } ∧
        iterator.eq { _node := some a, _is_end := false } s1.end_ = false ∧
        iterator.deref s1.heap { _node := some a, _is_end := false } = .ok value) ∧
      ∃ s2 t2, Set.erase fuel s1 value = .ok s2 ∧ Models s2 t2 ∧
        ∃ it, Set.find fuel s2 value = .ok it ∧ it.eq s2.end_ = true := by
  obtain ⟨s1, t1, e1, hm1, ho1, ha1, hmem1, hsz1⟩ :=
    insert_then_member value fuel hm ho ha (by omega)
  have hh1 := t1.height_le_size
  refine ⟨s1, t1, e1, hm1, ?_, ?_⟩
  · rcases find_correct value fuel hm1.whole hm1.root ho1 (by omega) with ⟨-, a, e, hent⟩ |
      ⟨hnot, -⟩
    · exact ⟨a, e, by simp [iterator.eq, Set.end_], deref_entry hm1.whole hent⟩
    · exact absurd hmem1 hnot
  · rcases erase_correct value fuel hm1 ho1 ha1 (by omega) with ⟨hnot, -⟩ |
      ⟨s2, t2, e2, hm2, -, ho2, -, L1, L2, i1, i2⟩
    · exact absurd hmem1 hnot
    · refine ⟨s2, t2, e2, hm2, ?_⟩
      have hs := (Tree.ordered_iff_sorted t1).1 ho1
      rw [i1, List.pairwise_append] at hs
      have hnot : value ∉ t2.inorder := by
        rw [i2, List.mem_append]
        rintro (hx | hx)
        · exact lt_irrefl _ (hs.2.2 value hx value (by simp))
        · exact lt_irrefl _ ((List.pairwise_cons.1 hs.2.1).1 value hx)
      have hsz2 : t2.size ≤ t1.size := by
        rw [← Tree.inorder_length, ← Tree.inorder_length, i1, i2]
        simp only [List.length_append, List.length_cons]
        omega
      have hh2 := t2.height_le_size
      rcases find_correct value fuel hm2.whole hm2.root ho2 (by omega) with ⟨hin, -⟩ |
        ⟨-, e⟩
      · exact absurd hin hnot
      · exact ⟨_, e, (iterator.eq_iff _ _).2 rfl⟩

/-- C12: duplicate insert and absent erase are no-ops.  For every
    well-formed set: `insert(v)` of a value that is stored and `erase(v)` of
    a value that is not stored return the state they were given, unchanged
    in every component (the heap with all nodes, values, links and balances,
    `_root`, `_size`, `_begin_node`, `_last_node`); so a second `insert(v)`
    after `insert(v)` returns the state the first one gave. -/
theorem duplicate_insert_absent_erase_noop (s : Set α) (t : Tree α) (value : α) (fuel : Nat)
    (hm : Models s t) (ho : t.Ordered) (ha : t.Avl) (hf : t.size + 3 ≤ fuel) :
    (value ∈ t.inorder → Set.insert fuel s value = .ok s) ∧
    (value ∉ t.inorder → Set.erase fuel s value = .ok s) ∧
    (∃ s1, Set.insert fuel s value = .ok s1 ∧ Set.insert fuel s1 value = .ok s1) := by
  refine ⟨?_, ?_, ?_⟩
  · intro hmem
    rcases insert_correct value fuel hm ho ha (by omega) with ⟨-, e⟩ | ⟨hnot, -⟩
    · exact e
    · exact absurd hmem hnot
  · intro hnot
    rcases erase_correct value fuel hm ho ha (by omega) with ⟨-, e⟩ |
      ⟨s2, t2, -, -, -, -, -, L1, L2, i1, -⟩
    · exact e
    · exact absurd (by rw [i1]; simp) hnot
  · obtain ⟨s1, t1, e1, hm1, ho1, ha1, hmem1, hsz1⟩ :=
      insert_then_member value fuel hm ho ha (by omega)
    refine ⟨s1, e1, ?_⟩
    rcases insert_correct value fuel hm1 ho1 ha1 (by omega) with ⟨-, e⟩ | ⟨hnot, -⟩
    · exact e
    · exact absurd hmem1 hnot

/-- C13: the stored balance convention.  In every state reached from the
    empty set by `insert`, `erase` and `clear` calls (the other public
    operations do not change the state), the nodes reachable from `_root`
    form a tree in which every stored balance equals the height of the LEFT
    subtree minus the height of the RIGHT subtree. -/
theorem balance_is_left_minus_right (s : Set α) (hr : Reachable s) :
    ∃ t, Models s t ∧ (∀ k, t.height ≤ k → readTree s.heap.cells k s._root = t) ∧
      t.balance_left_minus_right := by
  obtain ⟨t, hm, -, ha⟩ := reachable_wellformed hr
  refine ⟨t, hm, fun k hk => ?_, ha.balance_left_minus_right⟩
  rw [hm.root]
  exact readTree_of_rep hm.whole.rep hk

/-- C14: parent/child link symmetry is preserved.  In every well-formed set
    each node's parent link names a node whose `left` or `right` link is
    that node, each child link names a node whose parent link is that node,
    and `_root` names the only node without parent (or is null when the set
    is empty).  The same holds after `insert(v)` and after `erase(v)` for
    every `v`, and at every call of `apply_rotation` on the way, both before
    the rotation and after it. -/
theorem link_symmetry_preserved (s : Set α) (t : Tree α) (value : α) (fuel : Nat)
    (hm : Models s t) (ho : t.Ordered) (ha : t.Avl) (hf : t.size + 2 ≤ fuel) :
    LinkSymmetric s.heap s._root t.addrs ∧
    (∃ s' t', Set.insert fuel s value = .ok s' ∧ Models s' t' ∧
      LinkSymmetric s'.heap s'._root t'.addrs ∧
      ∀ x ∈ s.insert_calls fuel value,
        (∃ root, LinkSymmetric x.1 root t'.addrs) ∧
        ∃ c' h' root', apply_rotation x.1 x.2 = .ok (c', h') ∧
          LinkSymmetric h' root' t'.addrs) ∧
    (∃ s' t', Set.erase fuel s value = .ok s' ∧ Models s' t' ∧
      LinkSymmetric s'.heap s'._root t'.addrs ∧
      ∀ x ∈ s.erase_calls fuel value,
        (∃ root, LinkSymmetric x.1 root t'.addrs) ∧
        ∃ c' h' root', apply_rotation x.1 x.2 = .ok (c', h') ∧
          LinkSymmetric h' root' t'.addrs) := by
  refine ⟨link_symmetric_of_models hm, ?_, ?_⟩
  · obtain ⟨s', t', e, hm', -, -, hcalls⟩ := insert_calls_state value fuel hm ho ha hf
    refine ⟨s', t', e, hm', link_symmetric_of_models hm', fun x hx => ?_⟩
    have := (hcalls x hx).links
    rwa [Tree.entries_fst] at this
  · obtain ⟨s', t', e, hm', -, -, hcalls⟩ := erase_calls_state value fuel hm ho ha (by omega)
    refine ⟨s', t', e, hm', link_symmetric_of_models hm', fun x hx => ?_⟩
    have := (hcalls x hx).links
    rwa [Tree.entries_fst] at this

/-- C15: construction from a sequence gives the sorted distinct elements.
    For every finite list `xs`, the set constructed from `xs` (initializer
    list or iterator range: the elements are inserted one after the other)
    is well-formed; its forward traversal is the strictly ascending list of
    the distinct values of `xs`, and its size is the number of distinct
    values.  Copying a well-formed set, by the copy constructor or by
    assignment to another set, gives a well-formed set with the forward
    traversal of the source. -/
theorem construction_sorted_distinct (xs : List α) (fuel : Nat) (hf : xs.length + 2 ≤ fuel) :
    (∃ s t, Set.of_list fuel xs = .ok s ∧ Models s t ∧ t.Ordered ∧ t.Avl ∧
      Set.traverse fuel s fuel s.begin = .ok t.inorder ∧
      t.inorder = xs.toFinset.sort (· ≤ ·) ∧ t.inorder.Pairwise (· < ·) ∧
      (∀ x, x ∈ t.inorder ↔ x ∈ xs) ∧ s.size = xs.toFinset.card) ∧
    (∀ (o : Set α) (u : Tree α), Models o u → u.Ordered → u.Avl → u.size + 2 ≤ fuel →
      ∃ c w, Set.copy fuel o = .ok c ∧ Models c w ∧ w.Ordered ∧ w.Avl ∧
        Set.traverse fuel o fuel o.begin = .ok u.inorder ∧
        Set.traverse fuel c fuel c.begin = .ok u.inorder) ∧
    (∀ (o this : Set α) (u v : Tree α), Models o u → u.Ordered → u.Avl → Models this v →
      u.size + 2 ≤ fuel → 2 * v.size + 1 ≤ fuel →
      ∃ c w, Set.assign fuel this o = .ok c ∧ Models c w ∧ w.Ordered ∧ w.Avl ∧
        Set.traverse fuel c fuel c.begin = .ok u.inorder) := by
  have copy_from : ∀ (o this : Set α) (u : Tree α), Models o u → u.Ordered → u.Avl →
      Models this .nil → u.size + 2 ≤ fuel →
      ∃ c w, copy_loop fuel o fuel o.begin this = .ok c ∧ Models c w ∧ w.Ordered ∧ w.Avl ∧
        Set.traverse fuel c fuel c.begin = .ok u.inorder := by
    intro o this u hmo hou _ hmt hfu
    have hhu := u.height_le_size
    rw [copy_loop_begin hmo (by omega) (by omega)]
    obtain ⟨c, w, e, hmc, hoc, hac, hmem, hsz⟩ :=
      foldl_insert_correct fuel u.inorder this .nil hmt trivial trivial
        (by rw [Tree.inorder_length]; simp only [Tree.size]; omega)
    have hhw := w.height_le_size
    rw [Tree.inorder_length] at hsz
    simp only [Tree.size, zero_add] at hsz
    refine ⟨c, w, e, hmc, hoc, hac, ?_⟩
    rw [traverse_inorder hmc (by omega) (by omega)]
    have h1 := @sorted_eq_sort _ _ w.inorder u.inorder ((Tree.ordered_iff_sorted w).1 hoc)
      (fun x => by rw [hmem x]; simp [Tree.inorder])
    have h2 := @sorted_eq_sort _ _ u.inorder u.inorder ((Tree.ordered_iff_sorted u).1 hou)
      (fun x => Iff.rfl)
    rw [h1, ← h2]
  refine ⟨?_, ?_, ?_⟩
  · obtain ⟨s, t, e, hm, ho, ha, hmem, hsz⟩ :=
      foldl_insert_correct fuel xs Set.empty_set .nil models_empty_set trivial trivial
        (by simp only [Tree.size]; omega)
    have hh := t.height_le_size
    simp only [Tree.size, zero_add] at hsz
    have hmem' : ∀ x, x ∈ t.inorder ↔ x ∈ xs := fun x => by
      rw [hmem x]; simp [Tree.inorder]
    have hsort := sorted_eq_sort ((Tree.ordered_iff_sorted t).1 ho) hmem'
    refine ⟨s, t, e, hm, ho, ha, traverse_inorder hm (by omega) (by omega), hsort,
      (Tree.ordered_iff_sorted t).1 ho, hmem', ?_⟩
    show s._size = _
    rw [hm.size, ← Tree.inorder_length, hsort, Finset.length_sort]
  · intro o u hmo hou hau hfu
    have hhu := u.height_le_size
    obtain ⟨c, w, e, hmc, hoc, hac, htr⟩ :=
      copy_from o Set.empty_set u hmo hou hau models_empty_set hfu
    exact ⟨c, w, e, hmc, hoc, hac, traverse_inorder hmo (by omega) (by omega), htr⟩
  · intro o this u v hmo hou hau hmt hfu hfv
    obtain ⟨this1, e1, hm1, -⟩ := clear_models fuel hmt hfv
    obtain ⟨c, w, e, hmc, hoc, hac, htr⟩ := copy_from o this1 u hmo hou hau hm1 hfu
    refine ⟨c, w, ?_, hmc, hoc, hac, htr⟩
    simp only [Set.assign, e1, ok_bind]
    exact e

end Claims2

/-! ## The main theorems: rotations, erase and postfix steps -/

section Claims3

variable {α : Type}

/-- C16: single-rotation balance arithmetic.  For every node `a` rotated by
    `rotate_left` (its right child `c` is promoted) or by `rotate_right`
    (its left child `c` is promoted), in any heap that holds a tree: if the
    balance of `c` was 0 before the rotation, then after it the balance of
    `a` is -1 and that of `c` is +1 for a left rotation, and +1 and -1 for a
    right rotation; otherwise both balances are 0 after it. -/
theorem single_rotation_balances (h : Heap α) (p : List (Frame α)) (x y z : Tree α)
    (a c : Nat) (v w : α) (b cb : Int) :
    (Zip h p (.node x a v b (.node y c w cb z)) →
      ∃ h', rotate_left h a = .ok (c, h') ∧ h.balance_at c = some cb ∧
        (cb = 0 → h'.balance_at a = some (-1) ∧ h'.balance_at c = some 1) ∧
        (cb ≠ 0 → h'.balance_at a = some 0 ∧ h'.balance_at c = some 0)) ∧
    (Zip h p (.node (.node x c w cb y) a v b z) →
      ∃ h', rotate_right h a = .ok (c, h') ∧ h.balance_at c = some cb ∧
        (cb = 0 → h'.balance_at a = some 1 ∧ h'.balance_at c = some (-1)) ∧
        (cb ≠ 0 → h'.balance_at a = some 0 ∧ h'.balance_at c = some 0)) := by
  constructor
  · intro hz
    obtain ⟨h', e, h0, h1, h2⟩ := rotate_left_balances hz
    refine ⟨h', e, h0, fun hc => ?_, fun hc => ?_⟩
    · rw [h1, h2]; simp [hc]
    · rw [h1, h2]; simp [hc]
  · intro hz
    obtain ⟨h', e, h0, h1, h2⟩ := rotate_right_balances hz
    refine ⟨h', e, h0, fun hc => ?_, fun hc => ?_⟩
    · rw [h1, h2]; simp [hc]
    · rw [h1, h2]; simp [hc]

/-- C17: balance adjustment on leaf removal.  When the swap-and-detach loop
    of `erase` is at a leaf `a` that has a parent, it frees the leaf and
    returns with `current` at the parent, whose stored balance has changed
    by +1 if the leaf was its right child and by -1 if it was its left
    child. -/
theorem leaf_removal_balance (h : Heap α) (f : Frame α) (p : List (Frame α)) (a : Nat) (v : α)
    (b : Int) (k : Nat) (hz : Zip h (f :: p) (.node .nil a v b .nil)) :
    ∃ h' root', erase_detach (k + 1) h (plug (f :: p) (.node .nil a v b .nil)).ptr (some a) =
        .ok (h', root', some f.a) ∧
      h'.cells a = none ∧ h.balance_at f.a = some f.b ∧
      h'.balance_at f.a = some (match f.dir with
        | .R => f.b + 1
        | .L => f.b - 1) := by
  obtain ⟨h', root', e, h0, h1, hdead⟩ := erase_detach_leaf k hz
  refine ⟨h', root', e, hdead, h0, ?_⟩
  rw [h1]
  obtain ⟨d, fa, fv, fb, fs⟩ := f
  cases d <;> rfl

/-- C20: post-increment and post-decrement return the old node with the
    past-the-end flag cleared.  For every iterator `it`: `it++` and `it--`
    leave `it` in the state that `++it`, resp. `--it`, gives, and return an
    iterator at the node `it` had before the step with a clear past-the-end
    flag; the returned iterator equals the iterator before the step exactly
    when that one was not past-the-end; and applied to `end()` of a
    non-empty set they return an iterator that differs from `end()` and
    dereferences to the maximum element. -/
theorem post_step_returns_old_node (fuel : Nat) (h : Heap α) (it : iterator) :
    it.post_increment fuel h =
      (it.increment fuel h).map (fun n => (n, { _node := it._node, _is_end := false })) ∧
    it.post_decrement fuel h =
      (it.decrement fuel h).map (fun n => (n, { _node := it._node, _is_end := false })) ∧
    (∀ r, it.post_increment fuel h = .ok r →
      r.2._node = it._node ∧ r.2._is_end = false ∧ (r.2.eq it = true ↔ it._is_end = false)) ∧
    (∀ r, it.post_decrement fuel h = .ok r →
      r.2._node = it._node ∧ r.2._is_end = false ∧ (r.2.eq it = true ↔ it._is_end = false)) ∧
    (∀ (s : Set α) (t : Tree α), Models s t → t.size ≠ 0 → s.heap = h → it = s.end_ →
      ∃ a m, t.addrs.getLast? = some a ∧ t.inorder.getLast? = some m ∧
        it.post_increment fuel h = .ok (s.end_, { _node := some a, _is_end := false }) ∧
        it.post_decrement fuel h =
          .ok ({ _node := some a, _is_end := false }, { _node := some a, _is_end := false }) ∧
        iterator.deref h { _node := some a, _is_end := false } = .ok m ∧
        iterator.eq { _node := some a, _is_end := false } s.end_ = false) := by
  have hpi : it.post_increment fuel h =
      (it.increment fuel h).map (fun n => (n, { _node := it._node, _is_end := false })) := by
    unfold iterator.post_increment
    cases it.increment fuel h <;> rfl
  have hpd : it.post_decrement fuel h =
      (it.decrement fuel h).map (fun n => (n, { _node := it._node, _is_end := false })) := by
    unfold iterator.post_decrement
    cases it.decrement fuel h <;> rfl
  have hret : ∀ (x : Except Fault iterator) (r : iterator × iterator),
      x.map (fun n => (n, ({ _node := it._node, _is_end := false } : iterator))) = .ok r →
      r.2._node = it._node ∧ r.2._is_end = false ∧ (r.2.eq it = true ↔ it._is_end = false) := by
    intro x r e
    cases x with
    | error f => exact Except.noConfusion e
    | ok n =>
      cases e
      refine ⟨rfl, rfl, ?_⟩
      rw [iterator.eq_iff]
      obtain ⟨node, is_end⟩ := it
      simp only [iterator.mk.injEq, true_and]
      exact eq_comm
  refine ⟨hpi, hpd, fun r e => hret _ r (hpi ▸ e), fun r e => hret _ r (hpd ▸ e), ?_⟩
  intro s t hm hne hh hit
  subst hh hit
  cases he : t.entries.getLast? with
  | none =>
    rw [List.getLast?_eq_none_iff] at he
    have := t.entries_length
    rw [he] at this
    exact absurd this.symm hne
  | some e =>
    obtain ⟨a, m⟩ := e
    have hmem : (a, m) ∈ t.entries := List.mem_of_getLast?_eq_some he
    have ha : t.addrs.getLast? = some a := by
      rw [← Tree.entries_fst, List.getLast?_map, he]
      rfl
    have hv : t.inorder.getLast? = some m := by
      rw [← Tree.entries_snd, List.getLast?_map, he]
      rfl
    have hl : s._last_node = some a := by rw [hm.last, ha]
    refine ⟨a, m, ha, hv, ?_, ?_, deref_entry hm.whole hmem, ?_⟩
    · rw [hpi]
      simp [iterator.increment, Set.end_, hl, pure_eq_ok, Except.map]
    · rw [hpd]
      simp [iterator.decrement, Set.end_, hl, pure_eq_ok, Except.map]
    · simp [iterator.eq, Set.end_]

variable [LinearOrder α]

/-- C18: two-child erase replaces by the predecessor.  For every
    well-formed set and every stored value `v`, held by the node `a` with
    left subtree `l` and right subtree `r`: `erase(v)` returns and frees one
    node `d`.  When `l` is not empty, `a` then holds the maximum of `l` (the
    in-order predecessor of `v`) and `d` is a node of `l`, different from
    `a`; when `l` is empty and `r` is not, `a` holds the minimum of `r` (the
    in-order successor) and `d` is a node of `r`; when both are empty `a` is
    a leaf and `d` is `a` itself.  The swap-down loop returns in every
    case. -/
theorem erase_replaces_by_predecessor (s : Set α) (p : List (Frame α)) (l r : Tree α)
    (a : Nat) (value : α) (b : Int) (fuel : Nat)
    (hm : Models s (plug p (.node l a value b r)))
    (ho : (plug p (.node l a value b r)).Ordered) (ha : (plug p (.node l a value b r)).Avl)
    (hf : (plug p (.node l a value b r)).size + 1 ≤ fuel) :
    ∃ s' t' d, Set.erase fuel s value = .ok s' ∧ Models s' t' ∧ s'.heap.cells d = none ∧
      (l ≠ .nil → ∃ m, l.inorder.getLast? = some m ∧ s'.heap.value_at a = some m ∧
        d ∈ l.addrs ∧ d ≠ a) ∧
      (l = .nil → r ≠ .nil → ∃ m, r.inorder.head? = some m ∧ s'.heap.value_at a = some m ∧
        d ∈ r.addrs ∧ d ≠ a) ∧
      (l = .nil → r = .nil → d = a) := by
  obtain ⟨s', t', d, e, hm', hdead, w1, w2, w3⟩ := erase_focus fuel hm ho ha hf
  have key : ∀ m, (a, m) ∈ t'.entries → s'.heap.value_at a = some m ∧ d ≠ a := by
    intro m hmem
    obtain ⟨n, hn, hv⟩ := hm'.whole.rep.entry_cell hmem
    refine ⟨by simp [Heap.value_at, hn, hv], ?_⟩
    rintro rfl
    rw [hdead] at hn
    exact Option.noConfusion hn
  refine ⟨s', t', d, e, hm', hdead, ?_, ?_, w3⟩
  · intro hl
    obtain ⟨m, h1, h2, h3⟩ := w1 hl
    exact ⟨m, h1, (key m h2).1, h3, (key m h2).2⟩
  · intro hl hr
    obtain ⟨m, h1, h2, h3⟩ := w2 hl hr
    exact ⟨m, h1, (key m h2).1, h3, (key m h2).2⟩

/-- C19: rotations never touch an absent node.  For every well-formed AVL
    set and every value, `insert` and `erase` return, and at each call of
    `apply_rotation` in their rebalance walks: the node is live with a
    balance in `[-2, 2]`; at balance -2 its right child is live, at +2 its
    left child; when a double rotation is selected the inner grandchild
    (right->left, resp. left->right) is live; every node of the tree has a
    stored balance in `[-2, 2]`, also when the call has returned and in the
    final state; and the call returns. -/
theorem rotations_always_defined (s : Set α) (t : Tree α) (value : α) (fuel : Nat)
    (hm : Models s t) (ho : t.Ordered) (ha : t.Avl) (hf : t.size + 2 ≤ fuel) :
    (∃ s' t', Set.insert fuel s value = .ok s' ∧ Models s' t' ∧
      BalancesInRange s'.heap t'.addrs ∧
      ∀ x ∈ s.insert_calls fuel value,
        RotationDefined x.1 x.2 ∧ BalancesInRange x.1 t'.addrs ∧
        ∃ c' h', apply_rotation x.1 x.2 = .ok (c', h') ∧ BalancesInRange h' t'.addrs) ∧
    (∃ s' t', Set.erase fuel s value = .ok s' ∧ Models s' t' ∧
      BalancesInRange s'.heap t'.addrs ∧
      ∀ x ∈ s.erase_calls fuel value,
        RotationDefined x.1 x.2 ∧ BalancesInRange x.1 t'.addrs ∧
        ∃ c' h', apply_rotation x.1 x.2 = .ok (c', h') ∧ BalancesInRange h' t'.addrs) := by
  constructor
  · obtain ⟨s', t', e, hm', hav', -, hcalls⟩ := insert_calls_state value fuel hm ho ha hf
    refine ⟨s', t', e, hm', hm'.whole.rep.balances_in_range hav'.balIn, fun x hx => ?_⟩
    have hw := hcalls x hx
    have h1 := hw.balances
    have h2 := hw.apply_rotation_ok
    rw [Tree.entries_fst] at h1 h2
    exact ⟨hw.rotation_defined, h1, h2⟩
  · obtain ⟨s', t', e, hm', hav', -, hcalls⟩ := erase_calls_state value fuel hm ho ha (by omega)
    refine ⟨s', t', e, hm', hm'.whole.rep.balances_in_range hav'.balIn, fun x hx => ?_⟩
    have hw := hcalls x hx
    have h1 := hw.balances
    have h2 := hw.apply_rotation_ok
    rw [Tree.entries_fst] at h1 h2
    exact ⟨hw.rotation_defined, h1, h2⟩

end Claims3

/-! ## The main theorems on the sets of the scenarios, continued -/

section Instances2

set_option maxRecDepth 100000 in
/-- In the set built from `{5, 3, 8, 1, 4, 7, 9}`: after `insert(6)`,
    `find(6)` dereferences to 6, and after `erase(6)` it is `end()`
    again. -/
theorem round_trip_scenario :
    (∃ s1 t1, Set.insert 10 scenario_set 6 = .ok s1 ∧ Models s1 t1 ∧
      (∃ a, Set.find 10 s1 6 = .ok { _node := some a, _is_end := false } ∧
        iterator.eq { _node := some a, _is_end := false } s1.end_ = false ∧
        iterator.deref s1.heap { _node := some a, _is_end := false } = .ok 6) ∧
      ∃ s2 t2, Set.erase 10 s1 6 = .ok s2 ∧ Models s2 t2 ∧
        ∃ it, Set.find 10 s2 6 = .ok it ∧ it.eq s2.end_ = true) ∧
    (Set.insert 10 scenario_set 6 >>= fun s1 =>
      Set.find 10 s1 6 >>= fun it => it.deref s1.heap) = .ok 6 ∧
    (Set.insert 10 scenario_set 6 >>= fun s1 => Set.erase 10 s1 6 >>= fun s2 =>
      (Set.find 10 s2 6).map (fun it => it.eq s2.end_)) = .ok true :=
  ⟨insert_find_erase_round_trip scenario_set scenario_tree 6 10
      ⟨⟨by decide, by decide, by decide⟩, by decide, by decide, by decide, by decide⟩
      (by decide) (by decide) (by decide),
    by rfl, by rfl⟩

set_option maxRecDepth 100000 in
/-- In the set built from `{5, 3, 8, 1, 4, 7, 9}`, `insert(5)` and
    `erase(6)` change nothing. -/
theorem noop_scenario :
    Set.insert 10 scenario_set 5 = .ok scenario_set ∧
    Set.erase 10 scenario_set 6 = .ok scenario_set ∧
    (∃ s1, Set.insert 10 scenario_set 6 = .ok s1 ∧ Set.insert 10 s1 6 = .ok s1) :=
  ⟨(duplicate_insert_absent_erase_noop scenario_set scenario_tree 5 10
      ⟨⟨by decide, by decide, by decide⟩, by decide, by decide, by decide, by decide⟩
      (by decide) (by decide) (by decide)).1 (by decide),
    (duplicate_insert_absent_erase_noop scenario_set scenario_tree 6 10
      ⟨⟨by decide, by decide, by decide⟩, by decide, by decide, by decide, by decide⟩
      (by decide) (by decide) (by decide)).2.1 (by decide),
    (duplicate_insert_absent_erase_noop scenario_set scenario_tree 6 10
      ⟨⟨by decide, by decide, by decide⟩, by decide, by decide, by decide, by decide⟩
      (by decide) (by decide) (by decide)).2.2⟩

set_option maxRecDepth 100000 in
/-- The set built from `1, 2`: the balance of the root is -1, the height of
    its (empty) left subtree minus the height of its right subtree. -/
theorem balance_convention_pair :
    (∃ t, Models pair_set t ∧
      (∀ k, t.height ≤ k → readTree pair_set.heap.cells k pair_set._root = t) ∧
      t.balance_left_minus_right) ∧
    pair_tree.balance_left_minus_right ∧ pair_set.heap.balance_at 0 = some (-1) :=
  ⟨balance_is_left_minus_right pair_set (reachable_of_list 10 [1, 2] pair_set (by rfl)),
    by decide, by rfl⟩

set_option maxRecDepth 100000 in
/-- The set built from `1, 2` is reached by two `insert` calls, its tree has
    the root 1 with the right child 2, and the balance stored in the root,
    -1, is not the height of the right subtree minus the height of the left
    subtree, which is 1. -/
theorem balance_not_right_minus_left :
    Reachable pair_set ∧ Models pair_set pair_tree ∧
    readTree pair_set.heap.cells 2 pair_set._root = pair_tree ∧
    ¬ pair_tree.balance_right_minus_left :=
  ⟨reachable_of_list 10 [1, 2] pair_set (by rfl),
    ⟨⟨by decide, by decide, by decide⟩, by decide, by decide, by decide, by decide⟩,
    by decide, by decide⟩

set_option maxRecDepth 100000 in
/-- The links of the set built from `{5, 3, 8, 1, 4, 7, 9}` are symmetric,
    and stay so through `insert(6)` and `erase(5)`. -/
theorem link_symmetry_scenario :
    LinkSymmetric scenario_set.heap scenario_set._root scenario_tree.addrs ∧
    (∃ s' t', Set.insert 10 scenario_set 6 = .ok s' ∧ Models s' t' ∧
      LinkSymmetric s'.heap s'._root t'.addrs) ∧
    (∃ s' t', Set.erase 10 scenario_set 5 = .ok s' ∧ Models s' t' ∧
      LinkSymmetric s'.heap s'._root t'.addrs) :=
  ⟨(link_symmetry_preserved scenario_set scenario_tree 6 10
      ⟨⟨by decide, by decide, by decide⟩, by decide, by decide, by decide, by decide⟩
      (by decide) (by decide) (by decide)).1,
    (link_symmetry_preserved scenario_set scenario_tree 6 10
      ⟨⟨by decide, by decide, by decide⟩, by decide, by decide, by decide, by decide⟩
      (by decide) (by decide) (by decide)).2.1.imp
      (fun _ hs => hs.imp (fun _ ht => ⟨ht.1, ht.2.1, ht.2.2.1⟩)),
    (link_symmetry_preserved scenario_set scenario_tree 5 10
      ⟨⟨by decide, by decide, by decide⟩, by decide, by decide, by decide, by decide⟩
      (by decide) (by decide) (by decide)).2.2.imp
      (fun _ hs => hs.imp (fun _ ht => ⟨ht.1, ht.2.1, ht.2.2.1⟩))⟩

set_option maxRecDepth 100000 in
/-- The set constructed from `5, 3, 8, 1, 4, 7, 9` traverses as
    `1, 3, 4, 5, 7, 8, 9`; its copy, and the set built from `1, 2` after the
    first set is assigned to it, traverse as the first set; the set
    constructed from `3, 1, 3, 2, 1` traverses as `1, 2, 3` and has
    size 3. -/
theorem construction_scenario :
    (∃ s t, Set.of_list 10 [5, 3, 8, 1, 4, 7, 9] = .ok s ∧ Models s t ∧ t.Ordered ∧ t.Avl ∧
      Set.traverse 10 s 10 s.begin = .ok t.inorder ∧
      t.inorder = [5, 3, 8, 1, 4, 7, 9].toFinset.sort (· ≤ ·) ∧
      t.inorder.Pairwise (· < ·) ∧
      (∀ x, x ∈ t.inorder ↔ x ∈ [5, 3, 8, 1, 4, 7, 9]) ∧
      s.size = [5, 3, 8, 1, 4, 7, 9].toFinset.card) ∧
    (∃ c w, Set.copy 10 scenario_set = .ok c ∧ Models c w ∧ w.Ordered ∧ w.Avl ∧
      Set.traverse 10 scenario_set 10 scenario_set.begin = .ok scenario_tree.inorder ∧
      Set.traverse 10 c 10 c.begin = .ok scenario_tree.inorder) ∧
    (∃ c w, Set.assign 10 pair_set scenario_set = .ok c ∧ Models c w ∧ w.Ordered ∧ w.Avl ∧
      Set.traverse 10 c 10 c.begin = .ok scenario_tree.inorder) ∧
    scenario_tree.inorder = [1, 3, 4, 5, 7, 8, 9] ∧
    (Set.of_list 10 [3, 1, 3, 2, 1] >>= fun s =>
      (Set.traverse 10 s 10 s.begin).map (fun L => (L, s.size))) = .ok ([1, 2, 3], 3) ∧
    (Set.copy 10 scenario_set >>= fun c => Set.traverse 10 c 10 c.begin) =
      .ok [1, 3, 4, 5, 7, 8, 9] :=
  ⟨(construction_sorted_distinct [5, 3, 8, 1, 4, 7, 9] 10 (by decide)).1,
    (construction_sorted_distinct [5, 3, 8, 1, 4, 7, 9] 10 (by decide)).2.1
      scenario_set scenario_tree
      ⟨⟨by decide, by decide, by decide⟩, by decide, by decide, by decide, by decide⟩
      (by decide) (by decide) (by decide),
    (construction_sorted_distinct [5, 3, 8, 1, 4, 7, 9] 10 (by decide)).2.2
      scenario_set pair_set scenario_tree pair_tree
      ⟨⟨by decide, by decide, by decide⟩, by decide, by decide, by decide, by decide⟩
      (by decide) (by decide)
      ⟨⟨by decide, by decide, by decide⟩, by decide, by decide, by decide, by decide⟩
      (by decide) (by decide),
    by rfl, by rfl, by rfl⟩

set_option maxRecDepth 100000 in
/-- The left rotations of the roots of `chain_heap` (promoted child with
    balance -1) and of `fork_heap` (promoted child with balance 0), and the
    right rotations of the roots of `mirror_chain_heap` (promoted child with
    balance +1) and of `mirror_fork_heap` (promoted child with
    balance 0). -/
theorem single_rotation_scenario :
    (∃ h', rotate_left chain_heap 0 = .ok (1, h') ∧ chain_heap.balance_at 1 = some (-1) ∧
      ((-1 : Int) = 0 → h'.balance_at 0 = some (-1) ∧ h'.balance_at 1 = some 1) ∧
      ((-1 : Int) ≠ 0 → h'.balance_at 0 = some 0 ∧ h'.balance_at 1 = some 0)) ∧
    (∃ h', rotate_left fork_heap 0 = .ok (2, h') ∧ fork_heap.balance_at 2 = some 0 ∧
      ((0 : Int) = 0 → h'.balance_at 0 = some (-1) ∧ h'.balance_at 2 = some 1) ∧
      ((0 : Int) ≠ 0 → h'.balance_at 0 = some 0 ∧ h'.balance_at 2 = some 0)) ∧
    (∃ h', rotate_right mirror_chain_heap 0 = .ok (1, h') ∧
      mirror_chain_heap.balance_at 1 = some 1 ∧
      ((1 : Int) = 0 → h'.balance_at 0 = some 1 ∧ h'.balance_at 1 = some (-1)) ∧
      ((1 : Int) ≠ 0 → h'.balance_at 0 = some 0 ∧ h'.balance_at 1 = some 0)) ∧
    (∃ h', rotate_right mirror_fork_heap 0 = .ok (2, h') ∧
      mirror_fork_heap.balance_at 2 = some 0 ∧
      ((0 : Int) = 0 → h'.balance_at 0 = some 1 ∧ h'.balance_at 2 = some (-1)) ∧
      ((0 : Int) ≠ 0 → h'.balance_at 0 = some 0 ∧ h'.balance_at 2 = some 0)) :=
  ⟨(single_rotation_balances chain_heap [] .nil .nil (.node .nil 2 3 0 .nil) 0 1 1 2 (-2)
      (-1)).1 (whole_plug.1 ⟨by decide, by decide, by decide⟩),
    (single_rotation_balances fork_heap [] .nil (.node .nil 3 3 0 .nil)
      (.node .nil 4 5 0 .nil) 0 2 2 4 (-2) 0).1
      (whole_plug.1 ⟨by decide, by decide, by decide⟩),
    (single_rotation_balances mirror_chain_heap [] (.node .nil 2 1 0 .nil) .nil .nil 0 1 3 2 2
      1).2 (whole_plug.1 ⟨by decide, by decide, by decide⟩),
    (single_rotation_balances mirror_fork_heap [] (.node .nil 3 1 0 .nil)
      (.node .nil 4 3 0 .nil) .nil 0 2 4 2 2 0).2
      (whole_plug.1 ⟨by decide, by decide, by decide⟩)⟩

set_option maxRecDepth 100000 in
/-- `chain_heap` is the heap in which `insert(3)` into the set built from
    `1, 2` rotates the root 1: the promoted child 2 has balance -1, not 0,
    and after the rotation the balance of the node 1 is 0, not -1 or +1.
    `fork_heap` is the heap in which `erase(1)` from the set built from
    `2, 1, 4, 3, 5` rotates the root 2: the promoted child 4 has balance 0,
    and after the rotation the balances of 2 and of 4 are -1 and +1, not
    both 0.  The right rotations in the mirrored heaps behave the same
    way. -/
theorem single_rotation_not_as_stated :
    (pair_set.insert_calls 10 3).map Prod.snd = [1, 0] ∧
    chain_heap.balance_at 0 = some (-2) ∧ chain_heap.balance_at 1 = some (-1) ∧
    (apply_rotation chain_heap 0).map
      (fun r => (r.1, r.2.balance_at 0, r.2.balance_at 1)) = .ok (1, some 0, some 0) ∧
    (rotate_left chain_heap 0).map
      (fun r => (r.1, r.2.balance_at 0, r.2.balance_at 1)) = .ok (1, some 0, some 0) ∧
    (fork_set.erase_calls 10 1).map Prod.snd = [0] ∧
    fork_heap.balance_at 0 = some (-2) ∧ fork_heap.balance_at 2 = some 0 ∧
    (apply_rotation fork_heap 0).map
      (fun r => (r.1, r.2.balance_at 0, r.2.balance_at 2)) = .ok (2, some (-1), some 1) ∧
    (rotate_left fork_heap 0).map
      (fun r => (r.1, r.2.balance_at 0, r.2.balance_at 2)) = .ok (2, some (-1), some 1) ∧
    mirror_chain_heap.balance_at 1 = some 1 ∧
    (rotate_right mirror_chain_heap 0).map
      (fun r => (r.1, r.2.balance_at 0, r.2.balance_at 1)) = .ok (1, some 0, some 0) ∧
    mirror_fork_heap.balance_at 2 = some 0 ∧
    (rotate_right mirror_fork_heap 0).map
      (fun r => (r.1, r.2.balance_at 0, r.2.balance_at 2)) = .ok (2, some 1, some (-1)) :=
  ⟨by rfl, by rfl, by rfl, by rfl, by rfl, by rfl, by rfl, by rfl, by rfl, by rfl,
    by rfl, by rfl, by rfl, by rfl⟩

set_option maxRecDepth 100000 in
/-- Detaching the leaf 9, the right child of 8, in the set built from
    `{5, 3, 8, 1, 4, 7, 9}`. -/
theorem leaf_removal_scenario :
    ∃ h' root', erase_detach 10 scenario_set.heap
        (plug [{ dir := .R, a := 2, v := 8, b := 0, sib := .node .nil 5 7 0 .nil },
          { dir := .R, a := 0, v := 5, b := 0,
            sib := .node (.node .nil 3 1 0 .nil) 1 3 0 (.node .nil 4 4 0 .nil) }]
          (.node .nil 6 9 0 .nil)).ptr (some 6) = .ok (h', root', some 2) ∧
      h'.cells 6 = none ∧ scenario_set.heap.balance_at 2 = some 0 ∧
      h'.balance_at 2 = some (0 + 1) :=
  leaf_removal_balance scenario_set.heap
    { dir := .R, a := 2, v := 8, b := 0, sib := .node .nil 5 7 0 .nil }
    [{ dir := .R, a := 0, v := 5, b := 0,
       sib := .node (.node .nil 3 1 0 .nil) 1 3 0 (.node .nil 4 4 0 .nil) }]
    6 9 0 9 (whole_plug.1 ⟨by decide, by decide, by decide⟩)

set_option maxRecDepth 100000 in
/-- In the set built from `{5, 3, 8, 1, 4, 7, 9}` the node of 8 (address 2,
    balance 0) has the leaves 7 (address 5) as left and 9 (address 6) as
    right child.  When `erase(9)` detaches the right child the balance of 8
    becomes +1, not -1; when `erase(7)` detaches the left child it becomes
    -1, not +1. -/
theorem leaf_removal_not_as_stated :
    scenario_set.heap.balance_at 2 = some 0 ∧
    (scenario_set.heap.cells 2).map Node.left = some (some 5) ∧
    (scenario_set.heap.cells 2).map Node.right = some (some 6) ∧
    (erase_detach 10 scenario_set.heap scenario_set._root (some 6)).map
      (fun r => (r.1.balance_at 2, r.1.cells 6, r.2.2)) = .ok (some 1, none, some 2) ∧
    (erase_detach 10 scenario_set.heap scenario_set._root (some 5)).map
      (fun r => (r.1.balance_at 2, r.1.cells 5, r.2.2)) = .ok (some (-1), none, some 2) ∧
    (Set.erase 10 scenario_set 9).map (fun s => s.heap.balance_at 2) = .ok (some 1) ∧
    (Set.erase 10 scenario_set 7).map (fun s => s.heap.balance_at 2) = .ok (some (-1)) :=
  ⟨by rfl, by rfl, by rfl, by rfl, by rfl, by rfl, by rfl⟩

set_option maxRecDepth 100000 in
/-- In the set built from `{5, 3, 8, 1, 4, 7, 9}`, whose root (address 0)
    holds 5, after `erase(5)` the root holds 4 and the node that held 4
    (address 4) is freed. -/
theorem erase_root_scenario :
    (∃ s' t' d, Set.erase 10 scenario_set 5 = .ok s' ∧ Models s' t' ∧
      s'.heap.cells d = none ∧
      (Tree.node (.node .nil 3 1 0 .nil) 1 3 0 (.node .nil 4 4 0 .nil) ≠ .nil →
        ∃ m, (Tree.node (.node .nil 3 1 0 .nil) 1 3 0 (.node .nil 4 4 0 .nil)).inorder.getLast? =
            some m ∧
          s'.heap.value_at 0 = some m ∧
          d ∈ (Tree.node (.node .nil 3 1 0 .nil) 1 3 0 (.node .nil 4 4 0 .nil)).addrs ∧
          d ≠ 0) ∧
      (Tree.node (.node .nil 3 1 0 .nil) 1 3 0 (.node .nil 4 4 0 .nil) = .nil →
        Tree.node (.node .nil 5 7 0 .nil) 2 8 0 (.node .nil 6 9 0 .nil) ≠ .nil →
        ∃ m, (Tree.node (.node .nil 5 7 0 .nil) 2 8 0 (.node .nil 6 9 0 .nil)).inorder.head? =
            some m ∧
          s'.heap.value_at 0 = some m ∧
          d ∈ (Tree.node (.node .nil 5 7 0 .nil) 2 8 0 (.node .nil 6 9 0 .nil)).addrs ∧
          d ≠ 0) ∧
      (Tree.node (.node .nil 3 1 0 .nil) 1 3 0 (.node .nil 4 4 0 .nil) = .nil →
        Tree.node (.node .nil 5 7 0 .nil) 2 8 0 (.node .nil 6 9 0 .nil) = .nil → d = 0)) ∧
    scenario_set._root = some 0 ∧ scenario_set.heap.value_at 0 = some 5 ∧
    (Set.erase 10 scenario_set 5).map (fun s => (s._root, s.heap.value_at 0, s.heap.cells 4)) =
      .ok (some 0, some 4, none) :=
  ⟨erase_replaces_by_predecessor scenario_set []
      (.node (.node .nil 3 1 0 .nil) 1 3 0 (.node .nil 4 4 0 .nil))
      (.node (.node .nil 5 7 0 .nil) 2 8 0 (.node .nil 6 9 0 .nil)) 0 5 0 10
      ⟨⟨by decide, by decide, by decide⟩, by decide, by decide, by decide, by decide⟩
      (by decide) (by decide) (by decide),
    by rfl, by rfl, by rfl⟩

set_option maxRecDepth 100000 in
/-- Inserting 7 into the set built from `1, ..., 6` calls `apply_rotation`
    on the node of 6 and then on the node of 5, which it rotates; erasing 5
    from the set built from `{5, 3, 8, 1, 4, 7, 9}` calls it once. -/
theorem rotations_defined_scenario :
    ((∃ s' t', Set.insert 10 ascending_set 7 = .ok s' ∧ Models s' t' ∧
        BalancesInRange s'.heap t'.addrs ∧
        ∀ x ∈ ascending_set.insert_calls 10 7,
          RotationDefined x.1 x.2 ∧ BalancesInRange x.1 t'.addrs ∧
          ∃ c' h', apply_rotation x.1 x.2 = .ok (c', h') ∧ BalancesInRange h' t'.addrs) ∧
      (∃ s' t', Set.erase 10 ascending_set 7 = .ok s' ∧ Models s' t' ∧
        BalancesInRange s'.heap t'.addrs ∧
        ∀ x ∈ ascending_set.erase_calls 10 7,
          RotationDefined x.1 x.2 ∧ BalancesInRange x.1 t'.addrs ∧
          ∃ c' h', apply_rotation x.1 x.2 = .ok (c', h') ∧ BalancesInRange h' t'.addrs)) ∧
    (ascending_set.insert_calls 10 7).map (fun x => (x.2, x.1.balance_at x.2)) =
      [(5, some (-1)), (4, some (-2))] ∧
    (scenario_set.erase_calls 10 5).map (fun x => (x.2, x.1.balance_at x.2)) =
      [(1, some 1)] :=
  ⟨rotations_always_defined ascending_set ascending_tree 7 10
      ⟨⟨by decide, by decide, by decide⟩, by decide, by decide, by decide, by decide⟩
      (by decide) (by decide) (by decide),
    by rfl, by rfl⟩

set_option maxRecDepth 100000 in
/-- In the set built from `{5, 3, 8, 1, 4, 7, 9}`, `end()++` and `end()--`
    return an iterator at the node of 9 that is not past-the-end. -/
theorem post_step_scenario :
    iterator.post_increment 10 scenario_set.heap scenario_set.end_ =
      .ok (scenario_set.end_, { _node := some 6, _is_end := false }) ∧
    iterator.post_decrement 10 scenario_set.heap scenario_set.end_ =
      .ok ({ _node := some 6, _is_end := false }, { _node := some 6, _is_end := false }) ∧
    iterator.deref scenario_set.heap { _node := some 6, _is_end := false } = .ok 9 ∧
    (∀ r, iterator.post_increment 10 scenario_set.heap scenario_set.end_ = .ok r →
      r.2._node = scenario_set.end_._node ∧ r.2._is_end = false ∧
      (r.2.eq scenario_set.end_ = true ↔ scenario_set.end_._is_end = false)) ∧
    (∃ a m, scenario_tree.addrs.getLast? = some a ∧ scenario_tree.inorder.getLast? = some m ∧
      iterator.post_increment 10 scenario_set.heap scenario_set.end_ =
        .ok (scenario_set.end_, { _node := some a, _is_end := false }) ∧
      iterator.post_decrement 10 scenario_set.heap scenario_set.end_ =
        .ok ({ _node := some a, _is_end := false }, { _node := some a, _is_end := false }) ∧
      iterator.deref scenario_set.heap { _node := some a, _is_end := false } = .ok m ∧
      iterator.eq { _node := some a, _is_end := false } scenario_set.end_ = false) :=
  ⟨by rfl, by rfl, by rfl,
    (post_step_returns_old_node 10 scenario_set.heap scenario_set.end_).2.2.1,
    (post_step_returns_old_node 10 scenario_set.heap scenario_set.end_).2.2.2.2
      scenario_set scenario_tree
      ⟨⟨by decide, by decide, by decide⟩, by decide, by decide, by decide, by decide⟩
      (by decide) rfl rfl⟩

end Instances2

end KekTree
